import Mathlib

/-!
# fakelang front end: lexer and parser

A shallow embedding of `src/Token.h`, `src/Lexer.{h,cpp}`, `src/AST.h` and
`src/Parser.{h,cpp}`, followed by theorems about them.

Conventions of the embedding.

* A `char` of the source buffer is a Lean `Char` carrying the same code; the
  buffer (`std::string_view`) and every `std::string` are `List Char`.
* `int` line/column counters and `size_t` indices are `Nat`: signed overflow of
  a counter is undefined in C++ and needs a buffer of more than `2^31` bytes.
* A member function that mutates the object takes the object and returns the
  new one.  A `throw std::runtime_error(m)` is the result `raised m`.
* Every `while` loop is a function by recursion on an iteration budget; a loop
  that uses the budget up yields `diverged`, so termination of the source loop
  is a theorem (the budget given at the call site is never used up), not an
  assumption.
-/

namespace fakelang

/-! ## Results of fallible, possibly non-terminating code -/

/-- Outcome of running a piece of the program: a value, an exception with its
`what()` message, or an exhausted loop budget. -/
inductive Result (α : Type) where
  | ok : α → Result α
  | raised : String → Result α
  | diverged : Result α
deriving DecidableEq

/-! ## Token.h -/

/-- Point location, 1-based (`struct SourcePos`). -/
structure SourcePos where
  line : Nat := 1
  column : Nat := 1
deriving DecidableEq

/-- Half-open source range `[start, end)` (`struct SourceRange`). -/
structure SourceRange where
  start : SourcePos := {}
  end_ : SourcePos := {}
deriving DecidableEq

/-- Lexical atoms (`enum class TokenKind`). -/
inductive TokenKind where
  | Eof | Identifier | Number | String
  | KwClass | KwExtends | KwFunction | KwVirtual | KwOverride | KwVar | KwReturn | KwNew | KwPrint
  | LBrace | RBrace | LParen | RParen | Colon | Semicolon | Dot | Comma | Assign
deriving DecidableEq

/-- Diagnostic spelling of a token kind (`to_string(TokenKind)`). -/
def to_string : TokenKind → String
  | .Eof => "<eof>"
  | .Identifier => "identifier"
  | .Number => "number"
  | .String => "string"
  | .KwClass => "class"
  | .KwExtends => "extends"
  | .KwFunction => "function"
  | .KwVirtual => "virtual"
  | .KwOverride => "override"
  | .KwVar => "var"
  | .KwReturn => "return"
  | .KwNew => "new"
  | .KwPrint => "print"
  | .LBrace => "\x7b"
  | .RBrace => "\x7d"
  | .LParen => "("
  | .RParen => ")"
  | .Colon => ":"
  | .Semicolon => ";"
  | .Dot => "."
  | .Comma => ","
  | .Assign => "="

/-- A lexeme with kind, spelling and location (`struct Token`). -/
structure Token where
  kind : TokenKind := TokenKind.Eof
  text : List Char := []
  range : SourceRange := {}
deriving DecidableEq

/-! ## Characters (`<cctype>` in the default "C" locale) -/

/-- The character `'\0'`. -/
def NUL : Char := Char.ofNat 0
/-- The character `'\n'`. -/
def LF : Char := Char.ofNat 10
/-- The character `'\t'`. -/
def TAB : Char := Char.ofNat 9
/-- The character `'\r'`. -/
def CR : Char := Char.ofNat 13
/-- The double quote. -/
def DQUOTE : Char := Char.ofNat 34
/-- The backslash. -/
def BSLASH : Char := Char.ofNat 92

/-- `std::isalpha` on `unsigned char` in the "C" locale: `A-Z`, `a-z`. -/
def isalpha (c : Char) : Bool :=
  (65 ≤ c.toNat && c.toNat ≤ 90) || (97 ≤ c.toNat && c.toNat ≤ 122)

/-- `std::isdigit`: `0-9`. -/
def isdigit (c : Char) : Bool := 48 ≤ c.toNat && c.toNat ≤ 57

/-- `std::isalnum`. -/
def isalnum (c : Char) : Bool := isalpha c || isdigit c

/-- `std::isspace` in the "C" locale: space, `\t`, `\n`, `\v`, `\f`, `\r`. -/
def isspace (c : Char) : Bool := c.toNat = 32 || (9 ≤ c.toNat && c.toNat ≤ 13)

/-! ## Lexer.cpp -/

/-- The mutable members of `class Lexer`: the buffer, the index `pos_` and the
position `cur_` (`filename_` is never read by the lexer). -/
structure Lexer where
  input : List Char
  pos : Nat := 0
  cur : SourcePos := {}
deriving DecidableEq

namespace Lexer

/-- `peek()`: the current character, `'\0'` at the end. -/
def peek (L : Lexer) : Char :=
  if L.pos < L.input.length then L.input.getD L.pos NUL else NUL

/-- `get()`: consume and return the current character, updating line/column;
at the end of the input it returns `'\0'` and changes nothing. -/
def get (L : Lexer) : Char × Lexer :=
  if L.input.length ≤ L.pos then (NUL, L)
  else
    let c := L.input.getD L.pos NUL
    (c, { L with
            pos := L.pos + 1
            cur := if c = LF then { line := L.cur.line + 1, column := 1 }
                   else { line := L.cur.line, column := L.cur.column + 1 } })

/-- `advance()`: `get()` with the character dropped. -/
def advance (L : Lexer) : Lexer := L.get.2

/-- `isIdentStart`. -/
def isIdentStart (c : Char) : Bool := isalpha c || c = '_'

/-- `isIdentChar`. -/
def isIdentChar (c : Char) : Bool := isalnum c || c = '_'

/-- Iteration budget handed to every loop of the lexer: one more than the
length of the buffer. -/
def budget (L : Lexer) : Nat := L.input.length + 1

/-- The whitespace loop of `skipWhitespaceAndComments`
(`while (c == ' ' || c == '\t' || c == '\r' || c == '\n') advance()`). -/
def skipBlanks : Nat → Lexer → Result Lexer
  | 0, _ => .diverged
  | fuel + 1, L =>
    let c := L.peek
    if c = ' ' ∨ c = TAB ∨ c = CR ∨ c = LF then skipBlanks fuel L.advance
    else .ok L

/-- The comment loop (`while (peek() != '\n' && peek() != '\0') advance()`). -/
def skipLine : Nat → Lexer → Result Lexer
  | 0, _ => .diverged
  | fuel + 1, L =>
    if L.peek ≠ LF ∧ L.peek ≠ NUL then skipLine fuel L.advance
    else .ok L

/-- The outer `while (true)` of `skipWhitespaceAndComments`. -/
def skipLoop : Nat → Lexer → Result Lexer
  | 0, _ => .diverged
  | fuel + 1, L =>
    match L.skipBlanks L.budget with
    | .ok L1 =>
      if L1.peek = '/' ∧ L1.pos + 1 < L1.input.length ∧ L1.input.getD (L1.pos + 1) NUL = '/' then
        match L1.skipLine L1.budget with
        | .ok L2 => skipLoop fuel L2
        | .raised m => .raised m
        | .diverged => .diverged
      else .ok L1
    | .raised m => .raised m
    | .diverged => .diverged

/-- `skipWhitespaceAndComments()`. -/
def skipWhitespaceAndComments (L : Lexer) : Result Lexer := L.skipLoop L.budget

/-- `makeToken(kind, text, start)`: the range ends at the current `cur_`. -/
def makeToken (L : Lexer) (kind : TokenKind) (text : List Char) (start : SourcePos) : Token :=
  { kind := kind, text := text, range := { start := start, end_ := L.cur } }

/-- The chain of comparisons at the end of `lexIdentifierOrKeyword`. -/
def keywordKind (s : List Char) : TokenKind :=
  if s = "class".toList then .KwClass
  else if s = "extends".toList then .KwExtends
  else if s = "function".toList then .KwFunction
  else if s = "virtual".toList then .KwVirtual
  else if s = "override".toList then .KwOverride
  else if s = "var".toList then .KwVar
  else if s = "return".toList then .KwReturn
  else if s = "new".toList then .KwNew
  else if s = "print".toList then .KwPrint
  else .Identifier

/-- The loop `while (isIdentChar(peek())) s.push_back(get())`. -/
def identLoop : Nat → Lexer → List Char → Result (List Char × Lexer)
  | 0, _, _ => .diverged
  | fuel + 1, L, s =>
    if isIdentChar L.peek then identLoop fuel L.get.2 (s ++ [L.get.1])
    else .ok (s, L)

/-- `lexIdentifierOrKeyword(start)`; the first character, already consumed, is
read back as `input_[pos_ - 1]`. -/
def lexIdentifierOrKeyword (L : Lexer) (start : SourcePos) : Result (Token × Lexer) :=
  match identLoop L.budget L [L.input.getD (L.pos - 1) NUL] with
  | .ok (s, L1) => .ok (L1.makeToken (keywordKind s) s start, L1)
  | .raised m => .raised m
  | .diverged => .diverged

/-- The loop `while (std::isdigit(peek())) s.push_back(get())`. -/
def digitLoop : Nat → Lexer → List Char → Result (List Char × Lexer)
  | 0, _, _ => .diverged
  | fuel + 1, L, s =>
    if isdigit L.peek then digitLoop fuel L.get.2 (s ++ [L.get.1])
    else .ok (s, L)

/-- `lexNumber(start)`. -/
def lexNumber (L : Lexer) (start : SourcePos) : Result (Token × Lexer) :=
  match digitLoop L.budget L [L.input.getD (L.pos - 1) NUL] with
  | .ok (s, L1) => .ok (L1.makeToken .Number s start, L1)
  | .raised m => .raised m
  | .diverged => .diverged

/-- The `switch` on the character after a backslash in `lexString`. -/
def unescape (n : Char) : Char :=
  if n = 'n' then LF
  else if n = 't' then TAB
  else if n = 'r' then CR
  else if n = DQUOTE then DQUOTE
  else if n = BSLASH then BSLASH
  else n

/-- The `while (true)` of `lexString`. -/
def stringLoop : Nat → Lexer → List Char → Result (List Char × Lexer)
  | 0, _, _ => .diverged
  | fuel + 1, L, s =>
    let c := L.get.1
    let L1 := L.get.2
    if c = NUL then .raised "Unterminated string literal"
    else if c = DQUOTE then .ok (s, L1)
    else if c = BSLASH then stringLoop fuel L1.get.2 (s ++ [unescape L1.get.1])
    else stringLoop fuel L1 (s ++ [c])

/-- `lexString(start)`. -/
def lexString (L : Lexer) (start : SourcePos) : Result (Token × Lexer) :=
  match stringLoop L.budget L [] with
  | .ok (s, L1) => .ok (L1.makeToken .String s start, L1)
  | .raised m => .raised m
  | .diverged => .diverged

/-- The kind of a one-character punctuation token, if `c` is one. -/
def punctKind (c : Char) : Option TokenKind :=
  if c = '\x7b' then some .LBrace
  else if c = '\x7d' then some .RBrace
  else if c = '(' then some .LParen
  else if c = ')' then some .RParen
  else if c = ':' then some .Colon
  else if c = ';' then some .Semicolon
  else if c = '.' then some .Dot
  else if c = ',' then some .Comma
  else if c = '=' then some .Assign
  else none

/-- The cases of the `switch` in `lexAll` other than `'\0'`: `L` is the lexer
after `get()` returned `c`; the result is the lexer and `out` after the case. -/
def dispatch (L : Lexer) (c : Char) (start : SourcePos) (out : List Token) :
    Result (Lexer × List Token) :=
  match punctKind c with
  | some k => .ok (L, out ++ [L.makeToken k [c] start])
  | none =>
    if c = DQUOTE then
      match L.lexString start with
      | .ok (t, L1) => .ok (L1, out ++ [t])
      | .raised m => .raised m
      | .diverged => .diverged
    else if isIdentStart c then
      match L.lexIdentifierOrKeyword start with
      | .ok (t, L1) => .ok (L1, out ++ [t])
      | .raised m => .raised m
      | .diverged => .diverged
    else if isdigit c then
      match L.lexNumber start with
      | .ok (t, L1) => .ok (L1, out ++ [t])
      | .raised m => .raised m
      | .diverged => .diverged
    else if isspace c then .ok (L, out)
    else .raised "Unexpected character in input"

/-- What one iteration of the `while (true)` of `lexAll` does. -/
inductive Iter where
  | done : List Token → Iter
  | next : Lexer → List Token → Iter
deriving DecidableEq

/-- One iteration of the main loop of `lexAll`, entered with the tokens `out`
pushed so far: `get()`, the `switch`, then `skipWhitespaceAndComments()`. -/
def iteration (L : Lexer) (out : List Token) : Result Iter :=
  let start := L.cur
  let c := L.get.1
  let L1 := L.get.2
  if c = NUL then .ok (.done (out ++ [L1.makeToken .Eof [] start]))
  else
    match L1.dispatch c start out with
    | .ok (L2, out2) =>
      match L2.skipWhitespaceAndComments with
      | .ok L3 => .ok (.next L3 out2)
      | .raised m => .raised m
      | .diverged => .diverged
    | .raised m => .raised m
    | .diverged => .diverged

/-- The `while (true)` of `lexAll`. -/
def lexLoop : Nat → Lexer → List Token → Result (List Token)
  | 0, _, _ => .diverged
  | fuel + 1, L, out =>
    match L.iteration out with
    | .ok (.done toks) => .ok toks
    | .ok (.next L1 out1) => lexLoop fuel L1 out1
    | .raised m => .raised m
    | .diverged => .diverged

end Lexer

/-- `Lexer(input).lexAll()`. -/
def lexAll (input : List Char) : Result (List Token) :=
  match ({ input := input } : Lexer).skipWhitespaceAndComments with
  | .ok L => L.lexLoop L.budget []
  | .raised m => .raised m
  | .diverged => .diverged

/-! ## AST.h -/

/-- Type reference by name (`struct TypeRef`). -/
structure TypeRef where
  name : List Char := []
deriving DecidableEq

/-- Expression nodes (`struct Expr` and its five subclasses); every node
carries the `loc` of the base class.  The receiver of a method call is an owned
expression. -/
inductive Expr where
  | StringExpr (value : List Char) (loc : SourceRange)
  | IntExpr (value : Int) (loc : SourceRange)
  | VarExpr (name : List Char) (loc : SourceRange)
  | NewExpr (className : List Char) (loc : SourceRange)
  | MethodCallExpr (receiver : Expr) (methodName : List Char) (loc : SourceRange)
deriving DecidableEq

/-- Statement nodes (`struct Stmt` and its three subclasses).  The operand is a
`std::unique_ptr<Expr>`, which may be null: `none`. -/
inductive Stmt where
  | ReturnStmt (value : Option Expr) (loc : SourceRange)
  | PrintStmt (value : Option Expr) (loc : SourceRange)
  | VarDeclStmt (name : List Char) (type : TypeRef) (init : Option Expr) (loc : SourceRange)
deriving DecidableEq

/-- `enum class MethodAttr`. -/
inductive MethodAttr where
  | None | Virtual | Override
deriving DecidableEq

/-- `struct MethodDecl`. -/
structure MethodDecl where
  attr : MethodAttr := MethodAttr.None
  name : List Char := []
  returnType : TypeRef := {}
  body : List Stmt := []
  loc : SourceRange := {}
deriving DecidableEq

/-- `struct ClassDecl`. -/
structure ClassDecl where
  name : List Char := []
  baseName : Option (List Char) := none
  methods : List MethodDecl := []
  loc : SourceRange := {}
deriving DecidableEq

/-- `struct FunctionDecl`. -/
structure FunctionDecl where
  name : List Char := []
  returnType : TypeRef := {}
  body : List Stmt := []
  loc : SourceRange := {}
deriving DecidableEq

/-- `struct Program`. -/
structure Program where
  classes : List ClassDecl := []
  functions : List FunctionDecl := []
deriving DecidableEq

/-! ## Parser.cpp -/

/-- Exceptions thrown while parsing: `std::runtime_error` by the parser itself,
`std::invalid_argument` and `std::out_of_range` by `std::stoi`; each with its
`what()` message. -/
inductive Exn where
  | runtime_error (what : String)
  | invalid_argument (what : String)
  | out_of_range (what : String)
deriving DecidableEq

/-- The members of `class Parser`: the token vector and the cursor `pos_`.
`consumed` is a ghost field, absent from the source and never read by the
parser: the tokens passed by each `pos_++`, in order. -/
structure Parser where
  tokens : List Token
  pos : Nat := 0
  consumed : List Token := []
deriving DecidableEq

/-- Outcome of a member function of the parser: a value and the parser after the
call, an exception and the parser at the `throw`, or an exhausted loop budget. -/
inductive PResult (α : Type) where
  | ok : α → Parser → PResult α
  | error : Exn → Parser → PResult α
  | diverged : PResult α
deriving DecidableEq

/-- A member function of the parser returning `α`. -/
def PM (α : Type) : Type := Parser → PResult α

/-- Sequencing of parser actions; an exception or divergence ends the run. -/
def PM.bind {α β : Type} (m : PM α) (f : α → PM β) : PM β := fun P =>
  match m P with
  | .ok a P1 => f a P1
  | .error e P1 => .error e P1
  | .diverged => .diverged

instance : Monad PM where
  pure := fun a P => .ok a P
  bind := PM.bind

/-- `std::stoi(s)` in base 10 (as `strtol`): leading whitespace, an optional
sign, then the longest run of digits; `std::invalid_argument` when there is no
digit, `std::out_of_range` when the value does not fit an `int`.  The messages
are those of libstdc++. -/
def stoi (s : List Char) : Except Exn Int :=
  let s1 := s.dropWhile isspace
  let neg := s1.head? = some '-'
  let s2 := if s1.head? = some '-' ∨ s1.head? = some '+' then s1.tail else s1
  let ds := s2.takeWhile isdigit
  if ds = [] then .error (.invalid_argument "stoi")
  else
    let v : Int := ds.foldl (fun acc c => 10 * acc + ((c.toNat : Int) - 48)) 0
    let r : Int := if neg then -v else v
    if r < -2147483648 ∨ 2147483647 < r then .error (.out_of_range "stoi") else .ok r

namespace Parser

/-- `peek(i)`: the token at offset `i` from the cursor, the last token when that
is out of range.  (`tokens_.back()` of an empty vector is undefined; the model
yields a default-constructed token there.) -/
def peek (P : Parser) (i : Nat := 0) : Token :=
  if P.tokens.length ≤ P.pos + i then P.tokens.getLastD {} else P.tokens.getD (P.pos + i) {}

/-- The statement `pos_++`, which also extends the ghost trace by the token
passed. -/
def bump (P : Parser) : Parser :=
  { P with pos := P.pos + 1, consumed := P.consumed ++ [P.peek] }

/-- A `throw` of the exception `e`. -/
def raise {α : Type} (e : Exn) : PM α := fun P => .error e P

/-- `is(k)`: does the next token have kind `k`. -/
def is (k : TokenKind) : PM Bool := fun P => .ok (decide (P.peek.kind = k)) P

/-- `expect(k, what)`. -/
def expect (k : TokenKind) (what : String) : PM Token := fun P =>
  let t := P.peek
  if t.kind ≠ k then
    .error (.runtime_error ("Expected " ++ what ++ ", found " ++ to_string t.kind)) P
  else .ok t P.bump

/-- `consumeIf(k)`. -/
def consumeIf (k : TokenKind) : PM Bool := fun P =>
  if P.peek.kind = k then .ok true P.bump else .ok false P

/-- `expectIdent(what)`. -/
def expectIdent (what : String) : PM (List Char) := do
  let t ← expect .Identifier what
  pure t.text

/-- `parseType()`. -/
def parseType : PM TypeRef := do
  let name ← expectIdent "type name"
  pure { name := name }

/-- Iteration budget handed to every loop of the parser: one more than the
number of tokens. -/
def budget : PM Nat := fun P => .ok (P.tokens.length + 1) P

/-- `parseNewExpr()`. -/
def parseNewExpr : PM Expr := do
  let tNew ← expect .KwNew "'new'"
  let cls ← expectIdent "class name"
  let _ ← expect .LParen "'('"
  let tRP ← expect .RParen "')'"
  pure (.NewExpr cls { start := tNew.range.start, end_ := tRP.range.end_ })

/-- `parseMethodCallOrVar()`. -/
def parseMethodCallOrVar : PM Expr := do
  let tIdent ← expect .Identifier "identifier"
  let ident := tIdent.text
  if (← consumeIf .Dot) then
    let method ← expectIdent "method name"
    let _ ← expect .LParen "'('"
    let tRP ← expect .RParen "')'"
    pure (.MethodCallExpr (.VarExpr ident tIdent.range) method
            { start := tIdent.range.start, end_ := tRP.range.end_ })
  else
    pure (.VarExpr ident tIdent.range)

/-- The `String` case of `parsePrimary`: copy the text, then `pos_++`. -/
def parseString : PM Expr := fun P =>
  .ok (.StringExpr P.peek.text P.peek.range) P.bump

/-- The `Number` case of `parsePrimary`: `std::stoi` on the text, then `pos_++`. -/
def parseNumber : PM Expr := fun P =>
  match stoi P.peek.text with
  | .ok v => .ok (.IntExpr v P.peek.range) P.bump
  | .error e => .error e P

/-- `parsePrimary()`. -/
def parsePrimary : PM Expr := do
  if (← is .String) then parseString
  else if (← is .Number) then parseNumber
  else if (← is .KwNew) then parseNewExpr
  else if (← is .Identifier) then parseMethodCallOrVar
  else raise (.runtime_error "Unexpected token in expression")

/-- `parseExpr()`. -/
def parseExpr : PM Expr := parsePrimary

/-- `parseVarDecl()`. -/
def parseVarDecl : PM Stmt := do
  let tVar ← expect .KwVar "'var'"
  let name ← expectIdent "variable name"
  let _ ← expect .Colon "':'"
  let type ← parseType
  let _ ← expect .Assign "'='"
  let init ← parseNewExpr
  let tSemi ← expect .Semicolon "';'"
  pure (.VarDeclStmt name type (some init) { start := tVar.range.start, end_ := tSemi.range.end_ })

/-- `parsePrint()`. -/
def parsePrint : PM Stmt := do
  let tPrint ← expect .KwPrint "'print'"
  let _ ← expect .LParen "'('"
  let value ← parseExpr
  let _ ← expect .RParen "')'"
  let tSemi ← expect .Semicolon "';'"
  pure (.PrintStmt (some value) { start := tPrint.range.start, end_ := tSemi.range.end_ })

/-- `parseReturn()`. -/
def parseReturn : PM Stmt := do
  let tRet ← expect .KwReturn "'return'"
  let value ← parseExpr
  let tSemi ← expect .Semicolon "';'"
  pure (.ReturnStmt (some value) { start := tRet.range.start, end_ := tSemi.range.end_ })

/-- `parseStmt()`. -/
def parseStmt : PM Stmt := do
  if (← is .KwVar) then parseVarDecl
  else if (← is .KwPrint) then parsePrint
  else if (← is .KwReturn) then parseReturn
  else raise (.runtime_error "Unexpected token in statement")

/-- The loop `while (!is(TokenKind::RBrace)) body.push_back(parseStmt())`. -/
def parseBody : Nat → List Stmt → PM (List Stmt)
  | 0, _ => fun _ => .diverged
  | fuel + 1, body => do
    if (← is .RBrace) then pure body
    else
      let s ← parseStmt
      parseBody fuel (body ++ [s])

/-- The first lines of `parseMethod()`: `virtual`, `override` or neither. -/
def parseAttr : PM MethodAttr := do
  if (← consumeIf .KwVirtual) then pure MethodAttr.Virtual
  else if (← consumeIf .KwOverride) then pure MethodAttr.Override
  else pure MethodAttr.None

/-- `parseMethod()`. -/
def parseMethod : PM MethodDecl := do
  let tStart ← fun P => .ok P.peek P
  let attr ← parseAttr
  let name ← expectIdent "method name"
  let _ ← expect .LParen "'('"
  let _ ← expect .RParen "')'"
  let _ ← expect .Colon "':'"
  let returnType ← parseType
  let _ ← expect .LBrace "'\x7b'"
  let body ← parseBody (← budget) []
  let tEnd ← expect .RBrace "'\x7d'"
  pure { attr := attr, name := name, returnType := returnType, body := body,
         loc := { start := tStart.range.start, end_ := tEnd.range.end_ } }

/-- `parseFunctionDecl()`. -/
def parseFunctionDecl : PM FunctionDecl := do
  let tFun ← expect .KwFunction "'function'"
  let name ← expectIdent "function name"
  let _ ← expect .LParen "'('"
  let _ ← expect .RParen "')'"
  let _ ← expect .Colon "':'"
  let returnType ← parseType
  let _ ← expect .LBrace "'\x7b'"
  let body ← parseBody (← budget) []
  let tEnd ← expect .RBrace "'\x7d'"
  pure { name := name, returnType := returnType, body := body,
         loc := { start := tFun.range.start, end_ := tEnd.range.end_ } }

/-- The loop `while (!is(TokenKind::RBrace)) c.methods.push_back(parseMethod())`. -/
def parseMethods : Nat → List MethodDecl → PM (List MethodDecl)
  | 0, _ => fun _ => .diverged
  | fuel + 1, methods => do
    if (← is .RBrace) then pure methods
    else
      let m ← parseMethod
      parseMethods fuel (methods ++ [m])

/-- The optional `extends Base` of `parseClassDecl()`. -/
def parseBase : PM (Option (List Char)) := do
  if (← consumeIf .KwExtends) then
    let b ← expectIdent "base class name"
    pure (some b)
  else pure none

/-- `parseClassDecl()`. -/
def parseClassDecl : PM ClassDecl := do
  let tClass ← expect .KwClass "'class'"
  let name ← expectIdent "class name"
  let baseName ← parseBase
  let _ ← expect .LBrace "'\x7b'"
  let methods ← parseMethods (← budget) []
  let tR ← expect .RBrace "'\x7d'"
  pure { name := name, baseName := baseName, methods := methods,
         loc := { start := tClass.range.start, end_ := tR.range.end_ } }

/-- The loop `while (!is(TokenKind::Eof))` of `parseProgram`. -/
def parseDecls : Nat → Program → PM Program
  | 0, _ => fun _ => .diverged
  | fuel + 1, p => do
    if (← is .Eof) then pure p
    else if (← is .KwClass) then
      let c ← parseClassDecl
      parseDecls fuel { p with classes := p.classes ++ [c] }
    else if (← is .KwFunction) then
      let f ← parseFunctionDecl
      parseDecls fuel { p with functions := p.functions ++ [f] }
    else raise (.runtime_error "Expected 'class' or 'function'")

end Parser

/-- `Parser(tokens).parseProgram()`. -/
def parseProgram (tokens : List Token) : PResult Program :=
  Parser.parseDecls (tokens.length + 1) {} { tokens := tokens }

/-! ## Containers of the standard library used by CodeGen -/

/-- `operator<` of `std::string`: lexicographic order on the bytes. -/
def strLt : List Char → List Char → Bool
  | [], [] => false
  | [], _ :: _ => true
  | _ :: _, [] => false
  | a :: s, b :: t => decide (a.toNat < b.toNat) || (decide (a = b) && strLt s t)

/-- A `std::map<std::string, V>` or `std::unordered_map<std::string, V>`: the
entries, with distinct keys.  For a `std::map` built by `emplace` the entries are
sorted by key, which is the order of iteration. -/
abbrev Table (V : Type) : Type := List (List Char × V)

namespace Table

/-- `find(key)`: the mapped value, `none` for `end()`. -/
def find {V : Type} : Table V → List Char → Option V
  | [], _ => none
  | (k, v) :: rest, key => if key = k then some v else find rest key

/-- `std::map::emplace(key, v)`: nothing happens when the key is present,
otherwise the entry is inserted at its place in key order. -/
def emplace {V : Type} : Table V → List Char → V → Table V
  | [], key, v => [(key, v)]
  | (k, w) :: rest, key, v =>
    if key = k then (k, w) :: rest
    else if strLt key k then (key, v) :: (k, w) :: rest
    else (k, w) :: emplace rest key v

/-- The assignment `m[key] = v`: the mapped value is replaced when the key is
present, otherwise the entry is added. -/
def assign {V : Type} : Table V → List Char → V → Table V
  | [], key, v => [(key, v)]
  | (k, w) :: rest, key, v =>
    if key = k then (k, v) :: rest else (k, w) :: assign rest key v

/-- A write through a reference to the value mapped to `key`. -/
def modify {V : Type} (f : V → V) : Table V → List Char → Table V
  | [], _ => []
  | (k, w) :: rest, key =>
    if key = k then (k, f w) :: rest else (k, w) :: modify f rest key

/-- The keys in the order of iteration. -/
def keys {V : Type} (t : Table V) : List (List Char) := t.map Prod.fst

end Table

/-! ## The part of LLVM that CodeGen drives

Types, values and instructions are recorded as the arguments of the calls that
create them.  A pointer type keeps the pointee given to `PointerType::getUnqual`.
Instruction metadata (`annotate`) is left out: it changes neither the
instructions nor the control flow. -/

/-- An `llvm::Type*`. -/
inductive Ty where
  | i8
  | i32
  | struct (name : List Char)
  | ptr (pointee : Ty)
  | func (ret : Ty) (params : List Ty)

/-- An `llvm::Value*`: a constant, a global object, or the result of the
instruction at index `idx` of the block under construction. -/
inductive Value where
  | constInt (ty : Ty) (v : Int)
  | undef (ty : Ty)
  | globalString (idx : Nat)
  | global (name : List Char)
  | function (name : List Char)
  | constCast (v : Value) (ty : Ty)
  | inst (idx : Nat)

/-- One call of the `IRBuilder` that appends an instruction. -/
inductive Instr where
  | alloca (ty : Ty) (name : List Char)
  | load (ty : Ty) (ptr : Value) (name : List Char)
  | store (val : Value) (ptr : Value)
  | structGEP (ty : Ty) (ptr : Value) (idx : Nat) (name : List Char)
  | pointerCast (v : Value) (ty : Ty) (name : List Char)
  | call (fnTy : Ty) (callee : Value) (args : List Value) (name : List Char)
  | ret (v : Value)

/-- A named struct type of the context; `body` is `none` while it is opaque. -/
structure StructType where
  name : List Char
  body : Option (List Ty) := none

/-- The initializer of a global variable: `UndefValue::get(ty)` or
`ConstantStruct::get(ty, elems)`. -/
inductive Initializer where
  | undef (ty : Ty)
  | struct (ty : Ty) (elems : List Value)

/-- An `llvm::GlobalVariable` with private linkage. -/
structure GlobalVariable where
  name : List Char
  valueType : Ty
  isConstant : Bool
  initializer : Initializer

/-- An `llvm::BasicBlock`. -/
structure BasicBlock where
  name : List Char
  instrs : List Instr := []

/-- An `llvm::Function` with external linkage; a declaration has no block. -/
structure Function where
  name : List Char
  type : Ty
  blocks : List BasicBlock := []

/-- An `llvm::Module` with the named struct types of its context.  Functions and
named global variables share one symbol table; `lastUnique` is the counter from
which it makes the names of clashing symbols unique.  `strings` are the unnamed
globals made by `CreateGlobalStringPtr`. -/
structure Module where
  identifier : List Char := "fakelang-module".toList
  structs : List StructType := []
  functions : List Function := []
  globals : List GlobalVariable := []
  strings : List (List Char) := []
  lastUnique : Nat := 0

namespace Module

/-- Is the name in the symbol table of the module. -/
def taken (m : Module) (n : List Char) : Bool :=
  m.functions.any (fun f => decide (f.name = n)) || m.globals.any (fun g => decide (g.name = n))

/-- `ValueSymbolTable::makeUniqueName`: append `.` and the next value of the
counter until the name is free.  The candidates differ from each other and fewer
than `fuel + 1` names are taken, so one of the first `fuel + 1` is free. -/
def makeUniqueName : Nat → Module → List Char → List Char × Module
  | 0, m, base =>
    (base ++ '.' :: (Nat.repr (m.lastUnique + 1)).toList, { m with lastUnique := m.lastUnique + 1 })
  | fuel + 1, m, base =>
    let m1 := { m with lastUnique := m.lastUnique + 1 }
    let cand := base ++ '.' :: (Nat.repr m1.lastUnique).toList
    if m1.taken cand then makeUniqueName fuel m1 base else (cand, m1)

/-- The name a new function or global variable gets when `requested` is asked
for: the requested one when it is free, a unique variant otherwise. -/
def nameFor (m : Module) (requested : List Char) : List Char × Module :=
  if m.taken requested then
    m.makeUniqueName (m.functions.length + m.globals.length + 1) requested
  else (requested, m)

/-- `getFunction(name)`. -/
def getFunction (m : Module) (n : List Char) : Option Function :=
  m.functions.find? (fun f => decide (f.name = n))

/-- `Function::Create(ty, ExternalLinkage, name, module)`: the name given and
the module with the new function, which has no block yet. -/
def createFunction (m : Module) (ty : Ty) (requested : List Char) : List Char × Module :=
  let r := m.nameFor requested
  let m1 := r.2
  (r.1, { m1 with functions := m1.functions ++ [{ name := r.1, type := ty }] })

/-- `new GlobalVariable(module, ty, isConstant, PrivateLinkage, init, name)`. -/
def createGlobal (m : Module) (ty : Ty) (isConstant : Bool) (init : Initializer)
    (requested : List Char) : List Char × Module :=
  let r := m.nameFor requested
  let m1 := r.2
  (r.1, { m1 with globals := m1.globals ++
            [{ name := r.1, valueType := ty, isConstant := isConstant, initializer := init }] })

/-- `StructType::create(ctx, name)`: a new opaque struct type.  (The names asked
for by CodeGen never clash.) -/
def createStruct (m : Module) (name : List Char) : Module :=
  { m with structs := m.structs ++ [{ name := name }] }

/-- `StructType::setBody` on the struct type called `name`. -/
def setBody (m : Module) (name : List Char) (elems : List Ty) : Module :=
  let structs := m.structs.map
    (fun s => if s.name = name then { s with body := some elems } else s)
  { m with structs := structs }

/-- The block `entry` of the function called `name` gets the instructions
`instrs`. -/
def setEntry (m : Module) (name : List Char) (instrs : List Instr) : Module :=
  let functions := m.functions.map
    (fun f => if f.name = name then { f with blocks := [{ name := "entry".toList, instrs := instrs }] }
              else f)
  { m with functions := functions }

end Module

/-! ## CodeGen.h -/

/-- Vtable layout of a class (`struct ClassLayout`): `methods[i]` names slot `i`,
`slotOf` maps a method name to a slot index. -/
structure ClassLayout where
  methods : List (List Char) := []
  slotOf : Table Nat := []

/-- What CodeGen knows about a class (`struct ClassInfo`).  The three LLVM
handles are null (`none`) until their pass has run; `methods` maps a method name
to the name of the function defined for it in this class. -/
structure ClassInfo where
  ast : ClassDecl := {}
  name : List Char := []
  base : Option (List Char) := none
  layout : ClassLayout := {}
  classTy : Option Ty := none
  vtableTy : Option Ty := none
  vtableGlobal : Option (List Char) := none
  methods : Table (List Char) := []

/-- The assignment `info.methods[name] = fn`. -/
def ClassInfo.withMethod (i : ClassInfo) (name fn : List Char) : ClassInfo :=
  { i with methods := Table.assign i.methods name fn }

/-- A local variable (`struct ScopeVar`): the `alloca` that holds it and its
static type name. -/
structure ScopeVar where
  allocaPtr : Value
  typeName : List Char

/-- Outcome of a member function of CodeGen: a value, an exception, a null
pointer dereference, or an exhausted loop budget. -/
inductive Outcome (α : Type) where
  | ok : α → Outcome α
  | thrown : Exn → Outcome α
  | crashed : Outcome α
  | diverged : Outcome α

/-- Sequencing: anything but a value ends the run. -/
def Outcome.bind {α β : Type} (m : Outcome α) (f : α → Outcome β) : Outcome β :=
  match m with
  | .ok a => f a
  | .thrown e => .thrown e
  | .crashed => .crashed
  | .diverged => .diverged

instance : Monad Outcome where
  pure := Outcome.ok
  bind := Outcome.bind

/-- The members of `class CodeGen` that lowering uses: the module, the class
table `classes_`, and for the builder the name of the function under
construction with the instructions of its block `entry`, which are stored into the
module when the body is complete. -/
structure CodeGen where
  module_ : Module := {}
  classes_ : Table ClassInfo := []
  insertFn : List Char := []
  block : List Instr := []

/-! ## CodeGen.cpp -/

/-- `tyI32()`. -/
def tyI32 : Ty := .i32

/-- `tyI8()`. -/
def tyI8 : Ty := .i8

/-- `tyI8Ptr()`. -/
def tyI8Ptr : Ty := .ptr .i8

/-- `retTypeFor(typeName)`. -/
def retTypeFor (typeName : List Char) : Ty :=
  if typeName = "Int".toList then tyI32
  else if typeName = "String".toList then tyI8Ptr
  else tyI8Ptr

/-- `methodFnTy(retTypeName, classTy)`: one parameter, the `this` pointer. -/
def methodFnTy (retTypeName : List Char) (classTy : Ty) : Ty :=
  .func (retTypeFor retTypeName) [.ptr classTy]

/-- The message of a `std::runtime_error` built from string pieces. -/
def errorOf (pieces : List (List Char)) : Exn := .runtime_error (String.mk pieces.flatten)

namespace CodeGen

/-- The first loop of `computeClassLayouts`: record every class; `emplace`
keeps the first declaration of a name. -/
def recordClasses : List ClassDecl → Table ClassInfo → Table ClassInfo
  | [], t => t
  | c :: rest, t =>
    recordClasses rest (Table.emplace t c.name { ast := c, name := c.name, base := c.baseName })

/-- One step of the loop over the methods of a class in `computeClassLayouts`. -/
def layoutMethod (layout : ClassLayout) (m : MethodDecl) : Outcome ClassLayout :=
  match m.attr with
  | .Override =>
    match Table.find layout.slotOf m.name with
    | none => .thrown (errorOf ["Method '".toList, m.name, "' marked override but no base method".toList])
    | some _ => .ok layout
  | .Virtual =>
    .ok { methods := layout.methods ++ [m.name],
          slotOf := Table.assign layout.slotOf m.name layout.methods.length }
  | .None => .ok layout

/-- The loop over the methods of a class in `computeClassLayouts`. -/
def layoutMethods : List MethodDecl → ClassLayout → Outcome ClassLayout
  | [], layout => .ok layout
  | m :: rest, layout =>
    match layoutMethod layout m with
    | .ok layout1 => layoutMethods rest layout1
    | .thrown e => .thrown e
    | .crashed => .crashed
    | .diverged => .diverged

/-- The layout a class starts from: empty, or a copy of the layout its base has
at this moment. -/
def inheritedLayout (classes : Table ClassInfo) (info : ClassInfo) : Outcome ClassLayout :=
  match info.base with
  | none => .ok {}
  | some b =>
    match Table.find classes b with
    | none => .thrown (errorOf ["Unknown base class: ".toList, b])
    | some bi => .ok bi.layout

/-- The body of the second loop of `computeClassLayouts` for the class `name`. -/
def layoutClass (classes : Table ClassInfo) (name : List Char) : Outcome (Table ClassInfo) :=
  match Table.find classes name with
  | none => .ok classes
  | some info =>
    match inheritedLayout classes info with
    | .ok start =>
      match layoutMethods info.ast.methods start with
      | .ok layout => .ok (Table.modify (fun i => { i with layout := layout }) classes name)
      | .thrown e => .thrown e
      | .crashed => .crashed
      | .diverged => .diverged
    | .thrown e => .thrown e
    | .crashed => .crashed
    | .diverged => .diverged

/-- The second loop of `computeClassLayouts`, over the classes in the order of
iteration of `classes_`. -/
def layoutLoop : List (List Char) → Table ClassInfo → Outcome (Table ClassInfo)
  | [], classes => .ok classes
  | name :: rest, classes =>
    match layoutClass classes name with
    | .ok classes1 => layoutLoop rest classes1
    | .thrown e => .thrown e
    | .crashed => .crashed
    | .diverged => .diverged

/-- `computeClassLayouts(p)`. -/
def computeClassLayouts (cg : CodeGen) (p : Program) : Outcome CodeGen :=
  let classes := recordClasses p.classes cg.classes_
  match layoutLoop (Table.keys classes) classes with
  | .ok classes1 => .ok { cg with classes_ := classes1 }
  | .thrown e => .thrown e
  | .crashed => .crashed
  | .diverged => .diverged

end CodeGen

namespace CodeGen

/-- The body of the first loop of `declareTypes` for the class `name`: create
its two opaque struct types. -/
def createTypes (cg : CodeGen) (name : List Char) : CodeGen :=
  let vt := "vtable.".toList ++ name
  let ct := "class.".toList ++ name
  let classes := Table.modify
    (fun i => { i with vtableTy := some (.struct vt), classTy := some (.struct ct) })
    cg.classes_ name
  { cg with module_ := (cg.module_.createStruct vt).createStruct ct, classes_ := classes }

/-- The first loop of `declareTypes`. -/
def declareTypesCreate : List (List Char) → CodeGen → CodeGen
  | [], cg => cg
  | name :: rest, cg => declareTypesCreate rest (cg.createTypes name)

/-- The name of the struct type behind a handle. -/
def structName : Ty → List Char
  | .struct n => n
  | _ => []

/-- The body of the second loop of `declareTypes`: the bodies of the two struct
types of a class. -/
def setBodies (cg : CodeGen) (info : ClassInfo) (vt ct : Ty) : CodeGen :=
  let vtElems := List.replicate info.layout.methods.length tyI8Ptr
  { cg with module_ := (cg.module_.setBody (structName vt) vtElems).setBody (structName ct) [.ptr vt] }

/-- The second loop of `declareTypes`.  Both handles were set by the first loop;
a null handle would be dereferenced. -/
def declareTypesBodies : List (List Char) → CodeGen → Outcome CodeGen
  | [], cg => .ok cg
  | name :: rest, cg =>
    match Table.find cg.classes_ name with
    | none => declareTypesBodies rest cg
    | some info =>
      match info.vtableTy, info.classTy with
      | some vt, some ct => declareTypesBodies rest (cg.setBodies info vt ct)
      | _, _ => .crashed

/-- `declareTypes()`. -/
def declareTypes (cg : CodeGen) : Outcome CodeGen :=
  let cg1 := declareTypesCreate (Table.keys cg.classes_) cg
  declareTypesBodies (Table.keys cg1.classes_) cg1

/-- The builder appends an instruction to the insertion block; the value is the
result of that instruction. -/
def emit (cg : CodeGen) (i : Instr) : Value × CodeGen :=
  (.inst cg.block.length, { cg with block := cg.block ++ [i] })

/-- `GetInsertBlock()->getTerminator()` is not null: the block ends in a
`ret`, the only terminator CodeGen creates. -/
def terminated (cg : CodeGen) : Bool :=
  match cg.block.getLast? with
  | some (.ret _) => true
  | _ => false

/-- `getOrDeclarePuts()`: the name of the function `puts`. -/
def getOrDeclarePuts (cg : CodeGen) : List Char × CodeGen :=
  match cg.module_.getFunction "puts".toList with
  | some f => (f.name, cg)
  | none =>
    let r := cg.module_.createFunction (.func tyI32 [tyI8Ptr]) "puts".toList
    (r.1, { cg with module_ := r.2 })

/-- `requireClass(name)`. -/
def requireClass (cg : CodeGen) (name : List Char) : Outcome ClassInfo :=
  match Table.find cg.classes_ name with
  | none => .thrown (errorOf ["Unknown class: ".toList, name])
  | some ci => .ok ci

/-- `maybeBaseOf(c)`: the base class, `none` for `nullptr`. -/
def maybeBaseOf (cg : CodeGen) (c : ClassInfo) : Outcome (Option ClassInfo) :=
  match c.base with
  | none => .ok none
  | some b =>
    match Table.find cg.classes_ b with
    | none => .thrown (errorOf ["Unknown base class: ".toList, b])
    | some bi => .ok (some bi)

/-- `slotOf(className, methodName)`. -/
def slotOf (cg : CodeGen) (className methodName : List Char) : Outcome Nat :=
  match Table.find cg.classes_ className with
  | none => .thrown (errorOf ["Unknown class: ".toList, className])
  | some ci =>
    match Table.find ci.layout.slotOf methodName with
    | none => .thrown (errorOf ["No virtual method '".toList, methodName, "' in class '".toList,
                className, "'".toList])
    | some slot => .ok slot

/-- The loop `while (c)` of `implementationFor`, entered with `c` not null. -/
def implementationLoop (cg : CodeGen) (className methodName : List Char) :
    Nat → ClassInfo → Outcome (List Char)
  | 0, _ => .diverged
  | fuel + 1, c =>
    match Table.find c.methods methodName with
    | some fn => .ok fn
    | none =>
      match maybeBaseOf cg c with
      | .ok (some b) => implementationLoop cg className methodName fuel b
      | .ok none => .thrown (errorOf ["No implementation for method '".toList, methodName,
                      "' in class '".toList, className, "'".toList])
      | .thrown e => .thrown e
      | .crashed => .crashed
      | .diverged => .diverged

/-- `implementationFor(className, methodName)`: the name of the function.  A walk
that has not ended after as many steps as there are classes has come back to a
class it has seen and goes on for ever, so the budget is exact. -/
def implementationFor (cg : CodeGen) (className methodName : List Char) : Outcome (List Char) :=
  match Table.find cg.classes_ className with
  | none => .thrown (errorOf ["Unknown class: ".toList, className])
  | some c => implementationLoop cg className methodName (cg.classes_.length + 1) c

/-- `codegenVirtualCall(thisPtr, staticClassName, methodName, retTypeName)`. -/
def codegenVirtualCall (cg : CodeGen) (thisPtr : Value)
    (staticClassName methodName retTypeName : List Char) : Outcome (Value × CodeGen) :=
  match requireClass cg staticClassName with
  | .ok ci =>
    match ci.classTy, ci.vtableTy with
    | some classTy, some vtableTy =>
      let r1 := cg.emit (.structGEP classTy thisPtr 0 (staticClassName ++ ".vptr.addr".toList))
      let r2 := r1.2.emit (.load (.ptr vtableTy) r1.1 (staticClassName ++ ".vptr".toList))
      match slotOf r2.2 staticClassName methodName with
      | .ok slot =>
        let r3 := r2.2.emit (.structGEP vtableTy r2.1 slot (methodName ++ ".slot.addr".toList))
        let r4 := r3.2.emit (.load tyI8Ptr r3.1 (methodName ++ ".slot".toList))
        let fnTy := methodFnTy retTypeName classTy
        let r5 := r4.2.emit (.pointerCast r4.1 (.ptr fnTy) (methodName ++ ".fn".toList))
        let r6 := r5.2.emit (.call fnTy r5.1 [thisPtr] (methodName ++ ".call".toList))
        .ok r6
      | .thrown e => .thrown e
      | .crashed => .crashed
      | .diverged => .diverged
    | _, _ => .crashed
  | .thrown e => .thrown e
  | .crashed => .crashed
  | .diverged => .diverged

/-- `codegenExpr(e, scope, expectedType)`; `e` is `none` for a null pointer, on
which every `dynamic_cast` fails. -/
def codegenExpr (cg : CodeGen) (e : Option Expr) (scope : Table ScopeVar)
    (expectedType : List Char := []) : Outcome (Value × CodeGen) :=
  match e with
  | some (.StringExpr value _) =>
    .ok (.globalString cg.module_.strings.length,
         { cg with module_ := { cg.module_ with strings := cg.module_.strings ++ [value] } })
  | some (.IntExpr value _) => .ok (.constInt tyI32 value, cg)
  | some (.VarExpr name _) =>
    match Table.find scope name with
    | none => .thrown (errorOf ["Unknown variable: ".toList, name])
    | some sv => .ok (cg.emit (.load tyI8Ptr sv.allocaPtr (name ++ ".val".toList)))
  | some (.NewExpr className _) =>
    match requireClass cg className with
    | .ok ci =>
      match ci.classTy, ci.vtableGlobal with
      | some classTy, some vtableGlobal =>
        let r1 := cg.emit (.alloca classTy (className ++ ".obj".toList))
        let r2 := r1.2.emit (.structGEP classTy r1.1 0 (className ++ ".vptr.addr".toList))
        let r3 := r2.2.emit (.store (.global vtableGlobal) r2.1)
        .ok (r1.1, r3.2)
      | _, _ => .crashed
    | .thrown e => .thrown e
    | .crashed => .crashed
    | .diverged => .diverged
  | some (.MethodCallExpr (.VarExpr recvName _) methodName _) =>
    match Table.find scope recvName with
    | none => .thrown (errorOf ["Unknown variable: ".toList, recvName])
    | some sv =>
      let r := cg.emit (.load tyI8Ptr sv.allocaPtr (recvName ++ ".val".toList))
      codegenVirtualCall r.2 r.1 sv.typeName methodName
        (if expectedType = [] then "String".toList else expectedType)
  | some (.MethodCallExpr _ _ _) => .thrown (.runtime_error "Unsupported method receiver expression")
  | none => .thrown (.runtime_error "Unhandled expression node")

/-- `codegenStmt(s, scope, currentRetType, currentClassTy)`: the scope after the
statement and the new state.  (`currentClassTy` is not used.) -/
def codegenStmt (cg : CodeGen) (s : Stmt) (scope : Table ScopeVar) (currentRetType : List Char) :
    Outcome (Table ScopeVar × CodeGen) :=
  match s with
  | .ReturnStmt value _ =>
    match codegenExpr cg value scope currentRetType with
    | .ok (v, cg1) => .ok (scope, (cg1.emit (.ret v)).2)
    | .thrown e => .thrown e
    | .crashed => .crashed
    | .diverged => .diverged
  | .PrintStmt value _ =>
    match codegenExpr cg value scope "String".toList with
    | .ok (v, cg1) =>
      let p := cg1.getOrDeclarePuts
      .ok (scope, (p.2.emit (.call (.func tyI32 [tyI8Ptr]) (.function p.1) [v] [])).2)
    | .thrown e => .thrown e
    | .crashed => .crashed
    | .diverged => .diverged
  | .VarDeclStmt name type init _ =>
    let a := cg.emit (.alloca (.ptr tyI8Ptr) (name ++ ".addr".toList))
    match codegenExpr a.2 init scope type.name with
    | .ok (v, cg1) =>
      .ok (Table.emplace scope name { allocaPtr := a.1, typeName := type.name },
           (cg1.emit (.store v a.1)).2)
    | .thrown e => .thrown e
    | .crashed => .crashed
    | .diverged => .diverged

/-- The loop over the statements of a body, left at the first statement after
which the block has a terminator. -/
def codegenBody : List Stmt → CodeGen → Table ScopeVar → List Char → Outcome CodeGen
  | [], cg, _, _ => .ok cg
  | s :: rest, cg, scope, retType =>
    match codegenStmt cg s scope retType with
    | .ok (scope1, cg1) =>
      if cg1.terminated then .ok cg1 else codegenBody rest cg1 scope1 retType
    | .thrown e => .thrown e
    | .crashed => .crashed
    | .diverged => .diverged

/-- The default return emitted when the block has no terminator after the
body. -/
def defaultReturn (cg : CodeGen) (retTypeName : List Char) : CodeGen :=
  if cg.terminated then cg
  else if retTypeName = "Int".toList then (cg.emit (.ret (.constInt tyI32 0))).2
  else (cg.emit (.ret (.undef (retTypeFor retTypeName)))).2

/-- The body of a method or function: a fresh block `entry` and an empty scope,
the statements, the default return; the block is then complete. -/
def defineBody (cg : CodeGen) (fn : List Char) (body : List Stmt) (retTypeName : List Char) :
    Outcome CodeGen :=
  match codegenBody body { cg with insertFn := fn, block := [] } [] retTypeName with
  | .ok cg1 =>
    let cg2 := cg1.defaultReturn retTypeName
    .ok { cg2 with module_ := cg2.module_.setEntry fn cg2.block }
  | .thrown e => .thrown e
  | .crashed => .crashed
  | .diverged => .diverged

/-- The first statements of the loop over the methods of the class `name`:
create the function of the method `m` and record it in the class; the name of the
function and the new state. -/
def declareMethod (cg : CodeGen) (name : List Char) (info : ClassInfo) (classTy : Ty)
    (m : MethodDecl) : List Char × CodeGen :=
  let r := cg.module_.createFunction (methodFnTy m.returnType.name classTy)
             (info.name ++ '.' :: m.name)
  let classes := Table.modify (fun i => i.withMethod m.name r.1) cg.classes_ name
  (r.1, { cg with module_ := r.2, classes_ := classes })

/-- The loop over the methods of the class `name` in `declareAndDefineMethods`. -/
def defineMethods (name : List Char) : List MethodDecl → CodeGen → Outcome CodeGen
  | [], cg => .ok cg
  | m :: rest, cg =>
    match Table.find cg.classes_ name with
    | none => .ok cg
    | some info =>
      match info.classTy with
      | none => .crashed
      | some classTy =>
        let d := cg.declareMethod name info classTy m
        match d.2.defineBody d.1 m.body m.returnType.name with
        | .ok cg2 => defineMethods name rest cg2
        | .thrown e => .thrown e
        | .crashed => .crashed
        | .diverged => .diverged

/-- The loop over the classes in `declareAndDefineMethods`. -/
def defineClasses : List (List Char) → CodeGen → Outcome CodeGen
  | [], cg => .ok cg
  | name :: rest, cg =>
    match Table.find cg.classes_ name with
    | none => defineClasses rest cg
    | some info =>
      match defineMethods name info.ast.methods cg with
      | .ok cg1 => defineClasses rest cg1
      | .thrown e => .thrown e
      | .crashed => .crashed
      | .diverged => .diverged

/-- `declareAndDefineMethods()`. -/
def declareAndDefineMethods (cg : CodeGen) : Outcome CodeGen :=
  defineClasses (Table.keys cg.classes_) cg

/-- The loop over the slots of a class in `defineVTables`: the initializer
elements. -/
def vtableElems (cg : CodeGen) (name : List Char) : List (List Char) → Outcome (List Value)
  | [] => .ok []
  | mname :: rest =>
    match implementationFor cg name mname with
    | .ok impl =>
      match vtableElems cg name rest with
      | .ok elems => .ok (.constCast (.function impl) tyI8Ptr :: elems)
      | .thrown e => .thrown e
      | .crashed => .crashed
      | .diverged => .diverged
    | .thrown e => .thrown e
    | .crashed => .crashed
    | .diverged => .diverged

/-- The last statements of the loop over the classes in `defineVTables`: the
initializer and the global variable of the vtable of the class `name`. -/
def defineVTable (cg : CodeGen) (name : List Char) (vtableTy : Ty) (elems : List Value) : CodeGen :=
  let init := if elems.isEmpty then Initializer.undef vtableTy
              else Initializer.struct vtableTy elems
  let r := cg.module_.createGlobal vtableTy true init ("vtable.".toList ++ name)
  let classes := Table.modify (fun i => { i with vtableGlobal := some r.1 }) cg.classes_ name
  { cg with module_ := r.2, classes_ := classes }

/-- The loop over the classes in `defineVTables`. -/
def defineVTablesLoop : List (List Char) → CodeGen → Outcome CodeGen
  | [], cg => .ok cg
  | name :: rest, cg =>
    match Table.find cg.classes_ name with
    | none => defineVTablesLoop rest cg
    | some info =>
      match vtableElems cg name info.layout.methods with
      | .ok elems =>
        match info.vtableTy with
        | none => .crashed
        | some vtableTy => defineVTablesLoop rest (cg.defineVTable name vtableTy elems)
      | .thrown e => .thrown e
      | .crashed => .crashed
      | .diverged => .diverged

/-- `defineVTables()`. -/
def defineVTables (cg : CodeGen) : Outcome CodeGen :=
  defineVTablesLoop (Table.keys cg.classes_) cg

/-- The first statements of the loop over the free functions: create the
function of `f`; its name and the new state. -/
def declareFunction (cg : CodeGen) (f : FunctionDecl) : List Char × CodeGen :=
  let r := cg.module_.createFunction (.func (retTypeFor f.returnType.name) []) f.name
  (r.1, { cg with module_ := r.2 })

/-- The loop over the free functions in `defineFunctions`. -/
def defineFunctionsLoop : List FunctionDecl → CodeGen → Outcome CodeGen
  | [], cg => .ok cg
  | f :: rest, cg =>
    let d := cg.declareFunction f
    match d.2.defineBody d.1 f.body f.returnType.name with
    | .ok cg1 => defineFunctionsLoop rest cg1
    | .thrown e => .thrown e
    | .crashed => .crashed
    | .diverged => .diverged

/-- `defineFunctions(p)`. -/
def defineFunctions (cg : CodeGen) (p : Program) : Outcome CodeGen :=
  defineFunctionsLoop p.functions cg.getOrDeclarePuts.2

/-- The five passes of `generate` on a new CodeGen, before the module is
verified. -/
def lower (p : Program) (moduleName : List Char := "fakelang-module".toList) : Outcome CodeGen :=
  match computeClassLayouts { module_ := { identifier := moduleName } } p with
  | .ok cg1 =>
    match cg1.declareTypes with
    | .ok cg2 =>
      match cg2.declareAndDefineMethods with
      | .ok cg3 =>
        match cg3.defineVTables with
        | .ok cg4 => cg4.defineFunctions p
        | .thrown e => .thrown e
        | .crashed => .crashed
        | .diverged => .diverged
      | .thrown e => .thrown e
      | .crashed => .crashed
      | .diverged => .diverged
    | .thrown e => .thrown e
    | .crashed => .crashed
    | .diverged => .diverged
  | .thrown e => .thrown e
  | .crashed => .crashed
  | .diverged => .diverged

/-- `generate(program, moduleName)` on a new CodeGen.  `verifyModule` stands for
`llvm::verifyModule`, which is not part of the repository: it yields the
verifier's message when the module is broken. -/
def generate (verifyModule : Module → Option String) (p : Program)
    (moduleName : List Char := "fakelang-module".toList) : Outcome CodeGen :=
  match lower p moduleName with
  | .ok cg =>
    match verifyModule cg.module_ with
    | some err => .thrown (.runtime_error ("Invalid LLVM module generated: " ++ err))
    | none => .ok cg
  | .thrown e => .thrown e
  | .crashed => .crashed
  | .diverged => .diverged

end CodeGen

/-! ## Auxiliary notions used to state and prove facts about the lexer -/

namespace Lexer

/-- Position update of `get()` for one consumed character. -/
def advPos (p : SourcePos) (c : Char) : SourcePos :=
  if c = LF then { line := p.line + 1, column := 1 }
  else { line := p.line, column := p.column + 1 }

/-- The part of the buffer not yet consumed. -/
def rest (L : Lexer) : List Char := L.input.drop L.pos

/-- The lexer after `get()` has consumed the characters `w` one by one. -/
def consume (L : Lexer) (w : List Char) : Lexer :=
  { input := L.input, pos := L.pos + w.length, cur := w.foldl advPos L.cur }

/-- Characters skipped by the whitespace loop. -/
def isBlank (c : Char) : Bool := decide (c = ' ' ∨ c = TAB ∨ c = CR ∨ c = LF)

/-- Characters skipped by the comment loop. -/
def inLine (c : Char) : Bool := decide (c ≠ LF ∧ c ≠ NUL)

/-- The lexer `L2` is `L1` after `get()` consumed some characters of the buffer. -/
def Steps (L1 L2 : Lexer) : Prop := ∃ w r, L1.rest = w ++ r ∧ L2 = L1.consume w

/-- The token `t` was lexed from the characters `w` found at the position of `L`. -/
def Lexed (L : Lexer) (w : List Char) (t : Token) : Prop :=
  t.range = { start := L.cur, end_ := (L.consume w).cur } ∧ w ≠ [] ∧ t.kind ≠ .Eof ∧
  (t.kind = .String → w.head? = some DQUOTE ∧ w.getLast? = some DQUOTE ∧ 2 ≤ w.length) ∧
  (t.kind ≠ .String → t.text = w ∧ ∀ c ∈ w, c ≠ LF)

/-- The loop-head states of `lexAll` on `input`: `TokenStart input L out` says
that the main loop of `lexAll` starts an iteration with lexer `L` (so `L.pos` is
a token start position) after having pushed the tokens `out`. -/
inductive TokenStart (input : List Char) : Lexer → List Token → Prop where
  | init {L : Lexer} :
      ({ input := input } : Lexer).skipWhitespaceAndComments = .ok L → TokenStart input L []
  | step {L L2 : Lexer} {out out2 : List Token} :
      TokenStart input L out → L.iteration out = .ok (.next L2 out2) → TokenStart input L2 out2

/-- The position reached from line 1, column 1 after the characters `s`: each
character adds a column, a newline starts the next line at column 1. -/
def posOf (s : List Char) : SourcePos := s.foldl advPos { line := 1, column := 1 }

/-- The lexer `L` works on `input` and its `cur_` is the position of index `pos_`. -/
def Tracks (input : List Char) (L : Lexer) : Prop :=
  L.input = input ∧ L.cur = posOf (input.take L.pos) ∧ L.pos ≤ input.length

end Lexer

/-- The range of token `t` delimits its lexeme in `input`: there are offsets
`i ≤ j` with `start` the position of offset `i` and `end` the position of offset
`j`; a token other than `Eof` has `i < j`; a string token starts and ends with a
double quote; the text of any other token is `input[i..j)`, lies on one line and is
`length(text)` columns wide; `Eof` sits at the end of the input or on a NUL. -/
def RangeOk (input : List Char) (t : Token) : Prop :=
  ∃ i j, i ≤ j ∧ j ≤ input.length ∧
    t.range.start = Lexer.posOf (input.take i) ∧ t.range.end_ = Lexer.posOf (input.take j) ∧
    (t.kind ≠ .Eof → i < j) ∧
    (t.kind = .Eof → (i = j ∧ j = input.length) ∨ (input[i]? = some NUL ∧ j = i + 1)) ∧
    (t.kind = .String → input[i]? = some DQUOTE ∧ input[j - 1]? = some DQUOTE ∧ i + 2 ≤ j) ∧
    (t.kind ≠ .Eof → t.kind ≠ .String →
      t.text = (input.drop i).take (j - i) ∧ t.range.end_.line = t.range.start.line ∧
      t.range.end_.column = t.range.start.column + t.text.length)

/-- The nine reserved words with their token kinds. -/
def keywordTable : List (List Char × TokenKind) :=
  [("class".toList, .KwClass), ("extends".toList, .KwExtends), ("function".toList, .KwFunction),
   ("virtual".toList, .KwVirtual), ("override".toList, .KwOverride), ("var".toList, .KwVar),
   ("return".toList, .KwReturn), ("new".toList, .KwNew), ("print".toList, .KwPrint)]

/-- Kind of an identifier-shaped lexeme as the specification words it: the
keyword kind when the lexeme is exactly a reserved word, `Identifier` otherwise. -/
def specKind (w : List Char) : TokenKind := (keywordTable.lookup w).getD .Identifier

/-- The character denoted by the character `n` that follows a backslash, as the
specification lists the escapes: `n`, `t`, `r` give newline, tab, carriage return;
any other character gives itself (a quote gives a quote, a backslash a backslash). -/
def specEscape (n : Char) : Char :=
  if n = 'n' then LF else if n = 't' then TAB else if n = 'r' then CR else n

/-- Decoding of the body of a terminated string literal, left to right, as the
specification words it; `none` when the characters are not such a body (an
unescaped double quote inside, or a backslash with nothing after it). -/
def decodeBody : List Char → Option (List Char)
  | [] => some []
  | [c] => if c = DQUOTE ∨ c = BSLASH then none else some [c]
  | c :: d :: rest =>
    if c = BSLASH then (decodeBody rest).map (fun s => specEscape d :: s)
    else if c = DQUOTE then none
    else (decodeBody (d :: rest)).map (fun s => c :: s)

/-- No NUL character occurs in the body outside an escape. -/
def rawNulFree : List Char → Bool
  | [] => true
  | [c] => c ≠ NUL
  | c :: d :: rest =>
    if c = BSLASH then rawNulFree rest else c ≠ NUL && rawNulFree (d :: rest)

/-- The characters after an opening double quote run to the end of the input
without an unescaped closing double quote (the input may end right after a
backslash). -/
def unclosed : List Char → Bool
  | [] => true
  | [c] => c ≠ DQUOTE
  | c :: d :: rest =>
    if c = BSLASH then unclosed rest else c ≠ DQUOTE && unclosed (d :: rest)

/-! ## Auxiliary notions used to state and prove facts about the parser -/

/-- A token stream in the sense of the data model: a sequence that ends in
exactly one end-of-input token. -/
def TokenStream (toks : List Token) : Prop :=
  ∃ pre eof, toks = pre ++ [eof] ∧ eof.kind = .Eof ∧ ∀ t ∈ pre, t.kind ≠ .Eof

/-- The list holds an end-of-input token: `seg` are the tokens before the first
one, `tail` those after it. -/
def EofAhead (l : List Token) : Prop :=
  ∃ seg eof tail, l = seg ++ eof :: tail ∧ eof.kind = .Eof ∧ ∀ t ∈ seg, t.kind ≠ .Eof

/-- For each `class` keyword token of the list, in order: the text of the token
that follows it and, when the token after that is `extends`, the text of the token
following `extends`. -/
def classSigs : List Token → List (List Char × Option (List Char))
  | [] => []
  | t :: rest =>
    if t.kind = .KwClass then
      ((rest.headD {}).text,
        if (rest.getD 1 {}).kind = .KwExtends then some (rest.getD 2 {}).text else none)
        :: classSigs rest
    else classSigs rest

/-- For each `function` keyword token of the list, in order: the text of the
token that follows it. -/
def functionNames : List Token → List (List Char)
  | [] => []
  | t :: rest =>
    if t.kind = .KwFunction then (rest.headD {}).text :: functionNames rest
    else functionNames rest

/-- Every `class`, `function` and `extends` keyword token of the list is
followed by an identifier token. -/
def keywordsNamed : List Token → Bool
  | [] => true
  | t :: rest =>
    (if t.kind = .KwClass ∨ t.kind = .KwFunction ∨ t.kind = .KwExtends then
      decide ((rest.headD {}).kind = .Identifier) else true) && keywordsNamed rest

namespace Parser

/-- The tokens at and after the cursor. -/
def rest (P : Parser) : List Token := P.tokens.drop P.pos

/-- The parser after `pos_++` has passed the tokens `seg` one by one. -/
def eat (P : Parser) (seg : List Token) : Parser :=
  { tokens := P.tokens, pos := P.pos + seg.length, consumed := P.consumed ++ seg }

/-- The cursor has not passed an end-of-input token: one lies at or after it. -/
def Live (P : Parser) : Prop := EofAhead P.rest

/-- Success behaviour of a parser action from a live parser: it passes a
segment `seg` of the unread tokens, none of them an end-of-input token, stays
live, and the value `a` and the segment satisfy `S` (which may refer to the parser
`P` at the call). -/
def Eats {α : Type} (m : PM α) (S : Parser → α → List Token → Prop) : Prop :=
  ∀ P a P2, Live P → m P = .ok a P2 →
    ∃ seg r, P.rest = seg ++ r ∧ P2 = P.eat seg ∧ Live P2 ∧ (∀ t ∈ seg, t.kind ≠ .Eof) ∧
      S P a seg

/-- From a live parser the action does not run out of its loop budgets. -/
def NoDiv {α : Type} (m : PM α) : Prop := ∀ P, Live P → m P ≠ .diverged

/-- The segment holds no `class`, `function` or `extends` keyword. -/
def NoDecl (seg : List Token) : Prop :=
  ∀ t ∈ seg, t.kind ≠ .KwClass ∧ t.kind ≠ .KwFunction ∧ t.kind ≠ .KwExtends

/-- The exceptions of the parser: a mismatch reported by `expect` names the
expected construct and the kind of the token at the cursor; the three dispatch
failures carry fixed messages; `std::stoi` throws its own two exceptions. -/
def GoodErr (e : Exn) (P : Parser) : Prop :=
  (∃ what, e = .runtime_error ("Expected " ++ what ++ ", found " ++ to_string P.peek.kind)) ∨
  e = .runtime_error "Expected 'class' or 'function'" ∨
  e = .runtime_error "Unexpected token in statement" ∨
  e = .runtime_error "Unexpected token in expression" ∨
  e = .invalid_argument "stoi" ∨ e = .out_of_range "stoi"

/-- The action passes only tokens that belong to no declaration header. -/
def EatsND {α : Type} (m : PM α) : Prop := Eats m (fun _ _ seg => NoDecl seg)

/-- Shape of the tokens of a class declaration with the parsed `ClassDecl`. -/
def ClassShape (c : ClassDecl) (seg : List Token) : Prop :=
  ∃ tc tn sb tl more, seg = tc :: tn :: (sb ++ tl :: more) ∧ tc.kind = .KwClass ∧
    tn.kind = .Identifier ∧ c.name = tn.text ∧ tl.kind = .LBrace ∧ NoDecl more ∧
    ((c.baseName = none ∧ sb = []) ∨
      ∃ te tb, sb = [te, tb] ∧ te.kind = .KwExtends ∧ tb.kind = .Identifier ∧
        c.baseName = some tb.text)

/-- Shape of the tokens of a function declaration with the parsed `FunctionDecl`. -/
def FunctionShape (f : FunctionDecl) (seg : List Token) : Prop :=
  ∃ tf tn more, seg = tf :: tn :: more ∧ tf.kind = .KwFunction ∧ tn.kind = .Identifier ∧
    f.name = tn.text ∧ NoDecl more

/-- The action keeps the token vector, and each exception it throws is one of
`GoodErr` at the parser of the `throw`. -/
def Fails {α : Type} (m : PM α) : Prop :=
  (∀ P a P2, m P = .ok a P2 → P2.tokens = P.tokens) ∧
  (∀ P e P2, m P = .error e P2 → P2.tokens = P.tokens ∧ GoodErr e P2)

end Parser

/-! ## Auxiliary definitions for the code generator -/

section
open CodeGen

namespace Table

/-- The keys are strictly increasing: the table is a `std::map`. -/
def Sorted {V : Type} (t : Table V) : Prop := (keys t).Pairwise (fun a b => strLt a b = true)

end Table

/-- The names of the `Virtual` methods of a class, in declaration order. -/
def virtualNames (ms : List MethodDecl) : List (List Char) :=
  (ms.filter (fun m => decide (m.attr = MethodAttr.Virtual))).map (fun m => m.name)

/-- The class information recorded for a declaration by the first loop of
`computeClassLayouts`. -/
def ClassInfo.ofDecl (c : ClassDecl) : ClassInfo := { ast := c, name := c.name, base := c.baseName }

/-- The declaration `c` is the first one of its name in the program: the one
that `emplace` keeps. -/
def Program.firstDecl (p : Program) (c : ClassDecl) : Prop :=
  p.classes.find? (fun d => decide (d.name = c.name)) = some c

/-- The slot map agrees with the slot sequence: every mapped index is in range
and names its key, and every slot name is mapped. -/
def ClassLayout.Consistent (l : ClassLayout) : Prop :=
  (∀ n s, Table.find l.slotOf n = some s → l.methods[s]? = some n) ∧
  (∀ n, n ∈ l.methods → ∃ s, Table.find l.slotOf n = some s)

namespace CodeGen

/-- The layout the class with base `base` starts from, given the classes `done`
processed before it, the table `M` before the loop and the table `T` after it. -/
def StartOf (base : Option (List Char)) (done : List (List Char)) (M T : Table ClassInfo)
    (start : ClassLayout) : Prop :=
  match base with
  | none => start = {}
  | some b => ∃ bi, (if b ∈ done then Table.find T b else Table.find M b) = some bi ∧
      start = bi.layout

end CodeGen

/-- A method `attr name(): ret` whose body returns the expression `e`. -/
def methodOf (attr : MethodAttr) (name ret : String) (e : Expr) : MethodDecl :=
  { attr := attr, name := name.toList, returnType := { name := ret.toList },
    body := [.ReturnStmt (some e) {}] }

/-- The program `class A { virtual m(): String { return "x"; } }
function main(): Int { return 0; }`. -/
def exSingleVirtual : Program :=
  { classes := [{ name := "A".toList,
                  methods := [methodOf .Virtual "m" "String" (.StringExpr "x".toList {})] }],
    functions := [{ name := "main".toList, returnType := { name := "Int".toList },
                    body := [.ReturnStmt (some (.IntExpr 0 {})) {}] }] }

/-- The program `class A { virtual n(): Int { return 0; } }
class B extends A { virtual x(): Int { return 0; } virtual n(): Int { return 1; }
override n(): Int { return 2; } }`. -/
def exRedeclared : Program :=
  { classes := [{ name := "A".toList, methods := [methodOf .Virtual "n" "Int" (.IntExpr 0 {})] },
                { name := "B".toList, baseName := some "A".toList,
                  methods := [methodOf .Virtual "x" "Int" (.IntExpr 0 {}),
                              methodOf .Virtual "n" "Int" (.IntExpr 1 {}),
                              methodOf .Override "n" "Int" (.IntExpr 2 {})] }] }

/-- The program `class B { virtual m(): String { return "b"; } }
class A extends B { }`: the base is declared first and has the larger name. -/
def exBaseAfter : Program :=
  { classes := [{ name := "B".toList,
                  methods := [methodOf .Virtual "m" "String" (.StringExpr "b".toList {})] },
                { name := "A".toList, baseName := some "B".toList }] }

/-- The program `class A { virtual m(): Int { return 0; } virtual m(): Int { return 1; } }`. -/
def exTwice : Program :=
  { classes := [{ name := "A".toList,
                  methods := [methodOf .Virtual "m" "Int" (.IntExpr 0 {}),
                              methodOf .Virtual "m" "Int" (.IntExpr 1 {})] }] }

/-- The program `class A { virtual m(): Int { return 0; } override m(): Int { return 1; } }`. -/
def exOwnVirtual : Program :=
  { classes := [{ name := "A".toList,
                  methods := [methodOf .Virtual "m" "Int" (.IntExpr 0 {}),
                              methodOf .Override "m" "Int" (.IntExpr 1 {})] }] }

/-- The program `class A extends C { } class B { override m(): Int { return 0; } }`. -/
def exUnknownBaseFirst : Program :=
  { classes := [{ name := "A".toList, baseName := some "C".toList },
                { name := "B".toList, methods := [methodOf .Override "m" "Int" (.IntExpr 0 {})] }] }

/-- The program `class A { } class B extends C { }`. -/
def exUnknownBase : Program :=
  { classes := [{ name := "A".toList }, { name := "B".toList, baseName := some "C".toList }] }

/-- The program `class A { } class A extends Z { } function main(): Int { return 0; }`,
whose second declaration of `A` names the base `Z` that no class has. -/
def exDuplicateUnknownBase : Program :=
  { classes := [{ name := "A".toList }, { name := "A".toList, baseName := some "Z".toList }],
    functions := [{ name := "main".toList, returnType := { name := "Int".toList },
                    body := [.ReturnStmt (some (.IntExpr 0 {})) {}] }] }

/-- The program `class A { override m(): String { return "x"; } }`. -/
def exOverrideOnly : Program :=
  { classes := [{ name := "A".toList,
                  methods := [methodOf .Override "m" "String" (.StringExpr "x".toList {})] }] }

/-- The program `class A { virtual speak(): String { return "A"; } }
class B extends A { override speak(): String { return "B"; } }
function main(): Int { return 0; }`. -/
def exOverride : Program :=
  { classes := [{ name := "A".toList,
                  methods := [methodOf .Virtual "speak" "String" (.StringExpr "A".toList {})] },
                { name := "B".toList, baseName := some "A".toList,
                  methods := [methodOf .Override "speak" "String" (.StringExpr "B".toList {})] }],
    functions := [{ name := "main".toList, returnType := { name := "Int".toList },
                    body := [.ReturnStmt (some (.IntExpr 0 {})) {}] }] }

namespace CodeGen

/-- The classes from `name` up the base chain, when the walk ends within `fuel`
steps at a class without base. -/
def baseChain (classes : Table ClassInfo) : Nat → List Char → Option (List ClassInfo)
  | 0, _ => none
  | fuel + 1, name =>
    match Table.find classes name with
    | none => none
    | some info =>
      match info.base with
      | none => some [info]
      | some b => (baseChain classes fuel b).map (fun chain => info :: chain)

/-- The class table at the moment the second loop of `computeClassLayouts`
reaches the class `name`: the outcome of the loop over the classes before it. -/
def tableBefore (p : Program) (name : List Char) : Outcome (Table ClassInfo) :=
  layoutLoop ((Table.keys (recordClasses p.classes [])).takeWhile (fun k => decide (k ≠ name)))
    (recordClasses p.classes [])

/-- The layout the class declared by `c` starts from when the loop reaches it. -/
def startLayout (p : Program) (c : ClassDecl) : Outcome ClassLayout :=
  match tableBefore p c.name with
  | .ok M => inheritedLayout M (ClassInfo.ofDecl c)
  | .thrown e => .thrown e
  | .crashed => .crashed
  | .diverged => .diverged

/-- The layout the class declared by `c` has built when the loop over its
methods reaches the method at index `j`. -/
def layoutBefore (p : Program) (c : ClassDecl) (j : Nat) : Outcome ClassLayout :=
  match startLayout p c with
  | .ok inh => layoutMethods (c.methods.take j) inh
  | .thrown e => .thrown e
  | .crashed => .crashed
  | .diverged => .diverged

end CodeGen

/-- The program `class B { virtual m(): String { return "b"; } } class A extends B { }
function main(): Int { var x: B = new A(); print(x.m()); return 0; }`. -/
def exDispatchBaseAfter : Program :=
  { classes := exBaseAfter.classes,
    functions := [{ name := "main".toList, returnType := { name := "Int".toList },
                    body := [.VarDeclStmt "x".toList { name := "B".toList }
                               (some (.NewExpr "A".toList {})) {},
                             .PrintStmt (some (.MethodCallExpr (.VarExpr "x".toList {})
                               "m".toList {})) {},
                             .ReturnStmt (some (.IntExpr 0 {})) {}] }] }

/-- The program `class A { virtual m(): String { return "a"; } }
class B extends A { m(): String { return "b"; } } function main(): Int { return 0; }`:
the method `m` of `B` is plain. -/
def exPlainInDerived : Program :=
  { classes := [{ name := "A".toList,
                  methods := [methodOf .Virtual "m" "String" (.StringExpr "a".toList {})] },
                { name := "B".toList, baseName := some "A".toList,
                  methods := [methodOf .None "m" "String" (.StringExpr "b".toList {})] }],
    functions := [{ name := "main".toList, returnType := { name := "Int".toList },
                    body := [.ReturnStmt (some (.IntExpr 0 {})) {}] }] }

/-- The initializer elements of the global variable called `name`; none for an
`undef` initializer. -/
def Module.vtableSlots (m : Module) (name : List Char) : Option (List Value) :=
  match m.globals.find? (fun g => decide (g.name = name)) with
  | none => none
  | some g =>
    match g.initializer with
    | .undef _ => some []
    | .struct _ elems => some elems

namespace CodeGen

/-- What lowering a body leaves alone: the class table, the global variables
and the struct types. -/
def Keeps (cg cg1 : CodeGen) : Prop :=
  cg1.classes_ = cg.classes_ ∧ cg1.module_.globals = cg.module_.globals ∧
    cg1.module_.structs = cg.module_.structs

end CodeGen

/-- Is the instruction a `ret`. -/
def Instr.isRet : Instr → Bool
  | .ret _ => true
  | _ => false

/-- Is the statement a `return`. -/
def Stmt.isReturn : Stmt → Bool
  | .ReturnStmt _ _ => true
  | _ => false

/-- No instruction of the list is a `ret`. -/
def NoRet (l : List Instr) : Prop := ∀ i ∈ l, i.isRet = false

namespace CodeGen

/-- What a successful `codegenExpr` does to the state: instructions other than
`ret` are appended to the block, string constants are added to the module. -/
def Extends (cg cg1 : CodeGen) : Prop :=
  Keeps cg cg1 ∧ cg1.insertFn = cg.insertFn ∧ cg1.module_.functions = cg.module_.functions ∧
    cg1.module_.lastUnique = cg.module_.lastUnique ∧
    ∃ ext, cg1.block = cg.block ++ ext ∧ NoRet ext

/-- The value of the default return for a declared return type. -/
def defaultValue (retTypeName : List Char) : Value :=
  if retTypeName = "Int".toList then .constInt tyI32 0 else .undef tyI8Ptr

end CodeGen

/-- What the layout pass fixes for a class: its declaration, name, base and
layout. -/
def ClassInfo.decl (i : ClassInfo) : ClassDecl × List Char × Option (List Char) × ClassLayout :=
  (i.ast, i.name, i.base, i.layout)

namespace Table

/-- The two tables have the same keys with values that agree under `g`. -/
def AgreeOn {V W : Type} (g : V → W) (t t1 : Table V) : Prop :=
  ∀ k, (find t k).map g = (find t1 k).map g

end Table

namespace CodeGen

/-- The table `t1` holds the same classes as `t` with the same declaration, name,
base and layout. -/
def SameDecls (t t1 : Table ClassInfo) : Prop := Table.AgreeOn ClassInfo.decl t t1

/-- The body was lowered with success in a state whose class table holds the
classes of `t` with their declarations and layouts. -/
def Lowered (t : Table ClassInfo) (body : List Stmt) (ret : List Char) : Prop :=
  ∃ cgb fn cgb1, SameDecls t cgb.classes_ ∧ defineBody cgb fn body ret = .ok cgb1

/-- The two states have the same classes with the same base and the same table
of methods: all that `implementationFor` reads. -/
def SameImpls (cg cg1 : CodeGen) : Prop :=
  cg1.classes_.length = cg.classes_.length ∧
    Table.AgreeOn (fun i : ClassInfo => (i.base, i.methods)) cg.classes_ cg1.classes_

/-- The initializer `defineVTables` builds from the elements. -/
def vtableInit (vtableTy : Ty) (elems : List Value) : Initializer :=
  if elems.isEmpty then .undef vtableTy else .struct vtableTy elems

/-- The vtable global variable of a class: a constant of the vtable type of the
class whose initializer holds the elements that `vtableElems` computes in the
state `cg`. -/
def HasVTable (cg : CodeGen) (m : Module) (k : List Char) (info info1 : ClassInfo) : Prop :=
  ∃ elems vt g, vtableElems cg k info.layout.methods = .ok elems ∧ info.vtableTy = some vt ∧
    info1.vtableGlobal = some g.name ∧ g ∈ m.globals ∧ g.valueType = vt ∧ g.isConstant = true ∧
    g.initializer = vtableInit vt elems

/-- The method-name domain of the table of methods of a class is the set of
names of the methods it declares. -/
def MethodsRecorded (info : ClassInfo) : Prop :=
  ∀ n, (Table.find info.methods n).isSome = info.ast.methods.any (fun m => decide (m.name = n))

/-- The first class, walking from `c` up the base chain for at most `fuel`
steps, whose declaration has a method called `n`. -/
def firstDeclaring (classes : Table ClassInfo) : Nat → ClassInfo → List Char → Option ClassInfo
  | 0, _, _ => none
  | fuel + 1, c, n =>
    if c.ast.methods.any (fun m => decide (m.name = n)) then some c
    else
      match c.base with
      | none => none
      | some b =>
        match Table.find classes b with
        | none => none
        | some bi => firstDeclaring classes fuel bi n

end CodeGen

/-- The program `function main(): String { print("x"); }`, whose body has no
`return` statement. -/
def exNoReturn : Program :=
  { functions := [{ name := "main".toList, returnType := { name := "String".toList },
                    body := [.PrintStmt (some (.StringExpr "x".toList {})) {}] }] }

/-- A lowering state in the body of a function: the class `A` with the slot
`f` at index 0 and its two struct types, and the `alloca` of a variable. -/
def exCallState : CodeGen :=
  { classes_ := [("A".toList,
      { name := "A".toList, layout := { methods := ["f".toList], slotOf := [("f".toList, 0)] },
        classTy := some (.struct "class.A".toList), vtableTy := some (.struct "vtable.A".toList) })],
    block := [.alloca (.ptr tyI8Ptr) "x.addr".toList] }

/-- The scope that binds `x` to the `alloca` at index 0 with static type `A`. -/
def exCallScope : Table ScopeVar :=
  [("x".toList, { allocaPtr := .inst 0, typeName := "A".toList })]

/-- The operand expression of a statement. -/
def Stmt.operand : Stmt → Option Expr
  | .ReturnStmt v _ => v
  | .PrintStmt v _ => v
  | .VarDeclStmt _ _ init _ => init

/-- The type name of the first `var` declaration of `x` among the statements. -/
def declaredType : List Stmt → List Char → Option (List Char)
  | [], _ => none
  | .VarDeclStmt n ty _ _ :: rest, x => if n = x then some ty.name else declaredType rest x
  | .ReturnStmt _ _ :: rest, x => declaredType rest x
  | .PrintStmt _ _ :: rest, x => declaredType rest x

/-- The static type of `x` after the statements `pre` have been lowered from the
scope `scope`. -/
def scopeType (scope : Table ScopeVar) (pre : List Stmt) (x : List Char) : Option (List Char) :=
  match Table.find scope x with
  | some sv => some sv.typeName
  | none => declaredType pre x

/-- The expression holds a reference that does not resolve, `tyOf` giving the
static type of the bound variables: a `new` of a class that is not in the table,
a variable that is not bound, a call on a receiver that is not bound, whose
static type is not a class of the table, or whose class has no slot of the
method name. -/
def Unresolved (classes : Table ClassInfo) (tyOf : List Char → Option (List Char)) :
    Option Expr → Prop
  | some (.NewExpr c _) => Table.find classes c = none
  | some (.VarExpr x _) => tyOf x = none
  | some (.MethodCallExpr (.VarExpr x _) m _) =>
    match tyOf x with
    | none => True
    | some T =>
      match Table.find classes T with
      | none => True
      | some ti => Table.find ti.layout.slotOf m = none
  | _ => False

namespace CodeGen

/-- The bodies that the passes lower: the bodies of the free functions and of
the methods of the classes of the table. -/
def IsBody (p : Program) (classes : Table ClassInfo) (body : List Stmt) : Prop :=
  (∃ f ∈ p.functions, f.body = body) ∨
  (∃ k info, Table.find classes k = some info ∧ ∃ md ∈ info.ast.methods, md.body = body)

end CodeGen

/-- The program `class A { virtual f(): String { return "a"; } }
function main(): Int { var v: A = new A(); print(v.g()); return 0; }`. -/
def exNoSlot : Program :=
  { classes := [{ name := "A".toList,
                  methods := [methodOf .Virtual "f" "String" (.StringExpr "a".toList {})] }],
    functions := [{ name := "main".toList, returnType := { name := "Int".toList },
                    body := [.VarDeclStmt "v".toList { name := "A".toList }
                               (some (.NewExpr "A".toList {})) {},
                             .PrintStmt (some (.MethodCallExpr (.VarExpr "v".toList {})
                               "g".toList {})) {},
                             .ReturnStmt (some (.IntExpr 0 {})) {}] }] }

/-- The program `function main(): Int { return 0; print(x.m()); }`. -/
def exAfterReturn : Program :=
  { functions := [{ name := "main".toList, returnType := { name := "Int".toList },
                    body := [.ReturnStmt (some (.IntExpr 0 {})) {},
                             .PrintStmt (some (.MethodCallExpr (.VarExpr "x".toList {})
                               "m".toList {})) {}] }] }

/-- The program `class A { } function main(): Int { var x: Foo = new A(); return 0; }`. -/
def exUnknownType : Program :=
  { classes := [{ name := "A".toList }],
    functions := [{ name := "main".toList, returnType := { name := "Int".toList },
                    body := [.VarDeclStmt "x".toList { name := "Foo".toList }
                               (some (.NewExpr "A".toList {})) {},
                             .ReturnStmt (some (.IntExpr 0 {})) {}] }] }

/-- The program `function main(): Int { var x: A = new A(); return 0; }`, in
which no class is declared. -/
def exUnknownClass : Program :=
  { functions := [{ name := "main".toList, returnType := { name := "Int".toList },
                    body := [.VarDeclStmt "x".toList { name := "A".toList }
                               (some (.NewExpr "A".toList {})) {},
                             .ReturnStmt (some (.IntExpr 0 {})) {}] }] }

/-- The program `class A { virtual f(): Int { return 1; } }
class B { virtual g(): Int { return 2; } }
function main(): Int { var v: A = new A(); var v: B = new B(); return v.g(); }`. -/
def exTwoVars : Program :=
  { classes := [{ name := "A".toList, methods := [methodOf .Virtual "f" "Int" (.IntExpr 1 {})] },
                { name := "B".toList, methods := [methodOf .Virtual "g" "Int" (.IntExpr 2 {})] }],
    functions := [{ name := "main".toList, returnType := { name := "Int".toList },
                    body := [.VarDeclStmt "v".toList { name := "A".toList }
                               (some (.NewExpr "A".toList {})) {},
                             .VarDeclStmt "v".toList { name := "B".toList }
                               (some (.NewExpr "B".toList {})) {},
                             .ReturnStmt (some (.MethodCallExpr (.VarExpr "v".toList {})
                               "g".toList {})) {}] }] }

/-- The program `class A { virtual f(): Int { return 1; } }
function main(): Int { var v: A = new A(); var v: A = new A(); return v.f(); }`. -/
def exTwoVarsSameType : Program :=
  { classes := [{ name := "A".toList, methods := [methodOf .Virtual "f" "Int" (.IntExpr 1 {})] }],
    functions := [{ name := "main".toList, returnType := { name := "Int".toList },
                    body := [.VarDeclStmt "v".toList { name := "A".toList }
                               (some (.NewExpr "A".toList {})) {},
                             .VarDeclStmt "v".toList { name := "A".toList }
                               (some (.NewExpr "A".toList {})) {},
                             .ReturnStmt (some (.MethodCallExpr (.VarExpr "v".toList {})
                               "f".toList {})) {}] }] }

end

/-! ## Auxiliary definitions for rendering, value shapes and token segments -/

/-- The rendering of a string value as a literal body: a backslash before each
double quote and each backslash, every other character as it is. -/
def specEscapeString (s : List Char) : List Char :=
  s.flatMap (fun c => if c = DQUOTE ∨ c = BSLASH then [BSLASH, c] else [c])

/-- The rendering of an expression to concrete syntax: a string value in double
quotes and escaped, an integer value in decimal, an identifier as it is. -/
def specRenderExpr : Expr → List Char
  | .StringExpr v _ => DQUOTE :: specEscapeString v ++ [DQUOTE]
  | .IntExpr v _ => (if v < 0 then ['-'] else []) ++ (Nat.repr v.natAbs).toList
  | .VarExpr n _ => n
  | .NewExpr c _ => "new ".toList ++ c ++ "()".toList
  | .MethodCallExpr r m _ => specRenderExpr r ++ '.' :: m ++ "()".toList

/-- The rendering of an operand; a null operand has no concrete syntax. -/
def specRenderOperand (e : Option Expr) : List Char :=
  match e with
  | some x => specRenderExpr x
  | none => []

/-- The rendering of a statement. -/
def specRenderStmt : Stmt → List Char
  | .ReturnStmt v _ => "return ".toList ++ specRenderOperand v ++ ";".toList
  | .PrintStmt v _ => "print(".toList ++ specRenderOperand v ++ ");".toList
  | .VarDeclStmt n ty init _ =>
    "var ".toList ++ n ++ ": ".toList ++ ty.name ++ " = ".toList ++ specRenderOperand init ++
      ";".toList

/-- The rendering of a body: the statements between braces. -/
def specRenderBody (b : List Stmt) : List Char :=
  "\x7b ".toList ++ (b.map (fun s => specRenderStmt s ++ [' '])).flatten ++ "\x7d".toList

/-- The rendering of a method. -/
def specRenderMethod (m : MethodDecl) : List Char :=
  (match m.attr with
   | .None => []
   | .Virtual => "virtual ".toList
   | .Override => "override ".toList) ++
  m.name ++ "(): ".toList ++ m.returnType.name ++ [' '] ++ specRenderBody m.body

/-- The rendering of a class. -/
def specRenderClass (c : ClassDecl) : List Char :=
  "class ".toList ++ c.name ++
  (match c.baseName with
   | none => []
   | some b => " extends ".toList ++ b) ++
  " \x7b ".toList ++ (c.methods.map (fun m => specRenderMethod m ++ [' '])).flatten ++ "\x7d".toList

/-- The rendering of a free function. -/
def specRenderFunction (f : FunctionDecl) : List Char :=
  "function ".toList ++ f.name ++ "(): ".toList ++ f.returnType.name ++ [' '] ++
    specRenderBody f.body

/-- The rendering of a program to concrete syntax: the classes, then the
functions. -/
def specRender (p : Program) : List Char :=
  (p.classes.map (fun c => specRenderClass c ++ [' '])).flatten ++
  (p.functions.map (fun f => specRenderFunction f ++ [' '])).flatten

/-- The source text `function f(): T { return "\N"; }` where `N` stands for a
NUL byte: the string literal holds a backslash followed by a NUL byte. -/
def exNulSource : List Char :=
  "function f(): T \x7b return ".toList ++ [DQUOTE, BSLASH, NUL, DQUOTE] ++ "; \x7d".toList

/-- The receiver of a method call is a variable reference. -/
def Expr.wellShaped : Expr → Bool
  | .MethodCallExpr (.VarExpr _ _) _ _ => true
  | .MethodCallExpr _ _ _ => false
  | _ => true

/-- The initializer of a `var` declaration is a `new` expression; the operand of
`print` and `return` is not null, and a method call in it has a variable
reference as receiver. -/
def Stmt.wellShaped : Stmt → Bool
  | .VarDeclStmt _ _ (some (.NewExpr _ _)) _ => true
  | .VarDeclStmt _ _ _ _ => false
  | .PrintStmt (some e) _ => e.wellShaped
  | .PrintStmt none _ => false
  | .ReturnStmt (some e) _ => e.wellShaped
  | .ReturnStmt none _ => false

/-- Every statement of every method and function body is well shaped. -/
def Program.wellShaped (p : Program) : Bool :=
  p.classes.all (fun c => c.methods.all (fun m => m.body.all Stmt.wellShaped)) &&
  p.functions.all (fun f => f.body.all Stmt.wellShaped)

namespace Parser

/-- Every value that the action returns satisfies `T`. -/
def Yields {α : Type} (m : PM α) (T : α → Prop) : Prop := ∀ P a P2, m P = .ok a P2 → T a

end Parser

/-- The segment holds no `var` keyword. -/
def NoVar (seg : List Token) : Prop := ∀ t ∈ seg, t.kind ≠ .KwVar

/-- The kinds of the tokens of a `var` declaration after the keyword:
`Ident : Ident = new Ident ( ) ;`. -/
def varTail : List TokenKind :=
  [.Identifier, .Colon, .Identifier, .Assign, .KwNew, .Identifier, .LParen, .RParen, .Semicolon]

/-- Every `var` keyword of the list is followed by nine tokens of the kinds
`varTail`. -/
def VarOk (seg : List Token) : Prop :=
  ∀ a t b, seg = a ++ t :: b → t.kind = .KwVar → (b.take 9).map (fun x => x.kind) = varTail

/-- The `loc` of a statement. -/
def Stmt.loc : Stmt → SourceRange
  | .ReturnStmt _ l => l
  | .PrintStmt _ l => l
  | .VarDeclStmt _ _ _ l => l

/-- The kind of the keyword that a statement starts with. -/
def Stmt.leading : Stmt → TokenKind
  | .ReturnStmt _ _ => .KwReturn
  | .PrintStmt _ _ => .KwPrint
  | .VarDeclStmt _ _ _ _ => .KwVar

/-- The tokens `seg` of the statement `s`: the leading keyword `first`, tokens
`mid`, the semicolon `last`; the `loc` of the statement runs from the start of the
keyword to the end of the semicolon; after `var` come the nine tokens of a
declaration, and no other statement holds a `var` keyword. -/
def StmtSeg (s : Stmt) (seg : List Token) : Prop :=
  ∃ first mid last, seg = first :: (mid ++ [last]) ∧ first.kind = s.leading ∧
    last.kind = .Semicolon ∧ s.loc = { start := first.range.start, end_ := last.range.end_ } ∧
    (first.kind = .KwVar → (mid ++ [last]).map (fun x => x.kind) = varTail) ∧
    (first.kind ≠ .KwVar → NoVar mid)

/-- The tokens of a body: those of its statements, one after the other. -/
def BodySeg (body : List Stmt) (seg : List Token) : Prop :=
  ∃ segs, seg = segs.flatten ∧ List.Forall₂ StmtSeg body segs

/-- The kind of the first token of a method: the attribute keyword when there is
one, the name otherwise. -/
def MethodDecl.leading (m : MethodDecl) : TokenKind :=
  match m.attr with
  | .Virtual => .KwVirtual
  | .Override => .KwOverride
  | .None => .Identifier

/-- The tokens `seg` of the method `m`: a header `hdr` whose first token is
`first`, the tokens of the body, the closing brace `last`; the `loc` of the method
runs from the start of `first` to the end of the closing brace. -/
def MethodSeg (m : MethodDecl) (seg : List Token) : Prop :=
  ∃ first hdr body last, seg = hdr ++ body ++ [last] ∧ hdr.head? = some first ∧ NoVar hdr ∧
    first.kind = m.leading ∧ (m.attr = .None → first.text = m.name) ∧ last.kind = .RBrace ∧
    m.loc = { start := first.range.start, end_ := last.range.end_ } ∧ BodySeg m.body body

/-- The tokens `seg` of the function `f`: the keyword `function`, the rest of
the header, the tokens of the body, the closing brace `last`; the `loc` of the
function runs from the start of the keyword to the end of the closing brace. -/
def FunctionSeg (f : FunctionDecl) (seg : List Token) : Prop :=
  ∃ first hdr body last, seg = first :: (hdr ++ body ++ [last]) ∧ first.kind = .KwFunction ∧
    NoVar hdr ∧ last.kind = .RBrace ∧
    f.loc = { start := first.range.start, end_ := last.range.end_ } ∧ BodySeg f.body body

/-- The tokens `seg` of the class `c`: the keyword `class`, the rest of the
header, the tokens of its methods one after the other, the closing brace `last`;
the `loc` of the class runs from the start of the keyword to the end of the
closing brace. -/
def ClassSeg (c : ClassDecl) (seg : List Token) : Prop :=
  ∃ first hdr msegs last, seg = first :: (hdr ++ msegs.flatten ++ [last]) ∧
    first.kind = .KwClass ∧ NoVar hdr ∧ last.kind = .RBrace ∧
    c.loc = { start := first.range.start, end_ := last.range.end_ } ∧
    List.Forall₂ MethodSeg c.methods msegs

namespace Parser

/-- The action passes no `var` keyword. -/
def EatsNV {α : Type} (m : PM α) : Prop := Eats m (fun _ _ seg => NoVar seg)

end Parser

/-- The tokens of a method attribute: one keyword, or nothing. -/
def AttrSeg (a : MethodAttr) (seg : List Token) : Prop :=
  (a = .Virtual ∧ ∃ t, seg = [t] ∧ t.kind = .KwVirtual) ∨
  (a = .Override ∧ ∃ t, seg = [t] ∧ t.kind = .KwOverride) ∨
  (a = .None ∧ seg = [])

/-- The tokens of the source text
`class A { virtual m(): T { var x: A = new A(); return x.m(); } }`. -/
def exClassTokens : List Token :=
  [⟨.KwClass, "class".toList, ⟨⟨1, 1⟩, ⟨1, 6⟩⟩⟩,
   ⟨.Identifier, "A".toList, ⟨⟨1, 7⟩, ⟨1, 8⟩⟩⟩,
   ⟨.LBrace, "\x7b".toList, ⟨⟨1, 9⟩, ⟨1, 10⟩⟩⟩,
   ⟨.KwVirtual, "virtual".toList, ⟨⟨1, 11⟩, ⟨1, 18⟩⟩⟩,
   ⟨.Identifier, "m".toList, ⟨⟨1, 19⟩, ⟨1, 20⟩⟩⟩,
   ⟨.LParen, "(".toList, ⟨⟨1, 20⟩, ⟨1, 21⟩⟩⟩,
   ⟨.RParen, ")".toList, ⟨⟨1, 21⟩, ⟨1, 22⟩⟩⟩,
   ⟨.Colon, ":".toList, ⟨⟨1, 22⟩, ⟨1, 23⟩⟩⟩,
   ⟨.Identifier, "T".toList, ⟨⟨1, 24⟩, ⟨1, 25⟩⟩⟩,
   ⟨.LBrace, "\x7b".toList, ⟨⟨1, 26⟩, ⟨1, 27⟩⟩⟩,
   ⟨.KwVar, "var".toList, ⟨⟨1, 28⟩, ⟨1, 31⟩⟩⟩,
   ⟨.Identifier, "x".toList, ⟨⟨1, 32⟩, ⟨1, 33⟩⟩⟩,
   ⟨.Colon, ":".toList, ⟨⟨1, 33⟩, ⟨1, 34⟩⟩⟩,
   ⟨.Identifier, "A".toList, ⟨⟨1, 35⟩, ⟨1, 36⟩⟩⟩,
   ⟨.Assign, "=".toList, ⟨⟨1, 37⟩, ⟨1, 38⟩⟩⟩,
   ⟨.KwNew, "new".toList, ⟨⟨1, 39⟩, ⟨1, 42⟩⟩⟩,
   ⟨.Identifier, "A".toList, ⟨⟨1, 43⟩, ⟨1, 44⟩⟩⟩,
   ⟨.LParen, "(".toList, ⟨⟨1, 44⟩, ⟨1, 45⟩⟩⟩,
   ⟨.RParen, ")".toList, ⟨⟨1, 45⟩, ⟨1, 46⟩⟩⟩,
   ⟨.Semicolon, ";".toList, ⟨⟨1, 46⟩, ⟨1, 47⟩⟩⟩,
   ⟨.KwReturn, "return".toList, ⟨⟨1, 48⟩, ⟨1, 54⟩⟩⟩,
   ⟨.Identifier, "x".toList, ⟨⟨1, 55⟩, ⟨1, 56⟩⟩⟩,
   ⟨.Dot, ".".toList, ⟨⟨1, 56⟩, ⟨1, 57⟩⟩⟩,
   ⟨.Identifier, "m".toList, ⟨⟨1, 57⟩, ⟨1, 58⟩⟩⟩,
   ⟨.LParen, "(".toList, ⟨⟨1, 58⟩, ⟨1, 59⟩⟩⟩,
   ⟨.RParen, ")".toList, ⟨⟨1, 59⟩, ⟨1, 60⟩⟩⟩,
   ⟨.Semicolon, ";".toList, ⟨⟨1, 60⟩, ⟨1, 61⟩⟩⟩,
   ⟨.RBrace, "\x7d".toList, ⟨⟨1, 62⟩, ⟨1, 63⟩⟩⟩,
   ⟨.RBrace, "\x7d".toList, ⟨⟨1, 64⟩, ⟨1, 65⟩⟩⟩,
   ⟨.Eof, [], ⟨⟨1, 65⟩, ⟨1, 65⟩⟩⟩]

/-- The tokens of the source text `function f(): T { var x: A = y; }`. -/
def exBadVarTokens : List Token :=
  [⟨.KwFunction, "function".toList, ⟨⟨1, 1⟩, ⟨1, 9⟩⟩⟩,
   ⟨.Identifier, "f".toList, ⟨⟨1, 10⟩, ⟨1, 11⟩⟩⟩,
   ⟨.LParen, "(".toList, ⟨⟨1, 11⟩, ⟨1, 12⟩⟩⟩,
   ⟨.RParen, ")".toList, ⟨⟨1, 12⟩, ⟨1, 13⟩⟩⟩,
   ⟨.Colon, ":".toList, ⟨⟨1, 13⟩, ⟨1, 14⟩⟩⟩,
   ⟨.Identifier, "T".toList, ⟨⟨1, 15⟩, ⟨1, 16⟩⟩⟩,
   ⟨.LBrace, "\x7b".toList, ⟨⟨1, 17⟩, ⟨1, 18⟩⟩⟩,
   ⟨.KwVar, "var".toList, ⟨⟨1, 19⟩, ⟨1, 22⟩⟩⟩,
   ⟨.Identifier, "x".toList, ⟨⟨1, 23⟩, ⟨1, 24⟩⟩⟩,
   ⟨.Colon, ":".toList, ⟨⟨1, 24⟩, ⟨1, 25⟩⟩⟩,
   ⟨.Identifier, "A".toList, ⟨⟨1, 26⟩, ⟨1, 27⟩⟩⟩,
   ⟨.Assign, "=".toList, ⟨⟨1, 28⟩, ⟨1, 29⟩⟩⟩,
   ⟨.Identifier, "y".toList, ⟨⟨1, 30⟩, ⟨1, 31⟩⟩⟩,
   ⟨.Semicolon, ";".toList, ⟨⟨1, 31⟩, ⟨1, 32⟩⟩⟩,
   ⟨.RBrace, "\x7d".toList, ⟨⟨1, 33⟩, ⟨1, 34⟩⟩⟩,
   ⟨.Eof, [], ⟨⟨1, 34⟩, ⟨1, 34⟩⟩⟩]

/-! ## Auxiliary definitions for layouts, calls and unhandled nodes -/

section
open CodeGen

/-- The program `class A { virtual m(): String { return "a"; } }
class A extends Z { override q(): String { return "b"; } }
function main(): Int { return 0; }`, which declares the class `A` twice. -/
def exDuplicate : Program :=
  { classes := [{ name := "A".toList,
                  methods := [methodOf .Virtual "m" "String" (.StringExpr "a".toList {})] },
                { name := "A".toList, baseName := some "Z".toList,
                  methods := [methodOf .Override "q" "String" (.StringExpr "b".toList {})] }],
    functions := [{ name := "main".toList, returnType := { name := "Int".toList },
                    body := [.ReturnStmt (some (.IntExpr 0 {})) {}] }] }

/-- The program `class A extends B { virtual m(): String { return "a"; } }
class B extends A { }`, whose `extends` relation is cyclic. -/
def exCyclic : Program :=
  { classes := [{ name := "A".toList, baseName := some "B".toList,
                  methods := [methodOf .Virtual "m" "String" (.StringExpr "a".toList {})] },
                { name := "B".toList, baseName := some "A".toList }] }

namespace CodeGen

/-- Every slot name of a class is the name of a method the class declares or a
slot name of its base, which has a smaller name. -/
def SlotsGrounded (cg : CodeGen) : Prop :=
  ∀ k info, Table.find cg.classes_ k = some info →
    MethodsRecorded info ∧
    ∀ n ∈ info.layout.methods,
      info.ast.methods.any (fun m => decide (m.name = n)) = true ∨
      ∃ b bi, info.base = some b ∧ strLt b k = true ∧ Table.find cg.classes_ b = some bi ∧
        n ∈ bi.layout.methods

/-- The seven instructions of a virtual call `recv.m()` whose function type has
the return type `retTy`, appended to a block of `n` instructions. -/
def callSequence (n : Nat) (sv : ScopeVar) (recv m : List Char) (classTy vtableTy : Ty)
    (slot : Nat) (retTy : Ty) : List Instr :=
  [.load tyI8Ptr sv.allocaPtr (recv ++ ".val".toList),
   .structGEP classTy (.inst n) 0 (sv.typeName ++ ".vptr.addr".toList),
   .load (.ptr vtableTy) (.inst (n + 1)) (sv.typeName ++ ".vptr".toList),
   .structGEP vtableTy (.inst (n + 2)) slot (m ++ ".slot.addr".toList),
   .load tyI8Ptr (.inst (n + 3)) (m ++ ".slot".toList),
   .pointerCast (.inst (n + 4)) (.ptr (.func retTy [.ptr classTy])) (m ++ ".fn".toList),
   .call (.func retTy [.ptr classTy]) (.inst (n + 5)) [.inst n] (m ++ ".call".toList)]

end CodeGen

/-- The exception is one of the three that CodeGen throws for a node of the AST
it has no case for. -/
def Exn.Unhandled (e : Exn) : Prop :=
  e = .runtime_error "Unsupported method receiver expression" ∨
  e = .runtime_error "Unhandled expression node" ∨
  e = .runtime_error "Unhandled statement node"

/-- The outcome is not one of the three exceptions for an unhandled node. -/
def Outcome.Handled {α : Type} (o : Outcome α) : Prop := ∀ e, o = .thrown e → ¬ e.Unhandled

/-- Every statement of every method of every class of the table is well
shaped. -/
def AstsShaped (t : Table ClassInfo) : Prop :=
  ∀ k info, Table.find t k = some info → ∀ m ∈ info.ast.methods, ∀ s ∈ m.body,
    s.wellShaped = true

end

/-! ## Auxiliary definitions for number literals and source snippets -/

/-- The value of a sequence of decimal digits, least significant digit first. -/
def specDigitsValue : List Nat → Nat
  | [] => 0
  | d :: rest => d + 10 * specDigitsValue rest

/-- The decimal value of a run of ASCII digits. -/
def specDecimalValue (s : List Char) : Nat :=
  specDigitsValue (s.reverse.map (fun c => c.toNat - 48))

/-- The tokens of `function f(): Int { return 2147483648; }`. -/
def exBigNumberTokens : List Token :=
  [⟨.KwFunction, "function".toList, ⟨⟨1, 1⟩, ⟨1, 9⟩⟩⟩,
   ⟨.Identifier, "f".toList, ⟨⟨1, 10⟩, ⟨1, 11⟩⟩⟩,
   ⟨.LParen, "(".toList, ⟨⟨1, 11⟩, ⟨1, 12⟩⟩⟩,
   ⟨.RParen, ")".toList, ⟨⟨1, 12⟩, ⟨1, 13⟩⟩⟩,
   ⟨.Colon, ":".toList, ⟨⟨1, 13⟩, ⟨1, 14⟩⟩⟩,
   ⟨.Identifier, "Int".toList, ⟨⟨1, 15⟩, ⟨1, 18⟩⟩⟩,
   ⟨.LBrace, "\x7b".toList, ⟨⟨1, 19⟩, ⟨1, 20⟩⟩⟩,
   ⟨.KwReturn, "return".toList, ⟨⟨1, 21⟩, ⟨1, 27⟩⟩⟩,
   ⟨.Number, "2147483648".toList, ⟨⟨1, 28⟩, ⟨1, 38⟩⟩⟩,
   ⟨.Semicolon, ";".toList, ⟨⟨1, 38⟩, ⟨1, 39⟩⟩⟩,
   ⟨.RBrace, "\x7d".toList, ⟨⟨1, 40⟩, ⟨1, 41⟩⟩⟩,
   ⟨.Eof, [], ⟨⟨1, 41⟩, ⟨1, 41⟩⟩⟩]

/-- A parser with the cursor on the number `0042`, the operand of `return`. -/
def exNumberParser : Parser :=
  { tokens := [⟨.KwReturn, "return".toList, ⟨⟨1, 1⟩, ⟨1, 7⟩⟩⟩,
               ⟨.Number, "0042".toList, ⟨⟨1, 8⟩, ⟨1, 12⟩⟩⟩,
               ⟨.Semicolon, ";".toList, ⟨⟨1, 12⟩, ⟨1, 13⟩⟩⟩,
               ⟨.Eof, [], ⟨⟨1, 13⟩, ⟨1, 13⟩⟩⟩],
    pos := 1 }

/-- The members of `class CodeGen` that hold the source text for diagnostics;
`setSource` writes them and `srcSnippet` reads `sourceLines_`.  No other member
function of the model reads them. -/
structure SourceInfo where
  sourceFilename_ : List Char := []
  sourceText_ : List Char := []
  sourceLines_ : List (List Char) := []
deriving DecidableEq

/-- The loop `while (std::getline(iss, cur))` over the rest of the stream, `cur`
being the characters of the current line read so far: a line ends at `'\n'`,
which is not stored; at the end of the stream a line is delivered only if a
character was read for it. -/
def getlines : List Char → List Char → List (List Char)
  | [], cur => if cur = [] then [] else [cur]
  | c :: rest, cur => if c = '\n' then cur :: getlines rest [] else getlines rest (cur ++ [c])

/-- The statement `if (!cur.empty() && cur.back() == '\r') cur.pop_back();`. -/
def dropCarriageReturn (cur : List Char) : List Char :=
  if cur ≠ [] ∧ cur.getLast? = some '\r' then cur.dropLast else cur

/-- `setSource(sourceText, filename)`. -/
def setSource (sourceText filename : List Char) : SourceInfo :=
  { sourceFilename_ := filename, sourceText_ := sourceText,
    sourceLines_ := (getlines sourceText []).map dropCarriageReturn }

/-- `srcSnippet(rng)`.  (Line and column are `int` in the source and natural
numbers here, as in `SourcePos`: a value below 1 is 0.) -/
def srcSnippet (si : SourceInfo) (rng : SourceRange) : List Char :=
  if rng.start.line ≤ 0 ∨ rng.start.line > si.sourceLines_.length then []
  else
    let line := si.sourceLines_.getD (rng.start.line - 1) []
    let startCol := if rng.start.column > 0 then rng.start.column - 1 else 0
    if startCol ≥ line.length then line
    else
      let s := line.drop startCol
      let s := if s.length > 80 then s.take 80 else s
      s.map (fun c => if c = '\t' then ' ' else c)

/-- The snippet in the words of the specification: empty when the start line is
outside the source, otherwise the part of that line starting at the start
column, truncated to 80 characters, tabs replaced by spaces. -/
def specSnippet (lines : List (List Char)) (rng : SourceRange) : List Char :=
  if rng.start.line = 0 ∨ lines.length < rng.start.line then []
  else
    (((lines.getD (rng.start.line - 1) []).drop (rng.start.column - 1)).take 80).map
      (fun c => if c = '\t' then ' ' else c)

/-- The text made of the lines, each one ended by a newline. -/
def specJoinLines (lines : List (List Char)) : List Char :=
  (lines.map (fun l => l ++ ['\n'])).flatten

/-! ## Auxiliary definitions for the symbols of the module -/

section
open CodeGen

/-- The program `function puts(): Int { return 0; }`. -/
def exPutsFunction : Program :=
  { functions := [{ name := "puts".toList, returnType := { name := "Int".toList },
                    body := [.ReturnStmt (some (.IntExpr 0 {})) {}] }] }

/-- The program `class X { } class vtable { X(): Int { return 0; } }`. -/
def exVtableClass : Program :=
  { classes := [{ name := "X".toList },
                { name := "vtable".toList,
                  methods := [methodOf .None "X" "Int" (.IntExpr 0 {})] }] }

/-- A program with the class `A { m(): Int { return 0; } }` and a free function
whose name is the character sequence `A.m`, which is not an identifier. -/
def exDottedFunction : Program :=
  { classes := [{ name := "A".toList, methods := [methodOf .None "m" "Int" (.IntExpr 0 {})] }],
    functions := [{ name := "A.m".toList, returnType := { name := "Int".toList },
                    body := [.ReturnStmt (some (.IntExpr 0 {})) {}] }] }

/-- The function type of `puts`: `i32 (i8*)`. -/
def putsTy : Ty := .func tyI32 [tyI8Ptr]

/-- The function type has exactly one parameter, a pointer. -/
def Ty.onePointerParam : Ty → Bool
  | .func _ [.ptr _] => true
  | _ => false

/-- The function type has no parameter. -/
def Ty.noParams : Ty → Bool
  | .func _ [] => true
  | _ => false

namespace Module

/-- The symbols of the module are well formed: a function named `puts` is the
declaration `i32 puts(i8*)`, at most one function has that name, a function other
than `puts` whose name holds no `.` has no parameter, and every global variable
is a constant whose name holds a `.`. -/
def WellNamed (m : Module) : Prop :=
  (∀ f ∈ m.functions, (f.name = "puts".toList → f.type = putsTy ∧ f.blocks = []) ∧
    ('.' ∉ f.name → f.name ≠ "puts".toList → f.type.noParams = true)) ∧
  (∀ g ∈ m.globals, '.' ∈ g.name ∧ g.isConstant = true) ∧
  m.functions.countP (fun f => decide (f.name = "puts".toList)) ≤ 1

/-- Every function of `m` is in `m1` with its name and type. -/
def Persists (m m1 : Module) : Prop :=
  ∀ f ∈ m.functions, ∃ f1 ∈ m1.functions, f1.name = f.name ∧ f1.type = f.type

/-- Every function takes one pointer parameter. -/
def AllOnePointer (m : Module) : Prop := ∀ f ∈ m.functions, f.type.onePointerParam = true

/-- What lowering a body does to the symbols of the module. -/
def Evolves (m m1 : Module) : Prop :=
  (m.WellNamed → m1.WellNamed) ∧ Persists m m1 ∧ (m.AllOnePointer → m1.AllOnePointer) ∧
    m1.globals = m.globals

end Module

end

/-! ## Auxiliary definitions: kinds and texts of the lexed tokens -/

/-- The kind and the text of a token. -/
def Token.kindText (t : Token) : TokenKind × List Char := (t.kind, t.text)

namespace Lexer

/-- The rest of the buffer starts with `//`. -/
def startsComment : List Char → Bool
  | c :: d :: _ => decide (c = '/' ∧ d = '/')
  | _ => false

/-- What `skipWhitespaceAndComments` does to the rest of the buffer: it drops
blanks, and while a `//` follows, the line and the blanks after it. -/
inductive Skips : List Char → List Char → Prop where
  | stop (r : List Char) : startsComment (r.dropWhile isBlank) = false →
      Skips r (r.dropWhile isBlank)
  | comment (r r2 : List Char) : startsComment (r.dropWhile isBlank) = true →
      Skips ((r.dropWhile isBlank).dropWhile inLine) r2 → Skips r r2

/-- What the loop of `lexString` does to the rest of the buffer after the opening
quote: the decoded text and the rest after the closing quote, `none` when the
literal is not closed. -/
def stringBody : List Char → List Char → Option (List Char × List Char)
  | [], _ => none
  | [c], s => if c = NUL then none else if c = DQUOTE then some (s, []) else none
  | c :: d :: r2, s =>
    if c = NUL then none
    else if c = DQUOTE then some (s, d :: r2)
    else if c = BSLASH then stringBody r2 (s ++ [unescape d])
    else stringBody (d :: r2) (s ++ [c])

/-- What one iteration of the loop of `lexAll` does at the character `c`, not
NUL, followed by `r1`: the kinds and texts of the tokens pushed (one, or none for
a whitespace character) and the rest of the buffer after them; `none` when the
iteration throws. -/
def step1 (c : Char) (r1 : List Char) : Option (List (TokenKind × List Char) × List Char) :=
  match punctKind c with
  | some k => some ([(k, [c])], r1)
  | none =>
    if c = DQUOTE then
      match stringBody r1 [] with
      | some (s, r2) => some ([(.String, s)], r2)
      | none => none
    else if isIdentStart c then
      some ([(keywordKind (c :: r1.takeWhile isIdentChar), c :: r1.takeWhile isIdentChar)],
        r1.dropWhile isIdentChar)
    else if isdigit c then
      some ([(.Number, c :: r1.takeWhile isdigit)], r1.dropWhile isdigit)
    else if isspace c then some ([], r1)
    else none

/-- The kinds and texts that the loop of `lexAll` pushes from a loop head with
the rest `r` of the buffer; `none` when it throws. -/
inductive Lex : List Char → Option (List (TokenKind × List Char)) → Prop where
  | eof_nil : Lex [] (some [(.Eof, [])])
  | eof_nul (r : List Char) : Lex (NUL :: r) (some [(.Eof, [])])
  | fail (c : Char) (r1 : List Char) : c ≠ NUL → step1 c r1 = none → Lex (c :: r1) none
  | step (c : Char) (r1 : List Char) (ts : List (TokenKind × List Char)) (r2 r3 : List Char)
      (o : Option (List (TokenKind × List Char))) :
      c ≠ NUL → step1 c r1 = some (ts, r2) → Skips r2 r3 → Lex r3 o →
      Lex (c :: r1) (o.map (fun ks => ts ++ ks))

/-- The kinds and texts of `lexAll` on the text `input`. -/
def LexAll (input : List Char) (o : Option (List (TokenKind × List Char))) : Prop :=
  ∃ r0, Skips input r0 ∧ Lex r0 o

/-- The run of the main loop from a token start uses the rest up to its very end
and ends there right after a token: `RunEnd r ks` holds when lexing `r` pushes the
kinds and texts `ks` and the last of them is made of the last characters of `r`. -/
inductive RunEnd : List Char → List (TokenKind × List Char) → Prop where
  | last (c : Char) (r1 : List Char) (ts : List (TokenKind × List Char)) :
      c ≠ NUL → step1 c r1 = some (ts, []) → ts ≠ [] → RunEnd (c :: r1) ts
  | more (c : Char) (r1 : List Char) (ts : List (TokenKind × List Char)) (r2 r3 : List Char)
      (ks : List (TokenKind × List Char)) :
      c ≠ NUL → step1 c r1 = some (ts, r2) → Skips r2 r3 → RunEnd r3 ks →
      RunEnd (c :: r1) (ts ++ ks)

end Lexer

/-! ## Lemmas about the lexer -/

namespace Lexer

theorem consume_nil (L : Lexer) : L.consume [] = L := by
  cases L; simp [consume]

theorem consume_append (L : Lexer) (a b : List Char) :
    (L.consume a).consume b = L.consume (a ++ b) := by
  simp [consume, Nat.add_assoc]

theorem consume_input (L : Lexer) (w : List Char) : (L.consume w).input = L.input := rfl

theorem consume_pos (L : Lexer) (w : List Char) : (L.consume w).pos = L.pos + w.length := rfl

theorem rest_consume (L : Lexer) (w r : List Char) (h : L.rest = w ++ r) :
    (L.consume w).rest = r := by
  unfold rest at *
  simp only [consume]
  rw [← List.drop_drop, h]
  simp

theorem get_nil (L : Lexer) (h : L.rest = []) : L.get = (NUL, L) := by
  unfold rest at h
  have : L.input.length ≤ L.pos := List.drop_eq_nil_iff.mp h
  simp [get, this]

theorem get_cons (L : Lexer) (c : Char) (r : List Char) (h : L.rest = c :: r) :
    L.get = (c, L.consume [c]) := by
  unfold rest at h
  have hlt : L.pos < L.input.length := by
    by_contra hge
    have : L.input.drop L.pos = [] := List.drop_eq_nil_iff.mpr (by omega)
    simp [this] at h
  have hc : L.input.getD L.pos NUL = c := by
    rw [List.drop_eq_getElem_cons hlt] at h
    simp [List.getD_eq_getElem?_getD, List.getElem?_eq_getElem hlt]
    exact (List.cons.inj h).1
  rw [List.getD_eq_getElem?_getD] at hc
  simp [get, Nat.not_le.mpr hlt, hc, consume, advPos, List.getD_eq_getElem?_getD]

theorem peek_eq (L : Lexer) : L.peek = L.rest.headD NUL := by
  unfold peek rest
  by_cases hlt : L.pos < L.input.length
  · rw [List.drop_eq_getElem_cons hlt]
    simp [hlt, List.getD_eq_getElem?_getD, List.getElem?_eq_getElem hlt]
  · have : L.input.drop L.pos = [] := List.drop_eq_nil_iff.mpr (by omega)
    simp [hlt, this]

theorem peek_nil (L : Lexer) (h : L.rest = []) : L.peek = NUL := by
  simp [peek_eq, h]

theorem peek_cons (L : Lexer) (c : Char) (r : List Char) (h : L.rest = c :: r) : L.peek = c := by
  simp [peek_eq, h]

theorem advance_nil (L : Lexer) (h : L.rest = []) : L.advance = L := by
  simp [advance, get_nil L h]

theorem advance_cons (L : Lexer) (c : Char) (r : List Char) (h : L.rest = c :: r) :
    L.advance = L.consume [c] := by
  simp [advance, get_cons L c r h]

theorem skipBlanks_eq (fuel : Nat) (L : Lexer) (h : L.rest.length < fuel) :
    skipBlanks fuel L = .ok (L.consume (L.rest.takeWhile isBlank)) := by
  induction fuel generalizing L with
  | zero => omega
  | succ n ih =>
    cases hr : L.rest with
    | nil =>
      have hp := peek_nil L hr
      simp [skipBlanks, hp, NUL, TAB, CR, LF, consume_nil]
    | cons c r =>
      have hp := peek_cons L c r hr
      by_cases hb : isBlank c = true
      · have hb2 : c = ' ' ∨ c = TAB ∨ c = CR ∨ c = LF := by simpa [isBlank] using hb
        have hrest := rest_consume L [c] r (by simpa using hr)
        have := ih (L.consume [c]) (by rw [hrest]; simp [hr] at h; omega)
        simp only [skipBlanks, hp, if_pos hb2, advance_cons L c r hr, this, hrest,
          List.takeWhile_cons, hb, if_true, consume_append, List.singleton_append]
      · have hb2 : ¬ (c = ' ' ∨ c = TAB ∨ c = CR ∨ c = LF) := by simpa [isBlank] using hb
        simp only [skipBlanks, hp, if_neg hb2, List.takeWhile_cons, hb, consume_nil]
        simp [consume_nil]

theorem skipLine_eq (fuel : Nat) (L : Lexer) (h : L.rest.length < fuel) :
    skipLine fuel L = .ok (L.consume (L.rest.takeWhile inLine)) := by
  induction fuel generalizing L with
  | zero => omega
  | succ n ih =>
    cases hr : L.rest with
    | nil =>
      have hp := peek_nil L hr
      simp [skipLine, hp, consume_nil]
    | cons c r =>
      have hp := peek_cons L c r hr
      by_cases hb : inLine c = true
      · have hb2 : c ≠ LF ∧ c ≠ NUL := by simpa [inLine] using hb
        have hrest := rest_consume L [c] r (by simpa using hr)
        have := ih (L.consume [c]) (by rw [hrest]; simp [hr] at h; omega)
        simp only [skipLine, hp, if_pos hb2, advance_cons L c r hr, this, hrest,
          List.takeWhile_cons, hb, if_true, consume_append, List.singleton_append]
      · have hb2 : ¬ (c ≠ LF ∧ c ≠ NUL) := by simpa [inLine] using hb
        simp only [skipLine, hp, if_neg hb2, List.takeWhile_cons, hb, consume_nil]
        simp [consume_nil]

theorem identLoop_eq (fuel : Nat) (L : Lexer) (s : List Char) (h : L.rest.length < fuel) :
    identLoop fuel L s =
      .ok (s ++ L.rest.takeWhile isIdentChar, L.consume (L.rest.takeWhile isIdentChar)) := by
  induction fuel generalizing L s with
  | zero => omega
  | succ n ih =>
    cases hr : L.rest with
    | nil =>
      have hp := peek_nil L hr
      have : isIdentChar NUL = false := by decide
      simp [identLoop, hp, this, consume_nil]
    | cons c r =>
      have hp := peek_cons L c r hr
      by_cases hb : isIdentChar c = true
      · have hrest := rest_consume L [c] r (by simpa using hr)
        have := ih (L.consume [c]) (s ++ [c]) (by rw [hrest]; simp [hr] at h; omega)
        simp only [identLoop, hp, hb, if_true, get_cons L c r hr, this, hrest,
          List.takeWhile_cons, consume_append, List.singleton_append, List.append_assoc]
      · simp only [identLoop, hp, hb, List.takeWhile_cons, consume_nil]
        simp [consume_nil]

theorem digitLoop_eq (fuel : Nat) (L : Lexer) (s : List Char) (h : L.rest.length < fuel) :
    digitLoop fuel L s =
      .ok (s ++ L.rest.takeWhile isdigit, L.consume (L.rest.takeWhile isdigit)) := by
  induction fuel generalizing L s with
  | zero => omega
  | succ n ih =>
    cases hr : L.rest with
    | nil =>
      have hp := peek_nil L hr
      have : isdigit NUL = false := by decide
      simp [digitLoop, hp, this, consume_nil]
    | cons c r =>
      have hp := peek_cons L c r hr
      by_cases hb : isdigit c = true
      · have hrest := rest_consume L [c] r (by simpa using hr)
        have := ih (L.consume [c]) (s ++ [c]) (by rw [hrest]; simp [hr] at h; omega)
        simp only [digitLoop, hp, hb, if_true, get_cons L c r hr, this, hrest,
          List.takeWhile_cons, consume_append, List.singleton_append, List.append_assoc]
      · simp only [digitLoop, hp, hb, List.takeWhile_cons, consume_nil]
        simp [consume_nil]

theorem rest_length_le (L : Lexer) : L.rest.length ≤ L.input.length := by
  simp [rest]

theorem rest_length_lt_budget (L : Lexer) : L.rest.length < L.budget := by
  have := rest_length_le L
  simp only [budget]; omega

theorem Steps.refl (L : Lexer) : Steps L L := ⟨[], L.rest, by simp, (consume_nil L).symm⟩

theorem Steps.trans {A B C : Lexer} (h1 : Steps A B) (h2 : Steps B C) : Steps A C := by
  obtain ⟨w1, r1, e1, rfl⟩ := h1
  obtain ⟨w2, r2, e2, rfl⟩ := h2
  rw [rest_consume A w1 r1 e1] at e2
  exact ⟨w1 ++ w2, r2, by rw [e1, e2, List.append_assoc], consume_append A w1 w2⟩

theorem Steps.of_consume (L : Lexer) (w r : List Char) (h : L.rest = w ++ r) :
    Steps L (L.consume w) := ⟨w, r, h, rfl⟩

theorem Steps.takeWhile (L : Lexer) (p : Char → Bool) :
    Steps L (L.consume (L.rest.takeWhile p)) :=
  ⟨_, L.rest.dropWhile p, (List.takeWhile_append_dropWhile p L.rest).symm, rfl⟩

theorem Steps.input {A B : Lexer} (h : Steps A B) : B.input = A.input := by
  obtain ⟨w, r, _, rfl⟩ := h; rfl

theorem Steps.budget {A B : Lexer} (h : Steps A B) : B.budget = A.budget := by
  simp [Lexer.budget, h.input]

theorem Steps.pos_le {A B : Lexer} (h : Steps A B) : A.pos ≤ B.pos := by
  obtain ⟨w, r, _, rfl⟩ := h; simp [consume_pos]

theorem Steps.rest_length {A B : Lexer} (h : Steps A B) : B.rest.length ≤ A.rest.length := by
  obtain ⟨w, r, e, rfl⟩ := h
  rw [rest_consume A w r e, e]; simp

theorem skipLoop_steps (fuel : Nat) (L : Lexer) (h : L.rest.length < fuel) :
    ∃ L2, skipLoop fuel L = .ok L2 ∧ Steps L L2 := by
  induction fuel generalizing L with
  | zero => omega
  | succ n ih =>
    have hb := skipBlanks_eq L.budget L (rest_length_lt_budget L)
    have hs1 : Steps L (L.consume (L.rest.takeWhile isBlank)) := Steps.takeWhile L isBlank
    generalize L.consume (L.rest.takeWhile isBlank) = L1 at hb hs1
    simp only [skipLoop, hb]
    split_ifs with hc
    · have hl := skipLine_eq L1.budget L1 (rest_length_lt_budget L1)
      have hs2 : Steps L1 (L1.consume (L1.rest.takeWhile inLine)) := Steps.takeWhile L1 inLine
      have hlen : (L1.consume (L1.rest.takeWhile inLine)).rest.length < L1.rest.length := by
        cases hr : L1.rest with
        | nil => rw [peek_nil L1 hr] at hc; exact absurd hc.1 (by decide)
        | cons c r =>
          rw [peek_cons L1 c r hr] at hc
          have hin : inLine c = true := by rw [hc.1]; decide
          have hsplit := List.takeWhile_append_dropWhile inLine (c :: r)
          rw [rest_consume L1 ((c :: r).takeWhile inLine) ((c :: r).dropWhile inLine) (hr.trans hsplit.symm)]
          have := congrArg List.length hsplit
          simp only [List.length_append, List.takeWhile_cons, hin, if_true, List.length_cons] at this
          simp only [List.length_cons]; omega
      generalize L1.consume (L1.rest.takeWhile inLine) = L2 at hl hs2 hlen
      simp only [hl]
      have hle := hs1.rest_length
      obtain ⟨L3, e3, s3⟩ := ih L2 (by omega)
      exact ⟨L3, e3, (hs1.trans hs2).trans s3⟩
    · exact ⟨L1, rfl, hs1⟩

theorem skipWhitespaceAndComments_steps (L : Lexer) :
    ∃ L2, L.skipWhitespaceAndComments = .ok L2 ∧ Steps L L2 :=
  skipLoop_steps L.budget L (rest_length_lt_budget L)

theorem stringLoop_cases (fuel : Nat) (L : Lexer) (s : List Char) (h : L.rest.length < fuel) :
    stringLoop fuel L s = .raised "Unterminated string literal" ∨
    ∃ s2 w r, L.rest = w ++ DQUOTE :: r ∧
      stringLoop fuel L s = .ok (s2, L.consume (w ++ [DQUOTE])) := by
  induction fuel generalizing L s with
  | zero => omega
  | succ n ih =>
    cases hr : L.rest with
    | nil => left; simp [stringLoop, get_nil L hr]
    | cons c r =>
      have hg := get_cons L c r hr
      have hrest := rest_consume L [c] r (by simpa using hr)
      have hlen : r.length < n := by simp [hr] at h; omega
      simp only [stringLoop, hg]
      split_ifs with h1 h2 h3
      · left; rfl
      · right; exact ⟨s, [], r, by simp [h2], by simp [h2]⟩
      · cases hr2 : r with
        | nil =>
          rw [hr2] at hrest
          rw [get_nil _ hrest]
          rcases ih (L.consume [c]) (s ++ [unescape NUL]) (by rw [hrest]; simp; omega) with
            e | ⟨s2, w, r3, e1, _⟩
          · left; exact e
          · rw [hrest] at e1
            have := congrArg List.length e1
            simp at this
            omega
        | cons d r2 =>
          rw [hr2] at hrest
          rw [get_cons _ d r2 hrest]
          have hrest2 := rest_consume (L.consume [c]) [d] r2 (by simpa using hrest)
          simp only [consume_append] at hrest2 ⊢
          rcases ih (L.consume ([c] ++ [d])) (s ++ [unescape d])
              (by rw [hrest2]; simp [hr2] at hlen; omega) with e | ⟨s2, w, r3, e1, e3⟩
          · left; exact e
          · right
            rw [hrest2] at e1
            refine ⟨s2, [c] ++ [d] ++ w, r3, by simp [e1], ?_⟩
            rw [e3, consume_append]; simp
      · rcases ih (L.consume [c]) (s ++ [c]) (by rw [hrest]; exact hlen) with
          e | ⟨s2, w, r3, e1, e3⟩
        · left; exact e
        · right
          rw [hrest] at e1
          refine ⟨s2, [c] ++ w, r3, by simp [e1], ?_⟩
          rw [e3, consume_append]; simp

theorem punctKind_some {c : Char} {k : TokenKind} (h : punctKind c = some k) :
    k ≠ .Eof ∧ k ≠ .String ∧ c ≠ LF := by
  refine ⟨?_, ?_, ?_⟩
  · rintro rfl; unfold punctKind at h; split_ifs at h <;> cases h
  · rintro rfl; unfold punctKind at h; split_ifs at h <;> cases h
  · rintro rfl
    have : punctKind LF = none := by decide
    rw [this] at h; cases h

theorem keywordKind_ne (s : List Char) : keywordKind s ≠ .Eof ∧ keywordKind s ≠ .String := by
  unfold keywordKind
  split_ifs <;> simp

theorem isIdentStart_ne_LF {c : Char} (h : isIdentStart c = true) : c ≠ LF := by
  rintro rfl; revert h; decide

theorem isIdentChar_ne_LF {c : Char} (h : isIdentChar c = true) : c ≠ LF := by
  rintro rfl; revert h; decide

theorem isdigit_ne_LF {c : Char} (h : isdigit c = true) : c ≠ LF := by
  rintro rfl; revert h; decide

theorem prev_char (L : Lexer) (c : Char) (r : List Char) (h : L.rest = c :: r) :
    (L.consume [c]).input.getD ((L.consume [c]).pos - 1) NUL = c := by
  have := get_cons L c r h
  have hlt : ¬ L.input.length ≤ L.pos := by
    intro hle
    have : L.rest = [] := by unfold rest; exact List.drop_eq_nil_iff.mpr hle
    rw [this] at h; cases h
  simp only [get, hlt, if_false] at this
  simp only [consume, List.length_singleton, Nat.add_sub_cancel]
  exact (Prod.mk.inj this).1

theorem dispatch_cases (L : Lexer) (c : Char) (r : List Char) (out : List Token)
    (hr : L.rest = c :: r) :
    (∃ m, dispatch (L.consume [c]) c L.cur out = .raised m ∧
      (m = "Unterminated string literal" ∨ m = "Unexpected character in input")) ∨
    dispatch (L.consume [c]) c L.cur out = .ok (L.consume [c], out) ∨
    ∃ t w r2, L.rest = w ++ r2 ∧ Lexed L w t ∧
      dispatch (L.consume [c]) c L.cur out = .ok (L.consume w, out ++ [t]) := by
  have hrest := rest_consume L [c] r (by simpa using hr)
  have hbud := rest_length_lt_budget (L.consume [c])
  unfold dispatch
  cases hp : punctKind c with
  | some k =>
    obtain ⟨k1, k2, k3⟩ := punctKind_some hp
    right; right
    refine ⟨(L.consume [c]).makeToken k [c] L.cur, [c], r, by simpa using hr, ?_, rfl⟩
    refine ⟨rfl, by simp, k1, fun h => absurd h k2, fun _ => ⟨rfl, by simpa using k3⟩⟩
  | none =>
    simp only
    split_ifs with h1 h2 h3 h4
    · rcases stringLoop_cases _ (L.consume [c]) [] hbud with e | ⟨s2, w, r3, e1, e2⟩
      · left; exact ⟨_, by simp [lexString, e], Or.inl rfl⟩
      · right; right
        rw [hrest] at e1
        refine ⟨(L.consume (c :: (w ++ [DQUOTE]))).makeToken .String s2 L.cur,
          c :: (w ++ [DQUOTE]), r3, by simp [hr, e1], ?_, ?_⟩
        · refine ⟨?_, by simp, by simp [makeToken], fun _ => ⟨?_, ?_, ?_⟩,
            fun h => absurd rfl h⟩
          · simp [makeToken, consume_append]
          · rw [h1]; rfl
          · rw [← List.cons_append, List.getLast?_append]; rfl
          · simp
        · simp [lexString, e2, consume_append]
    · right; right
      have e := identLoop_eq _ (L.consume [c]) [(L.consume [c]).input.getD ((L.consume [c]).pos - 1) NUL] hbud
      rw [prev_char L c r hr, hrest] at e
      refine ⟨(L.consume (c :: r.takeWhile isIdentChar)).makeToken
          (keywordKind (c :: r.takeWhile isIdentChar)) (c :: r.takeWhile isIdentChar) L.cur,
        c :: r.takeWhile isIdentChar, r.dropWhile isIdentChar,
        by simp [hr, List.takeWhile_append_dropWhile], ?_, ?_⟩
      · refine ⟨?_, by simp, (keywordKind_ne _).1, fun h => absurd h (keywordKind_ne _).2,
          fun _ => ⟨rfl, ?_⟩⟩
        · simp [makeToken, consume_append]
        · intro x hx
          rcases List.mem_cons.mp hx with rfl | hx
          · exact isIdentStart_ne_LF h2
          · exact isIdentChar_ne_LF (List.mem_takeWhile_imp hx)
      · simp only [lexIdentifierOrKeyword]
        rw [prev_char L c r hr, e]
        simp [consume_append]
    · right; right
      have e := digitLoop_eq _ (L.consume [c]) [(L.consume [c]).input.getD ((L.consume [c]).pos - 1) NUL] hbud
      rw [prev_char L c r hr, hrest] at e
      refine ⟨(L.consume (c :: r.takeWhile isdigit)).makeToken .Number
          (c :: r.takeWhile isdigit) L.cur,
        c :: r.takeWhile isdigit, r.dropWhile isdigit,
        by simp [hr, List.takeWhile_append_dropWhile], ?_, ?_⟩
      · refine ⟨?_, by simp, by simp [makeToken], fun h => by simp [makeToken] at h,
          fun _ => ⟨rfl, ?_⟩⟩
        · simp [makeToken, consume_append]
        · intro x hx
          rcases List.mem_cons.mp hx with rfl | hx
          · exact isdigit_ne_LF h3
          · exact isdigit_ne_LF (List.mem_takeWhile_imp hx)
      · simp only [lexNumber]
        rw [prev_char L c r hr, e]
        simp [consume_append]
    · right; left; rfl
    · left; exact ⟨_, rfl, Or.inr rfl⟩

theorem iteration_cases (L : Lexer) (out : List Token) :
    (∃ w, (L.rest = [] ∧ w = [] ∨ ∃ r, L.rest = NUL :: r ∧ w = [NUL]) ∧ L.iteration out =
        .ok (.done (out ++ [{ kind := .Eof, text := [],
                              range := { start := L.cur, end_ := (L.consume w).cur } }]))) ∨
    (∃ m, L.iteration out = .raised m ∧
      (m = "Unterminated string literal" ∨ m = "Unexpected character in input")) ∨
    ∃ L3 ts w r, L.rest = w ++ r ∧ w ≠ [] ∧ Steps (L.consume w) L3 ∧
      L.iteration out = .ok (.next L3 (out ++ ts)) ∧ (ts = [] ∨ ∃ t, ts = [t] ∧ Lexed L w t) := by
  cases hr : L.rest with
  | nil =>
    left
    refine ⟨[], Or.inl ⟨rfl, rfl⟩, ?_⟩
    simp [iteration, get_nil L hr, makeToken, consume_nil]
  | cons c r =>
    have hg := get_cons L c r hr
    by_cases hc : c = NUL
    · left
      refine ⟨[c], Or.inr ⟨r, by rw [hc], by rw [hc]⟩, ?_⟩
      simp [iteration, hg, hc, makeToken]
    · right
      simp only [iteration, hg, if_neg hc]
      rcases dispatch_cases L c r out hr with ⟨m, e, hm⟩ | e | ⟨t, w, r2, e1, e2, e3⟩
      · left; exact ⟨m, by simp [e], hm⟩
      · right
        obtain ⟨L3, e3, s3⟩ := skipWhitespaceAndComments_steps (L.consume [c])
        refine ⟨L3, [], [c], r, rfl, by simp, s3, ?_, Or.inl rfl⟩
        simp [e, e3]
      · right
        obtain ⟨L3, e4, s3⟩ := skipWhitespaceAndComments_steps (L.consume w)
        rw [hr] at e1
        refine ⟨L3, [t], w, r2, e1, e2.2.1, s3, ?_, Or.inr ⟨t, rfl, e2⟩⟩
        simp [e3, e4]

theorem lexLoop_total (fuel : Nat) (L : Lexer) (out : List Token) (h : L.rest.length < fuel) :
    (∃ toks, lexLoop fuel L out = .ok toks) ∨
    ∃ m, lexLoop fuel L out = .raised m ∧
      (m = "Unterminated string literal" ∨ m = "Unexpected character in input") := by
  induction fuel generalizing L out with
  | zero => omega
  | succ n ih =>
    rcases iteration_cases L out with ⟨w, _, e⟩ | ⟨m, e, hm⟩ | ⟨L3, ts, w, r, e1, e2, e3, e4, _⟩
    · left; exact ⟨_, by simp only [lexLoop, e]; rfl⟩
    · right; exact ⟨m, by simp only [lexLoop, e], hm⟩
    · have hlen : L3.rest.length < n := by
        have h1 := e3.rest_length
        rw [rest_consume L w r e1] at h1
        have h2 : 0 < w.length := List.length_pos.mpr e2
        rw [e1] at h
        simp at h
        omega
      simpa [lexLoop, e4] using ih L3 (out ++ ts) hlen

theorem foldl_advPos_line (w : List Char) (p : SourcePos) (h : ∀ c ∈ w, c ≠ LF) :
    w.foldl advPos p = { line := p.line, column := p.column + w.length } := by
  induction w generalizing p with
  | nil => rfl
  | cons c w ih =>
    have hc : c ≠ LF := h c (List.mem_cons_self _ _)
    rw [List.foldl_cons, ih _ (fun x hx => h x (List.mem_cons_of_mem _ hx))]
    simp [advPos, hc]; omega

theorem Tracks.take {input : List Char} {L : Lexer} (hT : Tracks input L) {w r : List Char}
    (h : L.rest = w ++ r) :
    L.pos + w.length ≤ input.length ∧ input.take (L.pos + w.length) = input.take L.pos ++ w := by
  obtain ⟨hi, _, hp⟩ := hT
  unfold rest at h
  rw [hi] at h
  have hlen := congrArg List.length h
  simp at hlen
  refine ⟨by omega, ?_⟩
  rw [List.take_add, h, List.take_left']
  rfl

theorem Tracks.eat {input : List Char} {L : Lexer} (hT : Tracks input L) {w r : List Char}
    (h : L.rest = w ++ r) : Tracks input (L.consume w) := by
  obtain ⟨h1, h2⟩ := hT.take h
  refine ⟨hT.1, ?_, h1⟩
  simp only [Lexer.consume, h2, posOf, List.foldl_append]
  rw [hT.2.1]; rfl

theorem Tracks.steps {input : List Char} {L L2 : Lexer} (hT : Tracks input L) (h : Steps L L2) :
    Tracks input L2 := by
  obtain ⟨w, r, e, rfl⟩ := h
  exact hT.eat e

theorem Tracks.init (input : List Char) : Tracks input { input := input } :=
  ⟨rfl, rfl, Nat.zero_le _⟩

theorem getElem?_of_rest {input : List Char} {L : Lexer} (hT : Tracks input L) {w r : List Char}
    (h : L.rest = w ++ r) (k : Nat) (hk : k < w.length) : input[L.pos + k]? = w[k]? := by
  unfold rest at h
  rw [hT.1] at h
  rw [← List.getElem?_drop, h, List.getElem?_append_left hk]

theorem Lexed.rangeOk {input : List Char} {L : Lexer} (hT : Tracks input L) {w r : List Char}
    {t : Token} (h : L.rest = w ++ r) (hl : Lexed L w t) : RangeOk input t := by
  obtain ⟨h1, h2⟩ := hT.take h
  obtain ⟨l1, l2, l3, l4, l5⟩ := hl
  have hw : 0 < w.length := List.length_pos.mpr l2
  have hend : (L.consume w).cur = posOf (input.take (L.pos + w.length)) := (hT.eat h).2.1
  refine ⟨L.pos, L.pos + w.length, by omega, h1, ?_, ?_, fun _ => by omega,
    fun hk => absurd hk l3, ?_, ?_⟩
  · rw [l1]; exact hT.2.1
  · rw [l1]; exact hend
  · intro hs
    obtain ⟨s1, s2, s3⟩ := l4 hs
    refine ⟨?_, ?_, by omega⟩
    · have := getElem?_of_rest hT h 0 hw
      rw [Nat.add_zero] at this
      rw [this, ← List.head?_eq_getElem?]; exact s1
    · have := getElem?_of_rest hT h (w.length - 1) (by omega)
      rw [show L.pos + w.length - 1 = L.pos + (w.length - 1) by omega, this,
        ← List.getLast?_eq_getElem?]
      exact s2
  · intro _ hns
    obtain ⟨t1, t2⟩ := l5 hns
    have hd : (input.drop L.pos).take (L.pos + w.length - L.pos) = w := by
      have : input.drop L.pos = w ++ r := by rw [← hT.1]; exact h
      rw [this, Nat.add_sub_cancel_left, List.take_left']; rfl
    rw [l1, t1, hd]
    have := foldl_advPos_line w L.cur t2
    simp only [Lexer.consume, this, and_self]

theorem lexLoop_inv (input : List Char) (fuel : Nat) (L : Lexer) (out toks : List Token)
    (hT : Tracks input L) (hout : ∀ t ∈ out, t.kind ≠ .Eof ∧ RangeOk input t)
    (h : lexLoop fuel L out = .ok toks) :
    ∃ ts e, toks = ts ++ [e] ∧ e.kind = .Eof ∧ RangeOk input e ∧
      ∀ t ∈ ts, t.kind ≠ .Eof ∧ RangeOk input t := by
  induction fuel generalizing L out with
  | zero => simp [lexLoop] at h
  | succ n ih =>
    rcases iteration_cases L out with ⟨w, hw, e⟩ | ⟨m, e, _⟩ | ⟨L3, ts, w, r, e1, e2, e3, e4, e5⟩
    · simp only [lexLoop, e, Result.ok.injEq] at h
      refine ⟨out, _, h.symm, rfl, ?_, hout⟩
      rcases hw with ⟨hr, rfl⟩ | ⟨r, hr, rfl⟩
      · have hlen : input.length ≤ L.pos := by
          have := List.drop_eq_nil_iff.mp hr
          rwa [hT.1] at this
        have hp : L.pos = input.length := Nat.le_antisymm hT.2.2 hlen
        refine ⟨L.pos, L.pos, Nat.le_refl _, hT.2.2, hT.2.1, ?_, fun hk => absurd rfl hk,
          fun _ => Or.inl ⟨rfl, hp⟩, fun hk => (by cases hk), fun hk => absurd rfl hk⟩
        rw [consume_nil]; exact hT.2.1
      · have hr2 : L.rest = [NUL] ++ r := hr
        obtain ⟨h1, _⟩ := hT.take hr2
        have hg := getElem?_of_rest hT hr2 0 (by simp)
        refine ⟨L.pos, L.pos + 1, Nat.le_succ _, h1, hT.2.1, (hT.eat hr2).2.1,
          fun hk => absurd rfl hk, fun _ => Or.inr ⟨by simpa using hg, rfl⟩,
          fun hk => (by cases hk), fun hk => absurd rfl hk⟩
    · simp [lexLoop, e] at h
    · simp only [lexLoop, e4] at h
      refine ih L3 (out ++ ts) ((hT.eat e1).steps e3) ?_ h
      intro t ht
      rcases List.mem_append.mp ht with ht | ht
      · exact hout t ht
      · rcases e5 with rfl | ⟨t2, rfl, hl⟩
        · cases ht
        · rw [List.mem_singleton.mp ht]
          exact ⟨hl.2.2.1, hl.rangeOk hT e1⟩

theorem TokenStart.run {input : List Char} {L : Lexer} {out : List Token}
    (h : TokenStart input L out) : ∃ k, lexLoop k L out = lexAll input := by
  induction h with
  | @init L e => exact ⟨L.budget, by simp only [lexAll, e]⟩
  | step _ e ih =>
    obtain ⟨k, hk⟩ := ih
    cases k with
    | zero => exact ⟨0, by rw [← hk]; rfl⟩
    | succ k => exact ⟨k, by rw [← hk]; simp [lexLoop, e]⟩

theorem TokenStart.tracks {input : List Char} {L : Lexer} {out : List Token}
    (h : TokenStart input L out) : Tracks input L := by
  induction h with
  | init e =>
    obtain ⟨L2, e2, s2⟩ := skipWhitespaceAndComments_steps { input := input }
    rw [e] at e2
    cases e2
    exact (Tracks.init input).steps s2
  | @step L L2 out out2 _ e ih =>
    rcases iteration_cases L out with ⟨w, _, e0⟩ | ⟨m, e0, _⟩ | ⟨L3, ts, w, r, e1, e2, e3, e4, _⟩
    · rw [e] at e0; cases e0
    · rw [e] at e0; cases e0
    · rw [e] at e4
      cases e4
      exact (ih.eat e1).steps e3

end Lexer

theorem lexAll_cases (input : List Char) :
    (∃ toks, lexAll input = .ok toks) ∨
    ∃ m, lexAll input = .raised m ∧
      (m = "Unterminated string literal" ∨ m = "Unexpected character in input") := by
  obtain ⟨L, e, _⟩ := Lexer.skipWhitespaceAndComments_steps { input := input }
  simpa [lexAll, e] using Lexer.lexLoop_total L.budget L [] (Lexer.rest_length_lt_budget L)

theorem lexAll_ne_diverged (input : List Char) : lexAll input ≠ .diverged := by
  rcases lexAll_cases input with ⟨t, e⟩ | ⟨m, e, _⟩ <;> simp [e]

theorem lexAll_inv (input : List Char) (toks : List Token) (h : lexAll input = .ok toks) :
    ∃ ts e, toks = ts ++ [e] ∧ e.kind = .Eof ∧ RangeOk input e ∧
      ∀ t ∈ ts, t.kind ≠ .Eof ∧ RangeOk input t := by
  obtain ⟨L, e, s⟩ := Lexer.skipWhitespaceAndComments_steps { input := input }
  simp only [lexAll, e] at h
  exact Lexer.lexLoop_inv input _ L [] toks ((Lexer.Tracks.init input).steps s)
    (fun t ht => by cases ht) h

namespace Lexer

theorem unescape_eq_specEscape (n : Char) : unescape n = specEscape n := by
  unfold unescape specEscape
  split_ifs <;> simp_all

theorem keywordKind_eq_specKind (w : List Char) : keywordKind w = specKind w := by
  unfold keywordKind
  split_ifs with h1 h2 h3 h4 h5 h6 h7 h8 h9
  · rw [h1]; decide
  · rw [h2]; decide
  · rw [h3]; decide
  · rw [h4]; decide
  · rw [h5]; decide
  · rw [h6]; decide
  · rw [h7]; decide
  · rw [h8]; decide
  · rw [h9]; decide
  · simp only [specKind, keywordTable, List.lookup, beq_eq_false_iff_ne.mpr h1,
      beq_eq_false_iff_ne.mpr h2, beq_eq_false_iff_ne.mpr h3, beq_eq_false_iff_ne.mpr h4,
      beq_eq_false_iff_ne.mpr h5, beq_eq_false_iff_ne.mpr h6, beq_eq_false_iff_ne.mpr h7,
      beq_eq_false_iff_ne.mpr h8, beq_eq_false_iff_ne.mpr h9]
    rfl

theorem lexLoop_prefix (fuel : Nat) (L : Lexer) (out toks : List Token)
    (h : lexLoop fuel L out = .ok toks) : ∃ more, toks = out ++ more := by
  induction fuel generalizing L out with
  | zero => simp [lexLoop] at h
  | succ n ih =>
    rcases iteration_cases L out with ⟨w, _, e⟩ | ⟨m, e, _⟩ | ⟨L3, ts, w, r, _, _, _, e4, _⟩
    · simp only [lexLoop, e, Result.ok.injEq] at h
      exact ⟨_, h.symm⟩
    · simp [lexLoop, e] at h
    · simp only [lexLoop, e4] at h
      obtain ⟨more, hm⟩ := ih L3 (out ++ ts) h
      exact ⟨ts ++ more, by rw [hm, List.append_assoc]⟩

theorem TokenStart.prefix {input : List Char} {L : Lexer} {out toks : List Token}
    (h : TokenStart input L out) (e : lexAll input = .ok toks) : ∃ more, toks = out ++ more := by
  obtain ⟨k, hk⟩ := h.run
  exact lexLoop_prefix k L out toks (hk.trans e)

theorem TokenStart.raised {input : List Char} {L : Lexer} {out : List Token} {m : String}
    (h : TokenStart input L out) (e : L.iteration out = .raised m) : lexAll input = .raised m := by
  obtain ⟨k, hk⟩ := h.run
  cases k with
  | zero => exact absurd hk.symm (lexAll_ne_diverged input)
  | succ k => rw [← hk]; simp [lexLoop, e]

theorem TokenStart.done {input : List Char} {L : Lexer} {out toks : List Token}
    (h : TokenStart input L out) (e : L.iteration out = .ok (.done toks)) :
    lexAll input = .ok toks := by
  obtain ⟨k, hk⟩ := h.run
  cases k with
  | zero => exact absurd hk.symm (lexAll_ne_diverged input)
  | succ k => rw [← hk]; simp [lexLoop, e]

theorem takeWhile_maximal (p : Char → Bool) (w r : List Char) (hw : ∀ x ∈ w, p x = true)
    (hr : ∀ x, r.head? = some x → p x = false) : (w ++ r).takeWhile p = w := by
  induction w with
  | nil =>
    cases r with
    | nil => rfl
    | cons x r => simp [List.takeWhile_cons, hr x rfl]
  | cons c w ih =>
    simp only [List.cons_append, List.takeWhile_cons, hw c (List.mem_cons_self _ _), if_true]
    rw [ih (fun x hx => hw x (List.mem_cons_of_mem _ hx))]

theorem punctKind_of_identStart {c : Char} (h : isIdentStart c = true) : punctKind c = none := by
  unfold punctKind
  split_ifs <;> first | rfl | (subst_vars; revert h; decide)

theorem iteration_ident (L : Lexer) (out : List Token) (c : Char) (cs r : List Char)
    (hrest : L.rest = c :: cs ++ r) (hc : isIdentStart c = true)
    (hcs : ∀ x ∈ cs, isIdentChar x = true) (hmax : ∀ x, r.head? = some x → isIdentChar x = false) :
    ∃ L2, Steps (L.consume (c :: cs)) L2 ∧
      L.iteration out = .ok (.next L2 (out ++ [
        { kind := keywordKind (c :: cs), text := c :: cs,
          range := { start := L.cur,
                     end_ := { line := L.cur.line,
                               column := L.cur.column + (c :: cs).length } } }])) := by
  have hr : L.rest = c :: (cs ++ r) := hrest
  have hg := get_cons L c _ hr
  have hnul : c ≠ NUL := by rintro rfl; revert hc; decide
  have hdq : c ≠ DQUOTE := by rintro rfl; revert hc; decide
  have hrest1 := rest_consume L [c] _ (by simpa using hr)
  have e := identLoop_eq _ (L.consume [c]) [(L.consume [c]).input.getD ((L.consume [c]).pos - 1) NUL]
    (rest_length_lt_budget _)
  rw [prev_char L c _ hr, hrest1, takeWhile_maximal isIdentChar cs r hcs hmax] at e
  obtain ⟨L3, e3, s3⟩ := skipWhitespaceAndComments_steps (L.consume (c :: cs))
  refine ⟨L3, s3, ?_⟩
  have hcur : (L.consume (c :: cs)).cur =
      { line := L.cur.line, column := L.cur.column + (c :: cs).length } := by
    refine foldl_advPos_line (c :: cs) L.cur ?_
    intro x hx
    rcases List.mem_cons.mp hx with rfl | hx
    · exact isIdentStart_ne_LF hc
    · exact isIdentChar_ne_LF (hcs x hx)
  simp only [iteration, hg, if_neg hnul, dispatch, punctKind_of_identStart hc, if_neg hdq, hc,
    if_true, lexIdentifierOrKeyword]
  rw [prev_char L c _ hr, e]
  simp only [consume_append, List.singleton_append, e3, makeToken, hcur]

theorem stringLoop_decodes (n : Nat) : ∀ (body : List Char), body.length = n →
    ∀ (L : Lexer) (s d r : List Char) (fuel : Nat), L.rest = body ++ DQUOTE :: r →
      decodeBody body = some d → rawNulFree body = true → body.length < fuel →
      stringLoop fuel L s = .ok (s ++ d, L.consume (body ++ [DQUOTE])) := by
  induction n using Nat.strong_induction_on with
  | _ n ih =>
    intro body hn L s d r fuel hrest hd hnul hfuel
    obtain ⟨fuel, rfl⟩ : ∃ k, fuel = k + 1 := ⟨fuel - 1, by omega⟩
    match body, hn, hrest, hd, hnul, hfuel with
    | [], _, hrest, hd, _, _ =>
      simp only [decodeBody, Option.some.injEq] at hd
      subst hd
      have hg := get_cons L DQUOTE r (by simpa using hrest)
      have : DQUOTE ≠ NUL := by decide
      simp [stringLoop, hg, this]
    | [c], hn, hrest, hd, hnul, hfuel =>
      have hg := get_cons L c _ (by simpa using hrest)
      have h1 : c ≠ NUL := by simpa [rawNulFree] using hnul
      by_cases hq : c = DQUOTE ∨ c = BSLASH
      · simp [decodeBody, hq] at hd
      · simp only [decodeBody, if_neg hq, Option.some.injEq] at hd
        subst hd
        have h2 : c ≠ DQUOTE := fun h => hq (Or.inl h)
        have h3 : c ≠ BSLASH := fun h => hq (Or.inr h)
        have hrest1 := rest_consume L [c] _ (by simpa using hrest)
        have := ih 0 (by simp at hn; omega) [] rfl (L.consume [c]) (s ++ [c]) [] r fuel
          (by simpa using hrest1) rfl rfl (by simp at hfuel ⊢; omega)
        simp only [stringLoop, hg, if_neg h1, if_neg h2, if_neg h3]
        rw [this]
        simp [consume_append]
    | c :: d2 :: rest, hn, hrest, hd, hnul, hfuel =>
      have hg := get_cons L c _ (by simpa using hrest)
      have hrest1 := rest_consume L [c] _ (by simpa using hrest)
      by_cases hb : c = BSLASH
      · have h1 : c ≠ NUL := by rw [hb]; decide
        have h2 : c ≠ DQUOTE := by rw [hb]; decide
        simp only [decodeBody, if_pos hb, Option.map_eq_some'] at hd
        obtain ⟨d3, hd3, rfl⟩ := hd
        simp only [rawNulFree, if_pos hb] at hnul
        have hg2 := get_cons (L.consume [c]) d2 _ hrest1
        have hrest2 := rest_consume (L.consume [c]) [d2] _ (by simpa using hrest1)
        rw [consume_append] at hrest2 hg2
        have := ih rest.length (by simp at hn; omega) rest rfl (L.consume ([c] ++ [d2]))
          (s ++ [unescape d2]) d3 r fuel hrest2 hd3 hnul (by simp at hfuel; omega)
        simp only [stringLoop, hg, if_neg h1, if_neg h2, if_pos hb, hg2]
        rw [this]
        simp [consume_append, unescape_eq_specEscape]
      · by_cases hq : c = DQUOTE
        · simp [decodeBody, hb, hq] at hd
          exact absurd hd.1 (by decide)
        · simp only [decodeBody, if_neg hb, if_neg hq, Option.map_eq_some'] at hd
          obtain ⟨d3, hd3, rfl⟩ := hd
          simp only [rawNulFree, if_neg hb, Bool.and_eq_true, decide_eq_true_eq] at hnul
          have := ih (d2 :: rest).length (by simp at hn ⊢; omega) (d2 :: rest) rfl (L.consume [c])
            (s ++ [c]) d3 r fuel hrest1 hd3 hnul.2 (by simp at hfuel ⊢; omega)
          simp only [stringLoop, hg, if_neg hnul.1, if_neg hq, if_neg hb]
          rw [this]
          simp [consume_append]

theorem stringLoop_unclosed (n : Nat) : ∀ (body : List Char), body.length = n →
    ∀ (L : Lexer) (s : List Char) (fuel : Nat), L.rest = body → unclosed body = true →
      body.length < fuel → stringLoop fuel L s = .raised "Unterminated string literal" := by
  induction n using Nat.strong_induction_on with
  | _ n ih =>
    intro body hn L s fuel hrest hu hfuel
    obtain ⟨fuel, rfl⟩ : ∃ k, fuel = k + 1 := ⟨fuel - 1, by omega⟩
    match body, hn, hrest, hu, hfuel with
    | [], _, hrest, _, _ => simp [stringLoop, get_nil L hrest]
    | [c], hn, hrest, hu, hfuel =>
      have hg := get_cons L c _ hrest
      have hrest1 := rest_consume L [c] [] (by simpa using hrest)
      have h2 : c ≠ DQUOTE := by simpa [unclosed] using hu
      have hnil := fun s2 => ih 0 (by simp at hn; omega) [] rfl (L.consume [c]) s2 fuel hrest1 rfl
        (by simp at hfuel ⊢; omega)
      simp only [stringLoop, hg, if_neg h2]
      split_ifs
      · rfl
      · rw [get_nil _ hrest1]; exact hnil _
      · exact hnil _
    | c :: d2 :: rest, hn, hrest, hu, hfuel =>
      have hg := get_cons L c _ hrest
      have hrest1 := rest_consume L [c] _ (by simpa using hrest)
      simp only [stringLoop, hg]
      split_ifs with h1 h2 h3
      · rfl
      · have h3 : c ≠ BSLASH := by rw [h2]; decide
        simp [unclosed, h3, h2] at hu
        exact absurd hu.1 (by decide)
      · simp only [unclosed, if_pos h3] at hu
        have hg2 := get_cons (L.consume [c]) d2 _ hrest1
        have hrest2 := rest_consume (L.consume [c]) [d2] _ (by simpa using hrest1)
        rw [hg2]
        exact ih rest.length (by simp at hn; omega) rest rfl _ _ fuel hrest2 hu
          (by simp at hfuel; omega)
      · simp only [unclosed, if_neg h3, Bool.and_eq_true] at hu
        exact ih (d2 :: rest).length (by simp at hn ⊢; omega) (d2 :: rest) rfl _ _ fuel hrest1
          hu.2 (by simp at hfuel ⊢; omega)

theorem iteration_string (L : Lexer) (out : List Token) (body d r : List Char)
    (hrest : L.rest = DQUOTE :: body ++ DQUOTE :: r) (hd : decodeBody body = some d)
    (hnul : rawNulFree body = true) :
    ∃ L2, Steps (L.consume (DQUOTE :: body ++ [DQUOTE])) L2 ∧
      L.iteration out = .ok (.next L2 (out ++ [
        { kind := .String, text := d,
          range := { start := L.cur,
                     end_ := (L.consume (DQUOTE :: body ++ [DQUOTE])).cur } }])) := by
  have hr : L.rest = DQUOTE :: (body ++ DQUOTE :: r) := hrest
  have hg := get_cons L DQUOTE _ hr
  have hrest1 := rest_consume L [DQUOTE] _ (by simpa using hr)
  have hlen : body.length < (L.consume [DQUOTE]).budget := by
    have := rest_length_lt_budget (L.consume [DQUOTE])
    rw [hrest1] at this
    simp at this; omega
  have e := stringLoop_decodes body.length body rfl (L.consume [DQUOTE]) [] d r _ hrest1 hd hnul hlen
  obtain ⟨L3, e3, s3⟩ := skipWhitespaceAndComments_steps (L.consume (DQUOTE :: body ++ [DQUOTE]))
  refine ⟨L3, s3, ?_⟩
  have hnul : DQUOTE ≠ NUL := by decide
  have hp : punctKind DQUOTE = none := by decide
  simp only [iteration, hg, if_neg hnul, dispatch, hp, if_true, lexString]
  rw [e]
  simp only [List.cons_append] at e3
  simp only [consume_append, List.singleton_append, List.nil_append, makeToken,
    List.cons_append, e3]

theorem iteration_unclosed (L : Lexer) (out : List Token) (body : List Char)
    (hrest : L.rest = DQUOTE :: body) (hu : unclosed body = true) :
    L.iteration out = .raised "Unterminated string literal" := by
  have hg := get_cons L DQUOTE _ hrest
  have hrest1 := rest_consume L [DQUOTE] _ (by simpa using hrest)
  have hlen : body.length < (L.consume [DQUOTE]).budget := by
    have := rest_length_lt_budget (L.consume [DQUOTE])
    rwa [hrest1] at this
  have e := stringLoop_unclosed body.length body rfl (L.consume [DQUOTE]) [] _ hrest1 hu hlen
  have hnul : DQUOTE ≠ NUL := by decide
  have hp : punctKind DQUOTE = none := by decide
  simp only [iteration, hg, if_neg hnul, dispatch, hp, if_true, lexString]
  rw [e]

theorem iteration_unexpected (L : Lexer) (out : List Token) (c : Char) (r : List Char)
    (hrest : L.rest = c :: r) (hnul : c ≠ NUL) (hspace : isspace c = false)
    (hpunct : punctKind c = none) (hquote : c ≠ DQUOTE) (hident : isIdentStart c = false)
    (hdigit : isdigit c = false) :
    L.iteration out = .raised "Unexpected character in input" := by
  have hg := get_cons L c r hrest
  simp [iteration, hg, hnul, dispatch, hpunct, hquote, hident, hdigit, hspace]

end Lexer

theorem getElem?_after_prefix {α : Type} (out : List α) (t : α) (more : List α) :
    (out ++ [t] ++ more)[out.length]? = some t := by
  induction out with
  | nil => simp
  | cons a out ih => simpa using ih

/-- Supporting fact for C4: at a token start, a terminated string literal whose
body holds no NUL outside an escape is lexed to one `String` token whose text is
the decoded body. -/
theorem string_literal_decoded (input : List Char) (L : Lexer) (out : List Token)
    (body d r : List Char) (hstart : Lexer.TokenStart input L out)
    (hrest : L.input.drop L.pos = DQUOTE :: body ++ DQUOTE :: r)
    (hd : decodeBody body = some d) (hnul : rawNulFree body = true) :
    ∃ L2 t, t.kind = .String ∧ t.text = d ∧ Lexer.TokenStart input L2 (out ++ [t]) ∧
      ∀ toks, lexAll input = .ok toks → toks[out.length]? = some t := by
  obtain ⟨L2, _, e⟩ := Lexer.iteration_string L out body d r hrest hd hnul
  have hts := Lexer.TokenStart.step hstart e
  refine ⟨L2, _, rfl, rfl, hts, ?_⟩
  intro toks htoks
  obtain ⟨more, rfl⟩ := hts.prefix htoks
  exact getElem?_after_prefix out _ more

/-- Supporting fact for C6: at a token start, a character other than NUL that is
no whitespace, punctuation, double quote, letter, underscore or digit makes
`lexAll` raise "Unexpected character in input". -/
theorem unexpected_character_raises (input : List Char) (L : Lexer) (out : List Token)
    (c : Char) (r : List Char) (hstart : Lexer.TokenStart input L out)
    (hrest : L.input.drop L.pos = c :: r) (hnul : c ≠ NUL) (hspace : isspace c = false)
    (hpunct : Lexer.punctKind c = none) (hquote : c ≠ DQUOTE)
    (hident : Lexer.isIdentStart c = false) (hdigit : isdigit c = false) :
    lexAll input = .raised "Unexpected character in input" :=
  hstart.raised (Lexer.iteration_unexpected L out c r hrest hnul hspace hpunct hquote hident hdigit)

namespace Lexer

theorem skipLoop_iter (fuel : Nat) (L : Lexer) :
    (∃ L1, skipLoop (fuel + 1) L = .ok L1) ∨
    ∃ L2, skipLoop (fuel + 1) L = skipLoop fuel L2 ∧ L2.input = L.input ∧ L.pos < L2.pos := by
  have hb := skipBlanks_eq L.budget L (rest_length_lt_budget L)
  have hs1 : Steps L (L.consume (L.rest.takeWhile isBlank)) := Steps.takeWhile L isBlank
  generalize L.consume (L.rest.takeWhile isBlank) = L1 at hb hs1
  simp only [skipLoop, hb]
  split_ifs with hc
  · right
    have hl := skipLine_eq L1.budget L1 (rest_length_lt_budget L1)
    cases hr : L1.rest with
    | nil => rw [peek_nil L1 hr] at hc; exact absurd hc.1 (by decide)
    | cons c r =>
      rw [peek_cons L1 c r hr] at hc
      have hin : inLine c = true := by rw [hc.1]; decide
      rw [hr, List.takeWhile_cons, hin] at hl
      simp only [if_true] at hl
      refine ⟨_, by rw [hl], ?_, ?_⟩
      · exact hs1.input
      · have := hs1.pos_le
        simp only [consume_pos, List.length_cons]
        omega
  · exact Or.inl ⟨L1, rfl⟩

theorem stringLoop_iter (fuel : Nat) (L : Lexer) (s : List Char) :
    stringLoop (fuel + 1) L s = .raised "Unterminated string literal" ∨
    (∃ L2, stringLoop (fuel + 1) L s = .ok (s, L2)) ∨
    ∃ L2 s2, stringLoop (fuel + 1) L s = stringLoop fuel L2 s2 ∧ L2.input = L.input ∧
      L.pos < L2.pos := by
  cases hr : L.rest with
  | nil => left; simp [stringLoop, get_nil L hr]
  | cons c r =>
    have hg := get_cons L c r hr
    simp only [stringLoop, hg]
    split_ifs with h1 h2 h3
    · exact Or.inl rfl
    · exact Or.inr (Or.inl ⟨_, rfl⟩)
    · refine Or.inr (Or.inr ⟨_, _, rfl, ?_, ?_⟩)
      · cases hr2 : (L.consume [c]).rest with
        | nil => rw [get_nil _ hr2]; rfl
        | cons d r2 => rw [get_cons _ d r2 hr2]; rfl
      · cases hr2 : (L.consume [c]).rest with
        | nil => rw [get_nil _ hr2]; simp [consume_pos]
        | cons d r2 => rw [get_cons _ d r2 hr2]; simp only [consume_pos, List.length_singleton]; omega
    · exact Or.inr (Or.inr ⟨_, _, rfl, rfl, by simp [consume_pos]⟩)

end Lexer

/-! ## Lemmas about the parser -/

namespace Parser

theorem eat_nil (P : Parser) : P.eat [] = P := by
  cases P; simp [eat]

theorem eat_append (P : Parser) (a b : List Token) : (P.eat a).eat b = P.eat (a ++ b) := by
  simp [eat, Nat.add_assoc]

theorem rest_eat (P : Parser) (seg r : List Token) (h : P.rest = seg ++ r) :
    (P.eat seg).rest = r := by
  unfold rest at *
  simp only [eat]
  rw [← List.drop_drop, h]
  simp

theorem peek_of_rest (P : Parser) (t : Token) (r : List Token) (h : P.rest = t :: r) :
    P.peek = t := by
  unfold rest at h
  have hlt : P.pos < P.tokens.length := by
    by_contra hge
    have : P.tokens.drop P.pos = [] := List.drop_eq_nil_iff.mpr (by omega)
    rw [this] at h; cases h
  rw [List.drop_eq_getElem_cons hlt] at h
  simp only [peek, Nat.add_zero, Nat.not_le.mpr hlt, if_false, List.getD_eq_getElem?_getD,
    List.getElem?_eq_getElem hlt, Option.getD_some]
  exact (List.cons.inj h).1

theorem bump_of_rest (P : Parser) (t : Token) (r : List Token) (h : P.rest = t :: r) :
    P.bump = P.eat [t] := by
  simp [bump, eat, peek_of_rest P t r h]

theorem Live.cases {P : Parser} (h : Live P) :
    (∃ eof tail, P.rest = eof :: tail ∧ eof.kind = .Eof) ∨
    (∃ t r, P.rest = t :: r ∧ t.kind ≠ .Eof ∧ EofAhead r) := by
  obtain ⟨pre, eof, tail, e, he, hpre⟩ := h
  cases pre with
  | nil => exact Or.inl ⟨eof, tail, e, he⟩
  | cons t pre =>
    exact Or.inr ⟨t, pre ++ eof :: tail, e, hpre t (List.mem_cons_self _ _),
      pre, eof, tail, rfl, he, fun x hx => hpre x (List.mem_cons_of_mem _ hx)⟩

theorem Live.step {P : Parser} (hL : Live P) {k : TokenKind} (hk : k ≠ .Eof)
    (hp : P.peek.kind = k) :
    ∃ r, P.rest = P.peek :: r ∧ P.bump = P.eat [P.peek] ∧ Live P.bump := by
  rcases hL.cases with ⟨eof, tail, e, he⟩ | ⟨t, r, e, _, hr⟩
  · rw [peek_of_rest P eof tail e, he] at hp
    exact absurd hp.symm hk
  · have hpk := peek_of_rest P t r e
    have hb := bump_of_rest P t r e
    refine ⟨r, by rw [hpk]; exact e, by rw [hpk]; exact hb, ?_⟩
    unfold Live
    rw [hb, rest_eat P [t] r (by simpa using e)]
    exact hr

theorem Live.eof {P : Parser} (hL : Live P) (hp : P.peek.kind = .Eof) :
    ∃ eof tail, P.rest = eof :: tail ∧ eof.kind = .Eof := by
  rcases hL.cases with ⟨eof, tail, e, he⟩ | ⟨t, r, e, ht, _⟩
  · exact ⟨eof, tail, e, he⟩
  · rw [peek_of_rest P t r e] at hp
    exact absurd hp ht

theorem noEof_nil : ∀ t ∈ ([] : List Token), t.kind ≠ .Eof := fun _ h => by cases h

theorem noEof_append {a b : List Token} (ha : ∀ t ∈ a, t.kind ≠ .Eof)
    (hb : ∀ t ∈ b, t.kind ≠ .Eof) : ∀ t ∈ a ++ b, t.kind ≠ .Eof := by
  intro t ht
  rcases List.mem_append.mp ht with h | h
  · exact ha t h
  · exact hb t h

theorem noEof_single {t : Token} (h : t.kind ≠ .Eof) : ∀ x ∈ [t], x.kind ≠ .Eof := by
  intro x hx
  rw [List.mem_singleton.mp hx]
  exact h

theorem bind_ok {α β : Type} {m : PM α} {f : α → PM β} {P P2 : Parser} {b : β}
    (h : (m >>= f) P = .ok b P2) : ∃ a P1, m P = .ok a P1 ∧ f a P1 = .ok b P2 := by
  change PM.bind m f P = _ at h
  unfold PM.bind at h
  cases hm : m P with
  | ok a P1 => rw [hm] at h; exact ⟨a, P1, rfl, h⟩
  | error e P1 => rw [hm] at h; cases h
  | diverged => rw [hm] at h; cases h

theorem bind_error {α β : Type} {m : PM α} {f : α → PM β} {P P2 : Parser} {e : Exn}
    (h : (m >>= f) P = .error e P2) :
    m P = .error e P2 ∨ ∃ a P1, m P = .ok a P1 ∧ f a P1 = .error e P2 := by
  change PM.bind m f P = _ at h
  unfold PM.bind at h
  cases hm : m P with
  | ok a P1 => rw [hm] at h; exact Or.inr ⟨a, P1, rfl, h⟩
  | error e1 P1 =>
    rw [hm] at h
    injection h with h1 h2
    subst h1; subst h2
    exact Or.inl rfl
  | diverged => rw [hm] at h; cases h

theorem Eats.bind {α β : Type} {m : PM α} {f : α → PM β}
    {S1 : Parser → α → List Token → Prop} {S2 : α → Parser → β → List Token → Prop}
    (hm : Eats m S1) (hf : ∀ a, Eats (f a) (S2 a)) :
    Eats (m >>= f) (fun P b seg =>
      ∃ a s1 s2, seg = s1 ++ s2 ∧ S1 P a s1 ∧ S2 a (P.eat s1) b s2) := by
  intro P b P2 hL h
  obtain ⟨a, P1, h1, h2⟩ := bind_ok h
  obtain ⟨s1, r1, e1, rfl, hL1, hn1, hS1⟩ := hm P a P1 hL h1
  obtain ⟨s2, r2, e2, rfl, hL2, hn2, hS2⟩ := hf a _ b P2 hL1 h2
  rw [rest_eat P s1 r1 e1] at e2
  exact ⟨s1 ++ s2, r2, by rw [e1, e2, List.append_assoc], eat_append P s1 s2, hL2,
    noEof_append hn1 hn2, a, s1, s2, rfl, hS1, hS2⟩

theorem Eats.mono {α : Type} {m : PM α} {S T : Parser → α → List Token → Prop}
    (hm : Eats m S) (h : ∀ P a seg, S P a seg → T P a seg) : Eats m T := by
  intro P a P2 hL e
  obtain ⟨seg, r, e1, e2, hL2, hn, hS⟩ := hm P a P2 hL e
  exact ⟨seg, r, e1, e2, hL2, hn, h P a seg hS⟩

theorem Eats.pure {α : Type} (a : α) : Eats (pure a : PM α) (fun _ b seg => b = a ∧ seg = []) := by
  intro P b P2 _ h
  cases h
  exact ⟨[], P.rest, rfl, (eat_nil P).symm, ‹Live P›, noEof_nil, rfl, rfl⟩

theorem Eats.expect (k : TokenKind) (what : String) (hk : k ≠ .Eof) :
    Eats (expect k what) (fun _ t seg => seg = [t] ∧ t.kind = k) := by
  intro P t P2 hL h
  unfold Parser.expect at h
  simp only at h
  split_ifs at h with hne
  cases h
  have hp : P.peek.kind = k := not_not.mp hne
  obtain ⟨r, e1, e2, hL2⟩ := hL.step hk hp
  exact ⟨[P.peek], r, e1, e2, hL2, noEof_single (hp ▸ hk), rfl, hp⟩

theorem Eats.consumeIf (k : TokenKind) (hk : k ≠ .Eof) :
    Eats (consumeIf k) (fun _ b seg =>
      (b = true ∧ ∃ t, seg = [t] ∧ t.kind = k) ∨ (b = false ∧ seg = [])) := by
  intro P b P2 hL h
  unfold Parser.consumeIf at h
  split_ifs at h with hp
  · cases h
    obtain ⟨r, e1, e2, hL2⟩ := hL.step hk hp
    exact ⟨[P.peek], r, e1, e2, hL2, noEof_single (hp ▸ hk), Or.inl ⟨rfl, _, rfl, hp⟩⟩
  · cases h
    exact ⟨[], P.rest, rfl, (eat_nil P).symm, hL, noEof_nil, Or.inr ⟨rfl, rfl⟩⟩

theorem Eats.is (k : TokenKind) :
    Eats (is k) (fun P b seg => seg = [] ∧ b = decide (P.peek.kind = k)) := by
  intro P b P2 hL h
  cases h
  exact ⟨[], P.rest, rfl, (eat_nil P).symm, hL, noEof_nil, rfl, rfl⟩

theorem Eats.eats_budget : Eats budget (fun _ _ seg => seg = []) := by
  intro P b P2 hL h
  cases h
  exact ⟨[], P.rest, rfl, (eat_nil P).symm, hL, noEof_nil, rfl⟩

theorem Eats.expectIdent (what : String) :
    Eats (expectIdent what) (fun _ s seg => ∃ t, seg = [t] ∧ t.kind = .Identifier ∧ s = t.text) := by
  unfold Parser.expectIdent
  refine ((Eats.expect .Identifier what (by decide)).bind fun t => Eats.pure t.text).mono ?_
  rintro P s seg ⟨t, s1, s2, rfl, ⟨rfl, hk⟩, rfl, rfl⟩
  exact ⟨t, by simp, hk, rfl⟩

theorem NoDecl.nil : NoDecl [] := fun _ h => by cases h

theorem NoDecl.append {a b : List Token} (ha : NoDecl a) (hb : NoDecl b) : NoDecl (a ++ b) := by
  intro t ht
  rcases List.mem_append.mp ht with h | h
  · exact ha t h
  · exact hb t h

theorem NoDecl.single {t : Token} (h1 : t.kind ≠ .KwClass) (h2 : t.kind ≠ .KwFunction)
    (h3 : t.kind ≠ .KwExtends) : NoDecl [t] := by
  intro x hx
  rw [List.mem_singleton.mp hx]
  exact ⟨h1, h2, h3⟩

theorem EatsND.nd_bind {α β : Type} {m : PM α} {f : α → PM β} (hm : EatsND m)
    (hf : ∀ a, EatsND (f a)) : EatsND (m >>= f) := by
  refine (Eats.bind hm hf).mono ?_
  rintro P b seg ⟨a, s1, s2, rfl, h1, h2⟩
  exact h1.append h2

theorem EatsND.nd_pure {α : Type} (a : α) : EatsND (pure a : PM α) :=
  (Eats.pure a).mono fun _ _ _ h => by rw [h.2]; exact NoDecl.nil

theorem EatsND.nd_is (k : TokenKind) : EatsND (is k) :=
  (Eats.is k).mono fun _ _ _ h => by rw [h.1]; exact NoDecl.nil

theorem EatsND.nd_budget : EatsND budget :=
  Eats.eats_budget.mono fun _ _ _ h => by rw [h]; exact NoDecl.nil

theorem EatsND.nd_expect (k : TokenKind) (what : String) (h0 : k ≠ .Eof) (h1 : k ≠ .KwClass)
    (h2 : k ≠ .KwFunction) (h3 : k ≠ .KwExtends) : EatsND (expect k what) :=
  (Eats.expect k what h0).mono fun _ t _ h => by
    rw [h.1]; exact NoDecl.single (h.2 ▸ h1) (h.2 ▸ h2) (h.2 ▸ h3)

theorem EatsND.nd_consumeIf (k : TokenKind) (h0 : k ≠ .Eof) (h1 : k ≠ .KwClass)
    (h2 : k ≠ .KwFunction) (h3 : k ≠ .KwExtends) : EatsND (consumeIf k) :=
  (Eats.consumeIf k h0).mono fun _ _ _ h => by
    rcases h with ⟨_, t, rfl, hk⟩ | ⟨_, rfl⟩
    · exact NoDecl.single (hk ▸ h1) (hk ▸ h2) (hk ▸ h3)
    · exact NoDecl.nil

theorem EatsND.nd_expectIdent (what : String) : EatsND (expectIdent what) :=
  (Eats.expectIdent what).mono fun _ _ _ h => by
    obtain ⟨t, rfl, hk, _⟩ := h
    exact NoDecl.single (by simp [hk]) (by simp [hk]) (by simp [hk])

theorem EatsND.nd_ite {α : Type} {c : Prop} [Decidable c] {a b : PM α} (ha : EatsND a)
    (hb : EatsND b) : EatsND (if c then a else b) := by
  split_ifs <;> assumption

theorem EatsND.nd_peekTok : EatsND (fun P => PResult.ok P.peek P) := by
  intro P b P2 hL h
  cases h
  exact ⟨[], P.rest, rfl, (eat_nil P).symm, hL, noEof_nil, NoDecl.nil⟩

theorem parseType_nd : EatsND parseType := by
  unfold parseType
  exact (EatsND.nd_expectIdent _).nd_bind fun _ => EatsND.nd_pure _

theorem parseNewExpr_nd : EatsND parseNewExpr := by
  unfold parseNewExpr
  repeat' first
    | exact EatsND.nd_pure _
    | exact EatsND.nd_expectIdent _
    | exact EatsND.nd_expect _ _ (by decide) (by decide) (by decide) (by decide)
    | refine EatsND.nd_bind ?_ (fun _ => ?_)

theorem parseMethodCallOrVar_nd : EatsND parseMethodCallOrVar := by
  unfold parseMethodCallOrVar
  repeat' first
    | exact EatsND.nd_pure _
    | exact EatsND.nd_expectIdent _
    | exact EatsND.nd_expect _ _ (by decide) (by decide) (by decide) (by decide)
    | exact EatsND.nd_consumeIf _ (by decide) (by decide) (by decide) (by decide)
    | refine EatsND.nd_ite ?_ ?_
    | refine EatsND.nd_bind ?_ (fun _ => ?_)

theorem is_bind {α : Type} (k : TokenKind) (f : Bool → PM α) (P : Parser) :
    (is k >>= f) P = f (decide (P.peek.kind = k)) P := rfl

theorem parseCurrent_nd {P P2 : Parser} {k : TokenKind} (hL : Live P) (hp : P.peek.kind = k)
    (h0 : k ≠ .Eof) (h1 : k ≠ .KwClass) (h2 : k ≠ .KwFunction) (h3 : k ≠ .KwExtends)
    (hP : P2 = P.bump) :
    ∃ seg r, P.rest = seg ++ r ∧ P2 = P.eat seg ∧ Live P2 ∧ (∀ t ∈ seg, t.kind ≠ .Eof) ∧
      NoDecl seg := by
  obtain ⟨r, e1, e2, hL2⟩ := hL.step h0 hp
  subst hP
  exact ⟨[P.peek], r, e1, e2, hL2, noEof_single (hp ▸ h0),
    NoDecl.single (hp ▸ h1) (hp ▸ h2) (hp ▸ h3)⟩

theorem parsePrimary_nd : EatsND parsePrimary := by
  intro P a P2 hL h
  unfold parsePrimary at h
  rw [is_bind] at h
  by_cases hs : P.peek.kind = .String
  · simp only [hs, decide_True, if_true, parseString] at h
    cases h
    exact parseCurrent_nd hL hs (by decide) (by decide) (by decide) (by decide) rfl
  · simp only [hs, decide_False, Bool.false_eq_true, if_false] at h
    rw [is_bind] at h
    by_cases hn : P.peek.kind = .Number
    · simp only [hn, decide_True, if_true, parseNumber] at h
      split at h
      · cases h
        exact parseCurrent_nd hL hn (by decide) (by decide) (by decide) (by decide) rfl
      · cases h
    · simp only [hn, decide_False, Bool.false_eq_true, if_false] at h
      rw [is_bind] at h
      by_cases hw : P.peek.kind = .KwNew
      · simp only [hw, decide_True, if_true] at h
        exact parseNewExpr_nd P a P2 hL h
      · simp only [hw, decide_False, Bool.false_eq_true, if_false] at h
        rw [is_bind] at h
        by_cases hi : P.peek.kind = .Identifier
        · simp only [hi, decide_True, if_true] at h
          exact parseMethodCallOrVar_nd P a P2 hL h
        · simp only [hi, decide_False, Bool.false_eq_true, if_false, raise] at h
          cases h

theorem parseExpr_nd : EatsND parseExpr := parsePrimary_nd

theorem parseVarDecl_nd : EatsND parseVarDecl := by
  unfold parseVarDecl
  repeat' first
    | exact EatsND.nd_pure _
    | exact EatsND.nd_expectIdent _
    | exact parseType_nd
    | exact parseNewExpr_nd
    | exact EatsND.nd_expect _ _ (by decide) (by decide) (by decide) (by decide)
    | refine EatsND.nd_bind ?_ (fun _ => ?_)

theorem parsePrint_nd : EatsND parsePrint := by
  unfold parsePrint
  repeat' first
    | exact EatsND.nd_pure _
    | exact parseExpr_nd
    | exact EatsND.nd_expect _ _ (by decide) (by decide) (by decide) (by decide)
    | refine EatsND.nd_bind ?_ (fun _ => ?_)

theorem parseReturn_nd : EatsND parseReturn := by
  unfold parseReturn
  repeat' first
    | exact EatsND.nd_pure _
    | exact parseExpr_nd
    | exact EatsND.nd_expect _ _ (by decide) (by decide) (by decide) (by decide)
    | refine EatsND.nd_bind ?_ (fun _ => ?_)

theorem EatsND.nd_raise {α : Type} (e : Exn) : EatsND (raise e : PM α) := by
  intro P a P2 _ h
  cases h

theorem parseStmt_nd : EatsND parseStmt := by
  unfold parseStmt
  repeat' first
    | exact EatsND.nd_is _
    | exact parseVarDecl_nd
    | exact parsePrint_nd
    | exact parseReturn_nd
    | exact EatsND.nd_raise _
    | refine EatsND.nd_ite ?_ ?_
    | refine EatsND.nd_bind ?_ (fun _ => ?_)

theorem parseBody_nd (fuel : Nat) (body : List Stmt) : EatsND (parseBody fuel body) := by
  induction fuel generalizing body with
  | zero => intro P a P2 _ h; cases h
  | succ n ih =>
    unfold parseBody
    repeat' first
      | exact EatsND.nd_is _
      | exact EatsND.nd_pure _
      | exact parseStmt_nd
      | exact ih _
      | refine EatsND.nd_ite ?_ ?_
      | refine EatsND.nd_bind ?_ (fun _ => ?_)

theorem parseAttr_nd : EatsND parseAttr := by
  unfold parseAttr
  repeat' first
    | exact EatsND.nd_pure _
    | exact EatsND.nd_consumeIf _ (by decide) (by decide) (by decide) (by decide)
    | refine EatsND.nd_ite ?_ ?_
    | refine EatsND.nd_bind ?_ (fun _ => ?_)

theorem parseMethod_nd : EatsND parseMethod := by
  unfold parseMethod
  repeat' first
    | exact EatsND.nd_pure _
    | exact EatsND.nd_peekTok
    | exact EatsND.nd_budget
    | exact EatsND.nd_expectIdent _
    | exact parseAttr_nd
    | exact parseType_nd
    | exact parseBody_nd _ _
    | exact EatsND.nd_expect _ _ (by decide) (by decide) (by decide) (by decide)
    | refine EatsND.nd_bind ?_ (fun _ => ?_)

theorem parseMethods_nd (fuel : Nat) (ms : List MethodDecl) : EatsND (parseMethods fuel ms) := by
  induction fuel generalizing ms with
  | zero => intro P a P2 _ h; cases h
  | succ n ih =>
    unfold parseMethods
    repeat' first
      | exact EatsND.nd_is _
      | exact EatsND.nd_pure _
      | exact parseMethod_nd
      | exact ih _
      | refine EatsND.nd_ite ?_ ?_
      | refine EatsND.nd_bind ?_ (fun _ => ?_)

theorem Eats.bind_nd {α β : Type} {m : PM α} {f : α → PM β} {T : β → Prop} (hm : EatsND m)
    (hf : ∀ a, Eats (f a) (fun _ b seg => T b ∧ NoDecl seg)) :
    Eats (m >>= f) (fun _ b seg => T b ∧ NoDecl seg) := by
  refine (Eats.bind hm hf).mono ?_
  rintro P b seg ⟨a, s1, s2, rfl, h1, h2, h3⟩
  exact ⟨h2, h1.append h3⟩

theorem Eats.pure_nd {α : Type} {T : α → Prop} (a : α) (h : T a) :
    Eats (Pure.pure a : PM α) (fun _ b seg => T b ∧ NoDecl seg) :=
  (Eats.pure a).mono fun _ _ _ hb => by rw [hb.1, hb.2]; exact ⟨h, NoDecl.nil⟩

theorem parseBase_shape : Eats parseBase (fun _ b seg =>
    (b = none ∧ seg = []) ∨
    ∃ te tb, seg = [te, tb] ∧ te.kind = .KwExtends ∧ tb.kind = .Identifier ∧ b = some tb.text) := by
  unfold parseBase
  have hf : ∀ c : Bool, Eats
      (if c = true then (do let b ← expectIdent "base class name"; pure (some b))
        else (pure none : PM (Option (List Char))))
      (fun _ b seg =>
        (c = true → ∃ tb, seg = [tb] ∧ tb.kind = .Identifier ∧ b = some tb.text) ∧
        (c = false → b = none ∧ seg = [])) := by
    intro c
    split_ifs with hc
    · refine (Eats.bind (Eats.expectIdent _) (fun s => Eats.pure (some s))).mono ?_
      rintro P b seg ⟨s, s1, s2, rfl, ⟨tb, rfl, hk, rfl⟩, rfl, rfl⟩
      exact ⟨fun _ => ⟨tb, by simp, hk, rfl⟩, fun h => by rw [hc] at h; cases h⟩
    · refine (Eats.pure none).mono ?_
      rintro P b seg ⟨rfl, rfl⟩
      exact ⟨fun h => absurd h hc, fun _ => ⟨rfl, rfl⟩⟩
  refine (Eats.bind (Eats.consumeIf .KwExtends (by decide)) hf).mono ?_
  rintro P b seg ⟨c, s1, s2, rfl, hc, h2⟩
  rcases hc with ⟨rfl, te, rfl, hk⟩ | ⟨rfl, rfl⟩
  · obtain ⟨tb, rfl, hk2, rfl⟩ := h2.1 rfl
    exact Or.inr ⟨te, tb, rfl, hk, hk2, rfl⟩
  · obtain ⟨rfl, rfl⟩ := h2.2 rfl
    exact Or.inl ⟨rfl, rfl⟩

theorem parseClassDecl_shape : Eats parseClassDecl (fun _ c seg => ClassShape c seg) := by
  unfold parseClassDecl
  have tail : ∀ (tClass : Token) (name : List Char) (baseName : Option (List Char)),
      Eats (do
        let methods ← parseMethods (← budget) []
        let tR ← expect .RBrace "'\x7d'"
        pure ({ name := name, baseName := baseName, methods := methods,
                loc := { start := tClass.range.start, end_ := tR.range.end_ } } : ClassDecl))
        (fun _ c seg => (c.name = name ∧ c.baseName = baseName) ∧ NoDecl seg) := by
    intro tClass name baseName
    refine Eats.bind_nd EatsND.nd_budget fun n => ?_
    refine Eats.bind_nd (parseMethods_nd n []) fun ms => ?_
    refine Eats.bind_nd (EatsND.nd_expect _ _ (by decide) (by decide) (by decide) (by decide))
      fun tR => ?_
    exact Eats.pure_nd _ ⟨rfl, rfl⟩
  refine (Eats.bind (Eats.expect .KwClass _ (by decide)) fun tClass =>
    Eats.bind (Eats.expectIdent _) fun name =>
    Eats.bind parseBase_shape fun baseName =>
    Eats.bind (Eats.expect .LBrace _ (by decide)) fun _ => tail tClass name baseName).mono ?_
  rintro P c seg ⟨tc, s1, s2, rfl, ⟨rfl, hkc⟩, name, s3, s4, rfl, ⟨tn, rfl, hkn, rfl⟩,
    base, s5, s6, rfl, hbase, tl, s7, s8, rfl, ⟨rfl, hkl⟩, ⟨hname, hb⟩, hnd⟩
  refine ⟨tc, tn, s5, tl, s8, by simp, hkc, hkn, hname, hkl, hnd, ?_⟩
  rcases hbase with ⟨rfl, rfl⟩ | ⟨te, tb, rfl, h1, h2, rfl⟩
  · exact Or.inl ⟨hb, rfl⟩
  · exact Or.inr ⟨te, tb, rfl, h1, h2, hb⟩

theorem parseFunctionDecl_shape :
    Eats parseFunctionDecl (fun _ f seg => FunctionShape f seg) := by
  unfold parseFunctionDecl
  have tail : ∀ (tFun : Token) (name : List Char),
      Eats (do
        let _ ← expect .LParen "'('"
        let _ ← expect .RParen "')'"
        let _ ← expect .Colon "':'"
        let returnType ← parseType
        let _ ← expect .LBrace "'\x7b'"
        let body ← parseBody (← budget) []
        let tEnd ← expect .RBrace "'\x7d'"
        pure ({ name := name, returnType := returnType, body := body,
                loc := { start := tFun.range.start, end_ := tEnd.range.end_ } } :
                FunctionDecl))
        (fun _ f seg => f.name = name ∧ NoDecl seg) := by
    intro tFun name
    repeat' first
      | exact Eats.pure_nd _ rfl
      | exact EatsND.nd_budget
      | exact parseType_nd
      | exact parseBody_nd _ _
      | exact EatsND.nd_expect _ _ (by decide) (by decide) (by decide) (by decide)
      | refine Eats.bind_nd ?_ (fun _ => ?_)
  refine (Eats.bind (Eats.expect .KwFunction _ (by decide)) fun tFun =>
    Eats.bind (Eats.expectIdent _) fun name => tail tFun name).mono ?_
  rintro P f seg ⟨tf, s1, s2, rfl, ⟨rfl, hkf⟩, name, s3, s4, rfl, ⟨tn, rfl, hkn, rfl⟩,
    hname, hnd⟩
  exact ⟨tf, tn, s4, by simp, hkf, hkn, hname, hnd⟩

theorem classSigs_append_of_ne (seg X : List Token) (h : ∀ t ∈ seg, t.kind ≠ .KwClass) :
    classSigs (seg ++ X) = classSigs X := by
  induction seg with
  | nil => rfl
  | cons t seg ih =>
    have ht := h t (List.mem_cons_self _ _)
    simp only [List.cons_append, classSigs, if_neg ht]
    exact ih fun x hx => h x (List.mem_cons_of_mem _ hx)

theorem functionNames_append_of_ne (seg X : List Token) (h : ∀ t ∈ seg, t.kind ≠ .KwFunction) :
    functionNames (seg ++ X) = functionNames X := by
  induction seg with
  | nil => rfl
  | cons t seg ih =>
    have ht := h t (List.mem_cons_self _ _)
    simp only [List.cons_append, functionNames, if_neg ht]
    exact ih fun x hx => h x (List.mem_cons_of_mem _ hx)

theorem keywordsNamed_append_of_nodecl (seg X : List Token) (h : NoDecl seg) :
    keywordsNamed (seg ++ X) = keywordsNamed X := by
  induction seg with
  | nil => rfl
  | cons t seg ih =>
    obtain ⟨h1, h2, h3⟩ := h t (List.mem_cons_self _ _)
    simp only [List.cons_append, keywordsNamed, h1, h2, h3, or_self, if_false, Bool.true_and]
    exact ih fun x hx => h x (List.mem_cons_of_mem _ hx)

theorem ClassShape.class_sigs {c : ClassDecl} {seg : List Token} (h : ClassShape c seg)
    (X : List Token) :
    classSigs (seg ++ X) = (c.name, c.baseName) :: classSigs X ∧
    functionNames (seg ++ X) = functionNames X ∧
    keywordsNamed (seg ++ X) = keywordsNamed X := by
  obtain ⟨tc, tn, sb, tl, more, rfl, hc, hn, hname, hl, hnd, hb⟩ := h
  have hmore1 : ∀ t ∈ more, t.kind ≠ .KwClass := fun t ht => (hnd t ht).1
  have hmore2 : ∀ t ∈ more, t.kind ≠ .KwFunction := fun t ht => (hnd t ht).2.1
  rcases hb with ⟨hbase, rfl⟩ | ⟨te, tb, rfl, he, hbk, hbase⟩
  · have e : tc :: tn :: ([] ++ tl :: more) ++ X = tc :: tn :: tl :: (more ++ X) := by simp
    rw [e]
    refine ⟨?_, ?_, ?_⟩
    · simp only [classSigs, hc, hn, hl, if_true, List.headD_cons, List.getD_cons_succ,
        List.getD_cons_zero]
      simp [hname, hbase, classSigs_append_of_ne more X hmore1]
    · simp only [functionNames, hc, hn, hl]
      simp [functionNames_append_of_ne more X hmore2]
    · simp only [keywordsNamed, hc, hn, hl, List.headD_cons]
      simp [keywordsNamed_append_of_nodecl more X hnd]
  · have e : tc :: tn :: ([te, tb] ++ tl :: more) ++ X =
        tc :: tn :: te :: tb :: tl :: (more ++ X) := by simp
    rw [e]
    refine ⟨?_, ?_, ?_⟩
    · simp only [classSigs, hc, hn, hl, he, hbk, if_true, List.headD_cons, List.getD_cons_succ,
        List.getD_cons_zero]
      simp [hname, hbase, classSigs_append_of_ne more X hmore1]
    · simp only [functionNames, hc, hn, hl, he, hbk]
      simp [functionNames_append_of_ne more X hmore2]
    · simp only [keywordsNamed, hc, hn, hl, he, hbk, List.headD_cons]
      simp [keywordsNamed_append_of_nodecl more X hnd]

theorem FunctionShape.function_sigs {f : FunctionDecl} {seg : List Token} (h : FunctionShape f seg)
    (X : List Token) :
    classSigs (seg ++ X) = classSigs X ∧
    functionNames (seg ++ X) = f.name :: functionNames X ∧
    keywordsNamed (seg ++ X) = keywordsNamed X := by
  obtain ⟨tf, tn, more, rfl, hf, hn, hname, hnd⟩ := h
  have hmore1 : ∀ t ∈ more, t.kind ≠ .KwClass := fun t ht => (hnd t ht).1
  have hmore2 : ∀ t ∈ more, t.kind ≠ .KwFunction := fun t ht => (hnd t ht).2.1
  have e : tf :: tn :: more ++ X = tf :: tn :: (more ++ X) := by simp
  rw [e]
  refine ⟨?_, ?_, ?_⟩
  · simp only [classSigs, hf, hn]
    simp [classSigs_append_of_ne more X hmore1]
  · simp only [functionNames, hf, hn, if_true, List.headD_cons]
    simp [hname, functionNames_append_of_ne more X hmore2]
  · simp only [keywordsNamed, hf, hn, List.headD_cons]
    simp [keywordsNamed_append_of_nodecl more X hnd]

theorem parseDecls_sigs (fuel : Nat) (p p2 : Program) (P P2 : Parser) (hL : Live P)
    (h : parseDecls fuel p P = .ok p2 P2) :
    ∃ seg eof tail C F, P.rest = seg ++ eof :: tail ∧ eof.kind = .Eof ∧
      (∀ t ∈ seg, t.kind ≠ .Eof) ∧ P2 = P.eat seg ∧
      p2.classes.map (fun c => (c.name, c.baseName)) =
        p.classes.map (fun c => (c.name, c.baseName)) ++ C ∧
      p2.functions.map (fun f => f.name) = p.functions.map (fun f => f.name) ++ F ∧
      ∀ X, classSigs (seg ++ X) = C ++ classSigs X ∧
        functionNames (seg ++ X) = F ++ functionNames X ∧
        keywordsNamed (seg ++ X) = keywordsNamed X := by
  induction fuel generalizing p P with
  | zero => cases h
  | succ n ih =>
    unfold parseDecls at h
    rw [is_bind] at h
    by_cases he : P.peek.kind = .Eof
    · simp only [he, decide_True, if_true] at h
      obtain ⟨rfl, rfl⟩ : p = p2 ∧ P = P2 := by cases h; exact ⟨rfl, rfl⟩
      obtain ⟨eof, tail, e, hk⟩ := hL.eof he
      exact ⟨[], eof, tail, [], [], by simpa using e, hk, noEof_nil, (eat_nil P).symm,
        by simp, by simp, fun X => ⟨rfl, rfl, rfl⟩⟩
    · simp only [he, decide_False, Bool.false_eq_true, if_false] at h
      rw [is_bind] at h
      by_cases hc : P.peek.kind = .KwClass
      · simp only [hc, decide_True, if_true] at h
        obtain ⟨c, P1, h1, h2⟩ := bind_ok h
        obtain ⟨s1, r1, e1, rfl, hL1, hn1, hS⟩ := parseClassDecl_shape P c P1 hL h1
        obtain ⟨s2, eof, tail, C, F, e2, hk, hn2, rfl, hc2, hf2, hX⟩ := ih _ _ hL1 h2
        rw [rest_eat P s1 r1 e1] at e2
        refine ⟨s1 ++ s2, eof, tail, (c.name, c.baseName) :: C, F,
          by rw [e1, e2, List.append_assoc], hk, noEof_append hn1 hn2, eat_append P s1 s2,
          ?_, hf2, ?_⟩
        · rw [hc2]; simp
        · intro X
          obtain ⟨g1, g2, g3⟩ := hS.class_sigs (s2 ++ X)
          obtain ⟨x1, x2, x3⟩ := hX X
          rw [List.append_assoc, g1, g2, g3, x1, x2, x3]
          exact ⟨rfl, rfl, rfl⟩
      · simp only [hc, decide_False, Bool.false_eq_true, if_false] at h
        rw [is_bind] at h
        by_cases hf : P.peek.kind = .KwFunction
        · simp only [hf, decide_True, if_true] at h
          obtain ⟨f, P1, h1, h2⟩ := bind_ok h
          obtain ⟨s1, r1, e1, rfl, hL1, hn1, hS⟩ := parseFunctionDecl_shape P f P1 hL h1
          obtain ⟨s2, eof, tail, C, F, e2, hk, hn2, rfl, hc2, hf2, hX⟩ := ih _ _ hL1 h2
          rw [rest_eat P s1 r1 e1] at e2
          refine ⟨s1 ++ s2, eof, tail, C, f.name :: F,
            by rw [e1, e2, List.append_assoc], hk, noEof_append hn1 hn2, eat_append P s1 s2,
            hc2, ?_, ?_⟩
          · rw [hf2]; simp
          · intro X
            obtain ⟨g1, g2, g3⟩ := hS.function_sigs (s2 ++ X)
            obtain ⟨x1, x2, x3⟩ := hX X
            rw [List.append_assoc, g1, g2, g3, x1, x2, x3]
            exact ⟨rfl, rfl, rfl⟩
        · simp only [hf, decide_False, Bool.false_eq_true, if_false, raise] at h
          cases h

theorem first_eof_unique (a b t u : List Token) (x y : Token)
    (h : a ++ x :: t = b ++ y :: u) (ha : ∀ z ∈ a, z.kind ≠ .Eof) (hb : ∀ z ∈ b, z.kind ≠ .Eof)
    (hx : x.kind = .Eof) (hy : y.kind = .Eof) : a = b ∧ x = y ∧ t = u := by
  induction a generalizing b with
  | nil =>
    cases b with
    | nil =>
      simp only [List.nil_append, List.cons.injEq] at h
      exact ⟨rfl, h.1, h.2⟩
    | cons z b =>
      simp only [List.nil_append, List.cons_append, List.cons.injEq] at h
      exact absurd (h.1 ▸ hx) (hb z (List.mem_cons_self _ _))
  | cons z a ih =>
    cases b with
    | nil =>
      simp only [List.nil_append, List.cons_append, List.cons.injEq] at h
      exact absurd (h.1 ▸ hy) (ha z (List.mem_cons_self _ _))
    | cons w b =>
      simp only [List.cons_append, List.cons.injEq] at h
      obtain ⟨g1, g2, g3⟩ := ih b h.2 (fun v hv => ha v (List.mem_cons_of_mem _ hv))
        (fun v hv => hb v (List.mem_cons_of_mem _ hv))
      exact ⟨by rw [h.1, g1], g2, g3⟩

end Parser

theorem EofAhead.of_stream {toks : List Token} (h : TokenStream toks) : EofAhead toks := by
  obtain ⟨pre, eof, e, he, hpre⟩ := h
  exact ⟨pre, eof, [], e, he, hpre⟩

/-- What a successful `parseProgram` has done on any token vector that holds an
`Eof` token: it stopped with the cursor on the first one, having passed the
tokens `seg` before it, and the declarations are those of `seg`. -/
theorem parseProgram_upto_first_eof (tokens : List Token) (p : Program) (P : Parser)
    (hE : EofAhead tokens) (h : parseProgram tokens = .ok p P) :
    ∃ seg eof tail, tokens = seg ++ eof :: tail ∧ eof.kind = .Eof ∧
      (∀ t ∈ seg, t.kind ≠ .Eof) ∧
      P = { tokens := tokens, pos := seg.length, consumed := seg } ∧
      p.classes.map (fun c => (c.name, c.baseName)) = classSigs seg ∧
      p.functions.map (fun f => f.name) = functionNames seg ∧
      keywordsNamed seg = true ∧
      ∀ X, classSigs (seg ++ X) = classSigs seg ++ classSigs X ∧
        functionNames (seg ++ X) = functionNames seg ++ functionNames X ∧
        keywordsNamed (seg ++ X) = keywordsNamed X := by
  have hL : Parser.Live { tokens := tokens } := hE
  obtain ⟨seg, eof, tail, C, F, e1, hk, hn, rfl, hc, hf, hX⟩ :=
    Parser.parseDecls_sigs _ _ _ _ _ hL h
  have e1 : tokens = seg ++ eof :: tail := e1
  obtain ⟨x1, x2, x3⟩ := hX []
  simp only [List.append_nil, classSigs, functionNames, keywordsNamed] at x1 x2 x3
  refine ⟨seg, eof, tail, e1, hk, hn, by simp [Parser.eat], ?_, ?_, x3, ?_⟩
  · rw [x1]; simpa using hc
  · rw [x2]; simpa using hf
  · intro X
    rw [x1, x2]
    exact hX X

theorem parseProgram_sigs (tokens : List Token) (p : Program) (P : Parser)
    (hts : TokenStream tokens) (h : parseProgram tokens = .ok p P) :
    P.tokens = tokens ∧ P.pos + 1 = tokens.length ∧ P.consumed = tokens.dropLast ∧
    P.peek.kind = .Eof ∧
    p.classes.map (fun c => (c.name, c.baseName)) = classSigs tokens ∧
    p.functions.map (fun f => f.name) = functionNames tokens ∧
    keywordsNamed tokens = true := by
  obtain ⟨seg, eof, tail, e1, hk, hn, rfl, hc, hf, hkn, hX⟩ :=
    parseProgram_upto_first_eof tokens p P (EofAhead.of_stream hts) h
  obtain ⟨pre, eof2, e4, he2, hpre⟩ := hts
  obtain ⟨rfl, rfl, rfl⟩ := Parser.first_eof_unique seg pre tail [] eof eof2
    (e1.symm.trans e4) hn hpre hk he2
  have hrest : Parser.rest { tokens := tokens, pos := seg.length, consumed := seg } = [eof] := by
    simp [Parser.rest, e1]
  obtain ⟨x1, x2, x3⟩ := hX [eof]
  refine ⟨rfl, by simp [e1], by simp [e1], ?_, ?_, ?_, ?_⟩
  · rw [Parser.peek_of_rest _ eof [] hrest]; exact hk
  · rw [hc, e1, x1]; simp [classSigs, hk]
  · rw [hf, e1, x2]; simp [functionNames, hk]
  · rw [e1, x3]; simp [keywordsNamed, hk]

theorem stoi_error (s : List Char) (e : Exn) (h : stoi s = .error e) :
    e = .invalid_argument "stoi" ∨ e = .out_of_range "stoi" := by
  unfold stoi at h
  simp only at h
  split_ifs at h <;> cases h <;> first | exact Or.inl rfl | exact Or.inr rfl

namespace Parser

theorem Fails.f_bind {α β : Type} {m : PM α} {f : α → PM β} (hm : Fails m)
    (hf : ∀ a, Fails (f a)) : Fails (m >>= f) := by
  constructor
  · intro P b P2 h
    obtain ⟨a, P1, h1, h2⟩ := bind_ok h
    rw [(hf a).1 P1 b P2 h2, hm.1 P a P1 h1]
  · intro P e P2 h
    rcases bind_error h with h1 | ⟨a, P1, h1, h2⟩
    · exact hm.2 P e P2 h1
    · obtain ⟨g1, g2⟩ := (hf a).2 P1 e P2 h2
      exact ⟨by rw [g1, hm.1 P a P1 h1], g2⟩

theorem Fails.f_pure {α : Type} (a : α) : Fails (Pure.pure a : PM α) :=
  ⟨fun P b P2 h => (by cases h; rfl), fun P e P2 h => (by cases h)⟩

theorem Fails.f_is (k : TokenKind) : Fails (is k) :=
  ⟨fun P b P2 h => (by cases h; rfl), fun P e P2 h => (by cases h)⟩

theorem Fails.f_budget : Fails budget :=
  ⟨fun P b P2 h => (by cases h; rfl), fun P e P2 h => (by cases h)⟩

theorem Fails.f_peekTok : Fails (fun P => PResult.ok P.peek P) :=
  ⟨fun P b P2 h => (by cases h; rfl), fun P e P2 h => (by cases h)⟩

theorem Fails.f_expect (k : TokenKind) (what : String) : Fails (expect k what) := by
  constructor
  · intro P t P2 h
    unfold Parser.expect at h
    simp only at h
    split_ifs at h
    cases h; rfl
  · intro P e P2 h
    unfold Parser.expect at h
    simp only at h
    split_ifs at h
    cases h
    exact ⟨rfl, Or.inl ⟨what, rfl⟩⟩

theorem Fails.f_consumeIf (k : TokenKind) : Fails (consumeIf k) := by
  constructor
  · intro P t P2 h
    unfold Parser.consumeIf at h
    split_ifs at h <;> cases h <;> rfl
  · intro P e P2 h
    unfold Parser.consumeIf at h
    split_ifs at h

theorem Fails.f_expectIdent (what : String) : Fails (expectIdent what) := by
  unfold Parser.expectIdent
  exact (Fails.f_expect _ _).f_bind fun _ => Fails.f_pure _

theorem Fails.f_ite {α : Type} {c : Prop} [Decidable c] {a b : PM α} (ha : Fails a)
    (hb : Fails b) : Fails (if c then a else b) := by
  split_ifs <;> assumption

theorem Fails.f_raise {α : Type} (e : Exn)
    (he : e = .runtime_error "Expected 'class' or 'function'" ∨
      e = .runtime_error "Unexpected token in statement" ∨
      e = .runtime_error "Unexpected token in expression") : Fails (raise e : PM α) := by
  refine ⟨fun P b P2 h => (by cases h), fun P e2 P2 h => ?_⟩
  cases h
  refine ⟨rfl, ?_⟩
  rcases he with h | h | h
  · exact Or.inr (Or.inl h)
  · exact Or.inr (Or.inr (Or.inl h))
  · exact Or.inr (Or.inr (Or.inr (Or.inl h)))

theorem parseString_fails : Fails parseString :=
  ⟨fun P b P2 h => (by cases h; rfl), fun P e P2 h => (by cases h)⟩

theorem parseNumber_fails : Fails parseNumber := by
  constructor
  · intro P b P2 h
    unfold parseNumber at h
    split at h
    · cases h; rfl
    · cases h
  · intro P e P2 h
    unfold parseNumber at h
    split at h
    · cases h
    · rename_i e1 he
      cases h
      refine ⟨rfl, ?_⟩
      rcases stoi_error _ _ he with g | g
      · exact Or.inr (Or.inr (Or.inr (Or.inr (Or.inl g))))
      · exact Or.inr (Or.inr (Or.inr (Or.inr (Or.inr g))))

theorem parseType_fails : Fails parseType := by
  unfold parseType
  exact (Fails.f_expectIdent _).f_bind fun _ => Fails.f_pure _

theorem parseNewExpr_fails : Fails parseNewExpr := by
  unfold parseNewExpr
  repeat' first
    | exact Fails.f_pure _
    | exact Fails.f_expectIdent _
    | exact Fails.f_expect _ _
    | refine Fails.f_bind ?_ (fun _ => ?_)

theorem parseMethodCallOrVar_fails : Fails parseMethodCallOrVar := by
  unfold parseMethodCallOrVar
  repeat' first
    | exact Fails.f_pure _
    | exact Fails.f_expectIdent _
    | exact Fails.f_expect _ _
    | exact Fails.f_consumeIf _
    | refine Fails.f_ite ?_ ?_
    | refine Fails.f_bind ?_ (fun _ => ?_)

theorem parsePrimary_fails : Fails parsePrimary := by
  unfold parsePrimary
  repeat' first
    | exact Fails.f_is _
    | exact parseString_fails
    | exact parseNumber_fails
    | exact parseNewExpr_fails
    | exact parseMethodCallOrVar_fails
    | exact Fails.f_raise _ (Or.inr (Or.inr rfl))
    | refine Fails.f_ite ?_ ?_
    | refine Fails.f_bind ?_ (fun _ => ?_)

theorem parseExpr_fails : Fails parseExpr := parsePrimary_fails

theorem parseVarDecl_fails : Fails parseVarDecl := by
  unfold parseVarDecl
  repeat' first
    | exact Fails.f_pure _
    | exact Fails.f_expectIdent _
    | exact parseType_fails
    | exact parseNewExpr_fails
    | exact Fails.f_expect _ _
    | refine Fails.f_bind ?_ (fun _ => ?_)

theorem parsePrint_fails : Fails parsePrint := by
  unfold parsePrint
  repeat' first
    | exact Fails.f_pure _
    | exact parseExpr_fails
    | exact Fails.f_expect _ _
    | refine Fails.f_bind ?_ (fun _ => ?_)

theorem parseReturn_fails : Fails parseReturn := by
  unfold parseReturn
  repeat' first
    | exact Fails.f_pure _
    | exact parseExpr_fails
    | exact Fails.f_expect _ _
    | refine Fails.f_bind ?_ (fun _ => ?_)

theorem parseStmt_fails : Fails parseStmt := by
  unfold parseStmt
  repeat' first
    | exact Fails.f_is _
    | exact parseVarDecl_fails
    | exact parsePrint_fails
    | exact parseReturn_fails
    | exact Fails.f_raise _ (Or.inr (Or.inl rfl))
    | refine Fails.f_ite ?_ ?_
    | refine Fails.f_bind ?_ (fun _ => ?_)

theorem parseBody_fails (fuel : Nat) (body : List Stmt) : Fails (parseBody fuel body) := by
  induction fuel generalizing body with
  | zero => exact ⟨fun P a P2 h => (by cases h), fun P e P2 h => (by cases h)⟩
  | succ n ih =>
    unfold parseBody
    repeat' first
      | exact Fails.f_is _
      | exact Fails.f_pure _
      | exact parseStmt_fails
      | exact ih _
      | refine Fails.f_ite ?_ ?_
      | refine Fails.f_bind ?_ (fun _ => ?_)

theorem parseAttr_fails : Fails parseAttr := by
  unfold parseAttr
  repeat' first
    | exact Fails.f_pure _
    | exact Fails.f_consumeIf _
    | refine Fails.f_ite ?_ ?_
    | refine Fails.f_bind ?_ (fun _ => ?_)

theorem parseMethod_fails : Fails parseMethod := by
  unfold parseMethod
  repeat' first
    | exact Fails.f_pure _
    | exact Fails.f_peekTok
    | exact Fails.f_budget
    | exact Fails.f_expectIdent _
    | exact parseAttr_fails
    | exact parseType_fails
    | exact parseBody_fails _ _
    | exact Fails.f_expect _ _
    | refine Fails.f_bind ?_ (fun _ => ?_)

theorem parseFunctionDecl_fails : Fails parseFunctionDecl := by
  unfold parseFunctionDecl
  repeat' first
    | exact Fails.f_pure _
    | exact Fails.f_budget
    | exact Fails.f_expectIdent _
    | exact parseType_fails
    | exact parseBody_fails _ _
    | exact Fails.f_expect _ _
    | refine Fails.f_bind ?_ (fun _ => ?_)

theorem parseMethods_fails (fuel : Nat) (ms : List MethodDecl) :
    Fails (parseMethods fuel ms) := by
  induction fuel generalizing ms with
  | zero => exact ⟨fun P a P2 h => (by cases h), fun P e P2 h => (by cases h)⟩
  | succ n ih =>
    unfold parseMethods
    repeat' first
      | exact Fails.f_is _
      | exact Fails.f_pure _
      | exact parseMethod_fails
      | exact ih _
      | refine Fails.f_ite ?_ ?_
      | refine Fails.f_bind ?_ (fun _ => ?_)

theorem parseBase_fails : Fails parseBase := by
  unfold parseBase
  repeat' first
    | exact Fails.f_pure _
    | exact Fails.f_consumeIf _
    | exact Fails.f_expectIdent _
    | refine Fails.f_ite ?_ ?_
    | refine Fails.f_bind ?_ (fun _ => ?_)

theorem parseClassDecl_fails : Fails parseClassDecl := by
  unfold parseClassDecl
  repeat' first
    | exact Fails.f_pure _
    | exact Fails.f_budget
    | exact Fails.f_expectIdent _
    | exact parseBase_fails
    | exact parseMethods_fails _ _
    | exact Fails.f_expect _ _
    | refine Fails.f_bind ?_ (fun _ => ?_)

theorem parseDecls_fails (fuel : Nat) (p : Program) : Fails (parseDecls fuel p) := by
  induction fuel generalizing p with
  | zero => exact ⟨fun P a P2 h => (by cases h), fun P e P2 h => (by cases h)⟩
  | succ n ih =>
    unfold parseDecls
    repeat' first
      | exact Fails.f_is _
      | exact Fails.f_pure _
      | exact parseClassDecl_fails
      | exact parseFunctionDecl_fails
      | exact ih _
      | exact Fails.f_raise _ (Or.inl rfl)
      | refine Fails.f_ite ?_ ?_
      | refine Fails.f_bind ?_ (fun _ => ?_)

end Parser

theorem classSigs_length (l : List Token) :
    (classSigs l).length = l.countP (fun t => decide (t.kind = .KwClass)) := by
  induction l with
  | nil => rfl
  | cons t l ih =>
    by_cases h : t.kind = .KwClass
    · simp [classSigs, h, ih]
    · simp [classSigs, h, ih]

theorem functionNames_length (l : List Token) :
    (functionNames l).length = l.countP (fun t => decide (t.kind = .KwFunction)) := by
  induction l with
  | nil => rfl
  | cons t l ih =>
    by_cases h : t.kind = .KwFunction
    · simp [functionNames, h, ih]
    · simp [functionNames, h, ih]

namespace Parser

theorem bind_diverged {α β : Type} {m : PM α} {f : α → PM β} {P : Parser}
    (h : (m >>= f) P = .diverged) :
    m P = .diverged ∨ ∃ a P1, m P = .ok a P1 ∧ f a P1 = .diverged := by
  change PM.bind m f P = _ at h
  unfold PM.bind at h
  cases hm : m P with
  | ok a P1 => rw [hm] at h; exact Or.inr ⟨a, P1, rfl, h⟩
  | error e1 P1 => rw [hm] at h; cases h
  | diverged => exact Or.inl rfl

theorem Eats.weaken {α : Type} {m : PM α} {S : Parser → α → List Token → Prop}
    (h : Eats m S) : Eats m (fun _ _ _ => True) :=
  h.mono fun _ _ _ _ => True.intro

theorem bind_nodiv_at {α β : Type} {m : PM α} {f : α → PM β} {P : Parser} (hL : Live P)
    (hm : m P ≠ .diverged) (hk : Eats m (fun _ _ _ => True)) (hf : ∀ a, NoDiv (f a)) :
    (m >>= f) P ≠ .diverged := by
  intro h
  rcases bind_diverged h with h1 | ⟨a, P1, h1, h2⟩
  · exact hm h1
  · obtain ⟨_, _, _, _, hL1, _⟩ := hk P a P1 hL h1
    exact hf a P1 hL1 h2

theorem NoDiv.d_bind {α β : Type} {m : PM α} {f : α → PM β} (hm : NoDiv m)
    (hk : Eats m (fun _ _ _ => True)) (hf : ∀ a, NoDiv (f a)) : NoDiv (m >>= f) :=
  fun _ hL => bind_nodiv_at hL (hm _ hL) hk hf

theorem NoDiv.d_pure {α : Type} (a : α) : NoDiv (Pure.pure a : PM α) :=
  fun _ _ h => by cases h

theorem NoDiv.d_is (k : TokenKind) : NoDiv (is k) := fun _ _ h => by cases h

theorem NoDiv.d_budget : NoDiv budget := fun _ _ h => by cases h

theorem NoDiv.d_peekTok : NoDiv (fun P => PResult.ok P.peek P) := fun _ _ h => by cases h

theorem NoDiv.d_raise {α : Type} (e : Exn) : NoDiv (raise e : PM α) := fun _ _ h => by cases h

theorem NoDiv.d_expect (k : TokenKind) (what : String) : NoDiv (expect k what) := by
  intro P _ h
  unfold Parser.expect at h
  simp only at h
  split_ifs at h

theorem NoDiv.d_consumeIf (k : TokenKind) : NoDiv (consumeIf k) := by
  intro P _ h
  unfold Parser.consumeIf at h
  split_ifs at h

theorem NoDiv.d_expectIdent (what : String) : NoDiv (expectIdent what) := by
  unfold Parser.expectIdent
  exact NoDiv.d_bind (NoDiv.d_expect _ _) (Eats.expect _ _ (by decide)).weaken fun _ => NoDiv.d_pure _

theorem NoDiv.d_ite {α : Type} {c : Prop} [Decidable c] {a b : PM α} (ha : NoDiv a)
    (hb : NoDiv b) : NoDiv (if c then a else b) := by
  split_ifs <;> assumption

theorem NoDiv.d_budget_loop {β : Type} {g : Nat → PM β}
    (h : ∀ P, Live P → g (P.tokens.length + 1) P ≠ .diverged) : NoDiv (budget >>= g) :=
  fun P hL => h P hL

theorem parseString_nodiv : NoDiv parseString := fun _ _ h => by cases h

theorem parseNumber_nodiv : NoDiv parseNumber := by
  intro P _ h
  unfold parseNumber at h
  split at h <;> cases h

theorem parseType_nodiv : NoDiv parseType := by
  unfold parseType
  exact NoDiv.d_bind (NoDiv.d_expectIdent _) (Eats.expectIdent _).weaken fun _ => NoDiv.d_pure _

theorem parseNewExpr_nodiv : NoDiv parseNewExpr := by
  unfold parseNewExpr
  repeat' first
    | exact NoDiv.d_pure _
    | exact NoDiv.d_expectIdent _
    | exact NoDiv.d_expect _ _
    | exact (Eats.expectIdent _).weaken
    | exact (Eats.expect _ _ (by decide)).weaken
    | refine NoDiv.d_bind ?_ ?_ (fun _ => ?_)

theorem parseMethodCallOrVar_nodiv : NoDiv parseMethodCallOrVar := by
  unfold parseMethodCallOrVar
  repeat' first
    | exact NoDiv.d_pure _
    | exact NoDiv.d_expectIdent _
    | exact NoDiv.d_expect _ _
    | exact NoDiv.d_consumeIf _
    | exact (Eats.expectIdent _).weaken
    | exact (Eats.expect _ _ (by decide)).weaken
    | exact (Eats.consumeIf _ (by decide)).weaken
    | refine NoDiv.d_ite ?_ ?_
    | refine NoDiv.d_bind ?_ ?_ (fun _ => ?_)

theorem parsePrimary_nodiv : NoDiv parsePrimary := by
  unfold parsePrimary
  repeat' first
    | exact NoDiv.d_is _
    | exact (Eats.is _).weaken
    | exact parseString_nodiv
    | exact parseNumber_nodiv
    | exact parseNewExpr_nodiv
    | exact parseMethodCallOrVar_nodiv
    | exact NoDiv.d_raise _
    | refine NoDiv.d_ite ?_ ?_
    | refine NoDiv.d_bind ?_ ?_ (fun _ => ?_)

theorem parseExpr_nodiv : NoDiv parseExpr := parsePrimary_nodiv

theorem parseVarDecl_nodiv : NoDiv parseVarDecl := by
  unfold parseVarDecl
  repeat' first
    | exact NoDiv.d_pure _
    | exact NoDiv.d_expectIdent _
    | exact NoDiv.d_expect _ _
    | exact parseType_nodiv
    | exact parseNewExpr_nodiv
    | exact (Eats.expectIdent _).weaken
    | exact (Eats.expect _ _ (by decide)).weaken
    | exact Eats.weaken parseType_nd
    | exact Eats.weaken parseNewExpr_nd
    | refine NoDiv.d_bind ?_ ?_ (fun _ => ?_)

theorem parsePrint_nodiv : NoDiv parsePrint := by
  unfold parsePrint
  repeat' first
    | exact NoDiv.d_pure _
    | exact NoDiv.d_expect _ _
    | exact parseExpr_nodiv
    | exact (Eats.expect _ _ (by decide)).weaken
    | exact Eats.weaken parseExpr_nd
    | refine NoDiv.d_bind ?_ ?_ (fun _ => ?_)

theorem parseReturn_nodiv : NoDiv parseReturn := by
  unfold parseReturn
  repeat' first
    | exact NoDiv.d_pure _
    | exact NoDiv.d_expect _ _
    | exact parseExpr_nodiv
    | exact (Eats.expect _ _ (by decide)).weaken
    | exact Eats.weaken parseExpr_nd
    | refine NoDiv.d_bind ?_ ?_ (fun _ => ?_)

theorem parseStmt_nodiv : NoDiv parseStmt := by
  unfold parseStmt
  repeat' first
    | exact NoDiv.d_is _
    | exact (Eats.is _).weaken
    | exact parseVarDecl_nodiv
    | exact parsePrint_nodiv
    | exact parseReturn_nodiv
    | exact NoDiv.d_raise _
    | refine NoDiv.d_ite ?_ ?_
    | refine NoDiv.d_bind ?_ ?_ (fun _ => ?_)

theorem Eats.ne_left {α β : Type} {m : PM α} {f : α → PM β}
    (hm : Eats m (fun _ _ s => s ≠ [])) (hf : ∀ a, Eats (f a) (fun _ _ _ => True)) :
    Eats (m >>= f) (fun _ _ s => s ≠ []) := by
  refine (Eats.bind hm hf).mono ?_
  rintro P b seg ⟨a, s1, s2, rfl, h1, _⟩
  intro h
  exact h1 (List.append_eq_nil.mp h).1

theorem Eats.ne_right {α β : Type} {m : PM α} {f : α → PM β}
    (hm : Eats m (fun _ _ _ => True)) (hf : ∀ a, Eats (f a) (fun _ _ s => s ≠ [])) :
    Eats (m >>= f) (fun _ _ s => s ≠ []) := by
  refine (Eats.bind hm hf).mono ?_
  rintro P b seg ⟨a, s1, s2, rfl, _, h2⟩
  intro h
  exact h2 (List.append_eq_nil.mp h).2

theorem EatsND.nd_weaken {α : Type} {m : PM α} (h : EatsND m) :
    Eats m (fun _ _ _ => True) :=
  Eats.weaken h

theorem Eats.ne_expect (k : TokenKind) (what : String) (hk : k ≠ .Eof) :
    Eats (Parser.expect k what) (fun _ _ s => s ≠ []) :=
  (Eats.expect k what hk).mono fun _ _ _ h => by rw [h.1]; simp

theorem Eats.ne_ite {α : Type} {c : Prop} [Decidable c] {a b : PM α}
    (ha : Eats a (fun _ _ s => s ≠ [])) (hb : Eats b (fun _ _ s => s ≠ [])) :
    Eats (if c then a else b) (fun _ _ s => s ≠ []) := by
  split_ifs <;> assumption

theorem Eats.ne_raise {α : Type} (e : Exn) : Eats (raise e : PM α) (fun _ _ s => s ≠ []) := by
  intro P a P2 _ h
  cases h

theorem parseVarDecl_ne : Eats parseVarDecl (fun _ _ s => s ≠ []) := by
  unfold parseVarDecl
  refine Eats.ne_left (Eats.ne_expect _ _ (by decide)) (fun _ => EatsND.nd_weaken ?_)
  repeat' first
    | exact EatsND.nd_pure _
    | exact EatsND.nd_expectIdent _
    | exact parseType_nd
    | exact parseNewExpr_nd
    | exact EatsND.nd_expect _ _ (by decide) (by decide) (by decide) (by decide)
    | refine EatsND.nd_bind ?_ (fun _ => ?_)

theorem parsePrint_ne : Eats parsePrint (fun _ _ s => s ≠ []) := by
  unfold parsePrint
  refine Eats.ne_left (Eats.ne_expect _ _ (by decide)) (fun _ => EatsND.nd_weaken ?_)
  repeat' first
    | exact EatsND.nd_pure _
    | exact parseExpr_nd
    | exact EatsND.nd_expect _ _ (by decide) (by decide) (by decide) (by decide)
    | refine EatsND.nd_bind ?_ (fun _ => ?_)

theorem parseReturn_ne : Eats parseReturn (fun _ _ s => s ≠ []) := by
  unfold parseReturn
  refine Eats.ne_left (Eats.ne_expect _ _ (by decide)) (fun _ => EatsND.nd_weaken ?_)
  repeat' first
    | exact EatsND.nd_pure _
    | exact parseExpr_nd
    | exact EatsND.nd_expect _ _ (by decide) (by decide) (by decide) (by decide)
    | refine EatsND.nd_bind ?_ (fun _ => ?_)

theorem parseStmt_ne : Eats parseStmt (fun _ _ s => s ≠ []) := by
  unfold parseStmt
  repeat' first
    | exact (Eats.is _).weaken
    | exact parseVarDecl_ne
    | exact parsePrint_ne
    | exact parseReturn_ne
    | exact Eats.ne_raise _
    | refine Eats.ne_ite ?_ ?_
    | refine Eats.ne_right ?_ (fun _ => ?_)

theorem parseMethod_ne : Eats parseMethod (fun _ _ s => s ≠ []) := by
  unfold parseMethod
  refine Eats.ne_right (Eats.weaken EatsND.nd_peekTok) (fun _ => ?_)
  refine Eats.ne_right (Eats.weaken parseAttr_nd) (fun _ => ?_)
  refine Eats.ne_left ((Eats.expectIdent _).mono ?_) (fun _ => EatsND.nd_weaken ?_)
  · rintro _ _ _ ⟨t, rfl, _⟩
    simp
  · repeat' first
      | exact EatsND.nd_pure _
      | exact EatsND.nd_budget
      | exact parseType_nd
      | exact parseBody_nd _ _
      | exact EatsND.nd_expect _ _ (by decide) (by decide) (by decide) (by decide)
      | refine EatsND.nd_bind ?_ (fun _ => ?_)

theorem rest_le_tokens (P : Parser) : P.rest.length ≤ P.tokens.length := by
  simp [rest]

theorem shorter_of_ne {P P1 : Parser} {seg r : List Token} (e : P.rest = seg ++ r)
    (hP : P1 = P.eat seg) (hne : seg ≠ []) : P1.rest.length < P.rest.length ∧
      P1.tokens = P.tokens := by
  subst hP
  rw [rest_eat P seg r e, e]
  have : 0 < seg.length := List.length_pos.mpr hne
  simp only [List.length_append]
  exact ⟨by omega, rfl⟩

theorem parseBody_nodiv (fuel : Nat) (body : List Stmt) (P : Parser) (hL : Live P)
    (hf : P.rest.length < fuel) : parseBody fuel body P ≠ .diverged := by
  induction fuel generalizing body P with
  | zero => omega
  | succ n ih =>
    unfold parseBody
    rw [is_bind]
    by_cases hr : P.peek.kind = .RBrace
    · simp only [hr, decide_True, if_true]
      intro h; cases h
    · simp only [hr, decide_False, Bool.false_eq_true, if_false]
      intro h
      rcases bind_diverged h with h1 | ⟨s, P1, h1, h2⟩
      · exact parseStmt_nodiv P hL h1
      · obtain ⟨seg, r, e, hP, hL1, _, hne⟩ := parseStmt_ne P s P1 hL h1
        have := (shorter_of_ne e hP hne).1
        exact ih _ P1 hL1 (by omega) h2

theorem parseBody_budget_nodiv {β : Type} (k : List Stmt → PM β) (hk : ∀ b, NoDiv (k b)) :
    NoDiv (budget >>= fun n => parseBody n [] >>= k) := by
  refine NoDiv.d_budget_loop fun P hL => ?_
  exact bind_nodiv_at hL
    (parseBody_nodiv _ [] P hL (Nat.lt_succ_of_le (rest_le_tokens P)))
    (Eats.weaken (parseBody_nd _ _)) hk

theorem parseAttr_nodiv : NoDiv parseAttr := by
  unfold parseAttr
  repeat' first
    | exact NoDiv.d_pure _
    | exact NoDiv.d_consumeIf _
    | exact (Eats.consumeIf _ (by decide)).weaken
    | refine NoDiv.d_ite ?_ ?_
    | refine NoDiv.d_bind ?_ ?_ (fun _ => ?_)

theorem parseMethod_nodiv : NoDiv parseMethod := by
  unfold parseMethod
  repeat' first
    | exact NoDiv.d_pure _
    | exact NoDiv.d_peekTok
    | exact NoDiv.d_expectIdent _
    | exact NoDiv.d_expect _ _
    | exact parseAttr_nodiv
    | exact parseType_nodiv
    | exact Eats.weaken EatsND.nd_peekTok
    | exact Eats.weaken parseAttr_nd
    | exact Eats.weaken parseType_nd
    | exact (Eats.expectIdent _).weaken
    | exact (Eats.expect _ _ (by decide)).weaken
    | refine parseBody_budget_nodiv _ (fun _ => ?_)
    | refine NoDiv.d_bind ?_ ?_ (fun _ => ?_)

theorem parseFunctionDecl_nodiv : NoDiv parseFunctionDecl := by
  unfold parseFunctionDecl
  repeat' first
    | exact NoDiv.d_pure _
    | exact NoDiv.d_expectIdent _
    | exact NoDiv.d_expect _ _
    | exact parseType_nodiv
    | exact Eats.weaken parseType_nd
    | exact (Eats.expectIdent _).weaken
    | exact (Eats.expect _ _ (by decide)).weaken
    | refine parseBody_budget_nodiv _ (fun _ => ?_)
    | refine NoDiv.d_bind ?_ ?_ (fun _ => ?_)

theorem parseMethods_nodiv (fuel : Nat) (ms : List MethodDecl) (P : Parser) (hL : Live P)
    (hf : P.rest.length < fuel) : parseMethods fuel ms P ≠ .diverged := by
  induction fuel generalizing ms P with
  | zero => omega
  | succ n ih =>
    unfold parseMethods
    rw [is_bind]
    by_cases hr : P.peek.kind = .RBrace
    · simp only [hr, decide_True, if_true]
      intro h; cases h
    · simp only [hr, decide_False, Bool.false_eq_true, if_false]
      intro h
      rcases bind_diverged h with h1 | ⟨s, P1, h1, h2⟩
      · exact parseMethod_nodiv P hL h1
      · obtain ⟨seg, r, e, hP, hL1, _, hne⟩ := parseMethod_ne P s P1 hL h1
        have := (shorter_of_ne e hP hne).1
        exact ih _ P1 hL1 (by omega) h2

theorem parseMethods_budget_nodiv {β : Type} (k : List MethodDecl → PM β)
    (hk : ∀ b, NoDiv (k b)) : NoDiv (budget >>= fun n => parseMethods n [] >>= k) := by
  refine NoDiv.d_budget_loop fun P hL => ?_
  exact bind_nodiv_at hL
    (parseMethods_nodiv _ [] P hL (Nat.lt_succ_of_le (rest_le_tokens P)))
    (Eats.weaken (parseMethods_nd _ _)) hk

theorem parseBase_nodiv : NoDiv parseBase := by
  unfold parseBase
  repeat' first
    | exact NoDiv.d_pure _
    | exact NoDiv.d_consumeIf _
    | exact NoDiv.d_expectIdent _
    | exact (Eats.consumeIf _ (by decide)).weaken
    | exact (Eats.expectIdent _).weaken
    | refine NoDiv.d_ite ?_ ?_
    | refine NoDiv.d_bind ?_ ?_ (fun _ => ?_)

theorem parseClassDecl_nodiv : NoDiv parseClassDecl := by
  unfold parseClassDecl
  repeat' first
    | exact NoDiv.d_pure _
    | exact NoDiv.d_expectIdent _
    | exact NoDiv.d_expect _ _
    | exact parseBase_nodiv
    | exact Eats.weaken parseBase_shape
    | exact (Eats.expectIdent _).weaken
    | exact (Eats.expect _ _ (by decide)).weaken
    | refine parseMethods_budget_nodiv _ (fun _ => ?_)
    | refine NoDiv.d_bind ?_ ?_ (fun _ => ?_)

theorem ClassShape.seg_ne {c : ClassDecl} {seg : List Token} (h : ClassShape c seg) :
    seg ≠ [] := by
  obtain ⟨tc, tn, sb, tl, more, rfl, _⟩ := h
  simp

theorem FunctionShape.fseg_ne {f : FunctionDecl} {seg : List Token} (h : FunctionShape f seg) :
    seg ≠ [] := by
  obtain ⟨tf, tn, more, rfl, _⟩ := h
  simp

theorem parseDecls_nodiv (fuel : Nat) (p : Program) (P : Parser) (hL : Live P)
    (hf : P.rest.length < fuel) : parseDecls fuel p P ≠ .diverged := by
  induction fuel generalizing p P with
  | zero => omega
  | succ n ih =>
    unfold parseDecls
    rw [is_bind]
    by_cases he : P.peek.kind = .Eof
    · simp only [he, decide_True, if_true]
      intro h; cases h
    · simp only [he, decide_False, Bool.false_eq_true, if_false]
      rw [is_bind]
      by_cases hc : P.peek.kind = .KwClass
      · simp only [hc, decide_True, if_true]
        intro h
        rcases bind_diverged h with h1 | ⟨c, P1, h1, h2⟩
        · exact parseClassDecl_nodiv P hL h1
        · obtain ⟨seg, r, e, hP, hL1, _, hS⟩ := parseClassDecl_shape P c P1 hL h1
          have := (shorter_of_ne e hP hS.seg_ne).1
          exact ih _ P1 hL1 (by omega) h2
      · simp only [hc, decide_False, Bool.false_eq_true, if_false]
        rw [is_bind]
        by_cases hfn : P.peek.kind = .KwFunction
        · simp only [hfn, decide_True, if_true]
          intro h
          rcases bind_diverged h with h1 | ⟨f, P1, h1, h2⟩
          · exact parseFunctionDecl_nodiv P hL h1
          · obtain ⟨seg, r, e, hP, hL1, _, hS⟩ := parseFunctionDecl_shape P f P1 hL h1
            have := (shorter_of_ne e hP hS.fseg_ne).1
            exact ih _ P1 hL1 (by omega) h2
        · simp only [hfn, decide_False, Bool.false_eq_true, if_false, raise]
          intro h; cases h

end Parser

/-- On every token vector that holds an `Eof` token, `parseProgram` terminates:
no loop of the parser uses up its budget of `size + 1` iterations. -/
theorem parseProgram_ne_diverged (tokens : List Token) (hE : EofAhead tokens) :
    parseProgram tokens ≠ .diverged :=
  Parser.parseDecls_nodiv _ _ _ hE (Nat.lt_succ_of_le (Parser.rest_le_tokens _))

/-! ## Lemmas about the code generator -/

section
open CodeGen

theorem strLt_irrefl : ∀ s : List Char, strLt s s = false
  | [] => rfl
  | a :: s => by simp [strLt, strLt_irrefl s]

theorem strLt_trans : ∀ s t u : List Char, strLt s t = true → strLt t u = true → strLt s u = true
  | [], [], _, h, _ => by simp [strLt] at h
  | [], _ :: _, [], _, h => by simp [strLt] at h
  | [], _ :: _, _ :: _, _, _ => by simp [strLt]
  | _ :: _, [], _, h, _ => by simp [strLt] at h
  | _ :: _, _ :: _, [], _, h => by simp [strLt] at h
  | a :: s, b :: t, c :: u, h1, h2 => by
    simp only [strLt, Bool.or_eq_true, Bool.and_eq_true, decide_eq_true_eq] at h1 h2 ⊢
    rcases h1 with h1 | ⟨rfl, h1⟩
    · rcases h2 with h2 | ⟨rfl, _⟩
      · exact Or.inl (by omega)
      · exact Or.inl h1
    · rcases h2 with h2 | ⟨rfl, h2⟩
      · exact Or.inl h2
      · exact Or.inr ⟨rfl, strLt_trans s t u h1 h2⟩

theorem strLt_total : ∀ s t : List Char, strLt s t = true ∨ s = t ∨ strLt t s = true
  | [], [] => Or.inr (Or.inl rfl)
  | [], _ :: _ => Or.inl rfl
  | _ :: _, [] => Or.inr (Or.inr rfl)
  | a :: s, b :: t => by
    simp only [strLt, Bool.or_eq_true, Bool.and_eq_true, decide_eq_true_eq, List.cons.injEq]
    rcases Nat.lt_trichotomy a.toNat b.toNat with h | h | h
    · exact Or.inl (Or.inl h)
    · have hab : a = b := Char.ext (UInt32.ext (by simpa [Char.toNat, UInt32.toNat] using h))
      subst hab
      rcases strLt_total s t with h1 | h1 | h1
      · exact Or.inl (Or.inr ⟨rfl, h1⟩)
      · exact Or.inr (Or.inl ⟨rfl, h1⟩)
      · exact Or.inr (Or.inr (Or.inr ⟨rfl, h1⟩))
    · exact Or.inr (Or.inr (Or.inl h))

theorem strLt_asymm (s t : List Char) (h : strLt s t = true) : strLt t s = false := by
  cases h2 : strLt t s
  · rfl
  · have := strLt_trans s t s h h2
    rw [strLt_irrefl] at this
    cases this

theorem strLt_ne (s t : List Char) (h : strLt s t = true) : s ≠ t := by
  rintro rfl
  rw [strLt_irrefl] at h
  cases h

namespace Table

theorem keys_cons {V : Type} (k : List Char) (v : V) (rest : Table V) :
    keys ((k, v) :: rest) = k :: keys rest := rfl

theorem find_eq_none {V : Type} : ∀ (t : Table V) (key : List Char),
    find t key = none ↔ key ∉ keys t
  | [], key => by simp [find, keys]
  | (k, v) :: rest, key => by
    have ih := find_eq_none rest key
    rw [keys_cons, List.mem_cons]
    by_cases h : key = k
    · simp only [find, h, if_true]
      constructor
      · intro h2
        cases h2
      · intro h2
        exact absurd (Or.inl trivial) h2
    · simp only [find, h, if_false, ih, false_or]

theorem find_isSome {V : Type} (t : Table V) (key : List Char) :
    (∃ v, find t key = some v) ↔ key ∈ keys t := by
  rw [← not_iff_not, ← find_eq_none]
  cases find t key <;> simp

theorem find_modify {V : Type} (f : V → V) : ∀ (t : Table V) (k key : List Char),
    find (modify f t k) key = if key = k then (find t k).map f else find t key
  | [], k, key => by simp [find, modify]
  | (k1, w) :: rest, k, key => by
    have ih := find_modify f rest k key
    by_cases h1 : k = k1
    · subst h1
      by_cases h2 : key = k
      · simp [find, modify, h2]
      · simp [find, modify, h2]
    · by_cases h2 : key = k
      · subst h2
        simp only [modify, h1, if_false, find, if_true]
        simpa using ih
      · simp only [modify, h1, if_false, find, h2]
        by_cases h3 : key = k1
        · simp [h3]
        · simpa [h3, h2] using ih

theorem keys_modify {V : Type} (f : V → V) : ∀ (t : Table V) (k : List Char),
    keys (modify f t k) = keys t
  | [], k => rfl
  | (k1, w) :: rest, k => by
    have ih := keys_modify f rest k
    by_cases h1 : k = k1
    · simp [modify, h1, keys]
    · simp only [modify, h1, if_false]
      simpa [keys] using ih

theorem find_assign {V : Type} : ∀ (t : Table V) (k key : List Char) (v : V),
    find (assign t k v) key = if key = k then some v else find t key
  | [], k, key, v => by simp [find, assign]
  | (k1, w) :: rest, k, key, v => by
    have ih := find_assign rest k key v
    by_cases h1 : k = k1
    · subst h1
      by_cases h2 : key = k <;> simp [find, assign, h2]
    · by_cases h2 : key = k
      · subst h2
        simp only [assign, h1, if_false, find, if_true]
        simpa using ih
      · simp only [assign, h1, if_false, find, h2]
        by_cases h3 : key = k1
        · simp [h3]
        · simpa [h3, h2] using ih

theorem Sorted.tail {V : Type} {e : List Char × V} {t : Table V} (h : Sorted (e :: t)) :
    Sorted t := (List.pairwise_cons.1 h).2

theorem Sorted.head_lt {V : Type} {k : List Char} {v : V} {t : Table V} (h : Sorted ((k, v) :: t))
    (key : List Char) (hk : key ∈ keys t) : strLt k key = true :=
  (List.pairwise_cons.1 h).1 key hk

theorem Sorted.nodup {V : Type} {t : Table V} (h : Sorted t) : (keys t).Nodup :=
  List.Pairwise.imp (fun {a b} hab => strLt_ne a b hab) h

theorem find_emplace {V : Type} : ∀ (t : Table V) (k key : List Char) (v : V), Sorted t →
    find (emplace t k v) key =
      match find t key with
      | some w => some w
      | none => if key = k then some v else none
  | [], k, key, v, _ => by simp [find, emplace]
  | (k1, w) :: rest, k, key, v, hs => by
    have ih := find_emplace rest k key v hs.tail
    by_cases h1 : k = k1
    · subst h1
      by_cases h2 : key = k
      · simp [find, emplace, h2]
      · simp only [emplace, if_true, find, h2, if_false]
        cases find rest key <;> simp
    · by_cases hlt : strLt k k1 = true
      · simp only [emplace, h1, if_false, hlt, if_true, find]
        by_cases h2 : key = k
        · subst h2
          simp only [if_true, h1, if_false]
          have : find rest key = none := by
            rw [find_eq_none]
            intro hmem
            have := strLt_asymm _ _ (hs.head_lt key hmem)
            rw [hlt] at this
            cases this
          rw [this]
        · simp only [h2, if_false]
          by_cases h3 : key = k1
          · simp [h3]
          · simp only [h3, if_false]
            cases find rest key <;> simp
      · simp only [emplace, h1, if_false, hlt, find]
        by_cases h3 : key = k1
        · simp [h3]
        · simp only [h3, if_false]
          exact ih

theorem keys_emplace_mem {V : Type} : ∀ (t : Table V) (k key : List Char) (v : V),
    key ∈ keys (emplace t k v) ↔ key = k ∨ key ∈ keys t
  | [], k, key, v => by simp [emplace, keys]
  | (k1, w) :: rest, k, key, v => by
    have ih := keys_emplace_mem rest k key v
    by_cases h1 : k = k1
    · subst h1
      simp only [emplace, if_true, keys_cons, List.mem_cons]
      tauto
    · cases hlt : strLt k k1
      · have e : emplace ((k1, w) :: rest) k v = (k1, w) :: emplace rest k v := by
          simp [emplace, h1, hlt]
        rw [e, keys_cons, keys_cons, List.mem_cons, List.mem_cons, ih]
        tauto
      · have e : emplace ((k1, w) :: rest) k v = (k, v) :: (k1, w) :: rest := by
          simp [emplace, h1, hlt]
        rw [e, keys_cons, List.mem_cons]

theorem emplace_sorted {V : Type} : ∀ (t : Table V) (k : List Char) (v : V), Sorted t →
    Sorted (emplace t k v)
  | [], k, v, _ => by simp [emplace, Sorted, keys]
  | (k1, w) :: rest, k, v, hs => by
    have ih := emplace_sorted rest k v hs.tail
    by_cases h1 : k = k1
    · simpa [emplace, h1] using hs
    · cases hlt : strLt k k1
      · have e : emplace ((k1, w) :: rest) k v = (k1, w) :: emplace rest k v := by
          simp [emplace, h1, hlt]
        rw [e]
        refine List.pairwise_cons.2 ⟨?_, ih⟩
        intro key hkey
        rcases (keys_emplace_mem rest k key v).1 hkey with rfl | hkey
        · rcases strLt_total key k1 with h | h | h
          · rw [hlt] at h
            cases h
          · exact absurd h h1
          · exact h
        · exact hs.head_lt key hkey
      · have e : emplace ((k1, w) :: rest) k v = (k, v) :: (k1, w) :: rest := by
          simp [emplace, h1, hlt]
        rw [e]
        refine List.pairwise_cons.2 ⟨?_, hs⟩
        intro key hkey
        have hkey2 : key ∈ keys ((k1, w) :: rest) := hkey
        rw [keys_cons, List.mem_cons] at hkey2
        rcases hkey2 with rfl | hkey2
        · exact hlt
        · exact strLt_trans _ _ _ hlt (hs.head_lt key hkey2)

end Table

namespace CodeGen

theorem recordClasses_sorted : ∀ (cs : List ClassDecl) (t : Table ClassInfo), Table.Sorted t →
    Table.Sorted (recordClasses cs t)
  | [], _, h => h
  | c :: cs, t, h => recordClasses_sorted cs _ (Table.emplace_sorted t c.name _ h)

theorem find_recordClasses : ∀ (cs : List ClassDecl) (t : Table ClassInfo) (n : List Char),
    Table.Sorted t →
    Table.find (recordClasses cs t) n =
      match Table.find t n with
      | some i => some i
      | none => (cs.find? (fun d => decide (d.name = n))).map ClassInfo.ofDecl
  | [], t, n, _ => by
    simp only [recordClasses, List.find?_nil, Option.map_none']
    cases Table.find t n <;> rfl
  | c :: cs, t, n, h => by
    rw [recordClasses, find_recordClasses cs _ n (Table.emplace_sorted t c.name _ h),
      Table.find_emplace t c.name n _ h]
    cases hf : Table.find t n
    · by_cases hn : n = c.name
      · subst hn
        simp [ClassInfo.ofDecl]
      · have : ¬ c.name = n := fun e => hn e.symm
        simp [hn, this]
    · simp

theorem layoutMethod_cases (layout : ClassLayout) (m : MethodDecl) :
    (∃ l, layoutMethod layout m = .ok l) ∨ (∃ e, layoutMethod layout m = .thrown e) := by
  unfold layoutMethod
  cases m.attr
  · exact Or.inl ⟨_, rfl⟩
  · exact Or.inl ⟨_, rfl⟩
  · cases Table.find layout.slotOf m.name
    · exact Or.inr ⟨_, rfl⟩
    · exact Or.inl ⟨_, rfl⟩

theorem layoutMethods_cases : ∀ (ms : List MethodDecl) (layout : ClassLayout),
    (∃ l, layoutMethods ms layout = .ok l) ∨ (∃ e, layoutMethods ms layout = .thrown e)
  | [], layout => Or.inl ⟨_, rfl⟩
  | m :: ms, layout => by
    rcases layoutMethod_cases layout m with ⟨l, h⟩ | ⟨e, h⟩
    · simp only [layoutMethods, h]
      exact layoutMethods_cases ms l
    · simp only [layoutMethods, h]
      exact Or.inr ⟨_, rfl⟩

theorem layoutMethods_cons_ok {m : MethodDecl} {ms : List MethodDecl} {layout l : ClassLayout}
    (h : layoutMethods (m :: ms) layout = .ok l) :
    ∃ l1, layoutMethod layout m = .ok l1 ∧ layoutMethods ms l1 = .ok l := by
  rcases layoutMethod_cases layout m with ⟨l1, h1⟩ | ⟨e, h1⟩
  · simp only [layoutMethods, h1] at h
    exact ⟨l1, h1, h⟩
  · simp [layoutMethods, h1] at h

theorem layoutMethod_methods {layout l : ClassLayout} {m : MethodDecl}
    (h : layoutMethod layout m = .ok l) :
    l.methods = layout.methods ++ virtualNames [m] := by
  unfold layoutMethod at h
  cases ha : m.attr <;> rw [ha] at h
  · cases h
    simp [virtualNames, ha]
  · cases h
    simp [virtualNames, ha]
  · cases hf : Table.find layout.slotOf m.name <;> rw [hf] at h <;> cases h
    simp [virtualNames, ha]

theorem virtualNames_cons (m : MethodDecl) (ms : List MethodDecl) :
    virtualNames (m :: ms) = virtualNames [m] ++ virtualNames ms := by
  by_cases h : m.attr = MethodAttr.Virtual <;> simp [virtualNames, h, List.filter_cons]

theorem layoutMethods_methods : ∀ (ms : List MethodDecl) (layout l : ClassLayout),
    layoutMethods ms layout = .ok l → l.methods = layout.methods ++ virtualNames ms
  | [], layout, l, h => by
    cases h
    simp [virtualNames]
  | m :: ms, layout, l, h => by
    obtain ⟨l1, h1, h2⟩ := layoutMethods_cons_ok h
    rw [layoutMethods_methods ms l1 l h2, layoutMethod_methods h1, virtualNames_cons m ms,
      List.append_assoc]

theorem layoutMethod_consistent {layout l : ClassLayout} {m : MethodDecl}
    (h : layoutMethod layout m = .ok l) (hc : layout.Consistent) : l.Consistent := by
  unfold layoutMethod at h
  cases ha : m.attr <;> rw [ha] at h
  · cases h
    exact hc
  · cases h
    constructor
    · intro n s hn
      rw [Table.find_assign] at hn
      by_cases e : n = m.name
      · rw [if_pos e] at hn
        cases hn
        subst e
        simp
      · rw [if_neg e] at hn
        have := hc.1 n s hn
        rw [List.getElem?_append_left]
        · exact this
        · by_contra hlt
          rw [List.getElem?_eq_none (by omega)] at this
          cases this
    · intro n hn
      rw [Table.find_assign]
      by_cases e : n = m.name
      · exact ⟨_, by rw [if_pos e]⟩
      · rw [if_neg e]
        simp only [List.mem_append, List.mem_singleton] at hn
        rcases hn with hn | hn
        · exact hc.2 n hn
        · exact absurd hn e
  · cases hf : Table.find layout.slotOf m.name <;> rw [hf] at h <;> cases h
    exact hc

theorem layoutMethods_consistent : ∀ (ms : List MethodDecl) (layout l : ClassLayout),
    layoutMethods ms layout = .ok l → layout.Consistent → l.Consistent
  | [], layout, l, h, hc => by
    cases h
    exact hc
  | m :: ms, layout, l, h, hc => by
    obtain ⟨l1, h1, h2⟩ := layoutMethods_cons_ok h
    exact layoutMethods_consistent ms l1 l h2 (layoutMethod_consistent h1 hc)

theorem consistent_empty : ({} : ClassLayout).Consistent :=
  ⟨fun n s h => by simp [Table.find] at h, fun n h => by simp at h⟩

/-- Without a `Virtual` method called `n` the slot of `n` is the inherited one. -/
theorem layoutMethods_slot_frame : ∀ (ms : List MethodDecl) (layout l : ClassLayout) (n : List Char),
    layoutMethods ms layout = .ok l →
    (∀ m ∈ ms, m.attr = MethodAttr.Virtual → m.name ≠ n) →
    Table.find l.slotOf n = Table.find layout.slotOf n
  | [], layout, l, n, h, _ => by
    cases h
    rfl
  | m :: ms, layout, l, n, h, hv => by
    obtain ⟨l1, h1, h2⟩ := layoutMethods_cons_ok h
    rw [layoutMethods_slot_frame ms l1 l n h2 (fun m' hm' => hv m' (List.mem_cons_of_mem _ hm'))]
    unfold layoutMethod at h1
    cases ha : m.attr <;> rw [ha] at h1
    · cases h1
      rfl
    · cases h1
      rw [Table.find_assign, if_neg]
      exact fun e => hv m (List.mem_cons_self _ _) ha e.symm
    · cases hf : Table.find layout.slotOf m.name <;> rw [hf] at h1 <;> cases h1
      rfl

/-- A name that has a slot keeps having one. -/
theorem layoutMethods_slot_mono : ∀ (ms : List MethodDecl) (layout l : ClassLayout) (n : List Char),
    layoutMethods ms layout = .ok l → (Table.find layout.slotOf n).isSome →
    (Table.find l.slotOf n).isSome
  | [], layout, l, n, h, hs => by
    cases h
    exact hs
  | m :: ms, layout, l, n, h, hs => by
    obtain ⟨l1, h1, h2⟩ := layoutMethods_cons_ok h
    refine layoutMethods_slot_mono ms l1 l n h2 ?_
    unfold layoutMethod at h1
    cases ha : m.attr <;> rw [ha] at h1
    · cases h1
      exact hs
    · cases h1
      rw [Table.find_assign]
      by_cases e : n = m.name
      · rw [if_pos e]
        rfl
      · rw [if_neg e]
        exact hs
    · cases hf : Table.find layout.slotOf m.name <;> rw [hf] at h1 <;> cases h1
      exact hs

/-- When the loop over the methods succeeds, every `Override` method has a slot
in the result, and had one when it was reached. -/
theorem layoutMethods_override : ∀ (ms : List MethodDecl) (layout l : ClassLayout) (m : MethodDecl),
    layoutMethods ms layout = .ok l → m ∈ ms → m.attr = MethodAttr.Override →
    (Table.find l.slotOf m.name).isSome
  | [], _, _, _, _, hm, _ => by cases hm
  | m0 :: ms, layout, l, m, h, hm, ha => by
    obtain ⟨l1, h1, h2⟩ := layoutMethods_cons_ok h
    rcases List.mem_cons.1 hm with rfl | hm
    · refine layoutMethods_slot_mono ms l1 l _ h2 ?_
      unfold layoutMethod at h1
      rw [ha] at h1
      cases hf : Table.find layout.slotOf m.name <;> rw [hf] at h1 <;> cases h1
      rw [hf]
      rfl
    · exact layoutMethods_override ms l1 l m h2 hm ha

theorem inheritedLayout_cases (classes : Table ClassInfo) (info : ClassInfo) :
    (∃ l, inheritedLayout classes info = .ok l) ∨ (∃ e, inheritedLayout classes info = .thrown e) := by
  unfold inheritedLayout
  cases hb : info.base with
  | none => exact Or.inl ⟨_, rfl⟩
  | some b =>
    cases hf : Table.find classes b with
    | none =>
      simp only [hf]
      exact Or.inr ⟨_, rfl⟩
    | some bi =>
      simp only [hf]
      exact Or.inl ⟨_, rfl⟩

theorem layoutClass_cases (classes : Table ClassInfo) (name : List Char) :
    (∃ l, layoutClass classes name = .ok l) ∨ (∃ e, layoutClass classes name = .thrown e) := by
  unfold layoutClass
  cases Table.find classes name with
  | none => exact Or.inl ⟨_, rfl⟩
  | some info =>
    rcases inheritedLayout_cases classes info with ⟨l, h⟩ | ⟨e, h⟩
    · rcases layoutMethods_cases info.ast.methods l with ⟨l2, h2⟩ | ⟨e, h2⟩
      · simp only [h, h2]
        exact Or.inl ⟨_, rfl⟩
      · simp only [h, h2]
        exact Or.inr ⟨_, rfl⟩
    · simp only [h]
      exact Or.inr ⟨_, rfl⟩

theorem layoutLoop_cases : ∀ (ks : List (List Char)) (classes : Table ClassInfo),
    (∃ l, layoutLoop ks classes = .ok l) ∨ (∃ e, layoutLoop ks classes = .thrown e)
  | [], classes => Or.inl ⟨_, rfl⟩
  | k :: ks, classes => by
    rcases layoutClass_cases classes k with ⟨l, h⟩ | ⟨e, h⟩
    · simp only [layoutLoop, h]
      exact layoutLoop_cases ks l
    · simp only [layoutLoop, h]
      exact Or.inr ⟨_, rfl⟩

theorem layoutClass_ok {classes M1 : Table ClassInfo} {name : List Char} {i0 : ClassInfo}
    (h : layoutClass classes name = .ok M1) (hf : Table.find classes name = some i0) :
    ∃ start L, inheritedLayout classes i0 = .ok start ∧ layoutMethods i0.ast.methods start = .ok L ∧
      M1 = Table.modify (fun i => { i with layout := L }) classes name := by
  unfold layoutClass at h
  rw [hf] at h
  rcases inheritedLayout_cases classes i0 with ⟨l, h1⟩ | ⟨e, h1⟩
  · rcases layoutMethods_cases i0.ast.methods l with ⟨l2, h2⟩ | ⟨e, h2⟩
    · simp only [h1, h2] at h
      cases h
      exact ⟨l, l2, h1, h2, rfl⟩
    · simp [h1, h2] at h
  · simp [h1] at h

theorem layoutClass_keys {classes M1 : Table ClassInfo} {name : List Char}
    (h : layoutClass classes name = .ok M1) : Table.keys M1 = Table.keys classes := by
  cases hf : Table.find classes name with
  | none =>
    unfold layoutClass at h
    rw [hf] at h
    cases h
    rfl
  | some i0 =>
    obtain ⟨_, _, _, _, rfl⟩ := layoutClass_ok h hf
    exact Table.keys_modify _ _ _

theorem layoutClass_frame {classes M1 : Table ClassInfo} {name k : List Char}
    (h : layoutClass classes name = .ok M1) (hk : k ≠ name) :
    Table.find M1 k = Table.find classes k := by
  cases hf : Table.find classes name with
  | none =>
    unfold layoutClass at h
    rw [hf] at h
    cases h
    rfl
  | some i0 =>
    obtain ⟨_, _, _, _, rfl⟩ := layoutClass_ok h hf
    rw [Table.find_modify, if_neg hk]

theorem inheritedLayout_start {classes : Table ClassInfo} {i0 : ClassInfo} {start : ClassLayout}
    (h : inheritedLayout classes i0 = .ok start) (T : Table ClassInfo) :
    StartOf i0.base [] classes T start := by
  unfold inheritedLayout at h
  unfold StartOf
  cases hb : i0.base with
  | none =>
    rw [hb] at h
    cases h
    rfl
  | some b =>
    rw [hb] at h
    cases hf : Table.find classes b with
    | none =>
      simp only [hf] at h
      cases h
    | some bi =>
      simp only [hf] at h
      cases h
      exact ⟨bi, by simp [hf], rfl⟩

/-- What the second loop of `computeClassLayouts` computes: the keys stay, the
classes outside the loop are untouched, and each class of the loop gets the
layout that the loop over its methods makes from the layout its base has when the
class is reached. -/
theorem layoutLoop_spec : ∀ (suf : List (List Char)) (M T : Table ClassInfo),
    suf.Nodup → layoutLoop suf M = .ok T →
    Table.keys T = Table.keys M ∧
    (∀ k, k ∉ suf → Table.find T k = Table.find M k) ∧
    (∀ s1 k s2 i0, suf = s1 ++ k :: s2 → Table.find M k = some i0 →
      ∃ start L, StartOf i0.base s1 M T start ∧ layoutMethods i0.ast.methods start = .ok L ∧
        Table.find T k = some { i0 with layout := L })
  | [], M, T, _, h => by
    cases h
    refine ⟨rfl, fun _ _ => rfl, ?_⟩
    intro s1 k s2 i0 hs
    cases s1 <;> cases hs
  | name :: rest, M, T, hnd, h => by
    rcases layoutClass_cases M name with ⟨M1, h1⟩ | ⟨e, h1⟩
    swap
    · simp [layoutLoop, h1] at h
    simp only [layoutLoop, h1] at h
    obtain ⟨hname, hrest⟩ := List.nodup_cons.1 hnd
    obtain ⟨ihk, ihf, ihs⟩ := layoutLoop_spec rest M1 T hrest h
    refine ⟨by rw [ihk, layoutClass_keys h1], ?_, ?_⟩
    · intro k hk
      rw [List.mem_cons, not_or] at hk
      rw [ihf k hk.2, layoutClass_frame h1 hk.1]
    · intro s1 k s2 i0 hs hf
      cases s1 with
      | nil =>
        simp only [List.nil_append, List.cons.injEq] at hs
        obtain ⟨rfl, rfl⟩ := hs
        obtain ⟨start, L, hi, hm, rfl⟩ := layoutClass_ok h1 hf
        refine ⟨start, L, inheritedLayout_start hi T, hm, ?_⟩
        rw [ihf _ hname, Table.find_modify, if_pos rfl, hf]
        rfl
      | cons a s1 =>
        simp only [List.cons_append, List.cons.injEq] at hs
        obtain ⟨rfl, rfl⟩ := hs
        have hka : k ≠ name := by
          rintro rfl
          exact hname (by simp)
        have hf1 : Table.find M1 k = some i0 := by rw [layoutClass_frame h1 hka, hf]
        obtain ⟨start, L, hst, hm, hT⟩ := ihs s1 k s2 i0 rfl hf1
        refine ⟨start, L, ?_, hm, hT⟩
        unfold StartOf at hst ⊢
        cases hb : i0.base with
        | none =>
          rw [hb] at hst
          exact hst
        | some b =>
          rw [hb] at hst
          obtain ⟨bi, hbi, hsl⟩ := hst
          refine ⟨bi, ?_, hsl⟩
          by_cases hbs : b ∈ s1
          · rw [if_pos hbs] at hbi
            rw [if_pos (List.mem_cons_of_mem _ hbs)]
            exact hbi
          · rw [if_neg hbs] at hbi
            by_cases hba : b = name
            · subst hba
              rw [if_pos (List.mem_cons_self _ _)]
              rw [ihf b hname]
              exact hbi
            · rw [if_neg (by simp [hba, hbs])]
              rw [← layoutClass_frame h1 hba]
              exact hbi

theorem sorted_split_lt {s1 s2 : List (List Char)} {k b : List Char}
    (h : (s1 ++ k :: s2).Pairwise (fun a b => strLt a b = true)) (hb : b ∈ s1 ++ k :: s2) :
    b ∈ s1 ↔ strLt b k = true := by
  obtain ⟨h1, h2, h3⟩ := List.pairwise_append.1 h
  constructor
  · intro hb1
    exact h3 b hb1 k (List.mem_cons_self _ _)
  · intro hlt
    rcases List.mem_append.1 hb with hb1 | hb2
    · exact hb1
    · rcases List.mem_cons.1 hb2 with rfl | hb2
      · rw [strLt_irrefl] at hlt
        cases hlt
      · have := (List.pairwise_cons.1 h2).1 b hb2
        rw [strLt_asymm _ _ this] at hlt
        cases hlt

theorem firstDecl_name {p : Program} {d : ClassDecl} {n : List Char}
    (h : p.classes.find? (fun c => decide (c.name = n)) = some d) : d.name = n := by
  have := List.find?_some h
  simpa using this

theorem find_recorded (p : Program) (n : List Char) :
    Table.find (recordClasses p.classes []) n =
      (p.classes.find? (fun d => decide (d.name = n))).map ClassInfo.ofDecl := by
  rw [find_recordClasses p.classes [] n List.Pairwise.nil]
  rfl

theorem recorded_sorted (p : Program) : Table.Sorted (recordClasses p.classes []) :=
  recordClasses_sorted p.classes [] List.Pairwise.nil

theorem computeClassLayouts_ok {cg cg1 : CodeGen} {p : Program} (h0 : cg.classes_ = [])
    (h : computeClassLayouts cg p = .ok cg1) :
    layoutLoop (Table.keys (recordClasses p.classes [])) (recordClasses p.classes []) =
      .ok cg1.classes_ := by
  unfold computeClassLayouts at h
  rw [h0] at h
  rcases layoutLoop_cases (Table.keys (recordClasses p.classes [])) (recordClasses p.classes [])
    with ⟨T, hT⟩ | ⟨e, hT⟩
  · simp only [hT] at h
    cases h
    exact hT
  · simp [hT] at h

/-- The layouts that `computeClassLayouts` leaves: the first declaration of each
name gets the layout that the loop over its methods makes from its starting
layout, which is the final layout of the base when the base comes first in the
order of the class table, and empty otherwise. -/
theorem computeClassLayouts_spec {cg cg1 : CodeGen} {p : Program} (h0 : cg.classes_ = [])
    (h : computeClassLayouts cg p = .ok cg1) (c : ClassDecl) (hc : p.firstDecl c) :
    ∃ L start, Table.find cg1.classes_ c.name = some { ClassInfo.ofDecl c with layout := L } ∧
      layoutMethods c.methods start = .ok L ∧
      match c.baseName with
      | none => start = {}
      | some b =>
        ∃ d, p.firstDecl d ∧ d.name = b ∧
          if strLt b c.name = true then
            ∃ bi, Table.find cg1.classes_ b = some bi ∧ start = bi.layout
          else start = {} := by
  have hloop := computeClassLayouts_ok h0 h
  have hsorted := recorded_sorted p
  obtain ⟨hkeys, _, hspec⟩ := layoutLoop_spec _ _ _ hsorted.nodup hloop
  have hfind : Table.find (recordClasses p.classes []) c.name = some (ClassInfo.ofDecl c) := by
    rw [find_recorded, hc]
    rfl
  have hmem : c.name ∈ Table.keys (recordClasses p.classes []) :=
    (Table.find_isSome _ _).1 ⟨_, hfind⟩
  obtain ⟨s1, s2, hsplit⟩ := List.append_of_mem hmem
  obtain ⟨start, L, hst, hm, hT⟩ := hspec s1 c.name s2 _ hsplit hfind
  refine ⟨L, start, hT, hm, ?_⟩
  unfold StartOf at hst
  have hbase : (ClassInfo.ofDecl c).base = c.baseName := rfl
  rw [hbase] at hst
  cases hb : c.baseName with
  | none =>
    rw [hb] at hst
    exact hst
  | some b =>
    rw [hb] at hst
    obtain ⟨bi, hbi, hsl⟩ := hst
    have hbmem : b ∈ Table.keys (recordClasses p.classes []) := by
      by_cases hbs : b ∈ s1
      · rw [hsplit]
        exact List.mem_append_left _ hbs
      · rw [if_neg hbs] at hbi
        exact (Table.find_isSome _ _).1 ⟨_, hbi⟩
    obtain ⟨b0, hb0⟩ := (Table.find_isSome _ _).2 hbmem
    rw [find_recorded] at hb0
    cases hd : p.classes.find? (fun d => decide (d.name = b)) with
    | none =>
      rw [hd] at hb0
      cases hb0
    | some d =>
      have hdn : d.name = b := firstDecl_name hd
      refine ⟨d, ?_, hdn, ?_⟩
      · unfold Program.firstDecl
        rw [hdn]
        exact hd
      · have hiff := sorted_split_lt (hsplit ▸ hsorted) (hsplit ▸ hbmem)
        by_cases hbs : b ∈ s1
        · rw [if_pos hbs] at hbi
          rw [if_pos (hiff.1 hbs)]
          exact ⟨bi, hbi, hsl⟩
        · rw [if_neg hbs] at hbi
          rw [if_neg (fun hlt => hbs (hiff.2 hlt))]
          rw [find_recorded, hd] at hbi
          cases hbi
          exact hsl

theorem entry_of_find {cg cg1 : CodeGen} {p : Program} (h0 : cg.classes_ = [])
    (h : computeClassLayouts cg p = .ok cg1) {k : List Char} {info : ClassInfo}
    (hf : Table.find cg1.classes_ k = some info) :
    ∃ c, p.firstDecl c ∧ c.name = k ∧ Table.find cg1.classes_ c.name = some info := by
  have hloop := computeClassLayouts_ok h0 h
  obtain ⟨hkeys, _, _⟩ := layoutLoop_spec _ _ _ (recorded_sorted p).nodup hloop
  have hmem : k ∈ Table.keys cg1.classes_ := (Table.find_isSome _ _).1 ⟨_, hf⟩
  rw [hkeys] at hmem
  obtain ⟨i0, hi0⟩ := (Table.find_isSome _ _).2 hmem
  rw [find_recorded] at hi0
  cases hd : p.classes.find? (fun d => decide (d.name = k)) with
  | none =>
    rw [hd] at hi0
    cases hi0
  | some d =>
    have hdn : d.name = k := firstDecl_name hd
    refine ⟨d, ?_, hdn, ?_⟩
    · unfold Program.firstDecl
      rw [hdn]
      exact hd
    · rw [hdn]
      exact hf

/-- Every entry of the class table after `computeClassLayouts` is the first
declaration of its name with its layout. -/
theorem entry_spec {cg cg1 : CodeGen} {p : Program} (h0 : cg.classes_ = [])
    (h : computeClassLayouts cg p = .ok cg1) {k : List Char} {info : ClassInfo}
    (hf : Table.find cg1.classes_ k = some info) :
    ∃ c start, p.firstDecl c ∧ c.name = k ∧ info.ast = c ∧ info.name = k ∧
      info.base = c.baseName ∧ layoutMethods c.methods start = .ok info.layout ∧
      match c.baseName with
      | none => start = {}
      | some b =>
        ∃ d, p.firstDecl d ∧ d.name = b ∧
          if strLt b c.name = true then
            ∃ bi, Table.find cg1.classes_ b = some bi ∧ start = bi.layout
          else start = {} := by
  obtain ⟨c, hc, hck, hfc⟩ := entry_of_find h0 h hf
  obtain ⟨L, start, hf2, hm, hst⟩ := computeClassLayouts_spec h0 h c hc
  rw [hfc] at hf2
  cases hf2
  exact ⟨c, start, hc, hck, rfl, hck, rfl, hm, hst⟩

theorem baseChain_head {classes : Table ClassInfo} : ∀ {fuel : Nat} {k : List Char}
    {chain : List ClassInfo}, baseChain classes fuel k = some chain →
    ∃ info tail, chain = info :: tail ∧ Table.find classes k = some info
  | 0, _, _, h => by cases h
  | fuel + 1, k, chain, h => by
    unfold baseChain at h
    cases hf : Table.find classes k with
    | none =>
      simp only [hf] at h
      cases h
    | some info =>
      simp only [hf] at h
      cases hb : info.base with
      | none =>
        simp only [hb] at h
        cases h
        exact ⟨info, [], rfl, rfl⟩
      | some b =>
        simp only [hb] at h
        cases hr : baseChain classes fuel b with
        | none =>
          rw [hr] at h
          cases h
        | some rest =>
          rw [hr] at h
          cases h
          exact ⟨info, rest, rfl, rfl⟩

/-- Along a base chain that descends in the order of the names, the number of
slots of a class is the number of `Virtual` methods declared on the chain. -/
theorem slots_of_chain {cg cg1 : CodeGen} {p : Program} (h0 : cg.classes_ = [])
    (h : computeClassLayouts cg p = .ok cg1) : ∀ (fuel : Nat) (k : List Char)
    (chain : List ClassInfo), baseChain cg1.classes_ fuel k = some chain →
    chain.Chain' (fun x y => strLt y.name x.name = true) →
    ∃ info, Table.find cg1.classes_ k = some info ∧
      info.layout.methods.length = (chain.map (fun i => (virtualNames i.ast.methods).length)).sum
  | 0, _, _, hc, _ => by cases hc
  | fuel + 1, k, chain, hc, hd => by
    unfold baseChain at hc
    cases hf : Table.find cg1.classes_ k with
    | none =>
      simp only [hf] at hc
      cases hc
    | some info =>
      simp only [hf] at hc
      obtain ⟨c, start, _, hck, hast, hname, hbase, hm, hst⟩ := entry_spec h0 h hf
      have hlen := layoutMethods_methods _ _ _ hm
      cases hb : info.base with
      | none =>
        simp only [hb] at hc
        cases hc
        rw [← hbase, hb] at hst
        subst hst
        refine ⟨info, rfl, ?_⟩
        rw [hlen]
        simp [hast]
      | some b =>
        simp only [hb] at hc
        cases hr : baseChain cg1.classes_ fuel b with
        | none =>
          rw [hr] at hc
          cases hc
        | some rest =>
          rw [hr] at hc
          cases hc
          obtain ⟨bi, tail, rfl, hbi⟩ := baseChain_head hr
          obtain ⟨hlt, hd2⟩ := List.chain'_cons.1 hd
          obtain ⟨bi2, hbi2, hsum⟩ := slots_of_chain h0 h fuel b _ hr hd2
          rw [hbi] at hbi2
          cases hbi2
          obtain ⟨_, _, _, _, _, hbname, _, _, _⟩ := entry_spec h0 h hbi
          rw [← hbase, hb] at hst
          obtain ⟨_, _, _, hst⟩ := hst
          rw [hbname, hname] at hlt
          rw [hck, if_pos hlt] at hst
          obtain ⟨bi3, hbi3, rfl⟩ := hst
          rw [hbi] at hbi3
          cases hbi3
          refine ⟨info, rfl, ?_⟩
          rw [hlen, List.length_append, hsum]
          simp only [List.map_cons, List.sum_cons, hast]
          omega

theorem computeClassLayouts_cases (cg : CodeGen) (p : Program) :
    (∃ cg1, computeClassLayouts cg p = .ok cg1) ∨ (∃ e, computeClassLayouts cg p = .thrown e) := by
  unfold computeClassLayouts
  rcases layoutLoop_cases (Table.keys (recordClasses p.classes cg.classes_))
    (recordClasses p.classes cg.classes_) with ⟨T, hT⟩ | ⟨e, hT⟩
  · simp only [hT]
    exact Or.inl ⟨_, rfl⟩
  · simp only [hT]
    exact Or.inr ⟨_, rfl⟩

theorem lower_of_layout_thrown {p : Program} {e : Exn} (moduleName : List Char)
    (h : computeClassLayouts { module_ := { identifier := moduleName } } p = .thrown e) :
    lower p moduleName = .thrown e := by
  unfold lower
  rw [h]

theorem generate_of_lower_thrown {p : Program} {e : Exn} (verifyModule : Module → Option String)
    (moduleName : List Char) (h : lower p moduleName = .thrown e) :
    generate verifyModule p moduleName = .thrown e := by
  unfold generate
  rw [h]

theorem layoutLoop_append : ∀ (s1 s2 : List (List Char)) (M : Table ClassInfo),
    layoutLoop (s1 ++ s2) M =
      match layoutLoop s1 M with
      | .ok M1 => layoutLoop s2 M1
      | .thrown e => .thrown e
      | .crashed => .crashed
      | .diverged => .diverged
  | [], s2, M => rfl
  | k :: s1, s2, M => by
    rcases layoutClass_cases M k with ⟨M1, h⟩ | ⟨e, h⟩
    · simp only [List.cons_append, layoutLoop, h]
      exact layoutLoop_append s1 s2 M1
    · simp only [List.cons_append, layoutLoop, h]

theorem layoutMethods_append : ∀ (ms1 ms2 : List MethodDecl) (l : ClassLayout),
    layoutMethods (ms1 ++ ms2) l =
      match layoutMethods ms1 l with
      | .ok l1 => layoutMethods ms2 l1
      | .thrown e => .thrown e
      | .crashed => .crashed
      | .diverged => .diverged
  | [], ms2, l => rfl
  | m :: ms1, ms2, l => by
    rcases layoutMethod_cases l m with ⟨l1, h⟩ | ⟨e, h⟩
    · simp only [List.cons_append, layoutMethods, h]
      exact layoutMethods_append ms1 ms2 l1
    · simp only [List.cons_append, layoutMethods, h]

theorem keys_split {ks : List (List Char)} {k : List Char} (hk : k ∈ ks) :
    ∃ s2, ks = ks.takeWhile (fun x => decide (x ≠ k)) ++ k :: s2 := by
  induction ks with
  | nil => cases hk
  | cons a ks ih =>
    by_cases hak : a = k
    · subst hak
      exact ⟨ks, by simp [List.takeWhile]⟩
    · rcases List.mem_cons.1 hk with rfl | hk
      · exact absurd rfl hak
      · obtain ⟨s2, hs2⟩ := ih hk
        refine ⟨s2, ?_⟩
        rw [List.takeWhile_cons_of_pos (by simpa using hak), List.cons_append, ← hs2]

theorem not_mem_takeWhile_ne (ks : List (List Char)) (k : List Char) :
    k ∉ ks.takeWhile (fun x => decide (x ≠ k)) := by
  intro h
  have := List.mem_takeWhile_imp h
  simp at this

theorem layoutLoop_nodup_frame {s : List (List Char)} {M T : Table ClassInfo} {k : List Char}
    (h : layoutLoop s M = .ok T) (hk : k ∉ s) : Table.find T k = Table.find M k := by
  induction s generalizing M with
  | nil =>
    cases h
    rfl
  | cons a s ih =>
    rcases layoutClass_cases M a with ⟨M1, h1⟩ | ⟨e, h1⟩
    · simp only [layoutLoop, h1] at h
      rw [List.mem_cons, not_or] at hk
      rw [ih h hk.2, layoutClass_frame h1 hk.1]
    · simp [layoutLoop, h1] at h

/-- The run of `computeClassLayouts` in terms of the moment the class declared by
`c` is reached. -/
theorem computeClassLayouts_at {cg : CodeGen} {p : Program} (h0 : cg.classes_ = [])
    {c : ClassDecl} (hc : p.firstDecl c) :
    (∃ e, tableBefore p c.name = .thrown e ∧ computeClassLayouts cg p = .thrown e) ∨
    (∃ M s2, tableBefore p c.name = .ok M ∧ Table.find M c.name = some (ClassInfo.ofDecl c) ∧
      computeClassLayouts cg p =
        match layoutClass M c.name with
        | .ok M1 =>
          match layoutLoop s2 M1 with
          | .ok T => .ok { cg with classes_ := T }
          | .thrown e => .thrown e
          | .crashed => .crashed
          | .diverged => .diverged
        | .thrown e => .thrown e
        | .crashed => .crashed
        | .diverged => .diverged) := by
  have hfind : Table.find (recordClasses p.classes []) c.name = some (ClassInfo.ofDecl c) := by
    rw [find_recorded, hc]
    rfl
  have hmem : c.name ∈ Table.keys (recordClasses p.classes []) :=
    (Table.find_isSome _ _).1 ⟨_, hfind⟩
  obtain ⟨s2, hs2⟩ := keys_split hmem
  have hcomp : computeClassLayouts cg p =
      match layoutLoop (Table.keys (recordClasses p.classes [])) (recordClasses p.classes []) with
      | .ok T => .ok { cg with classes_ := T }
      | .thrown e => .thrown e
      | .crashed => .crashed
      | .diverged => .diverged := by
    unfold computeClassLayouts
    rw [h0]
    try rfl
  rw [hcomp, hs2, layoutLoop_append]
  rcases layoutLoop_cases ((Table.keys (recordClasses p.classes [])).takeWhile
      (fun x => decide (x ≠ c.name))) (recordClasses p.classes []) with ⟨M, hM⟩ | ⟨e, hM⟩
  · right
    refine ⟨M, s2, hM, ?_, ?_⟩
    · rw [layoutLoop_nodup_frame hM (not_mem_takeWhile_ne _ _), hfind]
    · rw [hM]
      simp only [layoutLoop]
      rcases layoutClass_cases M c.name with ⟨M1, h1⟩ | ⟨e, h1⟩
      · simp only [h1]
      · simp only [h1]
  · left
    refine ⟨e, hM, ?_⟩
    rw [hM]

theorem Keeps.rfl_keeps (cg : CodeGen) : Keeps cg cg := ⟨rfl, rfl, rfl⟩

theorem Keeps.trans_keeps {a b c : CodeGen} (h1 : Keeps a b) (h2 : Keeps b c) : Keeps a c :=
  ⟨h2.1.trans h1.1, h2.2.1.trans h1.2.1, h2.2.2.trans h1.2.2⟩

theorem emit_keeps (cg : CodeGen) (i : Instr) : Keeps cg (cg.emit i).2 := ⟨rfl, rfl, rfl⟩

theorem emit_block (cg : CodeGen) (i : Instr) : (cg.emit i).2.block = cg.block ++ [i] := rfl

theorem emit_value (cg : CodeGen) (i : Instr) : (cg.emit i).1 = .inst cg.block.length := rfl

theorem emit_module (cg : CodeGen) (i : Instr) : (cg.emit i).2.module_ = cg.module_ := rfl

theorem emit_classes (cg : CodeGen) (i : Instr) : (cg.emit i).2.classes_ = cg.classes_ := rfl

theorem nameFor_fields (m : Module) (requested : List Char) :
    (m.nameFor requested).2.functions = m.functions ∧ (m.nameFor requested).2.globals = m.globals ∧
    (m.nameFor requested).2.structs = m.structs ∧ (m.nameFor requested).2.strings = m.strings ∧
    (m.nameFor requested).2.identifier = m.identifier := by
  have key : ∀ (fuel : Nat) (m : Module), (m.makeUniqueName fuel requested).2.functions = m.functions ∧
      (m.makeUniqueName fuel requested).2.globals = m.globals ∧
      (m.makeUniqueName fuel requested).2.structs = m.structs ∧
      (m.makeUniqueName fuel requested).2.strings = m.strings ∧
      (m.makeUniqueName fuel requested).2.identifier = m.identifier := by
    intro fuel
    induction fuel with
    | zero => intro m; exact ⟨rfl, rfl, rfl, rfl, rfl⟩
    | succ n ih =>
      intro m
      unfold Module.makeUniqueName
      simp only
      split
      · exact ih _
      · exact ⟨rfl, rfl, rfl, rfl, rfl⟩
  unfold Module.nameFor
  split
  · exact key _ m
  · exact ⟨rfl, rfl, rfl, rfl, rfl⟩

theorem createFunction_fields (m : Module) (ty : Ty) (requested : List Char) :
    (m.createFunction ty requested).2.functions =
      m.functions ++ [{ name := (m.createFunction ty requested).1, type := ty }] ∧
    (m.createFunction ty requested).2.globals = m.globals ∧
    (m.createFunction ty requested).2.structs = m.structs ∧
    (m.createFunction ty requested).2.strings = m.strings := by
  obtain ⟨h1, h2, h3, h4, _⟩ := nameFor_fields m requested
  unfold Module.createFunction
  simp only
  exact ⟨by rw [h1], h2, h3, h4⟩

theorem getOrDeclarePuts_keeps (cg : CodeGen) : Keeps cg cg.getOrDeclarePuts.2 := by
  unfold getOrDeclarePuts
  split
  · exact Keeps.rfl_keeps cg
  · obtain ⟨_, h2, h3, _⟩ := createFunction_fields cg.module_ (.func tyI32 [tyI8Ptr]) "puts".toList
    exact ⟨rfl, h2, h3⟩

theorem getOrDeclarePuts_block (cg : CodeGen) : cg.getOrDeclarePuts.2.block = cg.block := by
  unfold getOrDeclarePuts
  split <;> rfl

theorem codegenVirtualCall_ok {cg cg1 : CodeGen} {thisPtr v : Value} {cls mth ret : List Char}
    (h : codegenVirtualCall cg thisPtr cls mth ret = .ok (v, cg1)) :
    ∃ ci classTy vtableTy slot, Table.find cg.classes_ cls = some ci ∧ ci.classTy = some classTy ∧
      ci.vtableTy = some vtableTy ∧ Table.find ci.layout.slotOf mth = some slot ∧
      cg1 = { cg with block := cg.block ++
        [.structGEP classTy thisPtr 0 (cls ++ ".vptr.addr".toList),
         .load (.ptr vtableTy) (.inst cg.block.length) (cls ++ ".vptr".toList),
         .structGEP vtableTy (.inst (cg.block.length + 1)) slot (mth ++ ".slot.addr".toList),
         .load tyI8Ptr (.inst (cg.block.length + 2)) (mth ++ ".slot".toList),
         .pointerCast (.inst (cg.block.length + 3)) (.ptr (methodFnTy ret classTy))
           (mth ++ ".fn".toList),
         .call (methodFnTy ret classTy) (.inst (cg.block.length + 4)) [thisPtr]
           (mth ++ ".call".toList)] } ∧
      v = .inst (cg.block.length + 5) := by
  unfold codegenVirtualCall requireClass at h
  cases hf : Table.find cg.classes_ cls with
  | none => simp [hf] at h
  | some ci =>
    simp only [hf] at h
    cases hc : ci.classTy with
    | none => simp [hc] at h
    | some classTy =>
      cases hv : ci.vtableTy with
      | none => simp [hc, hv] at h
      | some vtableTy =>
        simp only [hc, hv] at h
        unfold slotOf at h
        simp only [emit_classes, hf] at h
        cases hs : Table.find ci.layout.slotOf mth with
        | none => simp [hs] at h
        | some slot =>
          simp only [hs] at h
          cases h
          refine ⟨ci, classTy, vtableTy, slot, rfl, hc, hv, hs, ?_, ?_⟩
          · simp [emit, List.append_assoc]
          · simp [emit]

theorem noRet_nil : NoRet [] := fun _ h => by cases h

theorem noRet_append {a b : List Instr} (ha : NoRet a) (hb : NoRet b) : NoRet (a ++ b) := by
  intro i hi
  rcases List.mem_append.1 hi with h | h
  · exact ha i h
  · exact hb i h

theorem terminated_of_noRet {cg : CodeGen} (h : NoRet cg.block) : cg.terminated = false := by
  unfold terminated
  cases hl : cg.block.getLast? with
  | none => rfl
  | some i =>
    have hi := h i (List.mem_of_getLast?_eq_some hl)
    cases i <;> first | rfl | cases hi

theorem terminated_of_ret {cg : CodeGen} {b : List Instr} {v : Value}
    (h : cg.block = b ++ [.ret v]) : cg.terminated = true := by
  unfold terminated
  rw [h, List.getLast?_append_of_ne_nil _ (by simp)]
  rfl

theorem Extends.of_emit (cg : CodeGen) (i : Instr) (hi : i.isRet = false) :
    Extends cg (cg.emit i).2 :=
  ⟨emit_keeps cg i, rfl, rfl, rfl, [i], rfl, fun j hj => by
    rw [List.mem_singleton] at hj
    rw [hj]
    exact hi⟩

theorem Extends.rfl_ext (cg : CodeGen) : Extends cg cg :=
  ⟨Keeps.rfl_keeps cg, rfl, rfl, rfl, [], by simp, noRet_nil⟩

theorem Extends.trans_ext {a b c : CodeGen} (h1 : Extends a b) (h2 : Extends b c) : Extends a c := by
  obtain ⟨k1, i1, f1, u1, e1, hb1, n1⟩ := h1
  obtain ⟨k2, i2, f2, u2, e2, hb2, n2⟩ := h2
  exact ⟨k1.trans_keeps k2, i2.trans i1, f2.trans f1, u2.trans u1, e1 ++ e2,
    by rw [hb2, hb1, List.append_assoc], noRet_append n1 n2⟩

theorem codegenVirtualCall_extends {cg cg1 : CodeGen} {thisPtr v : Value} {cls mth ret : List Char}
    (h : codegenVirtualCall cg thisPtr cls mth ret = .ok (v, cg1)) : Extends cg cg1 := by
  obtain ⟨ci, classTy, vtableTy, slot, _, _, _, _, rfl, _⟩ := codegenVirtualCall_ok h
  refine ⟨⟨rfl, rfl, rfl⟩, rfl, rfl, rfl, _, rfl, ?_⟩
  intro i hi
  simp only [List.mem_cons, List.mem_singleton, List.not_mem_nil, or_false] at hi
  rcases hi with rfl | rfl | rfl | rfl | rfl | rfl <;> rfl

theorem extends_of_block {cg cg1 : CodeGen} (ext : List Instr)
    (h : cg1 = { cg with block := cg.block ++ ext }) (hn : NoRet ext) : Extends cg cg1 := by
  subst h
  exact ⟨⟨rfl, rfl, rfl⟩, rfl, rfl, rfl, ext, rfl, hn⟩

theorem codegenExpr_extends {cg cg1 : CodeGen} {e : Option Expr} {scope : Table ScopeVar}
    {t : List Char} {v : Value} (h : codegenExpr cg e scope t = .ok (v, cg1)) : Extends cg cg1 := by
  cases e with
  | none => simp [codegenExpr] at h
  | some ex =>
    cases ex with
    | StringExpr value loc =>
      simp only [codegenExpr, Outcome.ok.injEq, Prod.mk.injEq] at h
      obtain ⟨_, rfl⟩ := h
      exact ⟨⟨rfl, rfl, rfl⟩, rfl, rfl, rfl, [], by simp, noRet_nil⟩
    | IntExpr value loc =>
      simp only [codegenExpr, Outcome.ok.injEq, Prod.mk.injEq] at h
      obtain ⟨_, rfl⟩ := h
      exact Extends.rfl_ext _
    | VarExpr name loc =>
      simp only [codegenExpr] at h
      cases hf : Table.find scope name with
      | none => simp [hf] at h
      | some sv =>
        simp only [hf, Outcome.ok.injEq] at h
        have h2 : cg1 = (cg.emit (.load tyI8Ptr sv.allocaPtr (name ++ ".val".toList))).2 := by
          rw [h]
        rw [h2]
        exact Extends.of_emit cg (.load tyI8Ptr sv.allocaPtr (name ++ ".val".toList)) rfl
    | NewExpr className loc =>
      simp only [codegenExpr, requireClass] at h
      cases hf : Table.find cg.classes_ className with
      | none => simp [hf] at h
      | some ci =>
        simp only [hf] at h
        cases hc : ci.classTy with
        | none => simp [hc] at h
        | some classTy =>
          cases hg : ci.vtableGlobal with
          | none => simp [hc, hg] at h
          | some g =>
            simp only [hc, hg, Outcome.ok.injEq, Prod.mk.injEq] at h
            obtain ⟨_, rfl⟩ := h
            refine extends_of_block
              [.alloca classTy (className ++ ".obj".toList),
               .structGEP classTy (.inst cg.block.length) 0 (className ++ ".vptr.addr".toList),
               .store (.global g) (.inst (cg.block.length + 1))]
              (by simp [emit, List.append_assoc]) ?_
            intro i hi
            simp only [List.mem_cons, List.mem_singleton, List.not_mem_nil, or_false] at hi
            rcases hi with rfl | rfl | rfl <;> rfl
    | MethodCallExpr receiver methodName loc =>
      cases receiver with
      | VarExpr recvName rloc =>
        simp only [codegenExpr] at h
        cases hf : Table.find scope recvName with
        | none => simp [hf] at h
        | some sv =>
          simp only [hf] at h
          exact (Extends.of_emit cg (.load tyI8Ptr sv.allocaPtr (recvName ++ ".val".toList))
            rfl).trans_ext (codegenVirtualCall_extends h)
      | StringExpr _ _ => simp [codegenExpr] at h
      | IntExpr _ _ => simp [codegenExpr] at h
      | NewExpr _ _ => simp [codegenExpr] at h
      | MethodCallExpr _ _ _ => simp [codegenExpr] at h

/-- What a successful `codegenStmt` does: it appends at least one instruction,
the last of which is a `ret` exactly for a `return` statement, and no other is;
a `var` declaration binds the name, unless it is bound already, to its `alloca`
and its type. -/
theorem codegenStmt_ok {cg cg1 : CodeGen} {s : Stmt} {scope scope1 : Table ScopeVar}
    {ret : List Char} (h : codegenStmt cg s scope ret = .ok (scope1, cg1)) :
    Keeps cg cg1 ∧ cg1.insertFn = cg.insertFn ∧
    (∃ ext last, cg1.block = cg.block ++ ext ++ [last] ∧ NoRet ext ∧ last.isRet = s.isReturn) ∧
    (match s with
     | .VarDeclStmt name type _ _ =>
       scope1 = Table.emplace scope name { allocaPtr := .inst cg.block.length, typeName := type.name }
     | _ => scope1 = scope) := by
  cases s with
  | ReturnStmt value loc =>
    simp only [codegenStmt] at h
    split at h
    · rename_i v cg2 he
      simp only [Outcome.ok.injEq, Prod.mk.injEq] at h
      obtain ⟨rfl, rfl⟩ := h
      obtain ⟨k, i, _, _, ext, hb, hn⟩ := codegenExpr_extends he
      exact ⟨k.trans_keeps (emit_keeps _ _), i, ⟨ext, .ret v, by rw [emit_block, hb], hn, rfl⟩, rfl⟩
    all_goals cases h
  | PrintStmt value loc =>
    simp only [codegenStmt] at h
    split at h
    · rename_i v cg2 he
      simp only [Outcome.ok.injEq, Prod.mk.injEq] at h
      obtain ⟨rfl, rfl⟩ := h
      obtain ⟨k, i, _, _, ext, hb, hn⟩ := codegenExpr_extends he
      refine ⟨(k.trans_keeps (getOrDeclarePuts_keeps _)).trans_keeps (emit_keeps _ _), ?_,
        ⟨ext, .call (.func tyI32 [tyI8Ptr]) (.function cg2.getOrDeclarePuts.1) [v] [],
          by rw [emit_block, getOrDeclarePuts_block, hb], hn, rfl⟩, rfl⟩
      show (cg2.getOrDeclarePuts.2).insertFn = cg.insertFn
      rw [← i]
      unfold getOrDeclarePuts
      split <;> rfl
    all_goals cases h
  | VarDeclStmt name type init loc =>
    simp only [codegenStmt] at h
    split at h
    · rename_i v cg2 he
      simp only [Outcome.ok.injEq, Prod.mk.injEq] at h
      obtain ⟨rfl, rfl⟩ := h
      obtain ⟨k, i, _, _, ext, hb, hn⟩ := codegenExpr_extends he
      refine ⟨((emit_keeps _ _).trans_keeps k).trans_keeps (emit_keeps _ _), i,
        ⟨.alloca (.ptr tyI8Ptr) (name ++ ".addr".toList) :: ext,
          .store v (.inst cg.block.length), ?_, ?_, rfl⟩, rfl⟩
      · rw [emit_block, hb, emit_block]
        simp [emit]
      · intro j hj
        rcases List.mem_cons.1 hj with rfl | hj
        · rfl
        · exact hn j hj
    all_goals cases h

theorem codegenStmt_terminated {cg cg1 : CodeGen} {s : Stmt} {scope scope1 : Table ScopeVar}
    {ret : List Char} (h : codegenStmt cg s scope ret = .ok (scope1, cg1)) :
    cg1.terminated = s.isReturn := by
  obtain ⟨_, _, ⟨ext, last, hb, _, hl⟩, _⟩ := codegenStmt_ok h
  unfold terminated
  rw [hb, List.getLast?_append_of_ne_nil _ (by simp)]
  simp only [List.getLast?_singleton]
  rw [← hl]
  cases last <;> rfl

theorem codegenStmt_cases (cg : CodeGen) (s : Stmt) (scope : Table ScopeVar) (ret : List Char) :
    (∃ r, codegenStmt cg s scope ret = .ok r) ∨ (∃ e, codegenStmt cg s scope ret = .thrown e) ∨
    codegenStmt cg s scope ret = .crashed ∨ codegenStmt cg s scope ret = .diverged := by
  cases h : codegenStmt cg s scope ret with
  | ok r => exact Or.inl ⟨r, rfl⟩
  | thrown e => exact Or.inr (Or.inl ⟨e, rfl⟩)
  | crashed => exact Or.inr (Or.inr (Or.inl rfl))
  | diverged => exact Or.inr (Or.inr (Or.inr rfl))

theorem codegenBody_cons_ok {s : Stmt} {rest : List Stmt} {cg cg1 : CodeGen}
    {scope : Table ScopeVar} {ret : List Char}
    (h : codegenBody (s :: rest) cg scope ret = .ok cg1) :
    ∃ scope1 cg2, codegenStmt cg s scope ret = .ok (scope1, cg2) ∧
      ((s.isReturn = true ∧ cg1 = cg2) ∨
       (s.isReturn = false ∧ codegenBody rest cg2 scope1 ret = .ok cg1)) := by
  unfold codegenBody at h
  cases hs : codegenStmt cg s scope ret with
  | ok r =>
    obtain ⟨scope1, cg2⟩ := r
    simp only [hs] at h
    have ht := codegenStmt_terminated hs
    refine ⟨scope1, cg2, rfl, ?_⟩
    cases hr : s.isReturn
    · rw [hr] at ht
      simp only [ht, Bool.false_eq_true, if_false] at h
      exact Or.inr ⟨rfl, h⟩
    · rw [hr] at ht
      simp only [ht, if_true] at h
      cases h
      exact Or.inl ⟨rfl, rfl⟩
  | thrown e => simp [hs] at h
  | crashed => simp [hs] at h
  | diverged => simp [hs] at h

/-- What a successful loop over the statements of a body does: the instructions
appended hold no `ret` when no statement is a `return`, and otherwise exactly
one, the last. -/
theorem codegenBody_ok : ∀ (stmts : List Stmt) (cg cg1 : CodeGen) (scope : Table ScopeVar)
    (ret : List Char), codegenBody stmts cg scope ret = .ok cg1 →
    Keeps cg cg1 ∧ cg1.insertFn = cg.insertFn ∧
    ∃ ext, cg1.block = cg.block ++ ext ∧
      ((NoRet ext ∧ ∀ s ∈ stmts, s.isReturn = false) ∨
       (∃ ext1 v, ext = ext1 ++ [.ret v] ∧ NoRet ext1 ∧ ∃ s ∈ stmts, s.isReturn = true))
  | [], cg, cg1, scope, ret, h => by
    cases h
    exact ⟨Keeps.rfl_keeps _, rfl, [], by simp, Or.inl ⟨noRet_nil, fun _ hs => by cases hs⟩⟩
  | s :: rest, cg, cg1, scope, ret, h => by
    obtain ⟨scope1, cg2, hs, hcase⟩ := codegenBody_cons_ok h
    obtain ⟨k, i, ⟨ext, last, hb, hn, hl⟩, _⟩ := codegenStmt_ok hs
    rcases hcase with ⟨hr, rfl⟩ | ⟨hr, hrest⟩
    · refine ⟨k, i, ext ++ [last], by rw [hb, List.append_assoc], Or.inr ?_⟩
      rw [hr] at hl
      cases last <;> first | exact ⟨ext, _, rfl, hn, s, List.mem_cons_self _ _, hr⟩ | cases hl
    · obtain ⟨k2, i2, ext2, hb2, hcase2⟩ := codegenBody_ok rest cg2 cg1 scope1 ret hrest
      rw [hr] at hl
      have hn1 : NoRet (ext ++ [last]) := by
        refine noRet_append hn ?_
        intro j hj
        rw [List.mem_singleton] at hj
        rw [hj]
        exact hl
      refine ⟨k.trans_keeps k2, i2.trans i, ext ++ [last] ++ ext2,
        by rw [hb2, hb]; simp [List.append_assoc], ?_⟩
      rcases hcase2 with ⟨hn2, hall⟩ | ⟨ext1, v, rfl, hn2, s2, hs2, hr2⟩
      · refine Or.inl ⟨noRet_append hn1 hn2, ?_⟩
        intro s2 hs2
        rcases List.mem_cons.1 hs2 with rfl | hs2
        · exact hr
        · exact hall s2 hs2
      · refine Or.inr ⟨ext ++ [last] ++ ext1, v, by simp [List.append_assoc],
          noRet_append hn1 hn2, s2, List.mem_cons_of_mem _ hs2, hr2⟩

/-- The statements after a `return` statement are not lowered. -/
theorem codegenBody_after_return : ∀ (pre : List Stmt) (r : Stmt) (post : List Stmt)
    (cg : CodeGen) (scope : Table ScopeVar) (ret : List Char), r.isReturn = true →
    codegenBody (pre ++ r :: post) cg scope ret = codegenBody (pre ++ [r]) cg scope ret
  | [], r, post, cg, scope, ret, hr => by
    simp only [List.nil_append, codegenBody]
    cases hs : codegenStmt cg r scope ret with
    | ok x =>
      obtain ⟨scope1, cg2⟩ := x
      have ht := codegenStmt_terminated hs
      rw [hr] at ht
      simp [ht]
    | thrown e => rfl
    | crashed => rfl
    | diverged => rfl
  | s :: pre, r, post, cg, scope, ret, hr => by
    simp only [List.cons_append, codegenBody]
    cases hs : codegenStmt cg s scope ret with
    | ok x =>
      obtain ⟨scope1, cg2⟩ := x
      simp only
      split
      · rfl
      · exact codegenBody_after_return pre r post cg2 scope1 ret hr
    | thrown e => rfl
    | crashed => rfl
    | diverged => rfl

theorem setEntry_blocks (m : Module) (fn : List Char) (instrs : List Instr) :
    ∀ f ∈ (m.setEntry fn instrs).functions, f.name = fn →
      f.blocks = [{ name := "entry".toList, instrs := instrs }] := by
  intro f hf hname
  unfold Module.setEntry at hf
  simp only [List.mem_map] at hf
  obtain ⟨g, _, hg⟩ := hf
  by_cases hgn : g.name = fn
  · rw [if_pos hgn] at hg
    rw [← hg]
  · rw [if_neg hgn] at hg
    rw [← hg] at hname
    exact absurd hname hgn

theorem defaultReturn_of_noRet {cg : CodeGen} (ret : List Char) (h : NoRet cg.block) :
    (cg.defaultReturn ret).block = cg.block ++ [.ret (defaultValue ret)] ∧
    (cg.defaultReturn ret).module_ = cg.module_ ∧ (cg.defaultReturn ret).classes_ = cg.classes_ ∧
    (cg.defaultReturn ret).insertFn = cg.insertFn := by
  unfold defaultReturn defaultValue
  rw [terminated_of_noRet h]
  simp only [Bool.false_eq_true, if_false]
  by_cases hr : ret = "Int".toList
  · rw [if_pos hr, if_pos hr]
    exact ⟨rfl, rfl, rfl, rfl⟩
  · have : retTypeFor ret = tyI8Ptr := by
      unfold retTypeFor
      rw [if_neg hr]
      split <;> rfl
    rw [if_neg hr, if_neg hr, this]
    exact ⟨rfl, rfl, rfl, rfl⟩

theorem defaultReturn_of_ret {cg : CodeGen} (ret : List Char) {b : List Instr} {v : Value}
    (h : cg.block = b ++ [.ret v]) : cg.defaultReturn ret = cg := by
  unfold defaultReturn
  rw [terminated_of_ret h]
  rfl

/-- What a successful `defineBody` leaves: the block of the function is
`instrs ++ [ret v]` with no `ret` in `instrs`; without a `return` statement `v`
is the default value. -/
theorem defineBody_ok {cg cg1 : CodeGen} {fn : List Char} {body : List Stmt} {ret : List Char}
    (h : defineBody cg fn body ret = .ok cg1) :
    ∃ cg2 instrs v, codegenBody body { cg with insertFn := fn, block := [] } [] ret = .ok cg2 ∧
      cg1.block = instrs ++ [.ret v] ∧ NoRet instrs ∧
      cg1.module_ = cg2.module_.setEntry fn (instrs ++ [.ret v]) ∧
      cg1.classes_ = cg.classes_ ∧ cg1.insertFn = fn ∧
      ((∀ s ∈ body, s.isReturn = false) → v = defaultValue ret) := by
  unfold defineBody at h
  cases hb : codegenBody body { cg with insertFn := fn, block := [] } [] ret with
  | ok cg2 =>
    simp only [hb, Outcome.ok.injEq] at h
    obtain ⟨k, i, ext, hext, hcase⟩ := codegenBody_ok _ _ _ _ _ hb
    simp only [List.nil_append] at hext
    rcases hcase with ⟨hn, hall⟩ | ⟨ext1, v, rfl, hn, s, hs, hr⟩
    · have hn2 : NoRet cg2.block := by rw [hext]; exact hn
      obtain ⟨d1, d2, d3, d4⟩ := defaultReturn_of_noRet ret hn2
      refine ⟨cg2, ext, defaultValue ret, rfl, ?_, hn, ?_, ?_, ?_, fun _ => rfl⟩
      · rw [← h]
        simp only
        rw [d1, hext]
      · rw [← h]
        simp only
        rw [d1, d2, hext]
      · rw [← h]
        simp only
        rw [d3]
        exact k.1
      · rw [← h]
        simp only
        rw [d4]
        exact i
    · have hd := defaultReturn_of_ret ret hext
      refine ⟨cg2, ext1, v, rfl, ?_, hn, ?_, ?_, ?_, ?_⟩
      · rw [← h]
        simp only
        rw [hd, hext]
      · rw [← h]
        simp only
        rw [hd, hext]
      · rw [← h]
        simp only
        rw [hd]
        exact k.1
      · rw [← h]
        simp only
        rw [hd]
        exact i
      · intro hall
        rw [hall s hs] at hr
        cases hr
  | thrown e => simp [hb] at h
  | crashed => simp [hb] at h
  | diverged => simp [hb] at h

end CodeGen

namespace Table

theorem AgreeOn.refl_agree {V W : Type} (g : V → W) (t : Table V) : AgreeOn g t t := fun _ => rfl

theorem AgreeOn.trans_agree {V W : Type} {g : V → W} {a b c : Table V} (h1 : AgreeOn g a b)
    (h2 : AgreeOn g b c) : AgreeOn g a c := fun k => (h1 k).trans (h2 k)

theorem AgreeOn.symm_agree {V W : Type} {g : V → W} {a b : Table V} (h : AgreeOn g a b) :
    AgreeOn g b a := fun k => (h k).symm

theorem AgreeOn.of_modify {V W : Type} (g : V → W) (f : V → V) (t : Table V) (k : List Char)
    (hf : ∀ v, g (f v) = g v) : AgreeOn g t (modify f t k) := by
  intro key
  rw [find_modify]
  by_cases h : key = k
  · rw [if_pos h, h]
    cases find t k <;> simp [hf]
  · rw [if_neg h]

theorem AgreeOn.find_some {V W : Type} {g : V → W} {t t1 : Table V} (h : AgreeOn g t t1)
    {k : List Char} {v : V} (hv : find t k = some v) : ∃ v1, find t1 k = some v1 ∧ g v1 = g v := by
  have := h k
  rw [hv] at this
  cases h1 : find t1 k with
  | none => rw [h1] at this; cases this
  | some v1 =>
    rw [h1] at this
    simp only [Option.map_some', Option.some.injEq] at this
    exact ⟨v1, rfl, this.symm⟩

theorem AgreeOn.keys_mem {V W : Type} {g : V → W} {t t1 : Table V} (h : AgreeOn g t t1)
    {k : List Char} (hk : k ∈ keys t) : k ∈ keys t1 := by
  obtain ⟨v, hv⟩ := (find_isSome t k).2 hk
  obtain ⟨v1, hv1, _⟩ := h.find_some hv
  exact (find_isSome t1 k).1 ⟨v1, hv1⟩

end Table

namespace CodeGen

theorem lower_ok {p : Program} {moduleName : List Char} {cg : CodeGen}
    (h : lower p moduleName = .ok cg) :
    ∃ cg1 cg2 cg3 cg4, computeClassLayouts { module_ := { identifier := moduleName } } p = .ok cg1 ∧
      cg1.declareTypes = .ok cg2 ∧ cg2.declareAndDefineMethods = .ok cg3 ∧
      cg3.defineVTables = .ok cg4 ∧ cg4.defineFunctions p = .ok cg := by
  unfold lower at h
  cases h1 : computeClassLayouts { module_ := { identifier := moduleName } } p with
  | ok cg1 =>
    simp only [h1] at h
    cases h2 : cg1.declareTypes with
    | ok cg2 =>
      simp only [h2] at h
      cases h3 : cg2.declareAndDefineMethods with
      | ok cg3 =>
        simp only [h3] at h
        cases h4 : cg3.defineVTables with
        | ok cg4 =>
          simp only [h4] at h
          exact ⟨cg1, cg2, cg3, cg4, rfl, h2, h3, h4, h⟩
        | thrown e => simp [h4] at h
        | crashed => simp [h4] at h
        | diverged => simp [h4] at h
      | thrown e => simp [h3] at h
      | crashed => simp [h3] at h
      | diverged => simp [h3] at h
    | thrown e => simp [h2] at h
    | crashed => simp [h2] at h
    | diverged => simp [h2] at h
  | thrown e => simp [h1] at h
  | crashed => simp [h1] at h
  | diverged => simp [h1] at h

theorem generate_ok {verifyModule : Module → Option String} {p : Program} {moduleName : List Char}
    {cg : CodeGen} (h : generate verifyModule p moduleName = .ok cg) :
    lower p moduleName = .ok cg := by
  unfold generate at h
  cases h1 : lower p moduleName with
  | ok cg1 =>
    simp only [h1] at h
    cases hv : verifyModule cg1.module_ with
    | none =>
      simp only [hv, Outcome.ok.injEq] at h
      rw [h]
    | some err => simp [hv] at h
  | thrown e => simp [h1] at h
  | crashed => simp [h1] at h
  | diverged => simp [h1] at h

theorem declareTypesCreate_spec : ∀ (ks : List (List Char)) (cg : CodeGen),
    Table.AgreeOn (fun i => (i.decl, i.methods, i.vtableGlobal)) cg.classes_
        (declareTypesCreate ks cg).classes_ ∧
      (declareTypesCreate ks cg).module_.functions = cg.module_.functions ∧
      (declareTypesCreate ks cg).module_.globals = cg.module_.globals ∧
      (declareTypesCreate ks cg).module_.strings = cg.module_.strings ∧
      (declareTypesCreate ks cg).module_.lastUnique = cg.module_.lastUnique ∧
      (declareTypesCreate ks cg).block = cg.block
  | [], cg => ⟨Table.AgreeOn.refl_agree _ _, rfl, rfl, rfl, rfl, rfl⟩
  | k :: ks, cg => by
    obtain ⟨h1, h2, h3, h4, h5, h6⟩ := declareTypesCreate_spec ks (cg.createTypes k)
    refine ⟨?_, h2, h3, h4, h5, h6⟩
    exact (Table.AgreeOn.of_modify (fun i : ClassInfo => (i.decl, i.methods, i.vtableGlobal))
      (fun i => { i with vtableTy := some (.struct ("vtable.".toList ++ k)),
                         classTy := some (.struct ("class.".toList ++ k)) })
      cg.classes_ k (fun _ => rfl)).trans_agree h1

theorem declareTypesBodies_spec : ∀ (ks : List (List Char)) (cg cg1 : CodeGen),
    declareTypesBodies ks cg = .ok cg1 →
    cg1.classes_ = cg.classes_ ∧ cg1.module_.functions = cg.module_.functions ∧
      cg1.module_.globals = cg.module_.globals ∧ cg1.module_.strings = cg.module_.strings ∧
      cg1.module_.lastUnique = cg.module_.lastUnique ∧ cg1.block = cg.block
  | [], cg, cg1, h => by
    cases h
    exact ⟨rfl, rfl, rfl, rfl, rfl, rfl⟩
  | k :: ks, cg, cg1, h => by
    unfold declareTypesBodies at h
    cases hf : Table.find cg.classes_ k with
    | none =>
      simp only [hf] at h
      exact declareTypesBodies_spec ks cg cg1 h
    | some info =>
      simp only [hf] at h
      cases hv : info.vtableTy with
      | none => simp [hv] at h
      | some vt =>
        cases hc : info.classTy with
        | none => simp [hv, hc] at h
        | some ct =>
          simp only [hv, hc] at h
          have := declareTypesBodies_spec ks _ cg1 h
          exact this

theorem declareTypes_spec {cg cg1 : CodeGen} (h : cg.declareTypes = .ok cg1) :
    Table.AgreeOn (fun i => (i.decl, i.methods, i.vtableGlobal)) cg.classes_ cg1.classes_ ∧
      cg1.module_.functions = cg.module_.functions ∧ cg1.module_.globals = cg.module_.globals ∧
      cg1.module_.strings = cg.module_.strings ∧
      cg1.module_.lastUnique = cg.module_.lastUnique ∧ cg1.block = cg.block := by
  unfold declareTypes at h
  obtain ⟨a1, a2, a3, a4, a5, a6⟩ := declareTypesCreate_spec (Table.keys cg.classes_) cg
  obtain ⟨b1, b2, b3, b4, b5, b6⟩ := declareTypesBodies_spec _ _ _ h
  exact ⟨by rw [b1]; exact a1, b2.trans a2, b3.trans a3, b4.trans a4, b5.trans a5, b6.trans a6⟩

theorem Lowered.of_same {t t1 : Table ClassInfo} {body : List Stmt} {ret : List Char}
    (h : Lowered t1 body ret) (hs : SameDecls t t1) : Lowered t body ret := by
  obtain ⟨cgb, fn, cgb1, h1, h2⟩ := h
  exact ⟨cgb, fn, cgb1, hs.trans_agree h1, h2⟩

theorem defineBody_cases (cg : CodeGen) (fn : List Char) (body : List Stmt) (ret : List Char) :
    (∃ r, defineBody cg fn body ret = .ok r) ∨ (∃ e, defineBody cg fn body ret = .thrown e) ∨
    defineBody cg fn body ret = .crashed ∨ defineBody cg fn body ret = .diverged := by
  cases h : defineBody cg fn body ret with
  | ok r => exact Or.inl ⟨r, rfl⟩
  | thrown e => exact Or.inr (Or.inl ⟨e, rfl⟩)
  | crashed => exact Or.inr (Or.inr (Or.inl rfl))
  | diverged => exact Or.inr (Or.inr (Or.inr rfl))

theorem defineBody_frame {cg cg1 : CodeGen} {fn : List Char} {body : List Stmt} {ret : List Char}
    (h : defineBody cg fn body ret = .ok cg1) :
    cg1.classes_ = cg.classes_ ∧ cg1.module_.globals = cg.module_.globals ∧
      cg1.module_.structs = cg.module_.structs := by
  obtain ⟨cg2, instrs, v, hb, _, _, hm, hc, _, _⟩ := defineBody_ok h
  obtain ⟨k, _, _⟩ := codegenBody_ok _ _ _ _ _ hb
  refine ⟨hc, ?_, ?_⟩
  · rw [hm]
    exact k.2.1
  · rw [hm]
    exact k.2.2

theorem declareMethod_fields (cg : CodeGen) (name : List Char) (info : ClassInfo) (classTy : Ty)
    (m : MethodDecl) :
    (cg.declareMethod name info classTy m).2.classes_ =
      Table.modify (fun i => i.withMethod m.name (cg.declareMethod name info classTy m).1)
        cg.classes_ name ∧
    (cg.declareMethod name info classTy m).2.module_.globals = cg.module_.globals ∧
    (cg.declareMethod name info classTy m).2.module_.structs = cg.module_.structs := by
  obtain ⟨_, g, s, _⟩ := createFunction_fields cg.module_
    (methodFnTy m.returnType.name classTy) (info.name ++ '.' :: m.name)
  exact ⟨rfl, g, s⟩

/-- One step of the loop over the methods of a class, when it succeeds. -/
theorem defineMethods_cons_ok {name : List Char} {m : MethodDecl} {rest : List MethodDecl}
    {cg cg1 : CodeGen} (h : defineMethods name (m :: rest) cg = .ok cg1)
    (hk : name ∈ Table.keys cg.classes_) :
    ∃ info classTy cg2, Table.find cg.classes_ name = some info ∧ info.classTy = some classTy ∧
      defineBody (cg.declareMethod name info classTy m).2 (cg.declareMethod name info classTy m).1
        m.body m.returnType.name = .ok cg2 ∧
      defineMethods name rest cg2 = .ok cg1 := by
  obtain ⟨info, hinfo⟩ := (Table.find_isSome _ _).2 hk
  unfold defineMethods at h
  simp only [hinfo] at h
  cases hc : info.classTy with
  | none => simp [hc] at h
  | some classTy =>
    simp only [hc] at h
    split at h
    · rename_i cg2 hb
      exact ⟨info, classTy, cg2, hinfo, hc, hb, h⟩
    all_goals cases h

/-- What the loop over the methods of the class `name` does, when it succeeds:
the other classes are untouched; the class keeps everything but its table of
methods, which gets an entry for each method name; every body is lowered. -/
theorem defineMethods_spec : ∀ (ms : List MethodDecl) (name : List Char) (cg cg1 : CodeGen),
    defineMethods name ms cg = .ok cg1 → name ∈ Table.keys cg.classes_ →
    Table.AgreeOn (fun i => (i.decl, i.classTy, i.vtableTy, i.vtableGlobal))
      cg.classes_ cg1.classes_ ∧
    (∀ k, k ≠ name → Table.find cg1.classes_ k = Table.find cg.classes_ k) ∧
    (∀ info, Table.find cg.classes_ name = some info → ∃ info1,
      Table.find cg1.classes_ name = some info1 ∧
      ∀ n, (Table.find info1.methods n).isSome =
        ((Table.find info.methods n).isSome || ms.any (fun m => decide (m.name = n)))) ∧
    cg1.module_.globals = cg.module_.globals ∧ cg1.module_.structs = cg.module_.structs ∧
    (∀ m ∈ ms, Lowered cg.classes_ m.body m.returnType.name)
  | [], name, cg, cg1, h, _ => by
    cases h
    refine ⟨Table.AgreeOn.refl_agree _ _, fun _ _ => rfl, ?_, rfl, rfl, fun _ hm => by cases hm⟩
    intro info hinfo
    exact ⟨info, hinfo, fun n => by simp⟩
  | m :: rest, name, cg, cg1, h, hk => by
    obtain ⟨info, classTy, cg2, hinfo, hc, hb, hrest⟩ := defineMethods_cons_ok h hk
    obtain ⟨f1, f2, f3⟩ := defineBody_frame hb
    obtain ⟨d1, d2, d3⟩ := declareMethod_fields cg name info classTy m
    rw [d1] at f1
    rw [d2] at f2
    rw [d3] at f3
    have hk2 : name ∈ Table.keys cg2.classes_ := by
      rw [f1, Table.keys_modify]
      exact hk
    obtain ⟨a1, a2, a3, a4, a5, a6⟩ := defineMethods_spec rest name cg2 cg1 hrest hk2
    have hagree : Table.AgreeOn (fun i : ClassInfo => (i.decl, i.classTy, i.vtableTy, i.vtableGlobal))
        cg.classes_ cg2.classes_ := by
      rw [f1]
      exact Table.AgreeOn.of_modify _ _ _ _ (fun _ => rfl)
    have hsame : SameDecls cg.classes_ cg2.classes_ := by
      rw [f1]
      exact Table.AgreeOn.of_modify _ _ _ _ (fun _ => rfl)
    refine ⟨hagree.trans_agree a1, ?_, ?_, ?_, ?_, ?_⟩
    · intro k hkn
      rw [a2 k hkn, f1, Table.find_modify, if_neg hkn]
    · intro info0 hinfo0
      rw [hinfo] at hinfo0
      cases hinfo0
      have hfind2 : Table.find cg2.classes_ name =
          some (info.withMethod m.name (cg.declareMethod name info classTy m).1) := by
        rw [f1, Table.find_modify, if_pos rfl, hinfo]
        rfl
      obtain ⟨info1, hi1, hdom⟩ := a3 _ hfind2
      refine ⟨info1, hi1, ?_⟩
      intro n
      rw [hdom n]
      simp only [ClassInfo.withMethod, Table.find_assign, List.any_cons]
      by_cases hn : n = m.name
      · subst hn
        simp
      · have hn2 : ¬ m.name = n := fun e => hn e.symm
        simp [hn, hn2]
    · rw [a4, f2]
    · rw [a5, f3]
    · intro m2 hm2
      rcases List.mem_cons.1 hm2 with rfl | hm2
      · refine ⟨_, _, cg2, ?_, hb⟩
        rw [d1]
        exact Table.AgreeOn.of_modify _ _ _ _ (fun _ => rfl)
      · exact (a6 m2 hm2).of_same hsame

theorem defineMethods_keys : ∀ (ms : List MethodDecl) (name : List Char) (cg cg1 : CodeGen),
    defineMethods name ms cg = .ok cg1 → Table.keys cg1.classes_ = Table.keys cg.classes_
  | [], name, cg, cg1, h => by
    cases h
    rfl
  | m :: rest, name, cg, cg1, h => by
    by_cases hk : name ∈ Table.keys cg.classes_
    · obtain ⟨info, classTy, cg2, _, _, hb, hrest⟩ := defineMethods_cons_ok h hk
      rw [defineMethods_keys rest name cg2 cg1 hrest, (defineBody_frame hb).1,
        (declareMethod_fields cg name info classTy m).1, Table.keys_modify]
    · have hnone := (Table.find_eq_none _ _).2 hk
      unfold defineMethods at h
      simp only [hnone] at h
      cases h
      rfl

theorem defineClasses_cons_ok {k : List Char} {rest : List (List Char)} {cg cg1 : CodeGen}
    (h : defineClasses (k :: rest) cg = .ok cg1) (hk : k ∈ Table.keys cg.classes_) :
    ∃ info cg2, Table.find cg.classes_ k = some info ∧
      defineMethods k info.ast.methods cg = .ok cg2 ∧ defineClasses rest cg2 = .ok cg1 := by
  obtain ⟨info, hinfo⟩ := (Table.find_isSome _ _).2 hk
  unfold defineClasses at h
  simp only [hinfo] at h
  split at h
  · rename_i cg2 hm
    exact ⟨info, cg2, hinfo, hm, h⟩
  all_goals cases h

/-- What `declareAndDefineMethods` does, when it succeeds. -/
theorem defineClasses_spec : ∀ (ks : List (List Char)) (cg cg1 : CodeGen),
    defineClasses ks cg = .ok cg1 → ks.Nodup → (∀ k ∈ ks, k ∈ Table.keys cg.classes_) →
    Table.keys cg1.classes_ = Table.keys cg.classes_ ∧
    Table.AgreeOn (fun i => (i.decl, i.classTy, i.vtableTy, i.vtableGlobal))
      cg.classes_ cg1.classes_ ∧
    (∀ k, k ∉ ks → Table.find cg1.classes_ k = Table.find cg.classes_ k) ∧
    (∀ k ∈ ks, ∀ info, Table.find cg.classes_ k = some info → ∃ info1,
      Table.find cg1.classes_ k = some info1 ∧
      ∀ n, (Table.find info1.methods n).isSome =
        ((Table.find info.methods n).isSome ||
          info.ast.methods.any (fun m => decide (m.name = n)))) ∧
    cg1.module_.globals = cg.module_.globals ∧ cg1.module_.structs = cg.module_.structs ∧
    (∀ k ∈ ks, ∀ info, Table.find cg.classes_ k = some info →
      ∀ m ∈ info.ast.methods, Lowered cg.classes_ m.body m.returnType.name)
  | [], cg, cg1, h, _, _ => by
    cases h
    exact ⟨rfl, Table.AgreeOn.refl_agree _ _, fun _ _ => rfl, fun _ hk => (by cases hk), rfl, rfl,
      fun _ hk => (by cases hk)⟩
  | k :: rest, cg, cg1, h, hnd, hks => by
    have hk := hks k (List.mem_cons_self _ _)
    obtain ⟨info, cg2, hinfo, hm, hrest⟩ := defineClasses_cons_ok h hk
    obtain ⟨m1, m2, m3, m4, m5, m6⟩ := defineMethods_spec _ _ _ _ hm hk
    have mk := defineMethods_keys _ _ _ _ hm
    obtain ⟨hkn, hnd2⟩ := List.nodup_cons.1 hnd
    have hks2 : ∀ k2 ∈ rest, k2 ∈ Table.keys cg2.classes_ := by
      intro k2 hk2
      rw [mk]
      exact hks k2 (List.mem_cons_of_mem _ hk2)
    obtain ⟨a0, a1, a2, a3, a4, a5, a6⟩ := defineClasses_spec rest cg2 cg1 hrest hnd2 hks2
    have hsame : SameDecls cg.classes_ cg2.classes_ := by
      intro key
      have := m1 key
      cases h1 : Table.find cg.classes_ key <;> cases h2 : Table.find cg2.classes_ key <;>
        rw [h1, h2] at this <;> simp at this ⊢
      exact this.1
    refine ⟨a0.trans mk, m1.trans_agree a1, ?_, ?_, a4.trans m4, a5.trans m5, ?_⟩
    · intro key hkey
      rw [List.mem_cons, not_or] at hkey
      rw [a2 key hkey.2, m2 key hkey.1]
    · intro key hkey info0 hinfo0
      rcases List.mem_cons.1 hkey with rfl | hkey2
      · obtain ⟨info1, hi1, hdom⟩ := m3 info0 hinfo0
        rw [hinfo] at hinfo0
        cases hinfo0
        exact ⟨info1, by rw [a2 key hkn, hi1], hdom⟩
      · have hne : key ≠ k := fun e => hkn (e ▸ hkey2)
        have h2 : Table.find cg2.classes_ key = some info0 := by rw [m2 key hne, hinfo0]
        exact a3 key hkey2 info0 h2
    · intro key hkey info0 hinfo0 m hmem
      rcases List.mem_cons.1 hkey with rfl | hkey2
      · rw [hinfo] at hinfo0
        cases hinfo0
        exact m6 m hmem
      · have hne : key ≠ k := fun e => hkn (e ▸ hkey2)
        have h2 : Table.find cg2.classes_ key = some info0 := by rw [m2 key hne, hinfo0]
        exact (a6 key hkey2 info0 h2 m hmem).of_same hsame

theorem declareFunction_fields (cg : CodeGen) (f : FunctionDecl) :
    (cg.declareFunction f).2.classes_ = cg.classes_ ∧
    (cg.declareFunction f).2.module_.globals = cg.module_.globals ∧
    (cg.declareFunction f).2.module_.structs = cg.module_.structs := by
  obtain ⟨_, g, s, _⟩ := createFunction_fields cg.module_
    (.func (retTypeFor f.returnType.name) []) f.name
  exact ⟨rfl, g, s⟩

theorem defineFunctionsLoop_cons_ok {f : FunctionDecl} {rest : List FunctionDecl}
    {cg cg1 : CodeGen} (h : defineFunctionsLoop (f :: rest) cg = .ok cg1) :
    ∃ cg2, defineBody (cg.declareFunction f).2 (cg.declareFunction f).1 f.body
        f.returnType.name = .ok cg2 ∧ defineFunctionsLoop rest cg2 = .ok cg1 := by
  unfold defineFunctionsLoop at h
  simp only at h
  split at h
  · rename_i cg2 hb
    exact ⟨cg2, hb, h⟩
  all_goals cases h

/-- What the loop of `defineFunctions` does, when it succeeds. -/
theorem defineFunctionsLoop_spec : ∀ (fs : List FunctionDecl) (cg cg1 : CodeGen),
    defineFunctionsLoop fs cg = .ok cg1 →
    cg1.classes_ = cg.classes_ ∧ cg1.module_.globals = cg.module_.globals ∧
    cg1.module_.structs = cg.module_.structs ∧
    (∀ f ∈ fs, Lowered cg.classes_ f.body f.returnType.name)
  | [], cg, cg1, h => by
    cases h
    exact ⟨rfl, rfl, rfl, fun _ hf => (by cases hf)⟩
  | f :: rest, cg, cg1, h => by
    obtain ⟨cg2, hb, hrest⟩ := defineFunctionsLoop_cons_ok h
    obtain ⟨b1, b2, b3⟩ := defineBody_frame hb
    obtain ⟨d1, d2, d3⟩ := declareFunction_fields cg f
    obtain ⟨a1, a2, a3, a4⟩ := defineFunctionsLoop_spec rest cg2 cg1 hrest
    have hc : cg2.classes_ = cg.classes_ := b1.trans d1
    refine ⟨a1.trans hc, a2.trans (b2.trans d2), a3.trans (b3.trans d3), ?_⟩
    intro f2 hf2
    rcases List.mem_cons.1 hf2 with rfl | hf2
    · exact ⟨_, _, cg2, by rw [d1]; exact Table.AgreeOn.refl_agree _ _, hb⟩
    · have := a4 f2 hf2
      rw [hc] at this
      exact this

theorem defineFunctions_spec {cg cg1 : CodeGen} {p : Program}
    (h : cg.defineFunctions p = .ok cg1) :
    cg1.classes_ = cg.classes_ ∧ cg1.module_.globals = cg.module_.globals ∧
    cg1.module_.structs = cg.module_.structs ∧
    (∀ f ∈ p.functions, Lowered cg.classes_ f.body f.returnType.name) := by
  unfold defineFunctions at h
  obtain ⟨a1, a2, a3, a4⟩ := defineFunctionsLoop_spec _ _ _ h
  obtain ⟨k1, k2, k3⟩ := getOrDeclarePuts_keeps cg
  refine ⟨a1.trans k1, a2.trans k2, a3.trans k3, ?_⟩
  intro f hf
  have := a4 f hf
  rw [k1] at this
  exact this

theorem maybeBaseOf_congr {cg cg1 : CodeGen} (h : SameImpls cg cg1) {c c1 : ClassInfo}
    (hc : (c.base, c.methods) = (c1.base, c1.methods)) :
    match maybeBaseOf cg c, maybeBaseOf cg1 c1 with
    | .ok none, .ok none => True
    | .ok (some b), .ok (some b1) => (b.base, b.methods) = (b1.base, b1.methods)
    | .thrown e, .thrown e1 => e = e1
    | _, _ => False := by
  have hb : c.base = c1.base := congrArg Prod.fst hc
  unfold maybeBaseOf
  rw [← hb]
  cases c.base with
  | none => trivial
  | some b =>
    simp only
    have := h.2 b
    cases h1 : Table.find cg.classes_ b <;> cases h2 : Table.find cg1.classes_ b <;>
      rw [h1, h2] at this <;> simp at this ⊢
    exact this

theorem implementationLoop_congr {cg cg1 : CodeGen} (h : SameImpls cg cg1)
    (cls mth : List Char) : ∀ (fuel : Nat) (c c1 : ClassInfo),
    (c.base, c.methods) = (c1.base, c1.methods) →
    implementationLoop cg cls mth fuel c = implementationLoop cg1 cls mth fuel c1
  | 0, _, _, _ => rfl
  | fuel + 1, c, c1, hc => by
    have hm : c.methods = c1.methods := congrArg Prod.snd hc
    unfold implementationLoop
    rw [← hm]
    cases Table.find c.methods mth with
    | some fn => rfl
    | none =>
      simp only
      have := maybeBaseOf_congr h hc
      cases h1 : maybeBaseOf cg c with
      | ok ob =>
        cases h2 : maybeBaseOf cg1 c1 with
        | ok ob1 =>
          rw [h1, h2] at this
          cases ob <;> cases ob1 <;> simp at this ⊢
          exact implementationLoop_congr h cls mth fuel _ _ (Prod.ext this.1 this.2)
        | thrown e => rw [h1, h2] at this; cases ob <;> exact this.elim
        | crashed => rw [h1, h2] at this; cases ob <;> exact this.elim
        | diverged => rw [h1, h2] at this; cases ob <;> exact this.elim
      | thrown e =>
        cases h2 : maybeBaseOf cg1 c1 with
        | ok ob1 => rw [h1, h2] at this; exact this.elim
        | thrown e1 =>
          rw [h1, h2] at this
          simp only at this
          rw [this]
        | crashed => rw [h1, h2] at this; exact this.elim
        | diverged => rw [h1, h2] at this; exact this.elim
      | crashed => rw [h1] at this; exact this.elim
      | diverged => rw [h1] at this; exact this.elim

theorem implementationFor_congr {cg cg1 : CodeGen} (h : SameImpls cg cg1) (cls mth : List Char) :
    implementationFor cg cls mth = implementationFor cg1 cls mth := by
  unfold implementationFor
  have := h.2 cls
  rw [h.1]
  cases h1 : Table.find cg.classes_ cls <;> cases h2 : Table.find cg1.classes_ cls <;>
    rw [h1, h2] at this <;> simp at this ⊢
  exact implementationLoop_congr h cls mth _ _ _ (Prod.ext this.1 this.2)

theorem vtableElems_congr {cg cg1 : CodeGen} (h : SameImpls cg cg1) (cls : List Char) :
    ∀ ns : List (List Char), vtableElems cg cls ns = vtableElems cg1 cls ns
  | [] => rfl
  | n :: ns => by
    unfold vtableElems
    rw [implementationFor_congr h cls n, vtableElems_congr h cls ns]

/-- The elements of a vtable initializer: slot `i` holds the function that
`implementationFor` finds for the name of the slot. -/
theorem vtableElems_ok {cg : CodeGen} {cls : List Char} : ∀ {ns : List (List Char)}
    {elems : List Value}, vtableElems cg cls ns = .ok elems →
    elems.length = ns.length ∧
    ∀ (i : Nat) (n : List Char), ns[i]? = some n → ∃ fn, implementationFor cg cls n = .ok fn ∧
      elems[i]? = some (Value.constCast (Value.function fn) tyI8Ptr)
  | [], elems, h => by
    cases h
    exact ⟨rfl, fun i n hn => by simp at hn⟩
  | n0 :: ns, elems, h => by
    unfold vtableElems at h
    cases hi : implementationFor cg cls n0 with
    | ok impl =>
      simp only [hi] at h
      cases hr : vtableElems cg cls ns with
      | ok rest =>
        simp only [hr, Outcome.ok.injEq] at h
        subst h
        obtain ⟨hl, hrest⟩ := vtableElems_ok hr
        refine ⟨by simp [hl], ?_⟩
        intro i n hn
        cases i with
        | zero =>
          simp only [List.getElem?_cons_zero, Option.some.injEq] at hn
          subst hn
          exact ⟨impl, hi, by simp⟩
        | succ i =>
          simp only [List.getElem?_cons_succ] at hn
          obtain ⟨fn, h1, h2⟩ := hrest i n hn
          exact ⟨fn, h1, by simpa using h2⟩
      | thrown e => simp [hr] at h
      | crashed => simp [hr] at h
      | diverged => simp [hr] at h
    | thrown e => simp [hi] at h
    | crashed => simp [hi] at h
    | diverged => simp [hi] at h

theorem createGlobal_fields (m : Module) (ty : Ty) (c : Bool) (init : Initializer)
    (requested : List Char) :
    (m.createGlobal ty c init requested).2.globals =
      m.globals ++ [{ name := (m.createGlobal ty c init requested).1, valueType := ty,
                      isConstant := c, initializer := init }] ∧
    (m.createGlobal ty c init requested).2.functions = m.functions ∧
    (m.createGlobal ty c init requested).2.structs = m.structs ∧
    (m.createGlobal ty c init requested).2.strings = m.strings := by
  obtain ⟨h1, h2, h3, h4, _⟩ := nameFor_fields m requested
  unfold Module.createGlobal
  simp only
  exact ⟨by rw [h2], h1, h3, h4⟩

theorem defineVTable_fields (cg : CodeGen) (name : List Char) (vt : Ty) (elems : List Value) :
    ∃ g : GlobalVariable, g.valueType = vt ∧ g.isConstant = true ∧
      g.initializer = vtableInit vt elems ∧
      (cg.defineVTable name vt elems).module_.globals = cg.module_.globals ++ [g] ∧
      (cg.defineVTable name vt elems).classes_ =
        Table.modify (fun i => { i with vtableGlobal := some g.name }) cg.classes_ name ∧
      (cg.defineVTable name vt elems).module_.functions = cg.module_.functions ∧
      (cg.defineVTable name vt elems).module_.structs = cg.module_.structs := by
  obtain ⟨h1, h2, h3, _⟩ := createGlobal_fields cg.module_ vt true (vtableInit vt elems)
    ("vtable.".toList ++ name)
  exact ⟨_, rfl, rfl, rfl, h1, rfl, h2, h3⟩

theorem defineVTablesLoop_cons_ok {k : List Char} {rest : List (List Char)} {cg cg1 : CodeGen}
    (h : defineVTablesLoop (k :: rest) cg = .ok cg1) (hk : k ∈ Table.keys cg.classes_) :
    ∃ info elems vt, Table.find cg.classes_ k = some info ∧
      vtableElems cg k info.layout.methods = .ok elems ∧ info.vtableTy = some vt ∧
      defineVTablesLoop rest (cg.defineVTable k vt elems) = .ok cg1 := by
  obtain ⟨info, hinfo⟩ := (Table.find_isSome _ _).2 hk
  unfold defineVTablesLoop at h
  simp only [hinfo] at h
  cases he : vtableElems cg k info.layout.methods with
  | ok elems =>
    simp only [he] at h
    cases hv : info.vtableTy with
    | none => simp [hv] at h
    | some vt =>
      simp only [hv] at h
      exact ⟨info, elems, vt, hinfo, he, hv, h⟩
  | thrown e => simp [he] at h
  | crashed => simp [he] at h
  | diverged => simp [he] at h

/-- What `defineVTables` does, when it succeeds. -/
theorem defineVTablesLoop_spec : ∀ (ks : List (List Char)) (cg cg1 : CodeGen),
    defineVTablesLoop ks cg = .ok cg1 → ks.Nodup → (∀ k ∈ ks, k ∈ Table.keys cg.classes_) →
    Table.keys cg1.classes_ = Table.keys cg.classes_ ∧
    Table.AgreeOn (fun i => (i.decl, i.classTy, i.vtableTy, i.methods))
      cg.classes_ cg1.classes_ ∧
    (∀ k, k ∉ ks → Table.find cg1.classes_ k = Table.find cg.classes_ k) ∧
    cg1.module_.functions = cg.module_.functions ∧ cg1.module_.structs = cg.module_.structs ∧
    (∃ more, cg1.module_.globals = cg.module_.globals ++ more) ∧
    (∀ k ∈ ks, ∀ info, Table.find cg.classes_ k = some info → ∃ info1,
      Table.find cg1.classes_ k = some info1 ∧ HasVTable cg cg1.module_ k info info1)
  | [], cg, cg1, h, _, _ => by
    cases h
    exact ⟨rfl, Table.AgreeOn.refl_agree _ _, fun _ _ => rfl, rfl, rfl, ⟨[], by simp⟩,
      fun _ hk => (by cases hk)⟩
  | k :: rest, cg, cg1, h, hnd, hks => by
    have hk := hks k (List.mem_cons_self _ _)
    obtain ⟨info, elems, vt, hinfo, he, hv, hrest⟩ := defineVTablesLoop_cons_ok h hk
    obtain ⟨g, g1, g2, g3, g4, g5, g6, g7⟩ := defineVTable_fields cg k vt elems
    obtain ⟨hkn, hnd2⟩ := List.nodup_cons.1 hnd
    have hkeys2 : Table.keys (cg.defineVTable k vt elems).classes_ = Table.keys cg.classes_ := by
      rw [g5, Table.keys_modify]
    have hks2 : ∀ k2 ∈ rest, k2 ∈ Table.keys (cg.defineVTable k vt elems).classes_ := by
      intro k2 hk2
      rw [hkeys2]
      exact hks k2 (List.mem_cons_of_mem _ hk2)
    obtain ⟨a0, a1, a2, a3, a4, ⟨more, a5⟩, a6⟩ :=
      defineVTablesLoop_spec rest _ cg1 hrest hnd2 hks2
    have hagree : Table.AgreeOn (fun i : ClassInfo => (i.decl, i.classTy, i.vtableTy, i.methods))
        cg.classes_ (cg.defineVTable k vt elems).classes_ := by
      rw [g5]
      exact Table.AgreeOn.of_modify _ _ _ _ (fun _ => rfl)
    have himpl : SameImpls cg (cg.defineVTable k vt elems) := by
      refine ⟨?_, ?_⟩
      · have := congrArg List.length hkeys2
        simpa [Table.keys] using this
      · rw [g5]
        exact Table.AgreeOn.of_modify _ _ _ _ (fun _ => rfl)
    refine ⟨a0.trans hkeys2, hagree.trans_agree a1, ?_, a3.trans g6, a4.trans g7,
      ⟨g :: more, by rw [a5, g4]; simp⟩, ?_⟩
    · intro key hkey
      rw [List.mem_cons, not_or] at hkey
      rw [a2 key hkey.2, g5, Table.find_modify, if_neg hkey.1]
    · intro key hkey info0 hinfo0
      rcases List.mem_cons.1 hkey with rfl | hkey2
      · rw [hinfo] at hinfo0
        cases hinfo0
        refine ⟨{ info with vtableGlobal := some g.name }, ?_, elems, vt, g, he, hv, rfl, ?_,
          g1, g2, g3⟩
        · rw [a2 key hkn, g5, Table.find_modify, if_pos rfl, hinfo]
          rfl
        · rw [a5, g4]
          simp
      · have hne : key ≠ k := fun e => hkn (e ▸ hkey2)
        have h2 : Table.find (cg.defineVTable k vt elems).classes_ key = some info0 := by
          rw [g5, Table.find_modify, if_neg hne, hinfo0]
        obtain ⟨info1, hi1, elems1, vt1, gl, e1, e2, e3, e4, e5, e6, e7⟩ := a6 key hkey2 info0 h2
        refine ⟨info1, hi1, elems1, vt1, gl, ?_, e2, e3, e4, e5, e6, e7⟩
        rw [vtableElems_congr himpl]
        exact e1

theorem declareTypesCreate_keys : ∀ (ks : List (List Char)) (cg : CodeGen),
    Table.keys (declareTypesCreate ks cg).classes_ = Table.keys cg.classes_
  | [], _ => rfl
  | k :: ks, cg => by
    rw [declareTypesCreate, declareTypesCreate_keys ks]
    exact Table.keys_modify _ _ _

theorem declareTypes_keys {cg cg1 : CodeGen} (h : cg.declareTypes = .ok cg1) :
    Table.keys cg1.classes_ = Table.keys cg.classes_ := by
  unfold declareTypes at h
  rw [(declareTypesBodies_spec _ _ _ h).1, declareTypesCreate_keys]

theorem agreeOn_proj {V W X : Type} {g : V → W} (f : W → X) {t t1 : Table V}
    (h : Table.AgreeOn g t t1) : Table.AgreeOn (fun v => f (g v)) t t1 := by
  intro k
  have := congrArg (Option.map f) (h k)
  simpa [Option.map_map] using this

theorem computeClassLayouts_keys {cg cg1 : CodeGen} {p : Program} (h0 : cg.classes_ = [])
    (h : computeClassLayouts cg p = .ok cg1) :
    (Table.keys cg1.classes_).Nodup ∧
    ∀ k info, Table.find cg1.classes_ k = some info →
      info.methods = [] ∧ info.vtableGlobal = none := by
  have hloop := computeClassLayouts_ok h0 h
  obtain ⟨hkeys, _, hspec⟩ := layoutLoop_spec _ _ _ (recorded_sorted p).nodup hloop
  refine ⟨by rw [hkeys]; exact (recorded_sorted p).nodup, ?_⟩
  intro k info hf
  obtain ⟨c, hc, hck, hfc⟩ := entry_of_find h0 h hf
  obtain ⟨L, _, hf2, _, _⟩ := computeClassLayouts_spec h0 h c hc
  rw [hfc] at hf2
  cases hf2
  exact ⟨rfl, rfl⟩

/-- What a successful run of the five passes leaves. -/
theorem lower_spec {p : Program} {moduleName : List Char} {cg : CodeGen}
    (h : lower p moduleName = .ok cg) :
    ∃ cg1, computeClassLayouts { module_ := { identifier := moduleName } } p = .ok cg1 ∧
      Table.keys cg.classes_ = Table.keys cg1.classes_ ∧
      SameDecls cg1.classes_ cg.classes_ ∧
      (∀ k info, Table.find cg.classes_ k = some info →
        MethodsRecorded info ∧ HasVTable cg cg.module_ k info info) ∧
      (∀ k info, Table.find cg1.classes_ k = some info → ∀ m ∈ info.ast.methods,
        Lowered cg1.classes_ m.body m.returnType.name) ∧
      (∀ f ∈ p.functions, Lowered cg1.classes_ f.body f.returnType.name) := by
  obtain ⟨cg1, cg2, cg3, cg4, h1, h2, h3, h4, h5⟩ := lower_ok h
  obtain ⟨hnd, hinit⟩ := computeClassLayouts_keys rfl h1
  have k2 := declareTypes_keys h2
  obtain ⟨t1, _, _, _, _, _⟩ := declareTypes_spec h2
  unfold declareAndDefineMethods at h3
  obtain ⟨k3, m1, _, m3, _, _, m6⟩ := defineClasses_spec _ _ _ h3 (by rw [k2]; exact hnd)
    (fun _ hk => hk)
  unfold defineVTables at h4
  obtain ⟨k4, v1, _, _, _, _, v6⟩ := defineVTablesLoop_spec _ _ _ h4 (by rw [k3, k2]; exact hnd)
    (fun _ hk => hk)
  obtain ⟨f1, f2, _, f4⟩ := defineFunctions_spec h5
  have s12 : SameDecls cg1.classes_ cg2.classes_ := agreeOn_proj Prod.fst t1
  have s23 : SameDecls cg2.classes_ cg3.classes_ := agreeOn_proj Prod.fst m1
  have s34 : SameDecls cg3.classes_ cg4.classes_ := agreeOn_proj Prod.fst v1
  have s14 : SameDecls cg1.classes_ cg4.classes_ := (s12.trans_agree s23).trans_agree s34
  refine ⟨cg1, h1, by rw [f1, k4, k3, k2], by rw [f1]; exact s14, ?_, ?_, ?_⟩
  · intro k info hfind
    rw [f1] at hfind
    have hk4 : k ∈ Table.keys cg4.classes_ := (Table.find_isSome _ _).1 ⟨_, hfind⟩
    have hk3 : k ∈ Table.keys cg3.classes_ := by rw [← k4]; exact hk4
    have hk2 : k ∈ Table.keys cg2.classes_ := by rw [← k3]; exact hk3
    have hk1 : k ∈ Table.keys cg1.classes_ := by rw [← k2]; exact hk2
    obtain ⟨i1, hi1⟩ := (Table.find_isSome _ _).2 hk1
    obtain ⟨i2, hi2⟩ := (Table.find_isSome _ _).2 hk2
    obtain ⟨i3, hi3, hdom⟩ := m3 k hk2 i2 hi2
    obtain ⟨i4, hi4, hvt⟩ := v6 k hk3 i3 hi3
    rw [hfind] at hi4
    cases hi4
    have e12 := t1 k
    rw [hi1, hi2] at e12
    simp only [Option.map_some', Option.some.injEq, Prod.mk.injEq] at e12
    have e34 := v1 k
    rw [hi3, hfind] at e34
    simp only [Option.map_some', Option.some.injEq, Prod.mk.injEq] at e34
    have e23 := m1 k
    rw [hi2, hi3] at e23
    simp only [Option.map_some', Option.some.injEq, Prod.mk.injEq] at e23
    have hast23 : i2.ast = i3.ast := congrArg (fun x => x.1) e23.1
    have hast34 : i3.ast = info.ast := congrArg (fun x => x.1) e34.1
    have hlay34 : i3.layout = info.layout := congrArg (fun x => x.2.2.2) e34.1
    constructor
    · intro n
      rw [← e34.2.2.2, hdom n, ← e12.2.1, (hinit k i1 hi1).1, ← hast34, ← hast23]
      simp [Table.find]
    · obtain ⟨elems, vt, g, e1, e2, e3, e4, e5, e6, e7⟩ := hvt
      have himpl : SameImpls cg3 cg := by
        refine ⟨?_, ?_⟩
        · have := congrArg List.length (k4.trans rfl)
          rw [f1]
          simpa [Table.keys] using this
        · rw [f1]
          exact agreeOn_proj (fun x => (x.1.2.2.1, x.2.2.2)) v1
      refine ⟨elems, vt, g, ?_, ?_, e3, ?_, e5, e6, e7⟩
      · rw [← vtableElems_congr himpl, ← hlay34]
        exact e1
      · rw [← e34.2.2.1]
        exact e2
      · rw [f2]
        exact e4
  · intro k info hfind m hm
    have hk1 : k ∈ Table.keys cg1.classes_ := (Table.find_isSome _ _).1 ⟨_, hfind⟩
    have hk2 : k ∈ Table.keys cg2.classes_ := by rw [k2]; exact hk1
    obtain ⟨i2, hi2⟩ := (Table.find_isSome _ _).2 hk2
    have e12 := t1 k
    rw [hfind, hi2] at e12
    simp only [Option.map_some', Option.some.injEq, Prod.mk.injEq] at e12
    have hast : info.ast = i2.ast := congrArg (fun x => x.1) e12.1
    rw [hast] at hm
    exact (m6 k hk2 i2 hi2 m hm).of_same s12
  · intro f hf
    exact (f4 f hf).of_same s14

theorem implementationLoop_first {cg : CodeGen}
    (hall : ∀ k i, Table.find cg.classes_ k = some i → MethodsRecorded i) (cls n : List Char) :
    ∀ (fuel : Nat) (c : ClassInfo) (fn : List Char), MethodsRecorded c →
    implementationLoop cg cls n fuel c = .ok fn →
    ∃ K, firstDeclaring cg.classes_ fuel c n = some K ∧ Table.find K.methods n = some fn
  | 0, _, _, _, h => by cases h
  | fuel + 1, c, fn, hc, h => by
    unfold implementationLoop at h
    unfold firstDeclaring
    have hdom := hc n
    cases hf : Table.find c.methods n with
    | some f =>
      rw [hf] at h hdom
      simp only [Outcome.ok.injEq] at h
      subst h
      simp only [Option.isSome_some] at hdom
      rw [← hdom]
      exact ⟨c, rfl, hf⟩
    | none =>
      rw [hf] at hdom
      simp only [hf] at h
      simp only [Option.isSome_none] at hdom
      rw [← hdom]
      simp only [Bool.false_eq_true, if_false]
      unfold maybeBaseOf at h
      cases hb : c.base with
      | none => simp [hb] at h
      | some b =>
        simp only [hb] at h
        cases hbi : Table.find cg.classes_ b with
        | none => simp [hbi] at h
        | some bi =>
          simp only [hbi] at h ⊢
          exact implementationLoop_first hall cls n fuel bi fn (hall b bi hbi) h

theorem scopeType_step {cg cg1 : CodeGen} {s : Stmt} {scope scope1 : Table ScopeVar}
    {ret : List Char} (h : codegenStmt cg s scope ret = .ok (scope1, cg1))
    (hs : Table.Sorted scope) (pre : List Stmt) :
    scopeType scope1 pre = scopeType scope (s :: pre) ∧ Table.Sorted scope1 := by
  obtain ⟨_, _, _, hsc⟩ := codegenStmt_ok h
  cases s with
  | ReturnStmt value loc =>
    simp only at hsc
    subst hsc
    exact ⟨rfl, hs⟩
  | PrintStmt value loc =>
    simp only at hsc
    subst hsc
    exact ⟨rfl, hs⟩
  | VarDeclStmt name type init loc =>
    simp only at hsc
    subst hsc
    refine ⟨?_, Table.emplace_sorted _ _ _ hs⟩
    funext x
    unfold scopeType
    rw [Table.find_emplace _ _ _ _ hs]
    cases hf : Table.find scope x with
    | some w => rfl
    | none =>
      simp only [declaredType]
      by_cases hx : name = x
      · subst hx
        simp
      · have hx2 : ¬ x = name := fun e => hx e.symm
        simp [hx, hx2]

theorem Unresolved.unresolved_of_same {t t1 : Table ClassInfo} {tyOf : List Char → Option (List Char)}
    {e : Option Expr} (h : Unresolved t tyOf e) (hs : SameDecls t t1) : Unresolved t1 tyOf e := by
  have hnone : ∀ k, Table.find t k = none → Table.find t1 k = none := by
    intro k hk
    have := hs k
    rw [hk] at this
    cases h1 : Table.find t1 k with
    | none => rfl
    | some v => rw [h1] at this; cases this
  cases e with
  | none => exact h
  | some ex =>
    cases ex with
    | StringExpr value loc => exact h
    | IntExpr value loc => exact h
    | VarExpr name loc => exact h
    | NewExpr c loc => exact hnone c h
    | MethodCallExpr recv m loc =>
      cases recv with
      | VarExpr x l =>
        simp only [Unresolved] at h ⊢
        cases hty : tyOf x with
        | none => trivial
        | some T =>
          simp only [hty] at h ⊢
          cases h1 : Table.find t1 T with
          | none => trivial
          | some ti1 =>
            simp only
            obtain ⟨ti, h2, h3⟩ := (Table.AgreeOn.symm_agree hs).find_some h1
            simp only [h2] at h
            have e4 : ti.layout = ti1.layout := congrArg (fun d => d.2.2.2) h3
            rw [← e4]
            exact h
      | StringExpr value l => exact h
      | IntExpr value l => exact h
      | NewExpr c l => exact h
      | MethodCallExpr r2 m2 l => exact h

/-- An expression with a reference that does not resolve is not lowered. -/
theorem codegenExpr_unresolved {cg : CodeGen} {e : Option Expr} {scope : Table ScopeVar}
    (h : Unresolved cg.classes_ (scopeType scope []) e) (t : List Char) (r : Value × CodeGen) :
    codegenExpr cg e scope t ≠ .ok r := by
  intro hok
  cases e with
  | none => exact h
  | some ex =>
    cases ex with
    | StringExpr value loc => exact h
    | IntExpr value loc => exact h
    | VarExpr name loc =>
      simp only [Unresolved, scopeType] at h
      cases hf : Table.find scope name with
      | none => simp [codegenExpr, hf] at hok
      | some sv => simp [hf] at h
    | NewExpr c loc =>
      simp only [Unresolved] at h
      simp [codegenExpr, requireClass, h] at hok
    | MethodCallExpr recv m loc =>
      cases recv with
      | VarExpr x l =>
        simp only [Unresolved, scopeType] at h
        cases hf : Table.find scope x with
        | none => simp [codegenExpr, hf] at hok
        | some sv =>
          simp only [codegenExpr, hf] at hok
          obtain ⟨ci, classTy, vtableTy, slot, h1, _, _, h4, _⟩ := codegenVirtualCall_ok hok
          rw [emit_classes] at h1
          simp only [hf, h1, h4] at h
          cases h
      | StringExpr value l => exact h
      | IntExpr value l => exact h
      | NewExpr c l => exact h
      | MethodCallExpr r2 m2 l => exact h

theorem codegenStmt_unresolved {cg : CodeGen} {s : Stmt} {scope : Table ScopeVar}
    (h : Unresolved cg.classes_ (scopeType scope []) s.operand) (ret : List Char)
    (r : Table ScopeVar × CodeGen) : codegenStmt cg s scope ret ≠ .ok r := by
  intro hok
  cases s with
  | ReturnStmt value loc =>
    simp only [codegenStmt] at hok
    split at hok
    · rename_i v cg2 he
      exact codegenExpr_unresolved h _ _ he
    all_goals cases hok
  | PrintStmt value loc =>
    simp only [codegenStmt] at hok
    split at hok
    · rename_i v cg2 he
      exact codegenExpr_unresolved h _ _ he
    all_goals cases hok
  | VarDeclStmt name type init loc =>
    simp only [codegenStmt] at hok
    split at hok
    · rename_i v cg2 he
      have hu : Unresolved (cg.emit (.alloca (.ptr tyI8Ptr) (name ++ ".addr".toList))).2.classes_
          (scopeType scope []) init := h
      exact codegenExpr_unresolved hu _ _ he
    all_goals cases hok

/-- A body is not lowered when a statement that no `return` statement precedes
holds a reference that does not resolve. -/
theorem codegenBody_unresolved (s : Stmt) (post : List Stmt) (ret : List Char) :
    ∀ (pre : List Stmt) (cg : CodeGen) (scope : Table ScopeVar), Table.Sorted scope →
      (∀ s0 ∈ pre, s0.isReturn = false) →
      Unresolved cg.classes_ (scopeType scope pre) s.operand →
      ∀ cg1, codegenBody (pre ++ s :: post) cg scope ret ≠ .ok cg1
  | [], cg, scope, _, _, hun, cg1 => by
    intro hok
    obtain ⟨scope1, cg2, hs, _⟩ := codegenBody_cons_ok hok
    exact codegenStmt_unresolved hun _ _ hs
  | s0 :: pre, cg, scope, hsorted, hpre, hun, cg1 => by
    intro hok
    have hok2 : codegenBody (s0 :: (pre ++ s :: post)) cg scope ret = .ok cg1 := hok
    obtain ⟨scope1, cg2, hs, hcase⟩ := codegenBody_cons_ok hok2
    have hr0 : s0.isReturn = false := hpre s0 (List.mem_cons_self _ _)
    rcases hcase with ⟨hr, _⟩ | ⟨_, hrest⟩
    · rw [hr0] at hr
      cases hr
    · obtain ⟨hty, hsorted1⟩ := scopeType_step hs hsorted pre
      obtain ⟨hk, _⟩ := codegenStmt_ok hs
      have hun1 : Unresolved cg2.classes_ (scopeType scope1 pre) s.operand := by
        rw [hty, hk.1]
        exact hun
      exact codegenBody_unresolved s post ret pre cg2 scope1 hsorted1
        (fun s1 h1 => hpre s1 (List.mem_cons_of_mem _ h1)) hun1 cg1 hrest

theorem generate_unresolved {p : Program} {moduleName : List Char} {cg1 : CodeGen}
    {body pre post : List Stmt} {s : Stmt}
    (hL : computeClassLayouts { module_ := { identifier := moduleName } } p = .ok cg1)
    (hbody : IsBody p cg1.classes_ body) (hsplit : body = pre ++ s :: post)
    (hpre : ∀ s0 ∈ pre, s0.isReturn = false)
    (hun : Unresolved cg1.classes_ (declaredType pre) s.operand)
    (verifyModule : Module → Option String) (cg : CodeGen) :
    generate verifyModule p moduleName ≠ .ok cg := by
  intro hgen
  obtain ⟨cg1b, hL2, _, _, _, hm, hf⟩ := lower_spec (generate_ok hgen)
  rw [hL] at hL2
  cases hL2
  have hlow : ∃ r, Lowered cg1.classes_ body r := by
    rcases hbody with ⟨f, hfm, hfb⟩ | ⟨k, info, hk, md, hmd, hmb⟩
    · exact ⟨_, hfb ▸ hf f hfm⟩
    · exact ⟨_, hmb ▸ hm k info hk md hmd⟩
  obtain ⟨r, cgb, fn, cgb1, hsame, hdef⟩ := hlow
  obtain ⟨cg2, _, _, hb, _⟩ := defineBody_ok hdef
  rw [hsplit] at hb
  refine codegenBody_unresolved s post r pre _ [] List.Pairwise.nil hpre ?_ cg2 hb
  exact Unresolved.unresolved_of_same hun hsame

/-- A call of a method without slot in the class of the receiver, lowered in a
state in which the class has its two struct types, throws the error of `slotOf`. -/
theorem codegenStmt_no_slot {cg : CodeGen} {s : Stmt} {scope : Table ScopeVar} {v m : List Char}
    {l1 l2 : SourceRange} {sv : ScopeVar} {ci : ClassInfo} {classTy vtableTy : Ty}
    (hop : s.operand = some (.MethodCallExpr (.VarExpr v l1) m l2))
    (hv : Table.find scope v = some sv) (hc : Table.find cg.classes_ sv.typeName = some ci)
    (h1 : ci.classTy = some classTy) (h2 : ci.vtableTy = some vtableTy)
    (h3 : Table.find ci.layout.slotOf m = none) (ret : List Char) :
    codegenStmt cg s scope ret = .thrown (errorOf ["No virtual method '".toList, m,
      "' in class '".toList, sv.typeName, "'".toList]) := by
  have he : ∀ (cg0 : CodeGen) (t : List Char), cg0.classes_ = cg.classes_ →
      codegenExpr cg0 (some (.MethodCallExpr (.VarExpr v l1) m l2)) scope t =
        .thrown (errorOf ["No virtual method '".toList, m, "' in class '".toList, sv.typeName,
          "'".toList]) := by
    intro cg0 t h0
    simp only [codegenExpr, hv, codegenVirtualCall, requireClass, emit_classes, h0, hc, h1, h2,
      slotOf, h3]
  cases s with
  | ReturnStmt value loc =>
    simp only [Stmt.operand] at hop
    subst hop
    simp only [codegenStmt, he cg ret rfl]
  | PrintStmt value loc =>
    simp only [Stmt.operand] at hop
    subst hop
    simp only [codegenStmt, he cg _ rfl]
  | VarDeclStmt name type init loc =>
    simp only [Stmt.operand] at hop
    subst hop
    simp only [codegenStmt, he _ _ (emit_classes cg _)]

theorem generate_of_lower_ok {p : Program} {cg : CodeGen} (verifyModule : Module → Option String)
    (moduleName : List Char) (h : lower p moduleName = .ok cg)
    (hv : verifyModule cg.module_ = none) : generate verifyModule p moduleName = .ok cg := by
  unfold generate
  rw [h]
  simp only [hv]

end CodeGen

end

/-! ## Lemmas about value shapes and token segments of the parser -/

namespace Parser

theorem Yields.y_bind {α β : Type} {m : PM α} {f : α → PM β} {T1 : α → Prop} {T2 : β → Prop}
    (hm : Yields m T1) (hf : ∀ a, T1 a → Yields (f a) T2) : Yields (m >>= f) T2 := by
  intro P b P2 h
  obtain ⟨a, P1, h1, h2⟩ := bind_ok h
  exact hf a (hm P a P1 h1) P1 b P2 h2

theorem Yields.y_any {α : Type} (m : PM α) : Yields m (fun _ => True) := fun _ _ _ _ => trivial

theorem Yields.y_pure {α : Type} {T : α → Prop} (a : α) (h : T a) :
    Yields (Pure.pure a : PM α) T := by
  intro P b P2 hb
  cases hb
  exact h

theorem Yields.y_ite {α : Type} {c : Prop} [Decidable c] {a b : PM α} {T : α → Prop}
    (ha : Yields a T) (hb : Yields b T) : Yields (if c then a else b) T := by
  split_ifs <;> assumption

theorem Yields.y_raise {α : Type} {T : α → Prop} (e : Exn) : Yields (raise e : PM α) T := by
  intro P a P2 h
  cases h

theorem parseNewExpr_yields : Yields parseNewExpr (fun e => ∃ c l, e = .NewExpr c l) := by
  unfold parseNewExpr
  refine Yields.y_bind (Yields.y_any _) fun _ _ => ?_
  refine Yields.y_bind (Yields.y_any _) fun _ _ => ?_
  refine Yields.y_bind (Yields.y_any _) fun _ _ => ?_
  refine Yields.y_bind (Yields.y_any _) fun _ _ => ?_
  exact Yields.y_pure _ ⟨_, _, rfl⟩

theorem parseMethodCallOrVar_yields :
    Yields parseMethodCallOrVar (fun e => e.wellShaped = true) := by
  unfold parseMethodCallOrVar
  refine Yields.y_bind (Yields.y_any _) fun _ _ => ?_
  refine Yields.y_bind (Yields.y_any _) fun _ _ => ?_
  refine Yields.y_ite ?_ (Yields.y_pure _ rfl)
  refine Yields.y_bind (Yields.y_any _) fun _ _ => ?_
  refine Yields.y_bind (Yields.y_any _) fun _ _ => ?_
  refine Yields.y_bind (Yields.y_any _) fun _ _ => ?_
  exact Yields.y_pure _ rfl

theorem parseString_yields : Yields parseString (fun e => e.wellShaped = true) := by
  intro P a P2 h
  cases h
  rfl

theorem parseNumber_yields : Yields parseNumber (fun e => e.wellShaped = true) := by
  intro P a P2 h
  unfold parseNumber at h
  split at h
  · cases h
    rfl
  · cases h

theorem parsePrimary_yields : Yields parsePrimary (fun e => e.wellShaped = true) := by
  unfold parsePrimary
  refine Yields.y_bind (Yields.y_any _) fun _ _ => ?_
  refine Yields.y_ite parseString_yields ?_
  refine Yields.y_bind (Yields.y_any _) fun _ _ => ?_
  refine Yields.y_ite parseNumber_yields ?_
  refine Yields.y_bind (Yields.y_any _) fun _ _ => ?_
  refine Yields.y_ite ?_ ?_
  · intro P a P2 h
    obtain ⟨c, l, rfl⟩ := parseNewExpr_yields P a P2 h
    rfl
  refine Yields.y_bind (Yields.y_any _) fun _ _ => ?_
  exact Yields.y_ite parseMethodCallOrVar_yields (Yields.y_raise _)

theorem parseVarDecl_yields : Yields parseVarDecl (fun s => s.wellShaped = true) := by
  unfold parseVarDecl
  refine Yields.y_bind (Yields.y_any _) fun _ _ => ?_
  refine Yields.y_bind (Yields.y_any _) fun _ _ => ?_
  refine Yields.y_bind (Yields.y_any _) fun _ _ => ?_
  refine Yields.y_bind (Yields.y_any _) fun _ _ => ?_
  refine Yields.y_bind (Yields.y_any _) fun _ _ => ?_
  refine Yields.y_bind parseNewExpr_yields fun init hinit => ?_
  refine Yields.y_bind (Yields.y_any _) fun _ _ => ?_
  obtain ⟨c, l, rfl⟩ := hinit
  exact Yields.y_pure _ rfl

theorem parsePrint_yields : Yields parsePrint (fun s => s.wellShaped = true) := by
  unfold parsePrint parseExpr
  refine Yields.y_bind (Yields.y_any _) fun _ _ => ?_
  refine Yields.y_bind (Yields.y_any _) fun _ _ => ?_
  refine Yields.y_bind parsePrimary_yields fun e he => ?_
  refine Yields.y_bind (Yields.y_any _) fun _ _ => ?_
  refine Yields.y_bind (Yields.y_any _) fun _ _ => ?_
  exact Yields.y_pure _ he

theorem parseReturn_yields : Yields parseReturn (fun s => s.wellShaped = true) := by
  unfold parseReturn parseExpr
  refine Yields.y_bind (Yields.y_any _) fun _ _ => ?_
  refine Yields.y_bind parsePrimary_yields fun e he => ?_
  refine Yields.y_bind (Yields.y_any _) fun _ _ => ?_
  exact Yields.y_pure _ he

theorem parseStmt_yields : Yields parseStmt (fun s => s.wellShaped = true) := by
  unfold parseStmt
  refine Yields.y_bind (Yields.y_any _) fun _ _ => ?_
  refine Yields.y_ite parseVarDecl_yields ?_
  refine Yields.y_bind (Yields.y_any _) fun _ _ => ?_
  refine Yields.y_ite parsePrint_yields ?_
  refine Yields.y_bind (Yields.y_any _) fun _ _ => ?_
  exact Yields.y_ite parseReturn_yields (Yields.y_raise _)

theorem parseBody_yields (fuel : Nat) (body : List Stmt)
    (hb : body.all Stmt.wellShaped = true) :
    Yields (parseBody fuel body) (fun b => b.all Stmt.wellShaped = true) := by
  induction fuel generalizing body with
  | zero => intro P a P2 h; cases h
  | succ n ih =>
    unfold parseBody
    refine Yields.y_bind (Yields.y_any _) fun _ _ => ?_
    refine Yields.y_ite (Yields.y_pure _ hb) ?_
    refine Yields.y_bind parseStmt_yields fun s hs => ?_
    exact ih _ (by simp [List.all_append, hb, hs])

theorem parseMethod_yields : Yields parseMethod (fun m => m.body.all Stmt.wellShaped = true) := by
  unfold parseMethod
  refine Yields.y_bind (Yields.y_any _) fun _ _ => ?_
  refine Yields.y_bind (Yields.y_any _) fun _ _ => ?_
  refine Yields.y_bind (Yields.y_any _) fun _ _ => ?_
  refine Yields.y_bind (Yields.y_any _) fun _ _ => ?_
  refine Yields.y_bind (Yields.y_any _) fun _ _ => ?_
  refine Yields.y_bind (Yields.y_any _) fun _ _ => ?_
  refine Yields.y_bind (Yields.y_any _) fun _ _ => ?_
  refine Yields.y_bind (Yields.y_any _) fun _ _ => ?_
  refine Yields.y_bind (Yields.y_any _) fun _ _ => ?_
  refine Yields.y_bind (parseBody_yields _ [] rfl) fun b hb => ?_
  refine Yields.y_bind (Yields.y_any _) fun _ _ => ?_
  exact Yields.y_pure _ hb

theorem parseFunctionDecl_yields :
    Yields parseFunctionDecl (fun f => f.body.all Stmt.wellShaped = true) := by
  unfold parseFunctionDecl
  refine Yields.y_bind (Yields.y_any _) fun _ _ => ?_
  refine Yields.y_bind (Yields.y_any _) fun _ _ => ?_
  refine Yields.y_bind (Yields.y_any _) fun _ _ => ?_
  refine Yields.y_bind (Yields.y_any _) fun _ _ => ?_
  refine Yields.y_bind (Yields.y_any _) fun _ _ => ?_
  refine Yields.y_bind (Yields.y_any _) fun _ _ => ?_
  refine Yields.y_bind (Yields.y_any _) fun _ _ => ?_
  refine Yields.y_bind (Yields.y_any _) fun _ _ => ?_
  refine Yields.y_bind (parseBody_yields _ [] rfl) fun b hb => ?_
  refine Yields.y_bind (Yields.y_any _) fun _ _ => ?_
  exact Yields.y_pure _ hb

theorem parseMethods_yields (fuel : Nat) (ms : List MethodDecl)
    (hm : ms.all (fun m => m.body.all Stmt.wellShaped) = true) :
    Yields (parseMethods fuel ms)
      (fun r => r.all (fun m => m.body.all Stmt.wellShaped) = true) := by
  induction fuel generalizing ms with
  | zero => intro P a P2 h; cases h
  | succ n ih =>
    unfold parseMethods
    refine Yields.y_bind (Yields.y_any _) fun _ _ => ?_
    refine Yields.y_ite (Yields.y_pure _ hm) ?_
    refine Yields.y_bind parseMethod_yields fun m h1 => ?_
    exact ih _ (by simp only [List.all_append, hm, List.all_cons, h1, List.all_nil, Bool.and_self])

theorem parseClassDecl_yields : Yields parseClassDecl
    (fun c => c.methods.all (fun m => m.body.all Stmt.wellShaped) = true) := by
  unfold parseClassDecl
  refine Yields.y_bind (Yields.y_any _) fun _ _ => ?_
  refine Yields.y_bind (Yields.y_any _) fun _ _ => ?_
  refine Yields.y_bind (Yields.y_any _) fun _ _ => ?_
  refine Yields.y_bind (Yields.y_any _) fun _ _ => ?_
  refine Yields.y_bind (Yields.y_any _) fun _ _ => ?_
  refine Yields.y_bind (parseMethods_yields _ [] rfl) fun ms hms => ?_
  refine Yields.y_bind (Yields.y_any _) fun _ _ => ?_
  exact Yields.y_pure _ hms

theorem parseDecls_yields (fuel : Nat) (p : Program) (hp : p.wellShaped = true) :
    Yields (parseDecls fuel p) (fun r => r.wellShaped = true) := by
  induction fuel generalizing p with
  | zero => intro P a P2 h; cases h
  | succ n ih =>
    unfold parseDecls
    unfold Program.wellShaped at hp
    rw [Bool.and_eq_true] at hp
    refine Yields.y_bind (Yields.y_any _) fun _ _ => ?_
    refine Yields.y_ite (Yields.y_pure _ (by unfold Program.wellShaped; simp [hp.1, hp.2])) ?_
    refine Yields.y_bind (Yields.y_any _) fun _ _ => ?_
    refine Yields.y_ite ?_ ?_
    · refine Yields.y_bind parseClassDecl_yields fun c hc => ?_
      refine ih _ ?_
      unfold Program.wellShaped
      simp only [List.all_append, hp.1, List.all_cons, hc, List.all_nil, Bool.and_self, hp.2]
    refine Yields.y_bind (Yields.y_any _) fun _ _ => ?_
    refine Yields.y_ite ?_ (Yields.y_raise _)
    refine Yields.y_bind parseFunctionDecl_yields fun f hf => ?_
    refine ih _ ?_
    unfold Program.wellShaped
    simp only [List.all_append, hp.1, List.all_cons, hf, List.all_nil, Bool.and_self, hp.2]

end Parser

theorem parseProgram_wellShaped (tokens : List Token) (p : Program) (P : Parser)
    (h : parseProgram tokens = .ok p P) : p.wellShaped = true :=
  Parser.parseDecls_yields _ {} rfl _ p P h

theorem NoVar.nv_nil : NoVar [] := fun _ h => by cases h

theorem NoVar.nv_append {a b : List Token} (ha : NoVar a) (hb : NoVar b) : NoVar (a ++ b) := by
  intro t ht
  rcases List.mem_append.mp ht with h | h
  · exact ha t h
  · exact hb t h

theorem NoVar.nv_single {t : Token} (h : t.kind ≠ .KwVar) : NoVar [t] := by
  intro x hx
  rw [List.mem_singleton.mp hx]
  exact h

theorem NoVar.nv_cons {t : Token} {l : List Token} (h : t.kind ≠ .KwVar) (hl : NoVar l) :
    NoVar (t :: l) := by
  intro x hx
  rcases List.mem_cons.mp hx with rfl | h1
  · exact h
  · exact hl x h1

namespace Parser

theorem EatsNV.nv_bind {α β : Type} {m : PM α} {f : α → PM β} (hm : EatsNV m)
    (hf : ∀ a, EatsNV (f a)) : EatsNV (m >>= f) := by
  refine (Eats.bind hm hf).mono ?_
  rintro P b seg ⟨a, s1, s2, rfl, h1, h2⟩
  exact h1.nv_append h2

theorem EatsNV.nv_pure {α : Type} (a : α) : EatsNV (Pure.pure a : PM α) :=
  (Eats.pure a).mono fun _ _ _ h => by rw [h.2]; exact NoVar.nv_nil

theorem EatsNV.nv_is (k : TokenKind) : EatsNV (is k) :=
  (Eats.is k).mono fun _ _ _ h => by rw [h.1]; exact NoVar.nv_nil

theorem EatsNV.nv_budget : EatsNV budget :=
  Eats.eats_budget.mono fun _ _ _ h => by rw [h]; exact NoVar.nv_nil

theorem EatsNV.nv_expect (k : TokenKind) (what : String) (h0 : k ≠ .Eof) (h1 : k ≠ .KwVar) :
    EatsNV (expect k what) :=
  (Eats.expect k what h0).mono fun _ t _ h => by
    rw [h.1]; exact NoVar.nv_single (h.2 ▸ h1)

theorem EatsNV.nv_consumeIf (k : TokenKind) (h0 : k ≠ .Eof) (h1 : k ≠ .KwVar) :
    EatsNV (consumeIf k) :=
  (Eats.consumeIf k h0).mono fun _ _ _ h => by
    rcases h with ⟨_, t, rfl, hk⟩ | ⟨_, rfl⟩
    · exact NoVar.nv_single (hk ▸ h1)
    · exact NoVar.nv_nil

theorem EatsNV.nv_expectIdent (what : String) : EatsNV (expectIdent what) :=
  (Eats.expectIdent what).mono fun _ _ _ h => by
    obtain ⟨t, rfl, hk, _⟩ := h
    exact NoVar.nv_single (by simp [hk])

theorem EatsNV.nv_ite {α : Type} {c : Prop} [Decidable c] {a b : PM α} (ha : EatsNV a)
    (hb : EatsNV b) : EatsNV (if c then a else b) := by
  split_ifs <;> assumption

theorem parseType_nv : EatsNV parseType := by
  unfold parseType
  exact (EatsNV.nv_expectIdent _).nv_bind fun _ => EatsNV.nv_pure _

theorem parseNewExpr_nv : EatsNV parseNewExpr := by
  unfold parseNewExpr
  repeat' first
    | exact EatsNV.nv_pure _
    | exact EatsNV.nv_expectIdent _
    | exact EatsNV.nv_expect _ _ (by decide) (by decide)
    | refine EatsNV.nv_bind ?_ (fun _ => ?_)

theorem parseMethodCallOrVar_nv : EatsNV parseMethodCallOrVar := by
  unfold parseMethodCallOrVar
  repeat' first
    | exact EatsNV.nv_pure _
    | exact EatsNV.nv_expectIdent _
    | exact EatsNV.nv_expect _ _ (by decide) (by decide)
    | exact EatsNV.nv_consumeIf _ (by decide) (by decide)
    | refine EatsNV.nv_ite ?_ ?_
    | refine EatsNV.nv_bind ?_ (fun _ => ?_)

theorem parseCurrent_nv {P P2 : Parser} {k : TokenKind} (hL : Live P) (hp : P.peek.kind = k)
    (h0 : k ≠ .Eof) (h1 : k ≠ .KwVar) (hP : P2 = P.bump) :
    ∃ seg r, P.rest = seg ++ r ∧ P2 = P.eat seg ∧ Live P2 ∧ (∀ t ∈ seg, t.kind ≠ .Eof) ∧
      NoVar seg := by
  obtain ⟨r, e1, e2, hL2⟩ := hL.step h0 hp
  subst hP
  exact ⟨[P.peek], r, e1, e2, hL2, noEof_single (hp ▸ h0), NoVar.nv_single (hp ▸ h1)⟩

theorem parsePrimary_nv : EatsNV parsePrimary := by
  intro P a P2 hL h
  unfold parsePrimary at h
  rw [is_bind] at h
  by_cases hs : P.peek.kind = .String
  · simp only [hs, decide_True, if_true, parseString] at h
    cases h
    exact parseCurrent_nv hL hs (by decide) (by decide) rfl
  · simp only [hs, decide_False, Bool.false_eq_true, if_false] at h
    rw [is_bind] at h
    by_cases hn : P.peek.kind = .Number
    · simp only [hn, decide_True, if_true, parseNumber] at h
      split at h
      · cases h
        exact parseCurrent_nv hL hn (by decide) (by decide) rfl
      · cases h
    · simp only [hn, decide_False, Bool.false_eq_true, if_false] at h
      rw [is_bind] at h
      by_cases hw : P.peek.kind = .KwNew
      · simp only [hw, decide_True, if_true] at h
        exact parseNewExpr_nv P a P2 hL h
      · simp only [hw, decide_False, Bool.false_eq_true, if_false] at h
        rw [is_bind] at h
        by_cases hi : P.peek.kind = .Identifier
        · simp only [hi, decide_True, if_true] at h
          exact parseMethodCallOrVar_nv P a P2 hL h
        · simp only [hi, decide_False, Bool.false_eq_true, if_false, raise] at h
          cases h

theorem parseExpr_nv : EatsNV parseExpr := parsePrimary_nv

theorem Eats.after_is {β : Type} (k : TokenKind) {f : Bool → PM β}
    {S : Parser → β → List Token → Prop} (hf : ∀ b, Eats (f b) S) : Eats (Parser.is k >>= f) S := by
  refine (Eats.bind (Eats.is k) hf).mono ?_
  rintro P b seg ⟨a, s1, s2, rfl, ⟨rfl, _⟩, h⟩
  rw [eat_nil] at h
  simpa using h

theorem Eats.after_budget {β : Type} {f : Nat → PM β}
    {S : Parser → β → List Token → Prop} (hf : ∀ n, Eats (f n) S) : Eats (budget >>= f) S := by
  refine (Eats.bind Eats.eats_budget hf).mono ?_
  rintro P b seg ⟨a, s1, s2, rfl, rfl, h⟩
  rw [eat_nil] at h
  simpa using h

theorem Eats.e_ite {α : Type} {c : Prop} [Decidable c] {a b : PM α}
    {S : Parser → α → List Token → Prop} (ha : Eats a S) (hb : Eats b S) :
    Eats (if c then a else b) S := by
  split_ifs <;> assumption

theorem Eats.e_raise {α : Type} {S : Parser → α → List Token → Prop} (e : Exn) :
    Eats (raise e : PM α) S := by
  intro P a P2 _ h
  cases h

theorem Eats.with_peek {α : Type} {m : PM α} {S : Parser → α → List Token → Prop}
    (hm : Eats m S) :
    Eats m (fun P a seg => S P a seg ∧ ∀ t l, seg = t :: l → P.peek = t) := by
  intro P a P2 hL h
  obtain ⟨seg, r, e1, e2, hL2, hn, hS⟩ := hm P a P2 hL h
  refine ⟨seg, r, e1, e2, hL2, hn, hS, ?_⟩
  intro t l hseg
  rw [hseg] at e1
  exact peek_of_rest P t (l ++ r) (by simpa using e1)

theorem parseType_kinds :
    Eats parseType (fun _ _ seg => ∃ t, seg = [t] ∧ t.kind = .Identifier) := by
  unfold parseType
  refine (Eats.bind (Eats.expectIdent _) fun n => Eats.pure _).mono ?_
  rintro P ty seg ⟨n, s1, s2, rfl, ⟨t, rfl, hk, _⟩, _, rfl⟩
  exact ⟨t, by simp, hk⟩

theorem parseNewExpr_kinds : Eats parseNewExpr (fun _ _ seg =>
    seg.map (fun x => x.kind) = [.KwNew, .Identifier, .LParen, .RParen]) := by
  unfold parseNewExpr
  refine (Eats.bind (Eats.expect .KwNew _ (by decide)) fun tNew =>
    Eats.bind (Eats.expectIdent _) fun cls =>
    Eats.bind (Eats.expect .LParen _ (by decide)) fun _ =>
    Eats.bind (Eats.expect .RParen _ (by decide)) fun tRP => Eats.pure _).mono ?_
  rintro P e seg ⟨t1, s1, s2, rfl, ⟨rfl, h1⟩, c, s3, s4, rfl, ⟨t2, rfl, h2, _⟩, t3, s5, s6, rfl,
    ⟨rfl, h3⟩, t4, s7, s8, rfl, ⟨rfl, h4⟩, _, rfl⟩
  simp [h1, h2, h3, h4]

theorem parseVarDecl_seg : Eats parseVarDecl (fun _ s seg => StmtSeg s seg) := by
  unfold parseVarDecl
  refine (Eats.bind (Eats.expect .KwVar _ (by decide)) fun tVar =>
    Eats.bind (Eats.expectIdent _) fun name =>
    Eats.bind (Eats.expect .Colon _ (by decide)) fun _ =>
    Eats.bind parseType_kinds fun type =>
    Eats.bind (Eats.expect .Assign _ (by decide)) fun _ =>
    Eats.bind parseNewExpr_kinds fun init =>
    Eats.bind (Eats.expect .Semicolon _ (by decide)) fun tSemi => Eats.pure _).mono ?_
  rintro P s seg ⟨tVar, s1, s2, rfl, ⟨rfl, h1⟩, name, _, _, rfl, ⟨t2, rfl, h2, _⟩, t3, _, _, rfl,
    ⟨rfl, h3⟩, ty, _, _, rfl, ⟨t4, rfl, h4⟩, t5, _, _, rfl, ⟨rfl, h5⟩, init, sn, _, rfl, hn,
    tSemi, _, _, rfl, ⟨rfl, h7⟩, rfl, rfl⟩
  refine ⟨tVar, [t2, t3, t4, t5] ++ sn, tSemi, by simp, h1, h7, rfl, fun _ => ?_,
    fun hne => absurd h1 hne⟩
  simp [h2, h3, h4, h5, hn, h7, varTail]

theorem parsePrint_seg : Eats parsePrint (fun _ s seg => StmtSeg s seg) := by
  unfold parsePrint
  refine (Eats.bind (Eats.expect .KwPrint _ (by decide)) fun tPrint =>
    Eats.bind (Eats.expect .LParen _ (by decide)) fun _ =>
    Eats.bind parseExpr_nv fun value =>
    Eats.bind (Eats.expect .RParen _ (by decide)) fun _ =>
    Eats.bind (Eats.expect .Semicolon _ (by decide)) fun tSemi => Eats.pure _).mono ?_
  rintro P s seg ⟨tPrint, s1, s2, rfl, ⟨rfl, h1⟩, t2, _, _, rfl, ⟨rfl, h2⟩, value, sv, _, rfl, hv,
    t3, _, _, rfl, ⟨rfl, h3⟩, tSemi, _, _, rfl, ⟨rfl, h4⟩, rfl, rfl⟩
  refine ⟨tPrint, [t2] ++ sv ++ [t3], tSemi, by simp, h1, h4, rfl,
    (fun hk => by rw [h1] at hk; cases hk), fun _ => ?_⟩
  exact ((NoVar.nv_single (by rw [h2]; decide)).nv_append hv).nv_append
    (NoVar.nv_single (by rw [h3]; decide))

theorem parseReturn_seg : Eats parseReturn (fun _ s seg => StmtSeg s seg) := by
  unfold parseReturn
  refine (Eats.bind (Eats.expect .KwReturn _ (by decide)) fun tRet =>
    Eats.bind parseExpr_nv fun value =>
    Eats.bind (Eats.expect .Semicolon _ (by decide)) fun tSemi => Eats.pure _).mono ?_
  rintro P s seg ⟨tRet, s1, s2, rfl, ⟨rfl, h1⟩, value, sv, _, rfl, hv,
    tSemi, _, _, rfl, ⟨rfl, h4⟩, rfl, rfl⟩
  exact ⟨tRet, sv, tSemi, by simp, h1, h4, rfl, (fun hk => by rw [h1] at hk; cases hk), fun _ => hv⟩

theorem parseStmt_seg : Eats parseStmt (fun _ s seg => StmtSeg s seg) := by
  unfold parseStmt
  refine Eats.after_is _ fun _ => Eats.e_ite parseVarDecl_seg ?_
  refine Eats.after_is _ fun _ => Eats.e_ite parsePrint_seg ?_
  exact Eats.after_is _ fun _ => Eats.e_ite parseReturn_seg (Eats.e_raise _)

theorem parseBody_seg (fuel : Nat) (body : List Stmt) :
    Eats (parseBody fuel body) (fun _ b seg => ∃ new, b = body ++ new ∧ BodySeg new seg) := by
  induction fuel generalizing body with
  | zero => intro P a P2 _ h; cases h
  | succ n ih =>
    unfold parseBody
    refine Eats.after_is _ fun _ => Eats.e_ite ?_ ?_
    · refine (Eats.pure body).mono ?_
      rintro P b seg ⟨rfl, rfl⟩
      exact ⟨[], by simp, [], rfl, List.Forall₂.nil⟩
    · refine (Eats.bind parseStmt_seg fun s => ih (body ++ [s])).mono ?_
      rintro P b seg ⟨s, s1, s2, rfl, hs, new, rfl, segs, rfl, hall⟩
      exact ⟨s :: new, by simp, s1 :: segs, by simp, List.Forall₂.cons hs hall⟩

end Parser

theorem VarOk.of_noVar {seg : List Token} (h : NoVar seg) : VarOk seg := by
  intro a t b e hk
  exact absurd hk (h t (by rw [e]; simp))

theorem VarOk.vo_append {s1 s2 : List Token} (h1 : VarOk s1) (h2 : VarOk s2) :
    VarOk (s1 ++ s2) := by
  intro a t b e hk
  rcases List.append_eq_append_iff.1 e with ⟨a', ha, hb⟩ | ⟨c, hs1, hc⟩
  · exact h2 a' t b hb hk
  · cases c with
    | nil =>
      simp only [List.nil_append] at hc
      exact h2 [] t b (by simpa using hc.symm) hk
    | cons x c' =>
      simp only [List.cons_append, List.cons.injEq] at hc
      obtain ⟨hx, hb⟩ := hc
      rw [← hx] at hs1
      rw [hb]
      have h := h1 a t c' hs1 hk
      have hlen : 9 ≤ c'.length := by
        have := congrArg List.length h
        simp only [List.length_map, List.length_take, varTail, List.length_cons,
          List.length_nil] at this
        omega
      rw [List.take_append_of_le_length hlen]
      exact h

theorem StmtSeg.stmt_varOk {s : Stmt} {seg : List Token} (h : StmtSeg s seg) : VarOk seg := by
  obtain ⟨first, mid, last, rfl, _, hl, _, hv, hn⟩ := h
  by_cases hf : first.kind = .KwVar
  · have hk := hv hf
    intro a t b e hkt
    cases a with
    | nil =>
      simp only [List.nil_append, List.cons.injEq] at e
      rw [← e.2]
      have hlen : (mid ++ [last]).length = 9 := by
        have := congrArg List.length hk
        simpa [varTail] using this
      rw [List.take_of_length_le (by omega)]
      exact hk
    | cons x a' =>
      simp only [List.cons_append, List.cons.injEq] at e
      have hmem : t.kind ∈ (mid ++ [last]).map (fun x => x.kind) := by
        rw [e.2]
        simp
      rw [hk, hkt] at hmem
      simp [varTail] at hmem
  · refine VarOk.of_noVar ?_
    refine NoVar.nv_cons hf ((hn hf).nv_append (NoVar.nv_single ?_))
    rw [hl]
    decide

theorem BodySeg.body_varOk {body : List Stmt} {seg : List Token} (h : BodySeg body seg) :
    VarOk seg := by
  obtain ⟨segs, rfl, hall⟩ := h
  induction hall with
  | nil => exact VarOk.of_noVar NoVar.nv_nil
  | cons hs _ ih =>
    rw [List.flatten_cons]
    exact hs.stmt_varOk.vo_append ih

theorem varOk_framed {hdr body : List Token} {last : Token} (hh : NoVar hdr) (hb : VarOk body)
    (hl : last.kind = .RBrace) : VarOk (hdr ++ body ++ [last]) :=
  ((VarOk.of_noVar hh).vo_append hb).vo_append
    (VarOk.of_noVar (NoVar.nv_single (by rw [hl]; decide)))

theorem MethodSeg.method_varOk {m : MethodDecl} {seg : List Token} (h : MethodSeg m seg) :
    VarOk seg := by
  obtain ⟨first, hdr, body, last, rfl, _, hh, _, _, hl, _, hb⟩ := h
  exact varOk_framed hh hb.body_varOk hl

theorem FunctionSeg.function_varOk {f : FunctionDecl} {seg : List Token} (h : FunctionSeg f seg) :
    VarOk seg := by
  obtain ⟨first, hdr, body, last, rfl, hf, hh, hl, _, hb⟩ := h
  have : first :: (hdr ++ body ++ [last]) = (first :: hdr) ++ body ++ [last] := by simp
  rw [this]
  exact varOk_framed (NoVar.nv_cons (by rw [hf]; decide) hh) hb.body_varOk hl

theorem ClassSeg.class_varOk {c : ClassDecl} {seg : List Token} (h : ClassSeg c seg) :
    VarOk seg := by
  obtain ⟨first, hdr, msegs, last, rfl, hf, hh, hl, _, hall⟩ := h
  have : first :: (hdr ++ msegs.flatten ++ [last]) = (first :: hdr) ++ msegs.flatten ++ [last] := by
    simp
  rw [this]
  refine varOk_framed (NoVar.nv_cons (by rw [hf]; decide) hh) ?_ hl
  clear this
  generalize c.methods = ms at hall
  induction hall with
  | nil => exact VarOk.of_noVar NoVar.nv_nil
  | cons hs _ ih =>
    rw [List.flatten_cons]
    exact hs.method_varOk.vo_append ih

namespace Parser

theorem Eats.peekTok : Eats (fun P => PResult.ok P.peek P) (fun P t seg => seg = [] ∧ t = P.peek) := by
  intro P b P2 hL h
  cases h
  exact ⟨[], P.rest, rfl, (eat_nil P).symm, hL, noEof_nil, rfl, rfl⟩

theorem parseAttr_shape : Eats parseAttr (fun _ a seg => AttrSeg a seg) := by
  intro P a P2 hL h
  unfold parseAttr at h
  obtain ⟨b, P1, h1, h2⟩ := bind_ok h
  obtain ⟨s1, r1, e1, rfl, hL1, hn1, hc⟩ := Eats.consumeIf .KwVirtual (by decide) P b P1 hL h1
  rcases hc with ⟨rfl, t, rfl, hk⟩ | ⟨rfl, rfl⟩
  · simp only [if_true] at h2
    cases h2
    exact ⟨[t], r1, e1, rfl, hL1, hn1, Or.inl ⟨rfl, t, rfl, hk⟩⟩
  · simp only [Bool.false_eq_true, if_false] at h2
    obtain ⟨b2, P3, h3, h4⟩ := bind_ok h2
    obtain ⟨s2, r2, e2, rfl, hL2, hn2, hc2⟩ :=
      Eats.consumeIf .KwOverride (by decide) _ b2 P3 hL1 h3
    rw [eat_nil] at e2 hL2 h4
    rcases hc2 with ⟨rfl, t, rfl, hk⟩ | ⟨rfl, rfl⟩
    · simp only [if_true] at h4
      cases h4
      exact ⟨[t], r2, e2, rfl, hL2, hn2, Or.inr (Or.inl ⟨rfl, t, rfl, hk⟩)⟩
    · simp only [Bool.false_eq_true, if_false] at h4
      cases h4
      exact ⟨[], r2, e2, rfl, hL2, hn2, Or.inr (Or.inr ⟨rfl, rfl⟩)⟩

theorem parseMethod_seg : Eats parseMethod (fun _ m seg => MethodSeg m seg) := by
  unfold parseMethod
  apply Eats.mono
  apply Eats.with_peek
  apply Eats.bind Eats.peekTok
  intro tStart
  apply Eats.bind parseAttr_shape
  intro attr
  apply Eats.bind (Eats.expectIdent _)
  intro name
  apply Eats.bind (Eats.expect .LParen _ (by decide))
  intro _
  apply Eats.bind (Eats.expect .RParen _ (by decide))
  intro _
  apply Eats.bind (Eats.expect .Colon _ (by decide))
  intro _
  apply Eats.bind parseType_kinds
  intro rt
  apply Eats.bind (Eats.expect .LBrace _ (by decide))
  intro _
  apply Eats.after_budget
  intro n
  apply Eats.bind (parseBody_seg n [])
  intro body
  apply Eats.bind (Eats.expect .RBrace _ (by decide))
  intro tEnd
  exact Eats.pure _
  rintro P m seg ⟨⟨tStart, s0, _, rfl, ⟨rfl, rfl⟩, attr, sa, _, rfl, hattr, name, _, _, rfl,
    ⟨tn, rfl, hn, rfl⟩, t1, _, _, rfl, ⟨rfl, h1⟩, t2, _, _, rfl, ⟨rfl, h2⟩, t3, _, _, rfl,
    ⟨rfl, h3⟩, rt, _, _, rfl, ⟨t4, rfl, h4⟩, t5, _, _, rfl, ⟨rfl, h5⟩, body, sb, _, rfl,
    ⟨new, hb, hseg⟩, tEnd, _, _, rfl, ⟨rfl, h6⟩, rfl, rfl⟩, hpeek⟩
  simp only [List.nil_append] at hb hpeek ⊢
  subst hb
  have htail : NoVar [tn, t1, t2, t3, t4, t5] := by
    intro x hx
    simp only [List.mem_cons, List.mem_singleton, List.not_mem_nil, or_false] at hx
    rcases hx with rfl | rfl | rfl | rfl | rfl | rfl
    · rw [hn]; decide
    · rw [h1]; decide
    · rw [h2]; decide
    · rw [h3]; decide
    · rw [h4]; decide
    · rw [h5]; decide
  rcases hattr with ⟨rfl, t, rfl, hk⟩ | ⟨rfl, t, rfl, hk⟩ | ⟨rfl, rfl⟩
  · have hp := hpeek t _ rfl
    refine ⟨t, [t] ++ [tn, t1, t2, t3, t4, t5], sb, tEnd, by simp, rfl,
      (NoVar.nv_single (by rw [hk]; decide)).nv_append htail, hk, (fun h => by cases h), h6, ?_,
      hseg⟩
    rw [hp]
  · have hp := hpeek t _ rfl
    refine ⟨t, [t] ++ [tn, t1, t2, t3, t4, t5], sb, tEnd, by simp, rfl,
      (NoVar.nv_single (by rw [hk]; decide)).nv_append htail, hk, (fun h => by cases h), h6, ?_,
      hseg⟩
    rw [hp]
  · have hp := hpeek tn _ rfl
    refine ⟨tn, [tn, t1, t2, t3, t4, t5], sb, tEnd, by simp, rfl, htail, hn, (fun _ => rfl), h6,
      ?_, hseg⟩
    rw [hp]

theorem parseMethods_seg (fuel : Nat) (ms : List MethodDecl) :
    Eats (parseMethods fuel ms) (fun _ r seg =>
      ∃ new segs, r = ms ++ new ∧ seg = segs.flatten ∧ List.Forall₂ MethodSeg new segs) := by
  induction fuel generalizing ms with
  | zero => intro P a P2 _ h; cases h
  | succ n ih =>
    unfold parseMethods
    refine Eats.after_is _ fun _ => Eats.e_ite ?_ ?_
    · refine (Eats.pure ms).mono ?_
      rintro P b seg ⟨rfl, rfl⟩
      exact ⟨[], [], by simp, rfl, List.Forall₂.nil⟩
    · refine (Eats.bind parseMethod_seg fun m => ih (ms ++ [m])).mono ?_
      rintro P b seg ⟨m, s1, s2, rfl, hm, new, segs, rfl, rfl, hall⟩
      exact ⟨m :: new, s1 :: segs, by simp, by simp, List.Forall₂.cons hm hall⟩

theorem parseFunctionDecl_seg : Eats parseFunctionDecl (fun _ f seg => FunctionSeg f seg) := by
  unfold parseFunctionDecl
  apply Eats.mono
  apply Eats.bind (Eats.expect .KwFunction _ (by decide))
  intro tFun
  apply Eats.bind (Eats.expectIdent _)
  intro name
  apply Eats.bind (Eats.expect .LParen _ (by decide))
  intro _
  apply Eats.bind (Eats.expect .RParen _ (by decide))
  intro _
  apply Eats.bind (Eats.expect .Colon _ (by decide))
  intro _
  apply Eats.bind parseType_kinds
  intro rt
  apply Eats.bind (Eats.expect .LBrace _ (by decide))
  intro _
  apply Eats.after_budget
  intro n
  apply Eats.bind (parseBody_seg n [])
  intro body
  apply Eats.bind (Eats.expect .RBrace _ (by decide))
  intro tEnd
  exact Eats.pure _
  rintro P f seg ⟨tFun, _, _, rfl, ⟨rfl, hf⟩, name, _, _, rfl,
    ⟨tn, rfl, hn, rfl⟩, t1, _, _, rfl, ⟨rfl, h1⟩, t2, _, _, rfl, ⟨rfl, h2⟩, t3, _, _, rfl,
    ⟨rfl, h3⟩, rt, _, _, rfl, ⟨t4, rfl, h4⟩, t5, _, _, rfl, ⟨rfl, h5⟩, body, sb, _, rfl,
    ⟨new, hb, hseg⟩, tEnd, _, _, rfl, ⟨rfl, h6⟩, rfl, rfl⟩
  simp only [List.nil_append] at hb
  subst hb
  refine ⟨tFun, [tn, t1, t2, t3, t4, t5], sb, tEnd, by simp, hf, ?_, h6, rfl, hseg⟩
  intro x hx
  simp only [List.mem_cons, List.mem_singleton, List.not_mem_nil, or_false] at hx
  rcases hx with rfl | rfl | rfl | rfl | rfl | rfl
  · rw [hn]; decide
  · rw [h1]; decide
  · rw [h2]; decide
  · rw [h3]; decide
  · rw [h4]; decide
  · rw [h5]; decide

theorem parseBase_nv : EatsNV parseBase := by
  unfold parseBase
  repeat' first
    | exact EatsNV.nv_pure _
    | exact EatsNV.nv_expectIdent _
    | exact EatsNV.nv_consumeIf _ (by decide) (by decide)
    | refine EatsNV.nv_ite ?_ ?_
    | refine EatsNV.nv_bind ?_ (fun _ => ?_)

theorem parseClassDecl_seg : Eats parseClassDecl (fun _ c seg => ClassSeg c seg) := by
  unfold parseClassDecl
  apply Eats.mono
  apply Eats.bind (Eats.expect .KwClass _ (by decide))
  intro tClass
  apply Eats.bind (Eats.expectIdent _)
  intro name
  apply Eats.bind parseBase_nv
  intro base
  apply Eats.bind (Eats.expect .LBrace _ (by decide))
  intro _
  apply Eats.after_budget
  intro n
  apply Eats.bind (parseMethods_seg n [])
  intro ms
  apply Eats.bind (Eats.expect .RBrace _ (by decide))
  intro tR
  exact Eats.pure _
  rintro P c seg ⟨tClass, _, _, rfl, ⟨rfl, hc⟩, name, _, _, rfl,
    ⟨tn, rfl, hn, rfl⟩, base, sbase, _, rfl, hbase, t5, _, _, rfl, ⟨rfl, h5⟩, ms, sm, _, rfl,
    ⟨new, segs, hb, rfl, hall⟩, tR, _, _, rfl, ⟨rfl, h6⟩, rfl, rfl⟩
  simp only [List.nil_append] at hb
  subst hb
  refine ⟨tClass, [tn] ++ sbase ++ [t5], segs, tR, by simp, hc, ?_, h6, rfl, hall⟩
  exact ((NoVar.nv_single (by rw [hn]; decide)).nv_append hbase).nv_append
    (NoVar.nv_single (by rw [h5]; decide))

theorem parseDecls_seg (fuel : Nat) (p p2 : Program) (P P2 : Parser) (hL : Live P)
    (h : parseDecls fuel p P = .ok p2 P2) :
    ∃ seg, P2 = P.eat seg ∧ VarOk seg ∧
      (∀ c ∈ p2.classes, c ∈ p.classes ∨ ∃ a s b, seg = a ++ s ++ b ∧ ClassSeg c s) ∧
      (∀ f ∈ p2.functions, f ∈ p.functions ∨ ∃ a s b, seg = a ++ s ++ b ∧ FunctionSeg f s) := by
  induction fuel generalizing p P with
  | zero => cases h
  | succ n ih =>
    unfold parseDecls at h
    rw [is_bind] at h
    by_cases he : P.peek.kind = .Eof
    · simp only [he, decide_True, if_true] at h
      obtain ⟨rfl, rfl⟩ : p = p2 ∧ P = P2 := by cases h; exact ⟨rfl, rfl⟩
      exact ⟨[], (eat_nil P).symm, VarOk.of_noVar NoVar.nv_nil, fun c hc => Or.inl hc,
        fun f hf => Or.inl hf⟩
    · simp only [he, decide_False, Bool.false_eq_true, if_false] at h
      rw [is_bind] at h
      by_cases hc : P.peek.kind = .KwClass
      · simp only [hc, decide_True, if_true] at h
        obtain ⟨c, P1, h1, h2⟩ := bind_ok h
        obtain ⟨s1, r1, e1, rfl, hL1, hn1, hS⟩ := parseClassDecl_seg P c P1 hL h1
        obtain ⟨s2, rfl, hv, hcl, hfn⟩ := ih _ _ hL1 h2
        refine ⟨s1 ++ s2, eat_append P s1 s2, hS.class_varOk.vo_append hv, ?_, ?_⟩
        · intro c2 hc2
          rcases hcl c2 hc2 with hin | ⟨a, s, b, rfl, hs⟩
          · rcases List.mem_append.mp hin with h3 | h3
            · exact Or.inl h3
            · rw [List.mem_singleton.mp h3]
              exact Or.inr ⟨[], s1, s2, by simp, hS⟩
          · exact Or.inr ⟨s1 ++ a, s, b, by simp, hs⟩
        · intro f hf
          rcases hfn f hf with hin | ⟨a, s, b, rfl, hs⟩
          · exact Or.inl hin
          · exact Or.inr ⟨s1 ++ a, s, b, by simp, hs⟩
      · simp only [hc, decide_False, Bool.false_eq_true, if_false] at h
        rw [is_bind] at h
        by_cases hf : P.peek.kind = .KwFunction
        · simp only [hf, decide_True, if_true] at h
          obtain ⟨f, P1, h1, h2⟩ := bind_ok h
          obtain ⟨s1, r1, e1, rfl, hL1, hn1, hS⟩ := parseFunctionDecl_seg P f P1 hL h1
          obtain ⟨s2, rfl, hv, hcl, hfn⟩ := ih _ _ hL1 h2
          refine ⟨s1 ++ s2, eat_append P s1 s2, hS.function_varOk.vo_append hv, ?_, ?_⟩
          · intro c2 hc2
            rcases hcl c2 hc2 with hin | ⟨a, s, b, rfl, hs⟩
            · exact Or.inl hin
            · exact Or.inr ⟨s1 ++ a, s, b, by simp, hs⟩
          · intro f2 hf2
            rcases hfn f2 hf2 with hin | ⟨a, s, b, rfl, hs⟩
            · rcases List.mem_append.mp hin with h3 | h3
              · exact Or.inl h3
              · rw [List.mem_singleton.mp h3]
                exact Or.inr ⟨[], s1, s2, by simp, hS⟩
            · exact Or.inr ⟨s1 ++ a, s, b, by simp, hs⟩
        · simp only [hf, decide_False, Bool.false_eq_true, if_false, raise] at h
          cases h

end Parser

/-- What a successful `parseProgram` has passed on a token vector that holds an
`Eof` token: the tokens before the first one, in which every `var` keyword starts
a declaration and every class and function has its segment. -/
theorem parseProgram_segments (tokens : List Token) (p : Program) (P : Parser)
    (hE : EofAhead tokens) (h : parseProgram tokens = .ok p P) :
    ∃ eof tail, tokens = P.consumed ++ eof :: tail ∧ eof.kind = .Eof ∧
      (∀ t ∈ P.consumed, t.kind ≠ .Eof) ∧ VarOk P.consumed ∧
      (∀ c ∈ p.classes, ∃ a s b, P.consumed = a ++ s ++ b ∧ ClassSeg c s) ∧
      (∀ f ∈ p.functions, ∃ a s b, P.consumed = a ++ s ++ b ∧ FunctionSeg f s) := by
  obtain ⟨seg, eof, tail, e1, hk, hn, hP, _⟩ := parseProgram_upto_first_eof tokens p P hE h
  have hL : Parser.Live { tokens := tokens } := hE
  obtain ⟨seg2, hP2, hv, hc, hf⟩ := Parser.parseDecls_seg _ _ _ _ _ hL h
  have hcons : P.consumed = seg := by rw [hP]
  have hcons2 : P.consumed = seg2 := by rw [hP2]; simp [Parser.eat]
  rw [hcons2] at hcons
  subst hcons
  rw [hcons2]
  refine ⟨eof, tail, e1, hk, hn, hv, ?_, ?_⟩
  · intro c hc1
    rcases hc c hc1 with hin | hx
    · cases hin
    · exact hx
  · intro f hf1
    rcases hf f hf1 with hin | hx
    · cases hin
    · exact hx

theorem prefix_before_eof : ∀ (a c b tail : List Token) (t eof : Token),
    a ++ t :: b = c ++ eof :: tail → (∀ x ∈ a, x.kind ≠ .Eof) → t.kind ≠ .Eof →
    eof.kind = .Eof → ∃ b1, c = a ++ t :: b1 ∧ b = b1 ++ eof :: tail
  | [], [], b, tail, t, eof, h, _, ht, he => by
    simp only [List.nil_append, List.cons.injEq] at h
    exact absurd (h.1 ▸ he) ht
  | [], x :: c1, b, tail, t, eof, h, _, _, _ => by
    simp only [List.nil_append, List.cons_append, List.cons.injEq] at h
    exact ⟨c1, by rw [h.1]; rfl, h.2⟩
  | y :: a1, [], b, tail, t, eof, h, ha, _, he => by
    simp only [List.nil_append, List.cons_append, List.cons.injEq] at h
    exact absurd (h.1 ▸ he) (ha y (List.mem_cons_self _ _))
  | y :: a1, x :: c1, b, tail, t, eof, h, ha, ht, he => by
    simp only [List.cons_append, List.cons.injEq] at h
    obtain ⟨b1, h1, h2⟩ := prefix_before_eof a1 c1 b tail t eof h.2
      (fun z hz => ha z (List.mem_cons_of_mem _ hz)) ht he
    exact ⟨b1, by rw [h.1, h1]; rfl, h2⟩

/-! ## Lemmas about layouts under reordering, the walk of implementationFor and the exceptions of lowering -/

section
open CodeGen

namespace Table

/-- Two tables in key order with the same lookups are equal. -/
theorem ext_of_sorted {V : Type} : ∀ (t t1 : Table V), Sorted t → Sorted t1 →
    (∀ k, find t k = find t1 k) → t = t1
  | [], [], _, _, _ => rfl
  | [], (k1, v1) :: r1, _, _, h => by
    have := h k1
    simp [find] at this
  | (k, v) :: r, [], _, _, h => by
    have := h k
    simp [find] at this
  | (k, v) :: r, (k1, v1) :: r1, hs, hs1, h => by
    have hk : k = k1 := by
      by_contra hne
      have h1 := h k
      simp only [find, if_true, if_neg hne] at h1
      have hmem1 : k ∈ keys r1 := (find_isSome r1 k).1 ⟨v, h1.symm⟩
      have h2 := h k1
      have hne2 : ¬ k1 = k := fun e => hne e.symm
      simp only [find, if_true, if_neg hne2] at h2
      have hmem : k1 ∈ keys r := (find_isSome r k1).1 ⟨v1, h2⟩
      have hfalse := strLt_asymm _ _ (hs.head_lt k1 hmem)
      rw [hs1.head_lt k hmem1] at hfalse
      cases hfalse
    subst hk
    have hv : v = v1 := by
      have h1 := h k
      simpa [find] using h1
    subst hv
    have hnk : k ∉ keys r := (List.nodup_cons.1 hs.nodup).1
    have hnk1 : k ∉ keys r1 := (List.nodup_cons.1 hs1.nodup).1
    have hr : r = r1 := by
      refine ext_of_sorted r r1 hs.tail hs1.tail ?_
      intro key
      by_cases hkey : key = k
      · rw [hkey, (find_eq_none r k).2 hnk, (find_eq_none r1 k).2 hnk1]
      · have := h key
        simpa [find, hkey] using this
    rw [hr]

end Table

namespace CodeGen

theorem recordClasses_congr {l1 l2 : List ClassDecl}
    (h : ∀ n, l1.find? (fun d => decide (d.name = n)) = l2.find? (fun d => decide (d.name = n))) :
    recordClasses l1 [] = recordClasses l2 [] := by
  refine Table.ext_of_sorted _ _ (recordClasses_sorted l1 [] List.Pairwise.nil)
    (recordClasses_sorted l2 [] List.Pairwise.nil) ?_
  intro k
  rw [find_recordClasses l1 [] k List.Pairwise.nil, find_recordClasses l2 [] k List.Pairwise.nil,
    h k]

theorem computeClassLayouts_congr {cg : CodeGen} {p p1 : Program} (h0 : cg.classes_ = [])
    (h : recordClasses p.classes [] = recordClasses p1.classes []) :
    computeClassLayouts cg p = computeClassLayouts cg p1 := by
  unfold computeClassLayouts
  rw [h0, h]

theorem lower_congr {p p1 : Program} (moduleName : List Char)
    (h : recordClasses p.classes [] = recordClasses p1.classes [])
    (hf : p.functions = p1.functions) : lower p moduleName = lower p1 moduleName := by
  unfold lower
  rw [computeClassLayouts_congr rfl h]
  unfold defineFunctions
  rw [hf]

theorem generate_congr {p p1 : Program} (verifyModule : Module → Option String)
    (moduleName : List Char) (h : lower p moduleName = lower p1 moduleName) :
    generate verifyModule p moduleName = generate verifyModule p1 moduleName := by
  unfold generate
  rw [h]

theorem find?_name_perm {l1 l2 : List ClassDecl} (hp : l1.Perm l2)
    (hnd : (l1.map (fun c => c.name)).Nodup) (n : List Char) :
    l1.find? (fun d => decide (d.name = n)) = l2.find? (fun d => decide (d.name = n)) := by
  have hnd2 : (l2.map (fun c => c.name)).Nodup := (hp.map _).nodup_iff.1 hnd
  cases h1 : l1.find? (fun d => decide (d.name = n)) with
  | none =>
    symm
    rw [List.find?_eq_none] at h1 ⊢
    intro x hx
    exact h1 x (hp.mem_iff.2 hx)
  | some c =>
    have hc := List.find?_some h1
    have hcm := List.mem_of_find?_eq_some h1
    simp only [decide_eq_true_eq] at hc
    cases h2 : l2.find? (fun d => decide (d.name = n)) with
    | none =>
      rw [List.find?_eq_none] at h2
      exact absurd (by simpa using hc) (h2 c (hp.mem_iff.1 hcm))
    | some c2 =>
      have hc2 := List.find?_some h2
      have hcm2 := List.mem_of_find?_eq_some h2
      simp only [decide_eq_true_eq] at hc2
      congr 1
      exact List.inj_on_of_nodup_map hnd hcm (hp.mem_iff.2 hcm2) (hc.trans hc2.symm)

theorem find?_name_skip (pre post : List ClassDecl) (d : ClassDecl)
    (hdup : ∃ c ∈ pre, c.name = d.name) (n : List Char) :
    (pre ++ d :: post).find? (fun x => decide (x.name = n)) =
      (pre ++ post).find? (fun x => decide (x.name = n)) := by
  rw [List.find?_append, List.find?_append]
  cases h : pre.find? (fun x => decide (x.name = n)) with
  | some c => rfl
  | none =>
    simp only [Option.none_or]
    rw [List.find?_eq_none] at h
    obtain ⟨c, hc, hcn⟩ := hdup
    have hne : ¬ d.name = n := fun e => by
      have := h c hc
      simp only [decide_eq_true_eq] at this
      exact this (hcn.trans e)
    simp [List.find?, hne]

/-- The final layout of every class is consistent when the layouts at the start
of the loop are. -/
theorem layoutLoop_consistent : ∀ (suf : List (List Char)) (M T : Table ClassInfo),
    layoutLoop suf M = .ok T →
    (∀ k i, Table.find M k = some i → i.layout.Consistent) →
    ∀ k i, Table.find T k = some i → i.layout.Consistent
  | [], M, T, h, hM => by
    cases h
    exact hM
  | name :: rest, M, T, h, hM => by
    rcases layoutClass_cases M name with ⟨M1, h1⟩ | ⟨e, h1⟩
    swap
    · simp [layoutLoop, h1] at h
    simp only [layoutLoop, h1] at h
    refine layoutLoop_consistent rest M1 T h ?_
    intro k i hk
    cases hf : Table.find M name with
    | none =>
      unfold layoutClass at h1
      rw [hf] at h1
      cases h1
      exact hM k i hk
    | some i0 =>
      obtain ⟨start, L, hi, hm, rfl⟩ := layoutClass_ok h1 hf
      have hstart : start.Consistent := by
        unfold inheritedLayout at hi
        cases hb : i0.base with
        | none =>
          rw [hb] at hi
          cases hi
          exact consistent_empty
        | some b =>
          rw [hb] at hi
          cases hfb : Table.find M b with
          | none => simp [hfb] at hi
          | some bi =>
            simp only [hfb] at hi
            cases hi
            exact hM b bi hfb
      have hL := layoutMethods_consistent _ _ _ hm hstart
      rw [Table.find_modify] at hk
      by_cases hkn : k = name
      · rw [if_pos hkn, hf] at hk
        cases hk
        exact hL
      · rw [if_neg hkn] at hk
        exact hM k i hk

theorem computeClassLayouts_consistent {cg cg1 : CodeGen} {p : Program} (h0 : cg.classes_ = [])
    (h : computeClassLayouts cg p = .ok cg1) :
    ∀ k i, Table.find cg1.classes_ k = some i → i.layout.Consistent := by
  refine layoutLoop_consistent _ _ _ (computeClassLayouts_ok h0 h) ?_
  intro k i hk
  rw [find_recorded] at hk
  cases hd : p.classes.find? (fun d => decide (d.name = k)) with
  | none =>
    rw [hd] at hk
    cases hk
  | some c =>
    rw [hd] at hk
    cases hk
    exact consistent_empty

end CodeGen

theorem countP_lt_of_witness {α : Type} (p q : α → Bool) : ∀ (l : List α),
    (∀ x ∈ l, p x = true → q x = true) → (∃ x ∈ l, q x = true ∧ p x = false) →
    l.countP p < l.countP q
  | [], _, ⟨x, hx, _⟩ => by cases hx
  | a :: l, hpq, ⟨x, hx, hqx, hpx⟩ => by
    have hle : l.countP p ≤ l.countP q :=
      List.countP_mono_left (fun y hy => hpq y (List.mem_cons_of_mem _ hy))
    rw [List.countP_cons, List.countP_cons]
    rcases List.mem_cons.1 hx with rfl | hxl
    · rw [hqx, hpx]
      simp only [if_true, Bool.false_eq_true, if_false]
      omega
    · have hlt := countP_lt_of_witness p q l
        (fun y hy => hpq y (List.mem_cons_of_mem _ hy)) ⟨x, hxl, hqx, hpx⟩
      have := hpq a (List.mem_cons_self _ _)
      cases hpa : p a
      · simp only [Bool.false_eq_true, if_false]
        split <;> omega
      · rw [this hpa]
        simp only [if_true]
        omega

namespace CodeGen

/-- The number of classes of the table whose name is smaller than `k`. -/
theorem rank_lt {ks : List (List Char)} {b k : List Char} (hb : b ∈ ks)
    (hlt : strLt b k = true) :
    ks.countP (fun a => strLt a b) < ks.countP (fun a => strLt a k) :=
  countP_lt_of_witness _ _ ks (fun x _ hx => strLt_trans x b k hx hlt)
    ⟨b, hb, hlt, strLt_irrefl b⟩

theorem rank_lt_length {ks : List (List Char)} {k : List Char} (hk : k ∈ ks) :
    ks.countP (fun a => strLt a k) < ks.length := by
  have := countP_lt_of_witness (fun a => strLt a k) (fun _ => true) ks (fun _ _ _ => rfl)
    ⟨k, hk, rfl, strLt_irrefl k⟩
  rwa [List.countP_true] at this

theorem implementationLoop_total {cg : CodeGen} (hg : SlotsGrounded cg) (cls n : List Char) :
    ∀ (r : Nat) (k : List Char) (info : ClassInfo),
    (Table.keys cg.classes_).countP (fun a => strLt a k) ≤ r →
    Table.find cg.classes_ k = some info → n ∈ info.layout.methods →
    ∀ fuel, r + 1 ≤ fuel → ∃ fn, implementationLoop cg cls n fuel info = .ok fn := by
  intro r
  induction r with
  | zero =>
    intro k info hr hf hn fuel hfuel
    obtain ⟨f, rfl⟩ : ∃ f, fuel = f + 1 := ⟨fuel - 1, by omega⟩
    unfold implementationLoop
    obtain ⟨hrec, hslots⟩ := hg k info hf
    cases hm : Table.find info.methods n with
    | some fn => exact ⟨fn, rfl⟩
    | none =>
      exfalso
      rcases hslots n hn with hany | ⟨b, bi, _, hlt, hbi, _⟩
      · have := hrec n
        rw [hm, hany] at this
        cases this
      · have := rank_lt ((Table.find_isSome _ _).1 ⟨_, hbi⟩) hlt
        omega
  | succ r ih =>
    intro k info hr hf hn fuel hfuel
    obtain ⟨f, rfl⟩ : ∃ f, fuel = f + 1 := ⟨fuel - 1, by omega⟩
    unfold implementationLoop
    obtain ⟨hrec, hslots⟩ := hg k info hf
    cases hm : Table.find info.methods n with
    | some fn => exact ⟨fn, rfl⟩
    | none =>
      rcases hslots n hn with hany | ⟨b, bi, hbase, hlt, hbi, hnb⟩
      · have := hrec n
        rw [hm, hany] at this
        cases this
      · have hrank := rank_lt ((Table.find_isSome _ _).1 ⟨_, hbi⟩) hlt
        have hmb : maybeBaseOf cg info = .ok (some bi) := by
          unfold maybeBaseOf
          simp only [hbase, hbi]
        simp only [hmb]
        exact ih b bi (by omega) hbi hnb f (by omega)

theorem implementationFor_total {cg : CodeGen} (hg : SlotsGrounded cg) (k n : List Char)
    (info : ClassInfo) (hf : Table.find cg.classes_ k = some info)
    (hn : n ∈ info.layout.methods) : ∃ fn, implementationFor cg k n = .ok fn := by
  unfold implementationFor
  simp only [hf]
  have hk : k ∈ Table.keys cg.classes_ := (Table.find_isSome _ _).1 ⟨_, hf⟩
  have hlen : (Table.keys cg.classes_).length = cg.classes_.length := by
    simp [Table.keys]
  have := rank_lt_length hk
  exact implementationLoop_total hg k n _ k info (Nat.le_refl _) hf hn _ (by omega)

/-- After the layout pass the slots are grounded, in every state that holds the
same classes with their methods recorded. -/
theorem slotsGrounded_of_layouts {cg0 cg1 cg : CodeGen} {p : Program} (h0 : cg0.classes_ = [])
    (h1 : computeClassLayouts cg0 p = .ok cg1) (hsame : SameDecls cg1.classes_ cg.classes_)
    (hall : ∀ k i, Table.find cg.classes_ k = some i → MethodsRecorded i) :
    SlotsGrounded cg := by
  intro k info hf
  refine ⟨hall k info hf, ?_⟩
  intro n hn
  obtain ⟨info1, hf1, hdecl⟩ := (Table.AgreeOn.symm_agree hsame).find_some hf
  have hast : info1.ast = info.ast := congrArg (fun x => x.1) hdecl
  have hbase : info1.base = info.base := congrArg (fun x => x.2.2.1) hdecl
  have hlay : info1.layout = info.layout := congrArg (fun x => x.2.2.2) hdecl
  obtain ⟨c, start, _, hck, hc, _, hb, hlm, hst⟩ := entry_spec h0 h1 hf1
  rw [← hlay, layoutMethods_methods _ _ _ hlm] at hn
  rcases List.mem_append.1 hn with hs | hv
  · right
    cases hbn : c.baseName with
    | none =>
      rw [hbn] at hst
      rw [show start = {} from hst] at hs
      cases hs
    | some b =>
      rw [hbn] at hst
      obtain ⟨_, _, _, hst⟩ := hst
      by_cases hlt : strLt b c.name = true
      · rw [if_pos hlt] at hst
        obtain ⟨bi, hbi, rfl⟩ := hst
        obtain ⟨bi2, hbi2, hdecl2⟩ := hsame.find_some hbi
        have hlay2 : bi2.layout = bi.layout := congrArg (fun x => x.2.2.2) hdecl2
        refine ⟨b, bi2, ?_, ?_, hbi2, ?_⟩
        · rw [← hbase, hb, hbn]
        · rw [← hck]; exact hlt
        · rw [hlay2]; exact hs
      · rw [if_neg hlt] at hst
        rw [show start = {} from hst] at hs
        cases hs
  · left
    rw [← hast, hc]
    unfold virtualNames at hv
    obtain ⟨m, hm, hmn⟩ := List.mem_map.1 hv
    exact List.any_eq_true.2 ⟨m, (List.mem_filter.1 hm).1, by simp [hmn]⟩

/-- The state after `declareAndDefineMethods` holds the classes of the layout
pass, each with the table of the methods it declares. -/
theorem methods_recorded_after {cg0 cg1 cg2 cg3 : CodeGen} {p : Program}
    (h0 : cg0.classes_ = []) (h1 : computeClassLayouts cg0 p = .ok cg1)
    (h2 : declareTypes cg1 = .ok cg2) (h3 : declareAndDefineMethods cg2 = .ok cg3) :
    SameDecls cg1.classes_ cg3.classes_ ∧
    ∀ k i, Table.find cg3.classes_ k = some i → MethodsRecorded i := by
  obtain ⟨hnd, hinit⟩ := computeClassLayouts_keys h0 h1
  have k2 := declareTypes_keys h2
  obtain ⟨t1, _, _, _, _, _⟩ := declareTypes_spec h2
  unfold declareAndDefineMethods at h3
  obtain ⟨k3, m1, _, m3, _, _, _⟩ := defineClasses_spec _ _ _ h3 (by rw [k2]; exact hnd)
    (fun _ hk => hk)
  have s12 : SameDecls cg1.classes_ cg2.classes_ := agreeOn_proj Prod.fst t1
  have s23 : SameDecls cg2.classes_ cg3.classes_ := agreeOn_proj Prod.fst m1
  refine ⟨s12.trans_agree s23, ?_⟩
  intro k info hfind
  have hk3 : k ∈ Table.keys cg3.classes_ := (Table.find_isSome _ _).1 ⟨_, hfind⟩
  have hk2 : k ∈ Table.keys cg2.classes_ := by rw [← k3]; exact hk3
  have hk1 : k ∈ Table.keys cg1.classes_ := by rw [← k2]; exact hk2
  obtain ⟨i1, hi1⟩ := (Table.find_isSome _ _).2 hk1
  obtain ⟨i2, hi2⟩ := (Table.find_isSome _ _).2 hk2
  obtain ⟨i3, hi3, hdom⟩ := m3 k hk2 i2 hi2
  rw [hfind] at hi3
  cases hi3
  have e12 := t1 k
  rw [hi1, hi2] at e12
  simp only [Option.map_some', Option.some.injEq, Prod.mk.injEq] at e12
  have e23 := m1 k
  rw [hi2, hfind] at e23
  simp only [Option.map_some', Option.some.injEq, Prod.mk.injEq] at e23
  have hast23 : i2.ast = info.ast := congrArg (fun x => x.1) e23.1
  intro n
  rw [hdom n, ← e12.2.1, (hinit k i1 hi1).1, ← hast23]
  simp [Table.find]

theorem firstDeclaring_declares (classes : Table ClassInfo) (n : List Char) :
    ∀ (fuel : Nat) (c K : ClassInfo), firstDeclaring classes fuel c n = some K →
    K.ast.methods.any (fun m => decide (m.name = n)) = true
  | 0, _, _, h => by cases h
  | fuel + 1, c, K, h => by
    unfold firstDeclaring at h
    by_cases hany : c.ast.methods.any (fun m => decide (m.name = n)) = true
    · rw [if_pos hany] at h
      cases h
      exact hany
    · rw [if_neg hany] at h
      cases hb : c.base with
      | none => simp [hb] at h
      | some b =>
        simp only [hb] at h
        cases hbi : Table.find classes b with
        | none => simp [hbi] at h
        | some bi =>
          simp only [hbi] at h
          exact firstDeclaring_declares classes n fuel bi K h

theorem retTypeFor_expected (R : List Char) :
    retTypeFor (if R = [] then "String".toList else R) = retTypeFor R := by
  by_cases h : R = []
  · subst h
    rfl
  · rw [if_neg h]

theorem codegenExpr_call_ok {cg cg1 : CodeGen} {scope : Table ScopeVar}
    {recv m expectedType : List Char} {rloc loc : SourceRange} {v : Value} {sv : ScopeVar}
    (hs : Table.find scope recv = some sv)
    (h : codegenExpr cg (some (.MethodCallExpr (.VarExpr recv rloc) m loc)) scope expectedType =
      .ok (v, cg1)) :
    ∃ ci classTy vtableTy slot, Table.find cg.classes_ sv.typeName = some ci ∧
      ci.classTy = some classTy ∧ ci.vtableTy = some vtableTy ∧
      Table.find ci.layout.slotOf m = some slot ∧
      cg1.block = cg.block ++ callSequence cg.block.length sv recv m classTy vtableTy slot
        (retTypeFor expectedType) ∧
      v = .inst (cg.block.length + 6) := by
  simp only [codegenExpr, hs] at h
  obtain ⟨ci, classTy, vtableTy, slot, h1, h2, h3, h4, h5, h6⟩ := codegenVirtualCall_ok h
  refine ⟨ci, classTy, vtableTy, slot, h1, h2, h3, h4, ?_, ?_⟩
  · rw [h5]
    simp [emit, methodFnTy, callSequence, List.append_assoc]
    exact retTypeFor_expected expectedType
  · rw [h6]
    simp [emit]

end CodeGen

theorem message_handled (s : List Char) (h1 : s.take 3 ≠ ['U', 'n', 's'])
    (h2 : s.take 3 ≠ ['U', 'n', 'h']) : ¬ (Exn.runtime_error (String.mk s)).Unhandled := by
  rintro (h | h | h)
  · injection h with h
    have hs : s = "Unsupported method receiver expression".toList := congrArg String.data h
    rw [hs] at h1
    exact h1 rfl
  · injection h with h
    have hs : s = "Unhandled expression node".toList := congrArg String.data h
    rw [hs] at h2
    exact h2 rfl
  · injection h with h
    have hs : s = "Unhandled statement node".toList := congrArg String.data h
    rw [hs] at h2
    exact h2 rfl

theorem take3_ne (a b c : Char) (rest t : List Char) (h : [a, b, c] ≠ t) :
    (a :: b :: c :: rest).take 3 ≠ t := h

theorem Outcome.handled_ok {α : Type} (a : α) : (Outcome.ok a).Handled := fun _ h => by cases h

theorem Outcome.handled_crashed {α : Type} : (Outcome.crashed : Outcome α).Handled :=
  fun _ h => by cases h

theorem Outcome.handled_diverged {α : Type} : (Outcome.diverged : Outcome α).Handled :=
  fun _ h => by cases h

theorem Outcome.handled_errorOf {α : Type} (pieces : List (List Char)) (a b c : Char)
    (rest : List Char) (hp : pieces.flatten = a :: b :: c :: rest)
    (h1 : [a, b, c] ≠ ['U', 'n', 's']) (h2 : [a, b, c] ≠ ['U', 'n', 'h']) :
    (Outcome.thrown (errorOf pieces) : Outcome α).Handled := by
  intro e h
  cases h
  refine message_handled _ ?_ ?_
  · rw [hp]
    exact h1
  · rw [hp]
    exact h2

theorem Outcome.handled_thrown_of {α β : Type} {o : Outcome α} (ho : o.Handled) {e : Exn}
    (he : o = .thrown e) : (Outcome.thrown e : Outcome β).Handled := by
  intro e1 h
  cases h
  exact ho _ he

namespace CodeGen

theorem layoutMethod_handled (layout : ClassLayout) (m : MethodDecl) :
    (layoutMethod layout m).Handled := by
  unfold layoutMethod
  split
  · split
    · exact Outcome.handled_errorOf _ _ _ _ _ rfl (by decide) (by decide)
    · exact Outcome.handled_ok _
  · exact Outcome.handled_ok _
  · exact Outcome.handled_ok _

theorem layoutMethods_handled : ∀ (ms : List MethodDecl) (layout : ClassLayout),
    (layoutMethods ms layout).Handled
  | [], _ => Outcome.handled_ok _
  | m :: rest, layout => by
    intro e h
    unfold layoutMethods at h
    split at h
    · exact layoutMethods_handled rest _ e h
    · rename_i e1 he
      cases h
      exact layoutMethod_handled layout m _ he
    · cases h
    · cases h

theorem inheritedLayout_handled (classes : Table ClassInfo) (info : ClassInfo) :
    (inheritedLayout classes info).Handled := by
  unfold inheritedLayout
  split
  · exact Outcome.handled_ok _
  · split
    · exact Outcome.handled_errorOf _ _ _ _ _ rfl (by decide) (by decide)
    · exact Outcome.handled_ok _

theorem layoutClass_handled (classes : Table ClassInfo) (name : List Char) :
    (layoutClass classes name).Handled := by
  unfold layoutClass
  split
  · exact Outcome.handled_ok _
  · split
    · split
      · exact Outcome.handled_ok _
      · rename_i e he
        exact Outcome.handled_thrown_of (layoutMethods_handled _ _) he
      · exact Outcome.handled_crashed
      · exact Outcome.handled_diverged
    · rename_i e he
      exact Outcome.handled_thrown_of (inheritedLayout_handled _ _) he
    · exact Outcome.handled_crashed
    · exact Outcome.handled_diverged

theorem layoutLoop_handled : ∀ (ks : List (List Char)) (classes : Table ClassInfo),
    (layoutLoop ks classes).Handled
  | [], _ => Outcome.handled_ok _
  | k :: rest, classes => by
    unfold layoutLoop
    split
    · exact layoutLoop_handled rest _
    · rename_i e he
      exact Outcome.handled_thrown_of (layoutClass_handled _ _) he
    · exact Outcome.handled_crashed
    · exact Outcome.handled_diverged

theorem computeClassLayouts_handled (cg : CodeGen) (p : Program) :
    (computeClassLayouts cg p).Handled := by
  unfold computeClassLayouts
  simp only
  split
  · exact Outcome.handled_ok _
  · rename_i e he
    exact Outcome.handled_thrown_of (layoutLoop_handled _ _) he
  · exact Outcome.handled_crashed
  · exact Outcome.handled_diverged

theorem declareTypesBodies_handled : ∀ (ks : List (List Char)) (cg : CodeGen),
    (declareTypesBodies ks cg).Handled
  | [], _ => Outcome.handled_ok _
  | k :: rest, cg => by
    unfold declareTypesBodies
    split
    · exact declareTypesBodies_handled rest _
    · split
      · exact declareTypesBodies_handled rest _
      · exact Outcome.handled_crashed

theorem declareTypes_handled (cg : CodeGen) : (declareTypes cg).Handled :=
  declareTypesBodies_handled _ _

theorem requireClass_handled (cg : CodeGen) (name : List Char) :
    (requireClass cg name).Handled := by
  unfold requireClass
  split
  · exact Outcome.handled_errorOf _ _ _ _ _ rfl (by decide) (by decide)
  · exact Outcome.handled_ok _

theorem slotOf_handled (cg : CodeGen) (cls m : List Char) : (slotOf cg cls m).Handled := by
  unfold slotOf
  split
  · exact Outcome.handled_errorOf _ _ _ _ _ rfl (by decide) (by decide)
  · split
    · exact Outcome.handled_errorOf _ _ _ _ _ rfl (by decide) (by decide)
    · exact Outcome.handled_ok _

theorem maybeBaseOf_handled (cg : CodeGen) (c : ClassInfo) : (maybeBaseOf cg c).Handled := by
  unfold maybeBaseOf
  split
  · exact Outcome.handled_ok _
  · split
    · exact Outcome.handled_errorOf _ _ _ _ _ rfl (by decide) (by decide)
    · exact Outcome.handled_ok _

theorem implementationLoop_handled (cg : CodeGen) (cls m : List Char) :
    ∀ (fuel : Nat) (c : ClassInfo), (implementationLoop cg cls m fuel c).Handled
  | 0, _ => Outcome.handled_diverged
  | fuel + 1, c => by
    unfold implementationLoop
    split
    · exact Outcome.handled_ok _
    · split
      · exact implementationLoop_handled cg cls m fuel _
      · exact Outcome.handled_errorOf _ _ _ _ _ rfl (by decide) (by decide)
      · rename_i e he
        exact Outcome.handled_thrown_of (maybeBaseOf_handled _ _) he
      · exact Outcome.handled_crashed
      · exact Outcome.handled_diverged

theorem implementationFor_handled (cg : CodeGen) (cls m : List Char) :
    (implementationFor cg cls m).Handled := by
  unfold implementationFor
  split
  · exact Outcome.handled_errorOf _ _ _ _ _ rfl (by decide) (by decide)
  · exact implementationLoop_handled _ _ _ _ _

theorem vtableElems_handled (cg : CodeGen) (name : List Char) :
    ∀ ns : List (List Char), (vtableElems cg name ns).Handled
  | [] => Outcome.handled_ok _
  | n :: rest => by
    unfold vtableElems
    split
    · split
      · exact Outcome.handled_ok _
      · rename_i e he
        exact Outcome.handled_thrown_of (vtableElems_handled cg name rest) he
      · exact Outcome.handled_crashed
      · exact Outcome.handled_diverged
    · rename_i e he
      exact Outcome.handled_thrown_of (implementationFor_handled _ _ _) he
    · exact Outcome.handled_crashed
    · exact Outcome.handled_diverged

theorem defineVTablesLoop_handled : ∀ (ks : List (List Char)) (cg : CodeGen),
    (defineVTablesLoop ks cg).Handled
  | [], _ => Outcome.handled_ok _
  | k :: rest, cg => by
    unfold defineVTablesLoop
    split
    · exact defineVTablesLoop_handled rest _
    · split
      · split
        · exact Outcome.handled_crashed
        · exact defineVTablesLoop_handled rest _
      · rename_i e he
        exact Outcome.handled_thrown_of (vtableElems_handled _ _ _) he
      · exact Outcome.handled_crashed
      · exact Outcome.handled_diverged

theorem defineVTables_handled (cg : CodeGen) : (defineVTables cg).Handled :=
  defineVTablesLoop_handled _ _

theorem codegenVirtualCall_handled (cg : CodeGen) (thisPtr : Value) (cls m ret : List Char) :
    (codegenVirtualCall cg thisPtr cls m ret).Handled := by
  unfold codegenVirtualCall
  split
  · split
    · simp only
      split
      · exact Outcome.handled_ok _
      · rename_i e he
        exact Outcome.handled_thrown_of (slotOf_handled _ _ _) he
      · exact Outcome.handled_crashed
      · exact Outcome.handled_diverged
    · exact Outcome.handled_crashed
  · rename_i e he
    exact Outcome.handled_thrown_of (requireClass_handled _ _) he
  · exact Outcome.handled_crashed
  · exact Outcome.handled_diverged

theorem codegenExpr_handled (cg : CodeGen) (e : Expr) (scope : Table ScopeVar)
    (expectedType : List Char) (hw : e.wellShaped = true) :
    (codegenExpr cg (some e) scope expectedType).Handled := by
  unfold codegenExpr
  split
  · exact Outcome.handled_ok _
  · exact Outcome.handled_ok _
  · split
    · exact Outcome.handled_errorOf _ _ _ _ _ rfl (by decide) (by decide)
    · exact Outcome.handled_ok _
  · split
    · split
      · exact Outcome.handled_ok _
      · exact Outcome.handled_crashed
    · rename_i e he
      exact Outcome.handled_thrown_of (requireClass_handled _ _) he
    · exact Outcome.handled_crashed
    · exact Outcome.handled_diverged
  · split
    · exact Outcome.handled_errorOf _ _ _ _ _ rfl (by decide) (by decide)
    · exact codegenVirtualCall_handled _ _ _ _ _
  · rename_i recv m loc hnot heq
    cases heq
    cases recv with
    | VarExpr n l => exact absurd rfl (hnot n l)
    | StringExpr _ _ => cases hw
    | IntExpr _ _ => cases hw
    | NewExpr _ _ => cases hw
    | MethodCallExpr _ _ _ => cases hw
  · rename_i heq
    cases heq

theorem codegenStmt_handled (cg : CodeGen) (s : Stmt) (scope : Table ScopeVar)
    (ret : List Char) (hw : s.wellShaped = true) : (codegenStmt cg s scope ret).Handled := by
  cases s with
  | ReturnStmt value loc =>
    cases value with
    | none => cases hw
    | some e =>
      unfold codegenStmt
      simp only
      split
      · exact Outcome.handled_ok _
      · rename_i e1 he
        exact Outcome.handled_thrown_of (codegenExpr_handled _ _ _ _ hw) he
      · exact Outcome.handled_crashed
      · exact Outcome.handled_diverged
  | PrintStmt value loc =>
    cases value with
    | none => cases hw
    | some e =>
      unfold codegenStmt
      simp only
      split
      · exact Outcome.handled_ok _
      · rename_i e1 he
        exact Outcome.handled_thrown_of (codegenExpr_handled _ _ _ _ hw) he
      · exact Outcome.handled_crashed
      · exact Outcome.handled_diverged
  | VarDeclStmt name type init loc =>
    cases init with
    | none => cases hw
    | some e =>
      have hwe : e.wellShaped = true := by
        cases e <;> first | rfl | cases hw
      unfold codegenStmt
      simp only
      split
      · exact Outcome.handled_ok _
      · rename_i e1 he
        exact Outcome.handled_thrown_of (codegenExpr_handled _ _ _ _ hwe) he
      · exact Outcome.handled_crashed
      · exact Outcome.handled_diverged

theorem codegenBody_handled : ∀ (body : List Stmt) (cg : CodeGen) (scope : Table ScopeVar)
    (ret : List Char), (∀ s ∈ body, s.wellShaped = true) → (codegenBody body cg scope ret).Handled
  | [], _, _, _, _ => Outcome.handled_ok _
  | s :: rest, cg, scope, ret, hw => by
    unfold codegenBody
    split
    · split
      · exact Outcome.handled_ok _
      · exact codegenBody_handled rest _ _ _ (fun x hx => hw x (List.mem_cons_of_mem _ hx))
    · rename_i e he
      exact Outcome.handled_thrown_of
        (codegenStmt_handled _ _ _ _ (hw s (List.mem_cons_self _ _))) he
    · exact Outcome.handled_crashed
    · exact Outcome.handled_diverged

theorem defineBody_handled (cg : CodeGen) (fn : List Char) (body : List Stmt) (ret : List Char)
    (hw : ∀ s ∈ body, s.wellShaped = true) : (defineBody cg fn body ret).Handled := by
  unfold defineBody
  split
  · exact Outcome.handled_ok _
  · rename_i e he
    exact Outcome.handled_thrown_of (codegenBody_handled _ _ _ _ hw) he
  · exact Outcome.handled_crashed
  · exact Outcome.handled_diverged

theorem defineMethods_handled (name : List Char) : ∀ (ms : List MethodDecl) (cg : CodeGen),
    (∀ m ∈ ms, ∀ s ∈ m.body, s.wellShaped = true) → (defineMethods name ms cg).Handled
  | [], _, _ => Outcome.handled_ok _
  | m :: rest, cg, hw => by
    unfold defineMethods
    split
    · exact Outcome.handled_ok _
    · split
      · exact Outcome.handled_crashed
      · simp only
        split
        · exact defineMethods_handled name rest _ (fun x hx => hw x (List.mem_cons_of_mem _ hx))
        · rename_i e he
          exact Outcome.handled_thrown_of
            (defineBody_handled _ _ _ _ (hw m (List.mem_cons_self _ _))) he
        · exact Outcome.handled_crashed
        · exact Outcome.handled_diverged

theorem astsShaped_of_same {t t1 : Table ClassInfo} (h : AstsShaped t) (hs : SameDecls t t1) :
    AstsShaped t1 := by
  intro k info hf
  obtain ⟨info0, hf0, hdecl⟩ := (Table.AgreeOn.symm_agree hs).find_some hf
  have hast : info0.ast = info.ast := congrArg (fun x => x.1) hdecl
  rw [← hast]
  exact h k info0 hf0

theorem defineClasses_handled : ∀ (ks : List (List Char)) (cg : CodeGen),
    AstsShaped cg.classes_ → (defineClasses ks cg).Handled
  | [], _, _ => Outcome.handled_ok _
  | k :: rest, cg, hw => by
    unfold defineClasses
    split
    · exact defineClasses_handled rest cg hw
    · rename_i info hinfo
      split
      · rename_i cg1 hm
        have hk : k ∈ Table.keys cg.classes_ := (Table.find_isSome _ _).1 ⟨_, hinfo⟩
        obtain ⟨m1, _⟩ := defineMethods_spec _ _ _ _ hm hk
        exact defineClasses_handled rest cg1 (astsShaped_of_same hw (agreeOn_proj Prod.fst m1))
      · rename_i e he
        exact Outcome.handled_thrown_of (defineMethods_handled _ _ _ (hw k info hinfo)) he
      · exact Outcome.handled_crashed
      · exact Outcome.handled_diverged

theorem defineFunctionsLoop_handled : ∀ (fs : List FunctionDecl) (cg : CodeGen),
    (∀ f ∈ fs, ∀ s ∈ f.body, s.wellShaped = true) → (defineFunctionsLoop fs cg).Handled
  | [], _, _ => Outcome.handled_ok _
  | f :: rest, cg, hw => by
    unfold defineFunctionsLoop
    simp only
    split
    · exact defineFunctionsLoop_handled rest _ (fun x hx => hw x (List.mem_cons_of_mem _ hx))
    · rename_i e he
      exact Outcome.handled_thrown_of
        (defineBody_handled _ _ _ _ (hw f (List.mem_cons_self _ _))) he
    · exact Outcome.handled_crashed
    · exact Outcome.handled_diverged

theorem lower_handled (p : Program) (moduleName : List Char) (hw : p.wellShaped = true) :
    (lower p moduleName).Handled := by
  unfold Program.wellShaped at hw
  simp only [Bool.and_eq_true, List.all_eq_true] at hw
  obtain ⟨hc, hf⟩ := hw
  unfold lower
  split
  · rename_i cg1 h1
    split
    · rename_i cg2 h2
      split
      · split
        · exact defineFunctionsLoop_handled _ _ hf
        · rename_i e he
          exact Outcome.handled_thrown_of (defineVTables_handled _) he
        · exact Outcome.handled_crashed
        · exact Outcome.handled_diverged
      · rename_i e he
        refine Outcome.handled_thrown_of (defineClasses_handled _ _ ?_) he
        obtain ⟨t1, _⟩ := declareTypes_spec h2
        refine astsShaped_of_same ?_ (agreeOn_proj Prod.fst t1)
        intro k info hfind m hm s hs
        obtain ⟨c, _, hcd, _, hast, _⟩ := entry_spec rfl h1 hfind
        rw [hast] at hm
        exact hc c (List.mem_of_find?_eq_some hcd) m hm s hs
      · exact Outcome.handled_crashed
      · exact Outcome.handled_diverged
    · rename_i e he
      exact Outcome.handled_thrown_of (declareTypes_handled _) he
    · exact Outcome.handled_crashed
    · exact Outcome.handled_diverged
  · rename_i e he
    exact Outcome.handled_thrown_of (computeClassLayouts_handled _ _) he
  · exact Outcome.handled_crashed
  · exact Outcome.handled_diverged

theorem generate_handled (verifyModule : Module → Option String) (p : Program)
    (moduleName : List Char) (hw : p.wellShaped = true) :
    (generate verifyModule p moduleName).Handled := by
  unfold generate
  split
  · split
    · rename_i err _
      intro e h
      cases h
      have : ("Invalid LLVM module generated: " ++ err) =
          String.mk ("Invalid LLVM module generated: ".toList ++ err.toList) := by
        apply String.ext
        simp
      rw [this]
      exact message_handled _ (take3_ne _ _ _ _ _ (by decide)) (take3_ne _ _ _ _ _ (by decide))
    · exact Outcome.handled_ok _
  · rename_i e he
    exact Outcome.handled_thrown_of (lower_handled p moduleName hw) he
  · exact Outcome.handled_crashed
  · exact Outcome.handled_diverged

end CodeGen

end

/-! ## Lemmas about parser progress, stoi and source snippets -/

theorem eofAhead_of_mem : ∀ (l : List Token), (∃ t ∈ l, t.kind = .Eof) → EofAhead l
  | [], ⟨_, ht, _⟩ => by cases ht
  | a :: l, ⟨t, ht, hk⟩ => by
    by_cases ha : a.kind = .Eof
    · exact ⟨[], a, l, rfl, ha, fun _ h => by cases h⟩
    · have hl : ∃ t ∈ l, t.kind = .Eof := by
        rcases List.mem_cons.1 ht with rfl | h
        · exact absurd hk ha
        · exact ⟨t, h, hk⟩
      obtain ⟨seg, eof, tail, e, he, hs⟩ := eofAhead_of_mem l hl
      refine ⟨a :: seg, eof, tail, by rw [e]; rfl, he, ?_⟩
      intro x hx
      rcases List.mem_cons.1 hx with rfl | h
      · exact ha
      · exact hs x h

theorem eofAhead_of_getLast (tokens : List Token) (hne : tokens ≠ [])
    (hlast : (tokens.getLast hne).kind = .Eof) : EofAhead tokens :=
  eofAhead_of_mem tokens ⟨_, List.getLast_mem hne, hlast⟩

namespace Parser

theorem Eats.advances {α : Type} {m : PM α} (hm : Eats m (fun _ _ s => s ≠ [])) {P P2 : Parser}
    {a : α} (hL : Live P) (h : m P = .ok a P2) :
    P.pos < P2.pos ∧ P2.tokens = P.tokens ∧ Live P2 := by
  obtain ⟨seg, r, _, hP, hL2, _, hne⟩ := hm P a P2 hL h
  subst hP
  refine ⟨?_, rfl, hL2⟩
  have : 0 < seg.length := List.length_pos.2 hne
  show P.pos < P.pos + seg.length
  omega

theorem getLastD_of_ne : ∀ (l : List Token) (hne : l ≠ []) (d : Token),
    l.getLastD d = l.getLast hne
  | [], h, _ => absurd rfl h
  | _ :: _, _, _ => rfl

theorem peek_clamped (P : Parser) (i : Nat) (hne : P.tokens ≠ [])
    (h : P.tokens.length ≤ P.pos + i) : P.peek i = P.tokens.getLast hne := by
  unfold peek
  rw [if_pos h]
  exact getLastD_of_ne P.tokens hne _

theorem digitsValue_cast : ∀ (r : List Char), (∀ c ∈ r, isdigit c = true) →
    r.foldr (fun (c : Char) (acc : Int) => 10 * acc + ((c.toNat : Int) - 48)) 0 =
      ((specDigitsValue (r.map (fun c => c.toNat - 48)) : Nat) : Int)
  | [], _ => rfl
  | c :: r, h => by
    have hc : 48 ≤ c.toNat := by
      have := h c (List.mem_cons_self _ _)
      unfold isdigit at this
      simp only [Bool.and_eq_true, decide_eq_true_eq] at this
      exact this.1
    rw [List.foldr_cons, digitsValue_cast r (fun x hx => h x (List.mem_cons_of_mem _ hx))]
    simp only [List.map_cons, specDigitsValue]
    push_cast [Nat.cast_sub hc]
    ring

theorem stoi_digits (s : List Char) (hne : s ≠ []) (hd : ∀ c ∈ s, isdigit c = true) :
    stoi s = if specDecimalValue s ≤ 2147483647 then .ok (specDecimalValue s : Int)
      else .error (.out_of_range "stoi") := by
  obtain ⟨c, t, rfl⟩ := List.exists_cons_of_ne_nil hne
  have hc := hd c (List.mem_cons_self _ _)
  have hsp : isspace c = false := by
    unfold isdigit at hc
    unfold isspace
    simp only [Bool.and_eq_true, decide_eq_true_eq] at hc
    simp only [Bool.or_eq_false_iff, decide_eq_false_iff_not, Bool.and_eq_false_imp,
      decide_eq_true_eq]
    omega
  have hm : c ≠ '-' := by
    rintro rfl
    revert hc
    decide
  have hp : c ≠ '+' := by
    rintro rfl
    revert hc
    decide
  have htw : (c :: t).takeWhile isdigit = c :: t :=
    List.takeWhile_eq_self_iff.2 hd
  have hv : (c :: t).foldl (fun (acc : Int) (c : Char) => 10 * acc + ((c.toNat : Int) - 48)) 0 =
      ((specDecimalValue (c :: t) : Nat) : Int) := by
    rw [← List.foldr_reverse]
    exact digitsValue_cast _ (fun x hx => hd x (List.mem_reverse.1 hx))
  unfold stoi
  simp only [List.dropWhile_cons, hsp, Bool.false_eq_true, if_false, List.head?_cons,
    Option.some.injEq, hm, hp, or_self, htw, hv, decide_False]
  have : ¬ ((specDecimalValue (c :: t) : Int) < -2147483648) := by omega
  by_cases hle : specDecimalValue (c :: t) ≤ 2147483647
  · rw [if_pos hle]
    simp
    omega
  · rw [if_neg hle]
    simp
    omega

end Parser

theorem getlines_spec : ∀ (text cur : List Char), '\n' ∉ cur →
    (∀ l ∈ getlines text cur, '\n' ∉ l) ∧
    (cur ++ text = specJoinLines (getlines text cur) ∨
      (cur ++ text ++ ['\n'] = specJoinLines (getlines text cur) ∧
        ∃ l, (getlines text cur).getLast? = some l ∧ l ≠ []))
  | [], cur, hcur => by
    unfold getlines
    by_cases h : cur = []
    · subst h
      simp [specJoinLines]
    · rw [if_neg h]
      refine ⟨?_, Or.inr ⟨by simp [specJoinLines], cur, rfl, h⟩⟩
      intro l hl
      rw [List.mem_singleton.1 hl]
      exact hcur
  | c :: rest, cur, hcur => by
    unfold getlines
    by_cases h : c = '\n'
    · subst h
      rw [if_pos rfl]
      obtain ⟨h1, h2⟩ := getlines_spec rest [] (by simp)
      refine ⟨?_, ?_⟩
      · intro l hl
        rcases List.mem_cons.1 hl with rfl | hl
        · exact hcur
        · exact h1 l hl
      · rcases h2 with h2 | ⟨h2, l, hl, hne⟩
        · left
          simp only [List.nil_append] at h2
          simp only [specJoinLines, List.map_cons, List.flatten_cons] at h2 ⊢
          rw [← h2]
          simp
        · right
          simp only [List.nil_append] at h2
          refine ⟨?_, l, ?_, hne⟩
          · simp only [specJoinLines, List.map_cons, List.flatten_cons] at h2 ⊢
            rw [← h2]
            simp
          · cases hg : getlines rest [] with
            | nil => rw [hg] at hl; cases hl
            | cons a t =>
              rw [hg] at hl
              rw [List.getLast?_cons_cons]
              exact hl
    · rw [if_neg h]
      have hcur2 : '\n' ∉ cur ++ [c] := by
        intro hm
        rcases List.mem_append.1 hm with hm | hm
        · exact hcur hm
        · exact h (List.mem_singleton.1 hm).symm
      obtain ⟨h1, h2⟩ := getlines_spec rest (cur ++ [c]) hcur2
      refine ⟨h1, ?_⟩
      have e : cur ++ c :: rest = cur ++ [c] ++ rest := by simp
      rw [e]
      exact h2

theorem srcSnippet_eq_spec (si : SourceInfo) (rng : SourceRange)
    (h : rng.start.line = 0 ∨ si.sourceLines_.length < rng.start.line ∨
      rng.start.column - 1 < (si.sourceLines_.getD (rng.start.line - 1) []).length ∨
      si.sourceLines_.getD (rng.start.line - 1) [] = []) :
    srcSnippet si rng = specSnippet si.sourceLines_ rng := by
  unfold srcSnippet specSnippet
  by_cases h1 : rng.start.line = 0 ∨ si.sourceLines_.length < rng.start.line
  · rw [if_pos h1, if_pos (by omega)]
  · rw [if_neg h1, if_neg (by omega)]
    have hcol : (if rng.start.column > 0 then rng.start.column - 1 else 0) =
        rng.start.column - 1 := by
      split <;> omega
    simp only [hcol]
    rcases h with h | h | h | h
    · exact absurd (Or.inl h) h1
    · exact absurd (Or.inr h) h1
    · rw [if_neg (by omega)]
      congr 1
      split
      · rfl
      · rw [List.take_of_length_le (by omega)]
    · rw [h]
      simp

theorem specSnippet_length (lines : List (List Char)) (rng : SourceRange) :
    (specSnippet lines rng).length ≤ 80 := by
  unfold specSnippet
  split
  · simp
  · rw [List.length_map, List.length_take]
    omega

/-! ## Lemmas about the symbols of the module -/

section
open CodeGen

namespace Module

theorem Persists.refl_persists (m : Module) : Persists m m := fun f hf => ⟨f, hf, rfl, rfl⟩

theorem Persists.trans_persists {a b c : Module} (h1 : Persists a b) (h2 : Persists b c) :
    Persists a c := by
  intro f hf
  obtain ⟨f1, hf1, n1, t1⟩ := h1 f hf
  obtain ⟨f2, hf2, n2, t2⟩ := h2 f1 hf1
  exact ⟨f2, hf2, n2.trans n1, t2.trans t1⟩

theorem Evolves.refl_evolves (m : Module) : Evolves m m :=
  ⟨id, Persists.refl_persists m, id, rfl⟩

theorem Evolves.trans_evolves {a b c : Module} (h1 : Evolves a b) (h2 : Evolves b c) :
    Evolves a c :=
  ⟨fun h => h2.1 (h1.1 h), h1.2.1.trans_persists h2.2.1, fun h => h2.2.2.1 (h1.2.2.1 h),
    h2.2.2.2.trans h1.2.2.2⟩

theorem Evolves.evolves_of_same {m m1 : Module} (hf : m1.functions = m.functions)
    (hg : m1.globals = m.globals) : Evolves m m1 := by
  refine ⟨?_, ?_, ?_, hg⟩
  · rintro ⟨h1, h2, h3⟩
    exact ⟨by rw [hf]; exact h1, by rw [hg]; exact h2, by rw [hf]; exact h3⟩
  · intro f h
    exact ⟨f, by rw [hf]; exact h, rfl, rfl⟩
  · intro h f hfm
    rw [hf] at hfm
    exact h f hfm

theorem makeUniqueName_dotted (base : List Char) : ∀ (fuel : Nat) (m : Module),
    '.' ∈ (m.makeUniqueName fuel base).1
  | 0, m => by
    unfold makeUniqueName
    exact List.mem_append_right _ (List.mem_cons_self _ _)
  | fuel + 1, m => by
    unfold makeUniqueName
    simp only
    split
    · exact makeUniqueName_dotted base fuel _
    · exact List.mem_append_right _ (List.mem_cons_self _ _)

theorem taken_iff (m : Module) (n : List Char) :
    m.taken n = true ↔ (∃ f ∈ m.functions, f.name = n) ∨ (∃ g ∈ m.globals, g.name = n) := by
  unfold taken
  simp [List.any_eq_true]

theorem nameFor_cases (m : Module) (requested : List Char) :
    ((m.nameFor requested).1 = requested ∧ m.taken requested = false) ∨
    (m.taken requested = true ∧ '.' ∈ (m.nameFor requested).1) := by
  unfold nameFor
  cases h : m.taken requested
  · left
    simp
  · right
    simp only [if_true]
    exact ⟨trivial, makeUniqueName_dotted _ _ _⟩

theorem nameFor_dotted (m : Module) (requested : List Char) (h : '.' ∈ requested) :
    '.' ∈ (m.nameFor requested).1 := by
  rcases nameFor_cases m requested with ⟨h1, _⟩ | ⟨_, h2⟩
  · rw [h1]; exact h
  · exact h2

theorem createFunction_name (m : Module) (ty : Ty) (requested : List Char) :
    (m.createFunction ty requested).1 = (m.nameFor requested).1 := rfl

theorem createGlobal_name (m : Module) (ty : Ty) (c : Bool) (init : Initializer)
    (requested : List Char) :
    (m.createGlobal ty c init requested).1 = (m.nameFor requested).1 := rfl

theorem not_dotted_puts : '.' ∉ "puts".toList := by decide

theorem countP_puts_append (fs : List Function) (f : Function) :
    (fs ++ [f]).countP (fun f => decide (f.name = "puts".toList)) =
      fs.countP (fun f => decide (f.name = "puts".toList)) +
        if f.name = "puts".toList then 1 else 0 := by
  rw [List.countP_append]
  simp [List.countP_cons]

/-- A new function under a name that is not `puts`. -/
theorem Evolves.createFunction_other (m : Module) (ty : Ty) (requested : List Char)
    (hne : (m.createFunction ty requested).1 ≠ "puts".toList)
    (hty : '.' ∉ (m.createFunction ty requested).1 → ty.noParams = true) :
    (m.WellNamed → (m.createFunction ty requested).2.WellNamed) ∧
    Persists m (m.createFunction ty requested).2 ∧
    (m.createFunction ty requested).2.globals = m.globals ∧
    (ty.onePointerParam = true → m.AllOnePointer →
      (m.createFunction ty requested).2.AllOnePointer) := by
  obtain ⟨h1, h2, _, _⟩ := createFunction_fields m ty requested
  refine ⟨?_, ?_, h2, ?_⟩
  · rintro ⟨w1, w2, w3⟩
    refine ⟨?_, by rw [h2]; exact w2, ?_⟩
    · intro f hf
      rw [h1] at hf
      rcases List.mem_append.1 hf with hf | hf
      · exact w1 f hf
      · rw [List.mem_singleton.1 hf]
        exact ⟨fun hp => absurd hp hne, fun hd _ => hty hd⟩
    · rw [h1, countP_puts_append]
      simp only [hne, if_false]
      exact w3
  · intro f hf
    exact ⟨f, by rw [h1]; exact List.mem_append_left _ hf, rfl, rfl⟩
  · intro hone ha f hf
    rw [h1] at hf
    rcases List.mem_append.1 hf with hf | hf
    · exact ha f hf
    · rw [List.mem_singleton.1 hf]
      exact hone

theorem getFunction_none (m : Module) (n : List Char) (h : m.getFunction n = none) :
    ∀ f ∈ m.functions, f.name ≠ n := by
  unfold getFunction at h
  intro f hf hn
  have := List.find?_eq_none.1 h f hf
  simp [hn] at this

theorem getFunction_some (m : Module) (n : List Char) (f : Function)
    (h : m.getFunction n = some f) : f ∈ m.functions ∧ f.name = n := by
  unfold getFunction at h
  refine ⟨List.mem_of_find?_eq_some h, ?_⟩
  have := List.find?_some h
  simpa using this

theorem setEntry_evolves (m : Module) (fn : List Char) (instrs : List Instr)
    (hne : fn ≠ "puts".toList) : Evolves m (m.setEntry fn instrs) := by
  have hmem : ∀ f1 ∈ (m.setEntry fn instrs).functions, ∃ f ∈ m.functions,
      f1.name = f.name ∧ f1.type = f.type ∧ (f.name ≠ fn → f1 = f) := by
    intro f1 hf1
    unfold setEntry at hf1
    simp only at hf1
    obtain ⟨f, hf, rfl⟩ := List.mem_map.1 hf1
    refine ⟨f, hf, ?_⟩
    by_cases hn : f.name = fn
    · rw [if_pos hn]
      exact ⟨rfl, rfl, fun h => absurd hn h⟩
    · rw [if_neg hn]
      exact ⟨rfl, rfl, fun _ => rfl⟩
  refine ⟨?_, ?_, ?_, rfl⟩
  · rintro ⟨w1, w2, w3⟩
    refine ⟨?_, w2, ?_⟩
    · intro f1 hf1
      obtain ⟨f, hf, hn, ht, heq⟩ := hmem f1 hf1
      refine ⟨?_, ?_⟩
      · intro hp
        have hfp : f.name = "puts".toList := by rw [← hn]; exact hp
        have := heq (by rw [hfp]; exact fun h => hne h.symm)
        rw [this]
        exact (w1 f hf).1 hfp
      · intro hd hp
        rw [ht]
        exact (w1 f hf).2 (by rw [← hn]; exact hd) (by rw [← hn]; exact hp)
    · have : (m.setEntry fn instrs).functions.countP (fun f => decide (f.name = "puts".toList)) =
          m.functions.countP (fun f => decide (f.name = "puts".toList)) := by
        unfold setEntry
        simp only
        rw [List.countP_map]
        congr 1
        funext f
        simp only [Function.comp]
        by_cases hn : f.name = fn
        · simp only [hn, if_true]
        · simp only [hn, if_false]
      rw [this]
      exact w3
  · intro f hf
    unfold setEntry
    simp only
    refine ⟨_, List.mem_map_of_mem _ hf, ?_⟩
    by_cases hn : f.name = fn
    · rw [if_pos hn]
      exact ⟨rfl, rfl⟩
    · rw [if_neg hn]
      exact ⟨rfl, rfl⟩
  · intro ha f1 hf1
    obtain ⟨f, hf, _, ht, _⟩ := hmem f1 hf1
    rw [ht]
    exact ha f hf

end Module

namespace CodeGen

theorem getOrDeclarePuts_evolves (cg : CodeGen) :
    Module.Evolves cg.module_ cg.getOrDeclarePuts.2.module_ ∧
    ∃ f ∈ cg.getOrDeclarePuts.2.module_.functions,
      (cg.module_.WellNamed → f.name = "puts".toList) := by
  unfold getOrDeclarePuts
  cases h : cg.module_.getFunction "puts".toList with
  | some f =>
    simp only
    obtain ⟨hf, hn⟩ := Module.getFunction_some _ _ _ h
    exact ⟨Module.Evolves.refl_evolves _, f, hf, fun _ => hn⟩
  | none =>
    simp only
    have hno := Module.getFunction_none _ _ h
    obtain ⟨h1, h2, _, _⟩ := createFunction_fields cg.module_ (.func tyI32 [tyI8Ptr])
      "puts".toList
    have hname : cg.module_.WellNamed →
        (cg.module_.createFunction (.func tyI32 [tyI8Ptr]) "puts".toList).1 = "puts".toList := by
      rintro ⟨_, w2, _⟩
      rcases Module.nameFor_cases cg.module_ "puts".toList with ⟨e, _⟩ | ⟨ht, _⟩
      · exact e
      · exfalso
        rcases (Module.taken_iff _ _).1 ht with ⟨f, hf, hn⟩ | ⟨g, hg, hn⟩
        · exact hno f hf hn
        · have := (w2 g hg).1
          rw [hn] at this
          exact Module.not_dotted_puts this
    refine ⟨⟨?_, ?_, ?_, h2⟩, _, by rw [h1]; exact List.mem_append_right _ (List.mem_singleton.2 rfl),
      hname⟩
    · intro hw
      have hn := hname hw
      obtain ⟨w1, w2, w3⟩ := hw
      refine ⟨?_, by rw [h2]; exact w2, ?_⟩
      · intro f hf
        rw [h1] at hf
        rcases List.mem_append.1 hf with hf | hf
        · exact w1 f hf
        · rw [List.mem_singleton.1 hf]
          exact ⟨fun _ => ⟨rfl, rfl⟩, fun _ hp => absurd hn hp⟩
      · rw [h1, Module.countP_puts_append]
        have h0 : cg.module_.functions.countP (fun f => decide (f.name = "puts".toList)) = 0 := by
          rw [List.countP_eq_zero]
          intro f hf
          simpa using hno f hf
        rw [h0]
        split <;> omega
    · intro f hf
      exact ⟨f, by rw [h1]; exact List.mem_append_left _ hf, rfl, rfl⟩
    · intro ha f hf
      rw [h1] at hf
      rcases List.mem_append.1 hf with hf | hf
      · exact ha f hf
      · rw [List.mem_singleton.1 hf]
        rfl

theorem codegenExpr_evolves {cg cg1 : CodeGen} {e : Option Expr} {scope : Table ScopeVar}
    {t : List Char} {v : Value} (h : codegenExpr cg e scope t = .ok (v, cg1)) :
    Module.Evolves cg.module_ cg1.module_ := by
  obtain ⟨k, _, hf, _, _⟩ := codegenExpr_extends h
  exact Module.Evolves.evolves_of_same hf k.2.1

theorem codegenStmt_evolves {cg cg1 : CodeGen} {s : Stmt} {scope scope1 : Table ScopeVar}
    {ret : List Char} (h : codegenStmt cg s scope ret = .ok (scope1, cg1)) :
    Module.Evolves cg.module_ cg1.module_ := by
  cases s with
  | ReturnStmt value loc =>
    simp only [codegenStmt] at h
    split at h
    · rename_i v cg2 he
      simp only [Outcome.ok.injEq, Prod.mk.injEq] at h
      obtain ⟨_, rfl⟩ := h
      have e := codegenExpr_evolves he
      exact e
    all_goals cases h
  | PrintStmt value loc =>
    simp only [codegenStmt] at h
    split at h
    · rename_i v cg2 he
      simp only [Outcome.ok.injEq, Prod.mk.injEq] at h
      obtain ⟨_, rfl⟩ := h
      exact (codegenExpr_evolves he).trans_evolves (getOrDeclarePuts_evolves cg2).1
    all_goals cases h
  | VarDeclStmt name type init loc =>
    simp only [codegenStmt] at h
    split at h
    · rename_i v cg2 he
      simp only [Outcome.ok.injEq, Prod.mk.injEq] at h
      obtain ⟨_, rfl⟩ := h
      have e := codegenExpr_evolves he
      exact e
    all_goals cases h

theorem codegenBody_evolves : ∀ (stmts : List Stmt) (cg cg1 : CodeGen) (scope : Table ScopeVar)
    (ret : List Char), codegenBody stmts cg scope ret = .ok cg1 →
    Module.Evolves cg.module_ cg1.module_
  | [], cg, cg1, scope, ret, h => by
    cases h
    exact Module.Evolves.refl_evolves _
  | s :: rest, cg, cg1, scope, ret, h => by
    obtain ⟨scope1, cg2, hs, hcase⟩ := codegenBody_cons_ok h
    have e1 := codegenStmt_evolves hs
    rcases hcase with ⟨_, rfl⟩ | ⟨_, hrest⟩
    · exact e1
    · exact e1.trans_evolves (codegenBody_evolves rest cg2 cg1 scope1 ret hrest)

theorem defineBody_evolves {cg cg1 : CodeGen} {fn : List Char} {body : List Stmt}
    {ret : List Char} (hne : fn ≠ "puts".toList) (h : defineBody cg fn body ret = .ok cg1) :
    Module.Evolves cg.module_ cg1.module_ := by
  obtain ⟨cg2, instrs, v, hb, _, _, hm, _⟩ := defineBody_ok h
  have e1 := codegenBody_evolves _ _ _ _ _ hb
  rw [hm]
  exact Module.Evolves.trans_evolves e1 (Module.setEntry_evolves _ _ _ hne)

/-- The method function: created under a name with a `.`, and after it a
function of the requested name that takes one pointer exists. -/
theorem declareMethod_symbols (cg : CodeGen) (name : List Char) (info : ClassInfo) (classTy : Ty)
    (m : MethodDecl) :
    Module.Evolves cg.module_ (cg.declareMethod name info classTy m).2.module_ ∧
    (cg.declareMethod name info classTy m).1 ≠ "puts".toList ∧
    (cg.module_.AllOnePointer → cg.module_.globals = [] →
      ∃ f ∈ (cg.declareMethod name info classTy m).2.module_.functions,
        f.name = info.name ++ '.' :: m.name ∧ f.type.onePointerParam = true) := by
  have hreq : '.' ∈ info.name ++ '.' :: m.name :=
    List.mem_append_right _ (List.mem_cons_self _ _)
  have hd : '.' ∈ (cg.declareMethod name info classTy m).1 :=
    Module.nameFor_dotted _ _ hreq
  have hne : (cg.declareMethod name info classTy m).1 ≠ "puts".toList := by
    intro h
    rw [h] at hd
    exact Module.not_dotted_puts hd
  obtain ⟨h1, _, _, _⟩ := createFunction_fields cg.module_
    (methodFnTy m.returnType.name classTy) (info.name ++ '.' :: m.name)
  obtain ⟨c1, c2, c3, c4⟩ := Module.Evolves.createFunction_other cg.module_
    (methodFnTy m.returnType.name classTy) (info.name ++ '.' :: m.name) hne
    (fun h => absurd hd h)
  refine ⟨⟨c1, c2, c4 rfl, c3⟩, hne, ?_⟩
  intro ha hg
  show ∃ f ∈ (cg.module_.createFunction (methodFnTy m.returnType.name classTy)
    (info.name ++ '.' :: m.name)).2.functions, _
  rw [h1]
  rcases Module.nameFor_cases cg.module_ (info.name ++ '.' :: m.name) with ⟨e, _⟩ | ⟨ht, _⟩
  · exact ⟨_, List.mem_append_right _ (List.mem_singleton.2 rfl), e, rfl⟩
  · rcases (Module.taken_iff _ _).1 ht with ⟨f, hf, hn⟩ | ⟨g, hg2, _⟩
    · exact ⟨f, List.mem_append_left _ hf, hn, ha f hf⟩
    · rw [hg] at hg2
      cases hg2

/-- What the loop over the methods of a class does to the symbols. -/
theorem defineMethods_symbols : ∀ (ms : List MethodDecl) (name : List Char) (cg cg1 : CodeGen),
    defineMethods name ms cg = .ok cg1 → name ∈ Table.keys cg.classes_ →
    Module.Evolves cg.module_ cg1.module_ ∧
    (cg.module_.AllOnePointer → cg.module_.globals = [] →
      ∀ info, Table.find cg.classes_ name = some info → ∀ m ∈ ms,
        ∃ f ∈ cg1.module_.functions, f.name = info.name ++ '.' :: m.name ∧
          f.type.onePointerParam = true)
  | [], name, cg, cg1, h, _ => by
    cases h
    exact ⟨Module.Evolves.refl_evolves _, fun _ _ _ _ _ hm => by cases hm⟩
  | m :: rest, name, cg, cg1, h, hk => by
    obtain ⟨info, classTy, cg2, hinfo, hc, hb, hrest⟩ := defineMethods_cons_ok h hk
    obtain ⟨d1, d2, d3⟩ := declareMethod_symbols cg name info classTy m
    have e2 := defineBody_evolves d2 hb
    have hk2 : name ∈ Table.keys cg2.classes_ := by
      rw [(defineBody_frame hb).1, (declareMethod_fields cg name info classTy m).1,
        Table.keys_modify]
      exact hk
    obtain ⟨r1, r2⟩ := defineMethods_symbols rest name cg2 cg1 hrest hk2
    have e12 := d1.trans_evolves e2
    refine ⟨e12.trans_evolves r1, ?_⟩
    intro ha hg info0 hinfo0 m0 hm0
    rw [hinfo] at hinfo0
    cases hinfo0
    rcases List.mem_cons.1 hm0 with rfl | hm0
    · obtain ⟨f, hf, hn, ht⟩ := d3 ha hg
      obtain ⟨f1, hf1, n1, t1⟩ := (e2.trans_evolves r1).2.1 f hf
      exact ⟨f1, hf1, n1.trans hn, by rw [t1]; exact ht⟩
    · have hinfo2 : ∃ info2, Table.find cg2.classes_ name = some info2 ∧ info2.name = info.name := by
        rw [(defineBody_frame hb).1, (declareMethod_fields cg name info classTy m).1,
          Table.find_modify, hinfo]
        simp [ClassInfo.withMethod]
      obtain ⟨info2, hi2, hn2⟩ := hinfo2
      have := r2 (e12.2.2.1 ha) (by rw [e12.2.2.2]; exact hg) info2 hi2 m0 hm0
      rw [hn2] at this
      exact this

/-- What the loop over the classes in `declareAndDefineMethods` does to the
symbols. -/
theorem defineClasses_symbols : ∀ (ks : List (List Char)) (cg cg1 : CodeGen),
    defineClasses ks cg = .ok cg1 → ks.Nodup → (∀ k ∈ ks, k ∈ Table.keys cg.classes_) →
    Module.Evolves cg.module_ cg1.module_ ∧
    (cg.module_.AllOnePointer → cg.module_.globals = [] →
      ∀ k ∈ ks, ∀ info, Table.find cg.classes_ k = some info → ∀ m ∈ info.ast.methods,
        ∃ f ∈ cg1.module_.functions, f.name = info.name ++ '.' :: m.name ∧
          f.type.onePointerParam = true)
  | [], cg, cg1, h, _, _ => by
    cases h
    exact ⟨Module.Evolves.refl_evolves _, fun _ _ _ hk => by cases hk⟩
  | k :: rest, cg, cg1, h, hnd, hks => by
    have hk := hks k (List.mem_cons_self _ _)
    obtain ⟨info, cg2, hinfo, hm, hrest⟩ := defineClasses_cons_ok h hk
    obtain ⟨m1, m2⟩ := defineMethods_symbols _ _ _ _ hm hk
    obtain ⟨_, s2, _⟩ := defineMethods_spec _ _ _ _ hm hk
    have mk := defineMethods_keys _ _ _ _ hm
    obtain ⟨hkn, hnd2⟩ := List.nodup_cons.1 hnd
    have hks2 : ∀ k2 ∈ rest, k2 ∈ Table.keys cg2.classes_ := by
      intro k2 hk2
      rw [mk]
      exact hks k2 (List.mem_cons_of_mem _ hk2)
    obtain ⟨r1, r2⟩ := defineClasses_symbols rest cg2 cg1 hrest hnd2 hks2
    refine ⟨m1.trans_evolves r1, ?_⟩
    intro ha hg k0 hk0 info0 hinfo0 m0 hm0
    rcases List.mem_cons.1 hk0 with rfl | hk0
    · rw [hinfo] at hinfo0
      cases hinfo0
      obtain ⟨f, hf, hn, ht⟩ := m2 ha hg info hinfo m0 hm0
      obtain ⟨f1, hf1, n1, t1⟩ := r1.2.1 f hf
      exact ⟨f1, hf1, n1.trans hn, by rw [t1]; exact ht⟩
    · have hne : k0 ≠ k := fun e => hkn (e ▸ hk0)
      have hfind : Table.find cg2.classes_ k0 = some info0 := by
        rw [s2 k0 hne]
        exact hinfo0
      exact r2 (m1.2.2.1 ha) (by rw [m1.2.2.2]; exact hg) k0 hk0 info0 hfind m0 hm0

/-- The vtable global of one class: the symbols stay well named, and the
module has a constant global of the requested name unless a function has it. -/
theorem defineVTable_symbols (cg : CodeGen) (k : List Char) (vt : Ty) (elems : List Value)
    (hw : cg.module_.WellNamed) :
    (cg.defineVTable k vt elems).module_.WellNamed ∧
    (cg.defineVTable k vt elems).module_.functions = cg.module_.functions ∧
    (∀ g ∈ cg.module_.globals, g ∈ (cg.defineVTable k vt elems).module_.globals) ∧
    ((∃ g ∈ (cg.defineVTable k vt elems).module_.globals,
        g.name = "vtable.".toList ++ k ∧ g.isConstant = true) ∨
      (∃ f ∈ cg.module_.functions, f.name = "vtable.".toList ++ k)) := by
  obtain ⟨h1, h2, _, _⟩ := createGlobal_fields cg.module_ vt true
    (if elems.isEmpty then Initializer.undef vt else Initializer.struct vt elems)
    ("vtable.".toList ++ k)
  have hreq : '.' ∈ "vtable.".toList ++ k := List.mem_append_left _ (by decide)
  have hd := Module.nameFor_dotted cg.module_ _ hreq
  obtain ⟨w1, w2, w3⟩ := hw
  have hmod : (cg.defineVTable k vt elems).module_ = (cg.module_.createGlobal vt true
    (if elems.isEmpty then Initializer.undef vt else Initializer.struct vt elems)
    ("vtable.".toList ++ k)).2 := rfl
  rw [hmod]
  refine ⟨⟨by rw [h2]; exact w1, ?_, by rw [h2]; exact w3⟩, h2, ?_, ?_⟩
  · intro g hg
    rw [h1] at hg
    rcases List.mem_append.1 hg with hg | hg
    · exact w2 g hg
    · rw [List.mem_singleton.1 hg]
      exact ⟨hd, rfl⟩
  · intro g hg
    rw [h1]
    exact List.mem_append_left _ hg
  · rcases Module.nameFor_cases cg.module_ ("vtable.".toList ++ k) with ⟨e, _⟩ | ⟨ht, _⟩
    · left
      exact ⟨_, by rw [h1]; exact List.mem_append_right _ (List.mem_singleton.2 rfl), e, rfl⟩
    · rcases (Module.taken_iff _ _).1 ht with ⟨f, hf, hn⟩ | ⟨g, hg, hn⟩
      · right
        exact ⟨f, hf, hn⟩
      · left
        exact ⟨g, by rw [h1]; exact List.mem_append_left _ hg, hn, (w2 g hg).2⟩

/-- What the loop of `defineVTables` does to the symbols. -/
theorem defineVTablesLoop_symbols : ∀ (ks : List (List Char)) (cg cg1 : CodeGen),
    defineVTablesLoop ks cg = .ok cg1 → (∀ k ∈ ks, k ∈ Table.keys cg.classes_) →
    cg.module_.WellNamed →
    cg1.module_.WellNamed ∧ cg1.module_.functions = cg.module_.functions ∧
    (∀ g ∈ cg.module_.globals, g ∈ cg1.module_.globals) ∧
    ∀ k ∈ ks, (∃ g ∈ cg1.module_.globals, g.name = "vtable.".toList ++ k ∧ g.isConstant = true) ∨
      (∃ f ∈ cg1.module_.functions, f.name = "vtable.".toList ++ k)
  | [], cg, cg1, h, _, hw => by
    cases h
    exact ⟨hw, rfl, fun _ hg => hg, fun _ hk => by cases hk⟩
  | k :: rest, cg, cg1, h, hks, hw => by
    have hk := hks k (List.mem_cons_self _ _)
    obtain ⟨info, elems, vt, hinfo, he, hv, hrest⟩ := defineVTablesLoop_cons_ok h hk
    obtain ⟨v1, v2, v3, v4⟩ := defineVTable_symbols cg k vt elems hw
    have hkeys2 : Table.keys (cg.defineVTable k vt elems).classes_ = Table.keys cg.classes_ := by
      obtain ⟨g, _, _, _, _, g5, _⟩ := defineVTable_fields cg k vt elems
      rw [g5, Table.keys_modify]
    have hks2 : ∀ k2 ∈ rest, k2 ∈ Table.keys (cg.defineVTable k vt elems).classes_ := by
      intro k2 hk2
      rw [hkeys2]
      exact hks k2 (List.mem_cons_of_mem _ hk2)
    obtain ⟨r1, r2, r3, r4⟩ := defineVTablesLoop_symbols rest _ cg1 hrest hks2 v1
    refine ⟨r1, r2.trans v2, fun g hg => r3 g (v3 g hg), ?_⟩
    intro k0 hk0
    rcases List.mem_cons.1 hk0 with rfl | hk0
    · rcases v4 with ⟨g, hg, hn, hc⟩ | ⟨f, hf, hn⟩
      · exact Or.inl ⟨g, r3 g hg, hn, hc⟩
      · exact Or.inr ⟨f, by rw [r2, v2]; exact hf, hn⟩
    · exact r4 k0 hk0

/-- The function of a free function: created under a name other than `puts`,
and after it a function without parameters has the requested name when that name
holds no `.` and is not `puts`. -/
theorem declareFunction_symbols (cg : CodeGen) (f : FunctionDecl) (hw : cg.module_.WellNamed)
    (hp : ∃ g ∈ cg.module_.functions, g.name = "puts".toList) :
    (cg.declareFunction f).2.module_.WellNamed ∧
    Module.Persists cg.module_ (cg.declareFunction f).2.module_ ∧
    (cg.declareFunction f).2.module_.globals = cg.module_.globals ∧
    (cg.declareFunction f).1 ≠ "puts".toList ∧
    ('.' ∉ f.name → f.name ≠ "puts".toList →
      ∃ g ∈ (cg.declareFunction f).2.module_.functions, g.name = f.name ∧
        g.type.noParams = true) := by
  have hne : (cg.declareFunction f).1 ≠ "puts".toList := by
    show (cg.module_.nameFor f.name).1 ≠ _
    rcases Module.nameFor_cases cg.module_ f.name with ⟨e, ht⟩ | ⟨_, hd⟩
    · rw [e]
      intro hfn
      have : cg.module_.taken f.name = true := by
        rw [hfn]
        exact (Module.taken_iff _ _).2 (Or.inl hp)
      rw [ht] at this
      cases this
    · intro hfn
      rw [hfn] at hd
      exact Module.not_dotted_puts hd
  have hev := Module.Evolves.createFunction_other cg.module_
    (.func (retTypeFor f.returnType.name) []) f.name hne (fun _ => rfl)
  obtain ⟨h1, _, _, _⟩ := createFunction_fields cg.module_
    (.func (retTypeFor f.returnType.name) []) f.name
  refine ⟨hev.1 hw, hev.2.1, hev.2.2.1, hne, ?_⟩
  intro hd hnp
  show ∃ g ∈ (cg.module_.createFunction (.func (retTypeFor f.returnType.name) [])
    f.name).2.functions, _
  rw [h1]
  rcases Module.nameFor_cases cg.module_ f.name with ⟨e, _⟩ | ⟨ht, _⟩
  · exact ⟨_, List.mem_append_right _ (List.mem_singleton.2 rfl), e, rfl⟩
  · rcases (Module.taken_iff _ _).1 ht with ⟨g, hg, hn⟩ | ⟨g, hg, hn⟩
    · refine ⟨g, List.mem_append_left _ hg, hn, ?_⟩
      exact (hw.1 g hg).2 (by rw [hn]; exact hd) (by rw [hn]; exact hnp)
    · exfalso
      have := (hw.2.1 g hg).1
      rw [hn] at this
      exact hd this

/-- What the loop of `defineFunctions` does to the symbols. -/
theorem defineFunctionsLoop_symbols : ∀ (fs : List FunctionDecl) (cg cg1 : CodeGen),
    defineFunctionsLoop fs cg = .ok cg1 → cg.module_.WellNamed →
    (∃ g ∈ cg.module_.functions, g.name = "puts".toList) →
    cg1.module_.WellNamed ∧ Module.Persists cg.module_ cg1.module_ ∧
    cg1.module_.globals = cg.module_.globals ∧
    ∀ f ∈ fs, '.' ∉ f.name → f.name ≠ "puts".toList →
      ∃ g ∈ cg1.module_.functions, g.name = f.name ∧ g.type.noParams = true
  | [], cg, cg1, h, hw, _ => by
    cases h
    exact ⟨hw, Module.Persists.refl_persists _, rfl, fun _ hf => by cases hf⟩
  | f :: rest, cg, cg1, h, hw, hp => by
    obtain ⟨cg2, hb, hrest⟩ := defineFunctionsLoop_cons_ok h
    obtain ⟨d1, d2, d3, d4, d5⟩ := declareFunction_symbols cg f hw hp
    obtain ⟨e1, e2, _, e4⟩ := defineBody_evolves d4 hb
    have hp2 : ∃ g ∈ cg2.module_.functions, g.name = "puts".toList := by
      obtain ⟨g, hg, hn⟩ := hp
      obtain ⟨g1, hg1, n1, _⟩ := d2.trans_persists e2 g hg
      exact ⟨g1, hg1, n1.trans hn⟩
    obtain ⟨r1, r2, r3, r4⟩ := defineFunctionsLoop_symbols rest cg2 cg1 hrest (e1 d1) hp2
    refine ⟨r1, (d2.trans_persists e2).trans_persists r2, r3.trans (e4.trans d3), ?_⟩
    intro f0 hf0 hd hnp
    rcases List.mem_cons.1 hf0 with rfl | hf0
    · obtain ⟨g, hg, hn, ht⟩ := d5 hd hnp
      obtain ⟨g1, hg1, n1, t1⟩ := e2.trans_persists r2 g hg
      exact ⟨g1, hg1, n1.trans hn, by rw [t1]; exact ht⟩
    · exact r4 f0 hf0 hd hnp

/-- The names of the struct types of the module. -/
theorem createTypes_structs (cg : CodeGen) (k : List Char) :
    (cg.createTypes k).module_.structs.map (fun s => s.name) =
      cg.module_.structs.map (fun s => s.name) ++
        ["vtable.".toList ++ k, "class.".toList ++ k] := by
  unfold createTypes Module.createStruct
  simp

theorem declareTypesCreate_structs : ∀ (ks : List (List Char)) (cg : CodeGen),
    (∀ n ∈ cg.module_.structs.map (fun s => s.name),
      n ∈ (declareTypesCreate ks cg).module_.structs.map (fun s => s.name)) ∧
    ∀ k ∈ ks, "vtable.".toList ++ k ∈ (declareTypesCreate ks cg).module_.structs.map
        (fun s => s.name) ∧
      "class.".toList ++ k ∈ (declareTypesCreate ks cg).module_.structs.map (fun s => s.name)
  | [], cg => ⟨fun _ h => h, fun _ hk => by cases hk⟩
  | k :: ks, cg => by
    obtain ⟨h1, h2⟩ := declareTypesCreate_structs ks (cg.createTypes k)
    have hc := createTypes_structs cg k
    unfold declareTypesCreate
    refine ⟨fun n hn => h1 n (by rw [hc]; exact List.mem_append_left _ hn), ?_⟩
    intro k0 hk0
    rcases List.mem_cons.1 hk0 with rfl | hk0
    · exact ⟨h1 _ (by rw [hc]; simp), h1 _ (by rw [hc]; simp)⟩
    · exact h2 k0 hk0

theorem setBody_structs (m : Module) (name : List Char) (elems : List Ty) :
    (m.setBody name elems).structs.map (fun s => s.name) = m.structs.map (fun s => s.name) := by
  unfold Module.setBody
  simp only [List.map_map]
  congr 1
  funext s
  simp only [Function.comp]
  split <;> rfl

theorem declareTypesBodies_structs : ∀ (ks : List (List Char)) (cg cg1 : CodeGen),
    declareTypesBodies ks cg = .ok cg1 →
    cg1.module_.structs.map (fun s => s.name) = cg.module_.structs.map (fun s => s.name)
  | [], cg, cg1, h => by
    cases h
    rfl
  | k :: ks, cg, cg1, h => by
    unfold declareTypesBodies at h
    split at h
    · exact declareTypesBodies_structs ks cg cg1 h
    · split at h
      · rw [declareTypesBodies_structs ks _ cg1 h]
        unfold setBodies
        simp only
        rw [setBody_structs, setBody_structs]
      · cases h

theorem declareTypes_structs {cg cg1 : CodeGen} (h : cg.declareTypes = .ok cg1) :
    ∀ k ∈ Table.keys cg.classes_,
      (∃ s ∈ cg1.module_.structs, s.name = "class.".toList ++ k) ∧
      (∃ s ∈ cg1.module_.structs, s.name = "vtable.".toList ++ k) := by
  unfold declareTypes at h
  have hb := declareTypesBodies_structs _ _ _ h
  intro k hk
  obtain ⟨hv, hc⟩ := (declareTypesCreate_structs (Table.keys cg.classes_) cg).2 k hk
  rw [← hb] at hv hc
  obtain ⟨s1, hs1, e1⟩ := List.mem_map.1 hc
  obtain ⟨s2, hs2, e2⟩ := List.mem_map.1 hv
  exact ⟨⟨s1, hs1, e1⟩, ⟨s2, hs2, e2⟩⟩

theorem computeClassLayouts_module {cg cg1 : CodeGen} {p : Program}
    (h : computeClassLayouts cg p = .ok cg1) : cg1.module_ = cg.module_ := by
  unfold computeClassLayouts at h
  simp only at h
  split at h
  · cases h
    rfl
  all_goals cases h

theorem firstDecl_of_mem {p : Program} {c : ClassDecl} (hc : c ∈ p.classes) :
    ∃ c0, p.firstDecl c0 ∧ c0.name = c.name := by
  cases hf : p.classes.find? (fun d => decide (d.name = c.name)) with
  | none =>
    have := List.find?_eq_none.1 hf c hc
    simp at this
  | some c0 =>
    have hn : c0.name = c.name := by
      have := List.find?_some hf
      simpa using this
    refine ⟨c0, ?_, hn⟩
    unfold Program.firstDecl
    rw [hn]
    exact hf

/-- The symbols of the module that a successful run of the five passes leaves. -/
theorem lower_symbols {p : Program} {moduleName : List Char} {cg : CodeGen}
    (h : lower p moduleName = .ok cg) :
    (∀ c, p.firstDecl c →
      (∃ s ∈ cg.module_.structs, s.name = "class.".toList ++ c.name) ∧
      (∃ s ∈ cg.module_.structs, s.name = "vtable.".toList ++ c.name) ∧
      ((∃ g ∈ cg.module_.globals, g.name = "vtable.".toList ++ c.name ∧ g.isConstant = true) ∨
        (∃ f ∈ cg.module_.functions, f.name = "vtable.".toList ++ c.name)) ∧
      ∀ m ∈ c.methods, ∃ f ∈ cg.module_.functions, f.name = c.name ++ '.' :: m.name ∧
        f.type.onePointerParam = true) ∧
    (∀ f ∈ p.functions, '.' ∉ f.name → f.name ≠ "puts".toList →
      ∃ g ∈ cg.module_.functions, g.name = f.name ∧ g.type.noParams = true) ∧
    cg.module_.functions.countP (fun f => decide (f.name = "puts".toList)) = 1 ∧
    ∀ f ∈ cg.module_.functions, f.name = "puts".toList →
      f.type = .func tyI32 [tyI8Ptr] ∧ f.blocks = [] := by
  obtain ⟨cg1, cg2, cg3, cg4, h1, h2, h3, h4, h5⟩ := lower_ok h
  obtain ⟨hnd, _⟩ := computeClassLayouts_keys rfl h1
  have hm1 := computeClassLayouts_module h1
  have k2 := declareTypes_keys h2
  obtain ⟨t1, tf, tg, _⟩ := declareTypes_spec h2
  have hf2 : cg2.module_.functions = [] := by rw [tf, hm1]
  have hg2 : cg2.module_.globals = [] := by rw [tg, hm1]
  have hw2 : cg2.module_.WellNamed := by
    refine ⟨?_, ?_, ?_⟩
    · intro f hf; rw [hf2] at hf; cases hf
    · intro g hg; rw [hg2] at hg; cases hg
    · rw [hf2]; simp
  have ha2 : cg2.module_.AllOnePointer := by
    intro f hf; rw [hf2] at hf; cases hf
  have hst := declareTypes_structs h2
  unfold declareAndDefineMethods at h3
  have hnd2 : (Table.keys cg2.classes_).Nodup := by rw [k2]; exact hnd
  obtain ⟨k3, _, _, _, _, st3, _⟩ := defineClasses_spec _ _ _ h3 hnd2 (fun _ hk => hk)
  obtain ⟨e3, m3⟩ := defineClasses_symbols _ _ _ h3 hnd2 (fun _ hk => hk)
  unfold defineVTables at h4
  have hnd3 : (Table.keys cg3.classes_).Nodup := by rw [k3]; exact hnd2
  obtain ⟨_, _, _, _, st4, _, _⟩ := defineVTablesLoop_spec _ _ _ h4 hnd3 (fun _ hk => hk)
  obtain ⟨w4, f4, _, v4⟩ := defineVTablesLoop_symbols _ _ _ h4 (fun _ hk => hk) (e3.1 hw2)
  obtain ⟨_, _, st5, _⟩ := defineFunctions_spec h5
  unfold defineFunctions at h5
  obtain ⟨ep, fp, hfp, hnp⟩ := getOrDeclarePuts_evolves cg4
  have hwp := ep.1 w4
  have hp : ∃ g ∈ cg4.getOrDeclarePuts.2.module_.functions, g.name = "puts".toList :=
    ⟨fp, hfp, hnp w4⟩
  obtain ⟨w5, p5, g5, d5⟩ := defineFunctionsLoop_symbols _ _ _ h5 hwp hp
  have pers : Module.Persists cg4.module_ cg.module_ := ep.2.1.trans_persists p5
  refine ⟨?_, d5, ?_, ?_⟩
  · intro c hc
    obtain ⟨L, start, hfind, _, _⟩ := computeClassLayouts_spec rfl h1 c hc
    have hk1 : c.name ∈ Table.keys cg1.classes_ := (Table.find_isSome _ _).1 ⟨_, hfind⟩
    have hk2 : c.name ∈ Table.keys cg2.classes_ := by rw [k2]; exact hk1
    have hk3 : c.name ∈ Table.keys cg3.classes_ := by rw [k3]; exact hk2
    obtain ⟨⟨s1, hs1, e1⟩, ⟨s2, hs2, e2⟩⟩ := hst c.name hk1
    have hstr : cg.module_.structs = cg2.module_.structs := by rw [st5, st4, st3]
    refine ⟨⟨s1, by rw [hstr]; exact hs1, e1⟩, ⟨s2, by rw [hstr]; exact hs2, e2⟩, ?_, ?_⟩
    · rcases v4 c.name hk3 with ⟨g, hg, hn, hcst⟩ | ⟨f, hf, hn⟩
      · left
        refine ⟨g, ?_, hn, hcst⟩
        rw [g5, ep.2.2.2]
        exact hg
      · right
        obtain ⟨f1, hf1, n1, _⟩ := pers f hf
        exact ⟨f1, hf1, n1.trans hn⟩
    · intro m hm
      obtain ⟨i2, hi2, hdecl⟩ := Table.AgreeOn.find_some t1 hfind
      have hast : i2.ast = c := congrArg (fun x => x.1.1) hdecl
      have hname : i2.name = c.name := congrArg (fun x => x.1.2.1) hdecl
      obtain ⟨f, hf, hn, ht⟩ := m3 ha2 hg2 c.name hk2 i2 hi2 m (by rw [hast]; exact hm)
      rw [← f4] at hf
      obtain ⟨f1, hf1, n1, t1⟩ := pers f hf
      exact ⟨f1, hf1, by rw [n1, hn, hname], by rw [t1]; exact ht⟩
  · obtain ⟨g, hg, hn⟩ := hp
    obtain ⟨g1, hg1, n1, _⟩ := p5 g hg
    have hpos : 0 < cg.module_.functions.countP (fun f => decide (f.name = "puts".toList)) :=
      List.countP_pos_iff.2 ⟨g1, hg1, by simp [n1, hn]⟩
    have := w5.2.2
    omega
  · intro f hf hn
    exact (w5.1 f hf).1 hn

end CodeGen

end

/-! ## Lemmas: the lexer on appended and replaced text -/

namespace Lexer

theorem comment_check (L : Lexer) :
    (L.peek = '/' ∧ L.pos + 1 < L.input.length ∧ L.input.getD (L.pos + 1) NUL = '/') ↔
      startsComment L.rest = true := by
  cases hr : L.rest with
  | nil =>
    rw [peek_nil L hr]
    simp [startsComment, NUL]
  | cons c r =>
    rw [peek_cons L c r hr]
    have hrest := rest_consume L [c] r (by simpa using hr)
    have hpk : (L.consume [c]).peek =
        if L.pos + 1 < L.input.length then L.input.getD (L.pos + 1) NUL else NUL := rfl
    cases hr2 : r with
    | nil =>
      rw [hr2] at hrest
      have h1 := peek_nil _ hrest
      rw [hpk] at h1
      simp only [startsComment]
      constructor
      · rintro ⟨_, h2, h3⟩
        rw [if_pos h2, h3] at h1
        revert h1
        decide
      · intro h
        cases h
    | cons d r2 =>
      rw [hr2] at hrest
      have h1 := peek_cons _ d r2 hrest
      rw [hpk] at h1
      have hlt : L.pos + 1 < L.input.length := by
        by_contra hn
        have hle : (L.consume [c]).input.length ≤ (L.consume [c]).pos := by
          simp only [consume_pos, consume_input, List.length_singleton]
          omega
        have : (L.consume [c]).rest = [] := by
          unfold rest
          exact List.drop_eq_nil_iff.mpr hle
        rw [this] at hrest
        cases hrest
      rw [if_pos hlt] at h1
      simp only [startsComment, h1, decide_eq_true_eq]
      constructor
      · rintro ⟨a, _, b⟩
        exact ⟨a, b⟩
      · rintro ⟨a, b⟩
        exact ⟨a, hlt, b⟩

theorem skipLoop_skips (fuel : Nat) (L : Lexer) (h : L.rest.length < fuel) :
    ∀ L2, skipLoop fuel L = .ok L2 → Skips L.rest L2.rest := by
  induction fuel generalizing L with
  | zero => omega
  | succ n ih =>
    intro L2 hL2
    have hb := skipBlanks_eq L.budget L (rest_length_lt_budget L)
    have hs1 : Steps L (L.consume (L.rest.takeWhile isBlank)) := Steps.takeWhile L isBlank
    have hr1 : (L.consume (L.rest.takeWhile isBlank)).rest = L.rest.dropWhile isBlank :=
      rest_consume L _ _ (List.takeWhile_append_dropWhile isBlank L.rest).symm
    generalize L.consume (L.rest.takeWhile isBlank) = L1 at hb hs1 hr1
    simp only [skipLoop, hb] at hL2
    by_cases hc : startsComment L1.rest = true
    · rw [if_pos ((comment_check L1).2 hc)] at hL2
      have hl := skipLine_eq L1.budget L1 (rest_length_lt_budget L1)
      have hr2 : (L1.consume (L1.rest.takeWhile inLine)).rest = L1.rest.dropWhile inLine :=
        rest_consume L1 _ _ (List.takeWhile_append_dropWhile inLine L1.rest).symm
      have hlen : (L1.rest.dropWhile inLine).length < L1.rest.length := by
        cases hr : L1.rest with
        | nil => rw [hr] at hc; cases hc
        | cons c r =>
          have hcc : c = '/' := by
            rw [hr] at hc
            cases r with
            | nil => cases hc
            | cons d r2 =>
              simp only [startsComment, decide_eq_true_eq] at hc
              exact hc.1
          have hin : inLine c = true := by rw [hcc]; decide
          rw [List.dropWhile_cons, hin]
          simp only [if_true, List.length_cons]
          have hsub : List.Sublist (r.dropWhile inLine) r := List.dropWhile_sublist inLine
          have := hsub.length_le
          omega
      generalize L1.consume (L1.rest.takeWhile inLine) = L3 at hl hr2
      simp only [hl] at hL2
      have hle := hs1.rest_length
      have := ih L3 (by rw [hr2]; omega) L2 hL2
      rw [hr2, hr1] at this
      rw [hr1] at hc
      exact Skips.comment _ _ hc this
    · rw [if_neg (fun hh => hc ((comment_check L1).1 hh))] at hL2
      cases hL2
      rw [hr1] at hc ⊢
      exact Skips.stop _ (by simpa using hc)

theorem skips_of_skipWhitespaceAndComments (L L2 : Lexer)
    (h : L.skipWhitespaceAndComments = .ok L2) : Skips L.rest L2.rest :=
  skipLoop_skips L.budget L (rest_length_lt_budget L) L2 h

theorem stringLoop_exact (fuel : Nat) : ∀ (L : Lexer) (s : List Char), L.rest.length < fuel →
    match stringBody L.rest s with
    | some (s2, r2) => ∃ w, L.rest = w ++ r2 ∧ w ≠ [] ∧ stringLoop fuel L s = .ok (s2, L.consume w)
    | none => stringLoop fuel L s = .raised "Unterminated string literal" := by
  induction fuel using Nat.strong_induction_on with
  | _ fuel ih =>
    intro L s h
    cases fuel with
    | zero => omega
    | succ n =>
      cases hr : L.rest with
      | nil =>
        simp only [stringBody]
        simp [stringLoop, get_nil L hr]
      | cons c r =>
        have hg := get_cons L c r hr
        have hrest := rest_consume L [c] r (by simpa using hr)
        have hlen : r.length < n := by simp [hr] at h; omega
        by_cases h1 : c = NUL
        · have hb : stringBody (c :: r) s = none := by
            cases r <;> simp only [stringBody, if_pos h1]
          rw [hb]
          simp [stringLoop, hg, h1]
        · by_cases h2 : c = DQUOTE
          · have hb : stringBody (c :: r) s = some (s, r) := by
              cases r <;> simp only [stringBody, if_neg h1, if_pos h2]
            rw [hb]
            refine ⟨[c], rfl, by simp, ?_⟩
            simp only [stringLoop, hg, if_neg h1, if_pos h2]
          · by_cases h3 : c = BSLASH
            · cases hr2 : r with
              | nil =>
                have hb : stringBody [c] s = none := by simp only [stringBody, if_neg h1, if_neg h2]
                rw [hb]
                rw [hr2] at hrest
                simp only [stringLoop, hg, if_neg h1, if_neg h2, if_pos h3, get_nil _ hrest]
                cases n with
                | zero => rw [hr2] at hlen; simp at hlen
                | succ k =>
                  simp [stringLoop, get_nil _ hrest]
              | cons d r2 =>
                have hb : stringBody (c :: d :: r2) s = stringBody r2 (s ++ [unescape d]) := by
                  simp only [stringBody, if_neg h1, if_neg h2, if_pos h3]
                rw [hb]
                rw [hr2] at hrest
                have hg2 := get_cons _ d r2 hrest
                have hrest2 := rest_consume (L.consume [c]) [d] r2 (by simpa using hrest)
                simp only [consume_append] at hrest2
                have hlen2 : r2.length < n := by rw [hr2] at hlen; simp at hlen; omega
                have := ih n (Nat.lt_succ_self n) (L.consume ([c] ++ [d])) (s ++ [unescape d])
                  (by rw [hrest2]; exact hlen2)
                rw [hrest2] at this
                have hstep : stringLoop (n + 1) L s =
                    stringLoop n (L.consume ([c] ++ [d])) (s ++ [unescape d]) := by
                  simp only [stringLoop, hg, if_neg h1, if_neg h2, if_pos h3, hg2, consume_append]
                rw [hstep]
                cases hsb : stringBody r2 (s ++ [unescape d]) with
                | none =>
                  rw [hsb] at this
                  exact this
                | some p =>
                  obtain ⟨s2, r3⟩ := p
                  rw [hsb] at this
                  obtain ⟨w, e1, _, e2⟩ := this
                  refine ⟨[c] ++ [d] ++ w, by simp [e1], by simp, ?_⟩
                  rw [e2, consume_append]
            · have hb : stringBody (c :: r) s = stringBody r (s ++ [c]) := by
                cases r with
                | nil => simp only [stringBody, if_neg h1, if_neg h2]
                | cons d r2 => simp only [stringBody, if_neg h1, if_neg h2, if_neg h3]
              rw [hb]
              have := ih n (Nat.lt_succ_self n) (L.consume [c]) (s ++ [c])
                (by rw [hrest]; exact hlen)
              rw [hrest] at this
              have hstep : stringLoop (n + 1) L s = stringLoop n (L.consume [c]) (s ++ [c]) := by
                simp only [stringLoop, hg, if_neg h1, if_neg h2, if_neg h3]
              rw [hstep]
              cases hsb : stringBody r (s ++ [c]) with
              | none =>
                rw [hsb] at this
                exact this
              | some p =>
                obtain ⟨s2, r3⟩ := p
                rw [hsb] at this
                obtain ⟨w, e1, _, e2⟩ := this
                refine ⟨[c] ++ w, by simp [e1], by simp, ?_⟩
                rw [e2, consume_append]

theorem dispatch_exact (L : Lexer) (c : Char) (r : List Char) (out : List Token)
    (hr : L.rest = c :: r) :
    match step1 c r with
    | some (ts, r2) => ∃ w toks, L.rest = w ++ r2 ∧ w ≠ [] ∧
        dispatch (L.consume [c]) c L.cur out = .ok (L.consume w, out ++ toks) ∧
        toks.map Token.kindText = ts ∧ ∀ t ∈ toks, t.range.end_ = (L.consume w).cur
    | none => ∃ m, dispatch (L.consume [c]) c L.cur out = .raised m := by
  have hrest := rest_consume L [c] r (by simpa using hr)
  have hbud := rest_length_lt_budget (L.consume [c])
  unfold dispatch step1
  cases hp : punctKind c with
  | some k =>
    simp only
    refine ⟨[c], [(L.consume [c]).makeToken k [c] L.cur], by simpa using hr, by simp, rfl, rfl, ?_⟩
    intro t ht
    rw [List.mem_singleton.1 ht]
    rfl
  | none =>
    simp only
    by_cases h1 : c = DQUOTE
    · simp only [if_pos h1]
      have hs := stringLoop_exact _ (L.consume [c]) [] hbud
      rw [hrest] at hs
      cases hsb : stringBody r [] with
      | none =>
        rw [hsb] at hs
        simp only at hs
        simp only
        exact ⟨"Unterminated string literal", by simp only [lexString, hs]⟩
      | some p =>
        obtain ⟨s2, r2⟩ := p
        rw [hsb] at hs
        simp only at hs
        obtain ⟨w, e1, _, e2⟩ := hs
        simp only
        refine ⟨c :: w, [(L.consume (c :: w)).makeToken .String s2 L.cur], by simp [hr, e1],
          by simp, ?_, rfl, ?_⟩
        · simp only [lexString, e2, consume_append, List.singleton_append]
        · intro t ht
          rw [List.mem_singleton.1 ht]
          rfl
    · simp only [if_neg h1]
      by_cases h2 : isIdentStart c = true
      · simp only [if_pos h2]
        have e := identLoop_eq _ (L.consume [c])
          [(L.consume [c]).input.getD ((L.consume [c]).pos - 1) NUL] hbud
        rw [prev_char L c r hr, hrest] at e
        refine ⟨c :: r.takeWhile isIdentChar,
          [(L.consume (c :: r.takeWhile isIdentChar)).makeToken
            (keywordKind (c :: r.takeWhile isIdentChar)) (c :: r.takeWhile isIdentChar) L.cur],
          by simp [hr, List.takeWhile_append_dropWhile], by simp, ?_, rfl, ?_⟩
        · simp only [lexIdentifierOrKeyword]
          rw [prev_char L c r hr, e]
          simp [consume_append]
        · intro t ht
          rw [List.mem_singleton.1 ht]
          rfl
      · simp only [if_neg h2]
        by_cases h3 : isdigit c = true
        · simp only [if_pos h3]
          have e := digitLoop_eq _ (L.consume [c])
            [(L.consume [c]).input.getD ((L.consume [c]).pos - 1) NUL] hbud
          rw [prev_char L c r hr, hrest] at e
          refine ⟨c :: r.takeWhile isdigit,
            [(L.consume (c :: r.takeWhile isdigit)).makeToken .Number
              (c :: r.takeWhile isdigit) L.cur],
            by simp [hr, List.takeWhile_append_dropWhile], by simp, ?_, rfl, ?_⟩
          · simp only [lexNumber]
            rw [prev_char L c r hr, e]
            simp [consume_append]
          · intro t ht
            rw [List.mem_singleton.1 ht]
            rfl
        · simp only [if_neg h3]
          by_cases h4 : isspace c = true
          · simp only [if_pos h4]
            exact ⟨[c], [], by simpa using hr, by simp, by simp, rfl, fun _ ht => by cases ht⟩
          · simp only [if_neg h4]
            exact ⟨_, rfl⟩

theorem iteration_exact (L : Lexer) (out : List Token) (c : Char) (r : List Char)
    (hr : L.rest = c :: r) (hc : c ≠ NUL) :
    match step1 c r with
    | some (ts, r2) => ∃ w toks L3, L.rest = w ++ r2 ∧ w ≠ [] ∧
        L.iteration out = .ok (.next L3 (out ++ toks)) ∧ toks.map Token.kindText = ts ∧
        Steps (L.consume w) L3 ∧ Skips r2 L3.rest ∧
        ∀ t ∈ toks, t.range.end_ = (L.consume w).cur
    | none => ∃ m, L.iteration out = .raised m := by
  have hg := get_cons L c r hr
  have hd := dispatch_exact L c r out hr
  cases hs : step1 c r with
  | none =>
    rw [hs] at hd
    obtain ⟨m, hm⟩ := hd
    exact ⟨m, by simp only [iteration, hg, if_neg hc, hm]⟩
  | some p =>
    obtain ⟨ts, r2⟩ := p
    rw [hs] at hd
    obtain ⟨w, toks, e1, e2, e3, e4, e5⟩ := hd
    obtain ⟨L3, e6, s3⟩ := skipWhitespaceAndComments_steps (L.consume w)
    have hsk := skips_of_skipWhitespaceAndComments _ _ e6
    rw [rest_consume L w r2 e1] at hsk
    exact ⟨w, toks, L3, e1, e2, by simp only [iteration, hg, if_neg hc, e3, e6], e4, s3, hsk, e5⟩

theorem iteration_eof (L : Lexer) (out : List Token)
    (hr : L.rest = [] ∨ ∃ r, L.rest = NUL :: r) :
    ∃ e, L.iteration out = .ok (.done (out ++ [e])) ∧ e.kindText = (.Eof, []) ∧
      e.range.start = L.cur := by
  rcases hr with hr | ⟨r, hr⟩
  · exact ⟨L.makeToken .Eof [] L.cur, by simp only [iteration, get_nil L hr, if_true], rfl, rfl⟩
  · exact ⟨(L.consume [NUL]).makeToken .Eof [] L.cur,
      by simp only [iteration, get_cons L NUL r hr, if_true], rfl, rfl⟩

/-- The loop of `lexAll` pushes the kinds and texts that `Lex` gives for the rest
of the buffer. -/
theorem lexLoop_lex (fuel : Nat) : ∀ (L : Lexer) (out : List Token), L.rest.length < fuel →
    (∀ toks, lexLoop fuel L out = .ok toks →
      ∃ more, toks = out ++ more ∧ Lex L.rest (some (more.map Token.kindText))) ∧
    (∀ m, lexLoop fuel L out = .raised m → Lex L.rest none) := by
  induction fuel with
  | zero => intro L out h; omega
  | succ n ih =>
    intro L out h
    cases hr : L.rest with
    | nil =>
      obtain ⟨e, he, hk, _⟩ := iteration_eof L out (Or.inl hr)
      refine ⟨?_, fun m hm => by simp only [lexLoop, he] at hm; cases hm⟩
      intro toks ht
      simp only [lexLoop, he] at ht
      cases ht
      refine ⟨[e], rfl, ?_⟩
      simp only [List.map_cons, List.map_nil, hk]
      exact Lex.eof_nil
    | cons c r =>
      by_cases hc : c = NUL
      · subst hc
        obtain ⟨e, he, hk, _⟩ := iteration_eof L out (Or.inr ⟨r, hr⟩)
        refine ⟨?_, fun m hm => by simp only [lexLoop, he] at hm; cases hm⟩
        intro toks ht
        simp only [lexLoop, he] at ht
        cases ht
        refine ⟨[e], rfl, ?_⟩
        simp only [List.map_cons, List.map_nil, hk]
        exact Lex.eof_nul r
      · have hi := iteration_exact L out c r hr hc
        cases hs : step1 c r with
        | none =>
          rw [hs] at hi
          obtain ⟨m0, hm0⟩ := hi
          constructor
          · intro toks ht
            simp only [lexLoop, hm0] at ht
            cases ht
          · intro m _
            exact Lex.fail c r hc hs
        | some p =>
          obtain ⟨ts, r2⟩ := p
          rw [hs] at hi
          obtain ⟨w, toks1, L3, e1, e2, e3, e4, e5, e6, _⟩ := hi
          have hlen : L3.rest.length < n := by
            have h1 := e5.rest_length
            rw [rest_consume L w r2 e1] at h1
            have h2 : 0 < w.length := List.length_pos.mpr e2
            have h3 := congrArg List.length e1
            rw [List.length_append] at h3
            omega
          obtain ⟨i1, i2⟩ := ih L3 (out ++ toks1) hlen
          constructor
          · intro toks ht
            simp only [lexLoop, e3] at ht
            obtain ⟨more, hm, hl⟩ := i1 toks ht
            refine ⟨toks1 ++ more, by rw [hm, List.append_assoc], ?_⟩
            have := Lex.step c r ts r2 L3.rest _ hc hs e6 hl
            simpa [List.map_append, e4] using this
          · intro m hm
            simp only [lexLoop, e3] at hm
            exact Lex.step c r ts r2 L3.rest none hc hs e6 (i2 m hm)

/-- The kinds and texts of the tokens of `lexAll`, as a relation on the text. -/
theorem lexAll_lex (input : List Char) :
    (∀ toks, lexAll input = .ok toks → LexAll input (some (toks.map Token.kindText))) ∧
    (∀ m, lexAll input = .raised m → LexAll input none) := by
  obtain ⟨L, e, _⟩ := skipWhitespaceAndComments_steps { input := input }
  have hsk := skips_of_skipWhitespaceAndComments _ _ e
  have hr0 : ({ input := input } : Lexer).rest = input := by simp [rest]
  rw [hr0] at hsk
  obtain ⟨i1, i2⟩ := lexLoop_lex L.budget L [] (rest_length_lt_budget L)
  constructor
  · intro toks ht
    simp only [lexAll, e] at ht
    obtain ⟨more, hm, hl⟩ := i1 toks ht
    simp only [List.nil_append] at hm
    rw [hm]
    exact ⟨L.rest, hsk, hl⟩
  · intro m hm
    simp only [lexAll, e] at hm
    exact ⟨L.rest, hsk, i2 m hm⟩

theorem dropWhile_append_of_ne_nil (p : Char → Bool) : ∀ (l y : List Char),
    l.dropWhile p ≠ [] → (l ++ y).dropWhile p = l.dropWhile p ++ y
  | [], _, h => absurd rfl h
  | a :: l, y, h => by
    by_cases ha : p a = true
    · rw [List.cons_append, List.dropWhile_cons, List.dropWhile_cons, if_pos ha, if_pos ha]
      rw [List.dropWhile_cons, if_pos ha] at h
      exact dropWhile_append_of_ne_nil p l y h
    · rw [List.cons_append, List.dropWhile_cons, List.dropWhile_cons, if_neg ha, if_neg ha]
      rfl

theorem dropWhile_append_of_nil (p : Char → Bool) : ∀ (l y : List Char),
    l.dropWhile p = [] → (l ++ y).dropWhile p = y.dropWhile p
  | [], _, _ => rfl
  | a :: l, y, h => by
    by_cases ha : p a = true
    · rw [List.cons_append, List.dropWhile_cons, if_pos ha]
      rw [List.dropWhile_cons, if_pos ha] at h
      exact dropWhile_append_of_nil p l y h
    · rw [List.dropWhile_cons, if_neg ha] at h
      cases h

theorem dropWhile_append_delim (p : Char → Bool) (y : List Char)
    (hy : ∀ h, y.head? = some h → p h = false) : ∀ (l : List Char),
    (l ++ y).dropWhile p = l.dropWhile p ++ y
  | [] => by
    cases y with
    | nil => rfl
    | cons h y1 =>
      have := hy h rfl
      simp [List.dropWhile_cons, this]
  | a :: l => by
    by_cases ha : p a = true
    · rw [List.cons_append, List.dropWhile_cons, List.dropWhile_cons, if_pos ha, if_pos ha]
      exact dropWhile_append_delim p y hy l
    · rw [List.cons_append, List.dropWhile_cons, List.dropWhile_cons, if_neg ha, if_neg ha]
      rfl

theorem takeWhile_append_delim (p : Char → Bool) (y : List Char)
    (hy : ∀ h, y.head? = some h → p h = false) : ∀ (l : List Char),
    (l ++ y).takeWhile p = l.takeWhile p
  | [] => by
    cases y with
    | nil => rfl
    | cons h y1 =>
      have := hy h rfl
      simp [List.takeWhile_cons, this]
  | a :: l => by
    by_cases ha : p a = true
    · rw [List.cons_append, List.takeWhile_cons, List.takeWhile_cons, if_pos ha, if_pos ha,
        takeWhile_append_delim p y hy l]
    · rw [List.cons_append, List.takeWhile_cons, List.takeWhile_cons, if_neg ha, if_neg ha]

theorem dropWhile_head (p : Char → Bool) : ∀ (l : List Char) (h : Char),
    (l.dropWhile p).head? = some h → p h = false
  | [], _, e => by cases e
  | a :: l, h, e => by
    by_cases ha : p a = true
    · rw [List.dropWhile_cons, if_pos ha] at e
      exact dropWhile_head p l h e
    · rw [List.dropWhile_cons, if_neg ha] at e
      simp only [List.head?_cons, Option.some.injEq] at e
      rw [← e]
      simpa using ha

theorem Skips.nil_eq_skips {x : List Char} (h : Skips [] x) : x = [] := by
  generalize hr : ([] : List Char) = r at h
  induction h with
  | stop r _ =>
    subst hr
    rfl
  | comment r r2 hc _ _ =>
    subst hr
    cases hc

theorem Skips.skips_deterministic {r a b : List Char} (h1 : Skips r a) (h2 : Skips r b) : a = b := by
  induction h1 generalizing b with
  | stop r hc =>
    cases h2 with
    | stop _ _ => rfl
    | comment _ _ hc2 _ => rw [hc] at hc2; cases hc2
  | comment r r2 hc _ ih =>
    cases h2 with
    | stop _ hc2 => rw [hc] at hc2; cases hc2
    | comment _ _ _ h3 => exact ih h3

theorem Lex.lex_deterministic {r : List Char} {o1 o2 : Option (List (TokenKind × List Char))}
    (h1 : Lex r o1) (h2 : Lex r o2) : o1 = o2 := by
  induction h1 generalizing o2 with
  | eof_nil => cases h2; rfl
  | eof_nul r =>
    cases h2 with
    | eof_nul _ => rfl
    | fail _ _ hc _ => exact absurd rfl hc
    | step _ _ _ _ _ _ hc _ _ _ => exact absurd rfl hc
  | fail c r1 hc hs =>
    cases h2 with
    | eof_nul _ => exact absurd rfl hc
    | fail _ _ _ _ => rfl
    | step _ _ _ _ _ _ _ hs2 _ _ => rw [hs] at hs2; cases hs2
  | step c r1 ts r2 r3 o hc hs hsk _ ih =>
    cases h2 with
    | eof_nul _ => exact absurd rfl hc
    | fail _ _ _ hs2 => rw [hs] at hs2; cases hs2
    | step _ _ ts2 r22 r32 o3 _ hs2 hsk2 hl2 =>
      rw [hs] at hs2
      cases hs2
      have := hsk.skips_deterministic hsk2
      subst this
      rw [ih hl2]

theorem LexAll.lexAll_deterministic {input : List Char} {o1 o2 : Option (List (TokenKind × List Char))}
    (h1 : LexAll input o1) (h2 : LexAll input o2) : o1 = o2 := by
  obtain ⟨r1, s1, l1⟩ := h1
  obtain ⟨r2, s2, l2⟩ := h2
  have := s1.skips_deterministic s2
  subst this
  exact l1.lex_deterministic l2

theorem startsComment_append_of_true : ∀ (r y : List Char), startsComment r = true →
    startsComment (r ++ y) = true
  | [], _, h => by cases h
  | [_], _, h => by cases h
  | _ :: _ :: _, _, h => h

theorem startsComment_append_of_false : ∀ (r y : List Char), r ≠ [] →
    startsComment r = false → y.head? ≠ some '/' → startsComment (r ++ y) = false
  | [], _, h, _, _ => absurd rfl h
  | [c], y, _, _, hy => by
    cases y with
    | nil => rfl
    | cons d y1 =>
      simp only [List.head?_cons, ne_eq, Option.some.injEq] at hy
      simp [startsComment, hy]
  | _ :: _ :: _, _, _, h, _ => h

/-- Text appended after a rest that the skip leaves non-empty is not touched. -/
theorem Skips.append_skips {r r2 : List Char} (h : Skips r r2) (y : List Char)
    (hy : y.head? ≠ some '/') (hne : r2 ≠ []) : Skips (r ++ y) (r2 ++ y) := by
  induction h with
  | stop r hc =>
    have e := dropWhile_append_of_ne_nil isBlank r y hne
    rw [← e]
    refine Skips.stop _ ?_
    rw [e]
    exact startsComment_append_of_false _ _ hne hc hy
  | comment r r2 hc hsk ih =>
    have hne1 : r.dropWhile isBlank ≠ [] := by
      intro h0
      rw [h0] at hc
      cases hc
    have e1 := dropWhile_append_of_ne_nil isBlank r y hne1
    have hne2 : (r.dropWhile isBlank).dropWhile inLine ≠ [] := by
      intro h0
      rw [h0] at hsk
      exact hne hsk.nil_eq_skips
    have e2 := dropWhile_append_of_ne_nil inLine (r.dropWhile isBlank) y hne2
    refine Skips.comment _ _ ?_ ?_
    · rw [e1]
      exact startsComment_append_of_true _ _ hc
    · rw [e1, e2]
      exact ih hne

theorem skips_nil : Skips [] [] := Skips.stop [] rfl

/-- A comment appended to a text that the skip uses up is skipped too. -/
theorem Skips.comment_skips {r r2 : List Char} (h : Skips r r2) (c : List Char)
    (hc : ∀ x ∈ c, inLine x = true) (h0 : r2 = []) :
    Skips (r ++ ' ' :: '/' :: '/' :: c) [] := by
  have htail : (' ' :: '/' :: '/' :: c).dropWhile isBlank = '/' :: '/' :: c := by
    rw [List.dropWhile_cons, if_pos (by decide), List.dropWhile_cons, if_neg (by decide)]
  have hall : ∀ x ∈ ' ' :: '/' :: '/' :: c, inLine x = true := by
    intro x hx
    rcases List.mem_cons.1 hx with rfl | hx
    · decide
    · rcases List.mem_cons.1 hx with rfl | hx
      · decide
      · rcases List.mem_cons.1 hx with rfl | hx
        · decide
        · exact hc x hx
  have hline : ('/' :: '/' :: c).dropWhile inLine = [] :=
    List.dropWhile_eq_nil_iff.2 (fun x hx => hall x (List.mem_cons_of_mem _ hx))
  have hline2 : (' ' :: '/' :: '/' :: c).dropWhile inLine = [] :=
    List.dropWhile_eq_nil_iff.2 hall
  induction h with
  | stop r hcs =>
    have e := dropWhile_append_of_nil isBlank r (' ' :: '/' :: '/' :: c) h0
    refine Skips.comment _ _ ?_ ?_
    · rw [e, htail]
      rfl
    · rw [e, htail, hline]
      exact skips_nil
  | comment r r2 hcs hsk ih =>
    have hne1 : r.dropWhile isBlank ≠ [] := by
      intro h1
      rw [h1] at hcs
      cases hcs
    have e1 := dropWhile_append_of_ne_nil isBlank r (' ' :: '/' :: '/' :: c) hne1
    refine Skips.comment _ _ ?_ ?_
    · rw [e1]
      exact startsComment_append_of_true _ _ hcs
    · rw [e1]
      by_cases hne2 : (r.dropWhile isBlank).dropWhile inLine = []
      · rw [dropWhile_append_of_nil inLine _ _ hne2, hline2]
        exact skips_nil
      · rw [dropWhile_append_of_ne_nil inLine _ _ hne2]
        exact ih h0

theorem stringBody_append (n : Nat) : ∀ (r s s2 r2 y : List Char), r.length ≤ n →
    stringBody r s = some (s2, r2) → stringBody (r ++ y) s = some (s2, r2 ++ y) := by
  induction n with
  | zero =>
    intro r s s2 r2 y hn h
    have : r = [] := List.length_eq_zero.1 (Nat.le_zero.1 hn)
    subst this
    simp [stringBody] at h
  | succ n ih =>
    intro r s s2 r2 y hn h
    match r, hn, h with
    | [], _, h => simp [stringBody] at h
    | [c], _, h =>
      by_cases h1 : c = NUL
      · simp only [stringBody, if_pos h1] at h
        cases h
      · by_cases h2 : c = DQUOTE
        · simp only [stringBody, if_neg h1, if_pos h2, Option.some.injEq, Prod.mk.injEq] at h
          obtain ⟨rfl, rfl⟩ := h
          cases y with
          | nil => simp only [List.append_nil, stringBody, if_neg h1, if_pos h2]
          | cons d y1 =>
            simp only [List.cons_append, List.nil_append, stringBody, if_neg h1, if_pos h2]
        · simp only [stringBody, if_neg h1, if_neg h2] at h
          cases h
    | c :: d :: r3, hn, h =>
      by_cases h1 : c = NUL
      · simp only [stringBody, if_pos h1] at h
        cases h
      · by_cases h2 : c = DQUOTE
        · simp only [stringBody, if_neg h1, if_pos h2, Option.some.injEq, Prod.mk.injEq] at h
          obtain ⟨rfl, rfl⟩ := h
          simp only [List.cons_append, stringBody, if_neg h1, if_pos h2]
          rfl
        · by_cases h3 : c = BSLASH
          · simp only [stringBody, if_neg h1, if_neg h2, if_pos h3] at h
            simp only [List.cons_append, stringBody, if_neg h1, if_neg h2, if_pos h3]
            exact ih r3 _ s2 r2 y (by simp only [List.length_cons] at hn; omega) h
          · simp only [stringBody, if_neg h1, if_neg h2, if_neg h3] at h
            simp only [List.cons_append, stringBody, if_neg h1, if_neg h2, if_neg h3]
            exact ih (d :: r3) _ s2 r2 y (by simp only [List.length_cons] at hn ⊢; omega) h

theorem isdigit_isIdentChar {c : Char} (h : isIdentChar c = false) : isdigit c = false := by
  simp only [isIdentChar, isalnum, Bool.or_eq_false_iff] at h
  exact h.1.2

/-- One dispatch reads the same token when text that starts with a character that
no identifier holds is appended. -/
theorem step1_append (c : Char) (r1 r2 y : List Char) (ts : List (TokenKind × List Char))
    (hy : ∀ h, y.head? = some h → isIdentChar h = false)
    (h : step1 c r1 = some (ts, r2)) : step1 c (r1 ++ y) = some (ts, r2 ++ y) := by
  have hyd : ∀ h, y.head? = some h → isdigit h = false :=
    fun h e => isdigit_isIdentChar (hy h e)
  unfold step1 at h ⊢
  cases hp : punctKind c with
  | some k =>
    rw [hp] at h
    simp only [Option.some.injEq, Prod.mk.injEq] at h ⊢
    exact ⟨h.1, by rw [h.2]⟩
  | none =>
    rw [hp] at h
    simp only at h ⊢
    by_cases h1 : c = DQUOTE
    · rw [if_pos h1] at h ⊢
      cases hs : stringBody r1 [] with
      | none => rw [hs] at h; cases h
      | some p =>
        obtain ⟨s2, r3⟩ := p
        rw [hs] at h
        simp only [Option.some.injEq, Prod.mk.injEq] at h
        rw [stringBody_append r1.length r1 [] s2 r3 y (Nat.le_refl _) hs]
        simp only [Option.some.injEq, Prod.mk.injEq]
        exact ⟨h.1, by rw [h.2]⟩
    · rw [if_neg h1] at h ⊢
      by_cases h2 : isIdentStart c = true
      · rw [if_pos h2] at h ⊢
        simp only [Option.some.injEq, Prod.mk.injEq] at h ⊢
        rw [takeWhile_append_delim isIdentChar y hy, dropWhile_append_delim isIdentChar y hy]
        exact ⟨h.1, by rw [h.2]⟩
      · rw [if_neg h2] at h ⊢
        by_cases h3 : isdigit c = true
        · rw [if_pos h3] at h ⊢
          simp only [Option.some.injEq, Prod.mk.injEq] at h ⊢
          rw [takeWhile_append_delim isdigit y hyd, dropWhile_append_delim isdigit y hyd]
          exact ⟨h.1, by rw [h.2]⟩
        · rw [if_neg h3] at h ⊢
          by_cases h4 : isspace c = true
          · rw [if_pos h4] at h ⊢
            simp only [Option.some.injEq, Prod.mk.injEq] at h ⊢
            exact ⟨h.1, by rw [h.2]⟩
          · rw [if_neg h4] at h
            cases h

theorem Lex.nil_eq_lex {o : Option (List (TokenKind × List Char))} (h : Lex [] o) :
    o = some [(.Eof, [])] := by
  cases h
  rfl

/-- A comment appended after a blank to a rest that is not empty leaves the kinds
and texts as they are. -/
theorem Lex.comment_lex {r : List Char} {o : Option (List (TokenKind × List Char))}
    (h : Lex r o) (c : List Char) (hc : ∀ x ∈ c, inLine x = true) :
    ∀ ks, o = some ks → r ≠ [] → Lex (r ++ ' ' :: '/' :: '/' :: c) (some ks) := by
  have hy : ∀ h, (' ' :: '/' :: '/' :: c).head? = some h → isIdentChar h = false := by
    intro h e
    simp only [List.head?_cons, Option.some.injEq] at e
    rw [← e]
    decide
  have hy2 : (' ' :: '/' :: '/' :: c).head? ≠ some '/' := by
    simp only [List.head?_cons, ne_eq, Option.some.injEq]
    decide
  induction h with
  | eof_nil => intro ks _ hne; exact absurd rfl hne
  | eof_nul r =>
    intro ks e _
    cases e
    exact Lex.eof_nul _
  | fail c1 r1 _ _ => intro ks e; cases e
  | step c1 r1 ts r2 r3 o1 hc1 hs hsk hl ih =>
    intro ks e _
    cases o1 with
    | none => cases e
    | some ks1 =>
      simp only [Option.map_some', Option.some.injEq] at e
      subst e
      have hs2 := step1_append c1 r1 r2 _ ts hy hs
      by_cases h3 : r3 = []
      · subst h3
        have := hl.nil_eq_lex
        have hl0 : Lex [] (some ks1) := hl
        exact Lex.step c1 _ ts _ [] (some ks1) hc1 hs2 (hsk.comment_skips c hc rfl) hl0
      · exact Lex.step c1 _ ts _ _ (some ks1) hc1 hs2 (hsk.append_skips _ hy2 h3) (ih ks1 rfl h3)

theorem LexAll.comment_lexAll {s : List Char} {ks : List (TokenKind × List Char)}
    (h : LexAll s (some ks)) (c : List Char) (hc : ∀ x ∈ c, inLine x = true) :
    LexAll (s ++ ' ' :: '/' :: '/' :: c) (some ks) := by
  obtain ⟨r0, hsk, hl⟩ := h
  have hy2 : (' ' :: '/' :: '/' :: c).head? ≠ some '/' := by
    simp only [List.head?_cons, ne_eq, Option.some.injEq]
    decide
  by_cases h0 : r0 = []
  · subst h0
    exact ⟨[], hsk.comment_skips c hc rfl, hl⟩
  · exact ⟨_, hsk.append_skips _ hy2 h0, hl.comment_lex c hc ks rfl h0⟩

/-- What `lexAll` returns is fixed by the relation `LexAll`. -/
theorem lexAll_of_LexAll (input : List Char) (ks : List (TokenKind × List Char))
    (h : LexAll input (some ks)) :
    ∃ toks, lexAll input = .ok toks ∧ toks.map Token.kindText = ks := by
  rcases lexAll_cases input with ⟨toks, e⟩ | ⟨m, e, _⟩
  · have := LexAll.lexAll_deterministic ((lexAll_lex input).1 toks e) h
    exact ⟨toks, e, Option.some.inj this⟩
  · have := LexAll.lexAll_deterministic ((lexAll_lex input).2 m e) h
    cases this

theorem RunEnd.run_ne_nil {r : List Char} {ks : List (TokenKind × List Char)} (h : RunEnd r ks) :
    r ≠ [] := by
  cases h <;> exact List.cons_ne_nil _ _

/-- Text `y` appended to a text that ends with a token is lexed on its own, when
`y` starts with a character that no token holds. -/
theorem RunEnd.append_run {r : List Char} {ks1 : List (TokenKind × List Char)} (h : RunEnd r ks1)
    (y : List Char) (hy : ∀ h, y.head? = some h → isIdentChar h = false)
    (hy2 : y.head? ≠ some '/') (o : Option (List (TokenKind × List Char)))
    (hl : LexAll y o) : Lex (r ++ y) (o.map (fun ks => ks1 ++ ks)) := by
  induction h with
  | last c r1 ts hc hs _ =>
    obtain ⟨r3, hsk, hl⟩ := hl
    exact Lex.step c (r1 ++ y) ts ([] ++ y) r3 o hc (step1_append c r1 [] y ts hy hs) hsk hl
  | more c r1 ts r2 r3 ks hc hs hsk hrun ih =>
    have := Lex.step c (r1 ++ y) ts (r2 ++ y) (r3 ++ y) _ hc (step1_append c r1 r2 y ts hy hs)
      (hsk.append_skips y hy2 hrun.run_ne_nil) ih
    cases o with
    | none => exact this
    | some ks0 =>
      simp only [Option.map_some', List.append_assoc] at this ⊢
      exact this

theorem isspace_cases {c : Char} (h : isspace c = true) :
    c = ' ' ∨ c = TAB ∨ c = LF ∨ c = Char.ofNat 11 ∨ c = Char.ofNat 12 ∨ c = CR := by
  have hc : c = Char.ofNat c.toNat := (Char.ofNat_toNat c).symm
  simp only [isspace, Bool.or_eq_true, decide_eq_true_eq, Bool.and_eq_true] at h
  rcases h with h | ⟨h1, h2⟩
  · left
    rw [hc, h]
  · right
    generalize c.toNat = n at hc h1 h2
    interval_cases n
    · left; exact hc
    · right; left; exact hc
    · right; right; left; exact hc
    · right; right; right; left; exact hc
    · right; right; right; right; exact hc

theorem isspace_delim {c : Char} (h : isspace c = true) :
    isIdentChar c = false ∧ c ≠ '/' ∧ c ≠ NUL := by
  rcases isspace_cases h with rfl | rfl | rfl | rfl | rfl | rfl <;> decide

theorem isBlank_isspace {c : Char} (h : isBlank c = true) : isspace c = true := by
  simp only [isBlank, decide_eq_true_eq] at h
  rcases h with rfl | rfl | rfl | rfl <;> decide

theorem step1_space {c : Char} (h : isspace c = true) (r : List Char) :
    step1 c r = some ([], r) := by
  rcases isspace_cases h with rfl | rfl | rfl | rfl | rfl | rfl <;> rfl

/-- A white-space character put in front of a text changes nothing in the kinds
and texts. -/
theorem LexAll.cons_space {b : List Char} {o : Option (List (TokenKind × List Char))}
    (h : LexAll b o) (c : Char) (hc : isspace c = true) : LexAll (c :: b) o := by
  obtain ⟨r0, hsk, hl⟩ := h
  by_cases hb : isBlank c = true
  · have e : (c :: b).dropWhile isBlank = b.dropWhile isBlank := by
      rw [List.dropWhile_cons, if_pos hb]
    refine ⟨r0, ?_, hl⟩
    cases hsk with
    | stop _ h1 =>
      rw [← e]
      exact Skips.stop _ (by rw [e]; exact h1)
    | comment _ _ h1 h2 =>
      exact Skips.comment _ _ (by rw [e]; exact h1) (by rw [e]; exact h2)
  · have e : (c :: b).dropWhile isBlank = c :: b := by
      rw [List.dropWhile_cons, if_neg hb]
    have hd := isspace_delim hc
    have hcm : startsComment (c :: b) = false := by
      cases b with
      | nil => rfl
      | cons d b1 => simp [startsComment, hd.2.1]
    have hs : Skips (c :: b) (c :: b) := by
      have := Skips.stop (c :: b) (by rw [e]; exact hcm)
      rw [e] at this
      exact this
    refine ⟨c :: b, hs, ?_⟩
    have := Lex.step c b [] b r0 o hd.2.2 (step1_space hc b) hsk hl
    cases o with
    | none => exact this
    | some ks => exact this

theorem LexAll.append_space {b : List Char} {o : Option (List (TokenKind × List Char))}
    (h : LexAll b o) : ∀ (w : List Char), (∀ c ∈ w, isspace c = true) → LexAll (w ++ b) o
  | [], _ => h
  | c :: w, hw =>
    (LexAll.append_space h w (fun x hx => hw x (List.mem_cons_of_mem _ hx))).cons_space c
      (hw c (List.mem_cons_self _ _))

theorem lexAll_total_rel (b : List Char) : ∃ o, LexAll b o := by
  rcases lexAll_cases b with ⟨toks, e⟩ | ⟨m, e, _⟩
  · exact ⟨_, (lexAll_lex b).1 toks e⟩
  · exact ⟨_, (lexAll_lex b).2 m e⟩

theorem foldl_advPos_mono : ∀ (w : List Char) (p : SourcePos),
    p.line ≤ (w.foldl advPos p).line ∧
    ((w.foldl advPos p).line = p.line → (w.foldl advPos p).column = p.column + w.length)
  | [], p => ⟨Nat.le_refl _, fun _ => rfl⟩
  | c :: w, p => by
    obtain ⟨h1, h2⟩ := foldl_advPos_mono w (advPos p c)
    rw [List.foldl_cons]
    by_cases hc : c = LF
    · have e : (advPos p c).line = p.line + 1 := by simp [advPos, hc]
      rw [e] at h1
      exact ⟨by omega, fun h => by omega⟩
    · have e : (advPos p c).line = p.line := by simp [advPos, hc]
      have e2 : (advPos p c).column = p.column + 1 := by simp [advPos, hc]
      rw [e] at h1 h2
      rw [e2] at h2
      refine ⟨h1, fun h => ?_⟩
      rw [h2 h, List.length_cons]
      omega

theorem foldl_advPos_ne (w : List Char) (p : SourcePos) (hw : w ≠ []) : w.foldl advPos p ≠ p := by
  intro h
  have := (foldl_advPos_mono w p).2 (by rw [h])
  rw [h] at this
  have : 0 < w.length := List.length_pos.2 hw
  omega

/-- Only the whole text has the position of its end. -/
theorem drop_nil_of_posOf (input : List Char) (k : Nat)
    (h : posOf (input.take k) = posOf input) : input.drop k = [] := by
  by_contra hne
  have e : posOf input = (input.drop k).foldl advPos (posOf (input.take k)) := by
    conv_lhs => rw [← List.take_append_drop k input]
    simp only [posOf, List.foldl_append]
  rw [h] at e
  exact foldl_advPos_ne _ _ hne e.symm

theorem lexLoop_runEnd (input : List Char) (fuel : Nat) : ∀ (L : Lexer) (out : List Token),
    L.rest.length < fuel → Tracks input L → ∀ toks more, lexLoop fuel L out = .ok toks →
    toks = out ++ more → ∀ t ∈ more, t.kind ≠ .Eof → t.range.end_ = posOf input →
    ∃ ks, RunEnd L.rest ks := by
  induction fuel with
  | zero => intro L out h; omega
  | succ n ih =>
    intro L out h hT toks more hrun hm t ht hk hend
    have heof : ∀ e : Token, L.iteration out = .ok (.done (out ++ [e])) →
        e.kindText = (.Eof, []) → False := by
      intro e he hke
      simp only [lexLoop, he, Result.ok.injEq] at hrun
      rw [← hrun] at hm
      have := List.append_cancel_left hm
      rw [← this, List.mem_singleton] at ht
      rw [ht] at hk
      exact hk (congrArg Prod.fst hke)
    cases hr : L.rest with
    | nil =>
      obtain ⟨e, he, hke, _⟩ := iteration_eof L out (Or.inl hr)
      exact (heof e he hke).elim
    | cons c r =>
      by_cases hc : c = NUL
      · subst hc
        obtain ⟨e, he, hke, _⟩ := iteration_eof L out (Or.inr ⟨r, hr⟩)
        exact (heof e he hke).elim
      · have hx := iteration_exact L out c r hr hc
        cases hs : step1 c r with
        | none =>
          rw [hs] at hx
          obtain ⟨m, hx⟩ := hx
          simp only [lexLoop, hx] at hrun
          cases hrun
        | some p =>
          obtain ⟨ts, r2⟩ := p
          rw [hs] at hx
          obtain ⟨w, toks1, L3, hw, hwne, hit, hkt, hst, hsk, hends⟩ := hx
          simp only [lexLoop, hit] at hrun
          obtain ⟨more2, hm2⟩ := lexLoop_prefix n L3 _ toks hrun
          have hmore : more = toks1 ++ more2 := by
            rw [hm2, List.append_assoc] at hm
            exact (List.append_cancel_left hm).symm
          have hrc := rest_consume L w r2 hw
          have hT2 := hT.eat hw
          have hlen : L3.rest.length < n := by
            have h1 := hst.rest_length
            rw [hrc] at h1
            have h2 : 0 < w.length := List.length_pos.mpr hwne
            rw [hw] at h
            simp only [List.length_append] at h
            omega
          rw [hmore] at ht
          rcases List.mem_append.1 ht with ht | ht
          · have he := hends t ht
            rw [hend, hT2.2.1] at he
            have hnil := drop_nil_of_posOf input _ he.symm
            have hr2 : r2 = [] := by
              rw [← hrc]
              unfold rest
              rw [hT2.1]
              exact hnil
            subst hr2
            have hts : ts ≠ [] := by
              intro h0
              rw [h0] at hkt
              rw [List.map_eq_nil_iff.1 hkt] at ht
              cases ht
            exact ⟨ts, RunEnd.last c r ts hc hs hts⟩
          · obtain ⟨ks, hks⟩ := ih L3 _ hlen (hT2.steps hst) toks more2 hrun hm2 t ht hk hend
            exact ⟨ts ++ ks, RunEnd.more c r ts r2 _ ks hc hs hsk hks⟩

/-- A text whose tokens hold one that ends at the end of the text is a run that
ends right after a token. -/
theorem runEnd_of_lexAll (a : List Char) (ta : List Token) (t : Token)
    (h : lexAll a = .ok ta) (ht : t ∈ ta) (hk : t.kind ≠ .Eof)
    (hend : t.range.end_ = posOf a) : ∃ r0 ks, Skips a r0 ∧ RunEnd r0 ks := by
  obtain ⟨L, e, s⟩ := skipWhitespaceAndComments_steps { input := a }
  have hsk := skips_of_skipWhitespaceAndComments _ _ e
  have hr0 : ({ input := a } : Lexer).rest = a := by simp [rest]
  rw [hr0] at hsk
  simp only [lexAll, e] at h
  obtain ⟨ks, hks⟩ := lexLoop_runEnd a L.budget L [] (rest_length_lt_budget L)
    ((Tracks.init a).steps s) ta ta h rfl t ht hk hend
  exact ⟨_, _, hsk, hks⟩

/-- The kinds and texts of `a ++ w ++ b` do not depend on the white space `w`
when `a` ends with a token. -/
theorem lexAll_replace_space (a w w1 b : List Char) (ta toks : List Token) (t : Token)
    (ha : lexAll a = .ok ta) (ht : t ∈ ta) (hk : t.kind ≠ .Eof)
    (hend : t.range.end_ = posOf a)
    (hw : w ≠ []) (hws : ∀ c ∈ w, isspace c = true)
    (hw1 : w1 ≠ []) (hws1 : ∀ c ∈ w1, isspace c = true)
    (h : lexAll (a ++ w ++ b) = .ok toks) :
    ∃ toks1, lexAll (a ++ w1 ++ b) = .ok toks1 ∧
      toks1.map Token.kindText = toks.map Token.kindText := by
  obtain ⟨r0, ks1, hsk, hrun⟩ := runEnd_of_lexAll a ta t ha ht hk hend
  obtain ⟨o, ho⟩ := lexAll_total_rel b
  have key : ∀ (v : List Char), v ≠ [] → (∀ c ∈ v, isspace c = true) →
      LexAll (a ++ v ++ b) (o.map (fun ks => ks1 ++ ks)) := by
    intro v hv hvs
    have hhead : ∀ h, (v ++ b).head? = some h → isspace h = true := by
      intro h e
      cases v with
      | nil => exact absurd rfl hv
      | cons x v1 =>
        simp only [List.cons_append, List.head?_cons, Option.some.injEq] at e
        rw [← e]
        exact hvs x (List.mem_cons_self _ _)
    have hy : ∀ h, (v ++ b).head? = some h → isIdentChar h = false :=
      fun h e => (isspace_delim (hhead h e)).1
    have hy2 : (v ++ b).head? ≠ some '/' :=
      fun e => (isspace_delim (hhead _ e)).2.1 rfl
    rw [List.append_assoc]
    exact ⟨_, hsk.append_skips _ hy2 hrun.run_ne_nil, hrun.append_run _ hy hy2 o (ho.append_space v hvs)⟩
  have e := LexAll.lexAll_deterministic (key w hw hws) ((lexAll_lex _).1 toks h)
  have h1 := key w1 hw1 hws1
  rw [e] at h1
  exact lexAll_of_LexAll _ _ h1

end Lexer

/-! ## Claims about the lexer -/

/-- C1: on every input on which `lexAll` returns, the returned token sequence is
non-empty, its last token has kind `Eof`, and no earlier token has kind `Eof`. -/
theorem C1_lexAll_single_trailing_eof (input : List Char) (toks : List Token)
    (h : lexAll input = .ok toks) :
    toks ≠ [] ∧ (∃ e, toks.getLast? = some e ∧ e.kind = .Eof) ∧
      ∀ t ∈ toks.dropLast, t.kind ≠ .Eof := by
  obtain ⟨ts, e, rfl, he, _, hts⟩ := lexAll_inv input toks h
  refine ⟨by simp, ⟨e, by simp, he⟩, ?_⟩
  intro t ht
  rw [List.dropLast_concat] at ht
  exact (hts t ht).1

/-- Witness of C1 on the input `a;`. -/
theorem C1_lexAll_single_trailing_eof_witness :
    lexAll "a;".toList = .ok
      [⟨.Identifier, ['a'], ⟨⟨1, 1⟩, ⟨1, 2⟩⟩⟩, ⟨.Semicolon, [';'], ⟨⟨1, 2⟩, ⟨1, 3⟩⟩⟩,
       ⟨.Eof, [], ⟨⟨1, 3⟩, ⟨1, 3⟩⟩⟩] ∧
    ∃ e, ([⟨.Identifier, ['a'], ⟨⟨1, 1⟩, ⟨1, 2⟩⟩⟩, ⟨.Semicolon, [';'], ⟨⟨1, 2⟩, ⟨1, 3⟩⟩⟩,
       ⟨.Eof, [], ⟨⟨1, 3⟩, ⟨1, 3⟩⟩⟩] : List Token).getLast? = some e ∧ e.kind = .Eof :=
  ⟨by decide, (C1_lexAll_single_trailing_eof "a;".toList _ (by decide)).2.1⟩

/-- C2: `lexAll` terminates on every finite input: run with an iteration budget
of `length + 1` for each of its loops it never uses a budget up, so its result is
either a token list or one of the two lexical errors.  Every iteration of the
main loop that goes on to a next iteration has consumed at least one character of
the same buffer; every iteration of the loop of `skipWhitespaceAndComments` and
of the loop of `lexString` returns, raises, or goes on with a larger `pos_`. -/
theorem C2_lexAll_total (input : List Char) :
    ((∃ toks, lexAll input = .ok toks) ∨
      lexAll input = .raised "Unterminated string literal" ∨
      lexAll input = .raised "Unexpected character in input") ∧
    lexAll input ≠ .diverged ∧
    (∀ (L L2 : Lexer) (out out2 : List Token), L.iteration out = .ok (.next L2 out2) →
      L2.input = L.input ∧ L.pos < L2.pos) ∧
    (∀ (fuel : Nat) (L : Lexer),
      (∃ L1, Lexer.skipLoop (fuel + 1) L = .ok L1) ∨
      ∃ L2, Lexer.skipLoop (fuel + 1) L = Lexer.skipLoop fuel L2 ∧ L2.input = L.input ∧
        L.pos < L2.pos) ∧
    (∀ (fuel : Nat) (L : Lexer) (s : List Char),
      Lexer.stringLoop (fuel + 1) L s = .raised "Unterminated string literal" ∨
      (∃ L2, Lexer.stringLoop (fuel + 1) L s = .ok (s, L2)) ∨
      ∃ L2 s2, Lexer.stringLoop (fuel + 1) L s = Lexer.stringLoop fuel L2 s2 ∧
        L2.input = L.input ∧ L.pos < L2.pos) := by
  refine ⟨?_, lexAll_ne_diverged input, ?_, Lexer.skipLoop_iter, Lexer.stringLoop_iter⟩
  · rcases lexAll_cases input with h | ⟨m, e, rfl | rfl⟩
    · exact Or.inl h
    · exact Or.inr (Or.inl e)
    · exact Or.inr (Or.inr e)
  · intro L L2 out out2 h
    rcases Lexer.iteration_cases L out with ⟨w, _, e⟩ | ⟨m, e, _⟩ | ⟨L3, ts, w, r, e1, e2, e3, e4, _⟩
    · rw [h] at e; cases e
    · rw [h] at e; cases e
    · rw [h] at e4
      cases e4
      have h1 := e3.input
      have h2 := e3.pos_le
      have h3 : 0 < w.length := List.length_pos.mpr e2
      rw [Lexer.consume_pos] at h2
      exact ⟨h1, by omega⟩

/-- C3: when the main loop of `lexAll` is at a token start and the unread input
begins with a maximal identifier-shaped lexeme `c :: cs` (a letter or underscore,
then letters, digits or underscores, not followed by such a character), the loop
pushes exactly one token for it and resumes after the lexeme; the token's text is
the lexeme, its kind is the keyword kind when the lexeme is one of the nine
reserved words and `Identifier` otherwise, and it is the token that `lexAll`
returns at that index. -/
theorem C3_identifier_or_keyword (input : List Char) (L : Lexer) (out : List Token)
    (c : Char) (cs r : List Char)
    (hstart : Lexer.TokenStart input L out)
    (hrest : L.input.drop L.pos = c :: cs ++ r)
    (hc : Lexer.isIdentStart c = true) (hcs : ∀ x ∈ cs, Lexer.isIdentChar x = true)
    (hmax : ∀ x, r.head? = some x → Lexer.isIdentChar x = false) :
    ∃ L2 t, t.kind = specKind (c :: cs) ∧ t.text = c :: cs ∧ t.range.start = L.cur ∧
      t.range.end_ = { line := L.cur.line, column := L.cur.column + (c :: cs).length } ∧
      Lexer.TokenStart input L2 (out ++ [t]) ∧ L.pos + (c :: cs).length ≤ L2.pos ∧
      ∀ toks, lexAll input = .ok toks → toks[out.length]? = some t := by
  obtain ⟨L2, s2, e⟩ := Lexer.iteration_ident L out c cs r hrest hc hcs hmax
  have hts := Lexer.TokenStart.step hstart e
  refine ⟨L2, _, (Lexer.keywordKind_eq_specKind _), rfl, rfl, rfl, hts, ?_, ?_⟩
  · have := s2.pos_le
    rwa [Lexer.consume_pos] at this
  · intro toks htoks
    obtain ⟨more, rfl⟩ := hts.prefix htoks
    exact getElem?_after_prefix out _ more

/-- Witness of C3: the keyword `var` at the start of the input `var x`. -/
theorem C3_identifier_or_keyword_witness :
    ∃ L2 t, t.kind = specKind ['v', 'a', 'r'] ∧ t.text = ['v', 'a', 'r'] ∧
      t.range.start = { line := 1, column := 1 } ∧
      t.range.end_ = { line := 1, column := 1 + ['v', 'a', 'r'].length } ∧
      Lexer.TokenStart "var x".toList L2 ([] ++ [t]) ∧ 0 + ['v', 'a', 'r'].length ≤ L2.pos ∧
      ∀ toks, lexAll "var x".toList = .ok toks → toks[([] : List Token).length]? = some t :=
  C3_identifier_or_keyword "var x".toList { input := "var x".toList } [] 'v' ['a', 'r'] [' ', 'x']
    (Lexer.TokenStart.init (by decide)) (by decide) (by decide) (by decide)
    (by intro x hx; cases hx; decide)

/-- C4 (failing input): a terminated string literal whose body holds a NUL
character is not lexed to a `String` token with the body copied; `lexAll` raises
"Unterminated string literal" although the specification's decoding of the body
`a`, NUL, `b` is defined and copies the three characters. -/
theorem C4_string_with_nul_rejected :
    lexAll [DQUOTE, 'a', NUL, 'b', DQUOTE] = .raised "Unterminated string literal" ∧
    decodeBody ['a', NUL, 'b'] = some ['a', NUL, 'b'] := by
  decide

/-- C5: when the main loop of `lexAll` is at a token start, the unread input
begins with a double quote, and the end of the input comes before an unescaped
closing double quote (also when the input ends right after a backslash), `lexAll`
raises "Unterminated string literal" and so returns no tokens. -/
theorem C5_unterminated_string (input : List Char) (L : Lexer) (out : List Token)
    (body : List Char) (hstart : Lexer.TokenStart input L out)
    (hrest : L.input.drop L.pos = DQUOTE :: body) (hopen : unclosed body = true) :
    lexAll input = .raised "Unterminated string literal" ∧ ∀ toks, lexAll input ≠ .ok toks := by
  have h := hstart.raised (Lexer.iteration_unclosed L out body hrest hopen)
  exact ⟨h, fun toks e => by rw [h] at e; cases e⟩

/-- Witness of C5: a literal opened at the start of the input that ends right
after a backslash. -/
theorem C5_unterminated_string_witness :
    lexAll [DQUOTE, 'a', BSLASH] = .raised "Unterminated string literal" ∧
    ∀ toks, lexAll [DQUOTE, 'a', BSLASH] ≠ .ok toks :=
  C5_unterminated_string [DQUOTE, 'a', BSLASH] { input := [DQUOTE, 'a', BSLASH] } []
    ['a', BSLASH] (Lexer.TokenStart.init (by decide)) (by decide) (by decide)

/-- C6 (failing input): a NUL character at a token start is none of whitespace,
punctuation, double quote, letter, underscore or digit, yet `lexAll` raises no
error: it returns the tokens lexed so far followed by `Eof` and drops the rest of
the input (`b` below) unread. -/
theorem C6_nul_drops_rest_of_input :
    lexAll ['a', NUL, 'b'] = .ok
      [⟨.Identifier, ['a'], ⟨⟨1, 1⟩, ⟨1, 2⟩⟩⟩, ⟨.Eof, [], ⟨⟨1, 2⟩, ⟨1, 3⟩⟩⟩] ∧
    isspace NUL = false ∧ Lexer.punctKind NUL = none ∧ NUL ≠ DQUOTE ∧
    Lexer.isIdentStart NUL = false ∧ isdigit NUL = false := by
  decide

/-- C7: every token returned by `lexAll` has the range of its lexeme: `start` is
the position of the offset of its first character and `end` the position of the
offset just past its last character, positions counting one column per character
and a newline starting the next line at column 1; the text of an identifier,
keyword, number or punctuation token is the input between the two offsets, its
range stays on one line and its end column is the start column plus the length of
the text. -/
theorem C7_token_ranges (input : List Char) (toks : List Token)
    (h : lexAll input = .ok toks) : ∀ t ∈ toks, RangeOk input t := by
  obtain ⟨ts, e, rfl, _, he, hts⟩ := lexAll_inv input toks h
  intro t ht
  rcases List.mem_append.mp ht with ht | ht
  · exact (hts t ht).2
  · rw [List.mem_singleton.mp ht]; exact he

/-- Witness of C7 on the two-line input `a` newline `;`: the range of the
semicolon on line 2. -/
theorem C7_token_ranges_witness :
    lexAll ['a', LF, ';'] = .ok
      [⟨.Identifier, ['a'], ⟨⟨1, 1⟩, ⟨1, 2⟩⟩⟩, ⟨.Semicolon, [';'], ⟨⟨2, 1⟩, ⟨2, 2⟩⟩⟩,
       ⟨.Eof, [], ⟨⟨2, 2⟩, ⟨2, 2⟩⟩⟩] ∧
    RangeOk ['a', LF, ';'] ⟨.Semicolon, [';'], ⟨⟨2, 1⟩, ⟨2, 2⟩⟩⟩ :=
  ⟨by decide,
   C7_token_ranges ['a', LF, ';']
     [⟨.Identifier, ['a'], ⟨⟨1, 1⟩, ⟨1, 2⟩⟩⟩, ⟨.Semicolon, [';'], ⟨⟨2, 1⟩, ⟨2, 2⟩⟩⟩,
      ⟨.Eof, [], ⟨⟨2, 2⟩, ⟨2, 2⟩⟩⟩]
     (by decide) _ (List.mem_cons_of_mem _ (List.mem_cons_self _ _))⟩

/-! ## Claims about the parser -/

/-- C8: when `parseProgram` succeeds on a token stream (a sequence ending in
exactly one end-of-input token), `classes` holds exactly one `ClassDecl` per
`class` keyword token and `functions` exactly one `FunctionDecl` per `function`
keyword token, both in source order; the name of each declaration is the text of
the token following its keyword, which is an identifier, and `baseName` is the
text of the identifier following `extends` when the class header has one and
absent otherwise. -/
theorem C8_declarations_in_source_order (tokens : List Token) (p : Program) (P : Parser)
    (hts : TokenStream tokens) (h : parseProgram tokens = .ok p P) :
    p.classes.map (fun c => (c.name, c.baseName)) = classSigs tokens ∧
    p.functions.map (fun f => f.name) = functionNames tokens ∧
    p.classes.length = tokens.countP (fun t => decide (t.kind = .KwClass)) ∧
    p.functions.length = tokens.countP (fun t => decide (t.kind = .KwFunction)) ∧
    keywordsNamed tokens = true := by
  obtain ⟨_, _, _, _, hc, hf, hk⟩ := parseProgram_sigs tokens p P hts h
  refine ⟨hc, hf, ?_, ?_, hk⟩
  · rw [← classSigs_length, ← hc, List.length_map]
  · rw [← functionNames_length, ← hf, List.length_map]

/-- Witness of C8 on the token stream of `class B extends A { }`. -/
theorem C8_declarations_in_source_order_witness :
    [({ name := ['B'], baseName := some ['A'] } : ClassDecl)].map
        (fun c => (c.name, c.baseName)) =
      classSigs [⟨.KwClass, "class".toList, {}⟩, ⟨.Identifier, ['B'], {}⟩,
        ⟨.KwExtends, "extends".toList, {}⟩, ⟨.Identifier, ['A'], {}⟩,
        ⟨.LBrace, ['\x7b'], {}⟩, ⟨.RBrace, ['\x7d'], {}⟩, ⟨.Eof, [], {}⟩] ∧
    keywordsNamed [⟨.KwClass, "class".toList, {}⟩, ⟨.Identifier, ['B'], {}⟩,
        ⟨.KwExtends, "extends".toList, {}⟩, ⟨.Identifier, ['A'], {}⟩,
        ⟨.LBrace, ['\x7b'], {}⟩, ⟨.RBrace, ['\x7d'], {}⟩, ⟨.Eof, [], {}⟩] = true :=
  have h := C8_declarations_in_source_order
    [⟨.KwClass, "class".toList, {}⟩, ⟨.Identifier, ['B'], {}⟩,
      ⟨.KwExtends, "extends".toList, {}⟩, ⟨.Identifier, ['A'], {}⟩,
      ⟨.LBrace, ['\x7b'], {}⟩, ⟨.RBrace, ['\x7d'], {}⟩, ⟨.Eof, [], {}⟩]
    { classes := [{ name := ['B'], baseName := some ['A'] }] }
    { tokens := [⟨.KwClass, "class".toList, {}⟩, ⟨.Identifier, ['B'], {}⟩,
        ⟨.KwExtends, "extends".toList, {}⟩, ⟨.Identifier, ['A'], {}⟩,
        ⟨.LBrace, ['\x7b'], {}⟩, ⟨.RBrace, ['\x7d'], {}⟩, ⟨.Eof, [], {}⟩],
      pos := 6,
      consumed := [⟨.KwClass, "class".toList, {}⟩, ⟨.Identifier, ['B'], {}⟩,
        ⟨.KwExtends, "extends".toList, {}⟩, ⟨.Identifier, ['A'], {}⟩,
        ⟨.LBrace, ['\x7b'], {}⟩, ⟨.RBrace, ['\x7d'], {}⟩] }
    ⟨[⟨.KwClass, "class".toList, {}⟩, ⟨.Identifier, ['B'], {}⟩,
        ⟨.KwExtends, "extends".toList, {}⟩, ⟨.Identifier, ['A'], {}⟩,
        ⟨.LBrace, ['\x7b'], {}⟩, ⟨.RBrace, ['\x7d'], {}⟩], ⟨.Eof, [], {}⟩, rfl, rfl, by decide⟩
    (by decide)
  ⟨h.1, h.2.2.2.2⟩

/-- C9: when `parseProgram` succeeds on the tokens returned by `lexAll`, the
parser still holds those tokens, its cursor is at index `size - 1`, on the final
`Eof` token, and the tokens it passed, one `pos_++` at a time, are exactly the
tokens before that `Eof`, each once and in order. -/
theorem C9_parser_consumes_all_but_eof (input : List Char) (toks : List Token) (p : Program)
    (P : Parser) (hlex : lexAll input = .ok toks) (h : parseProgram toks = .ok p P) :
    P.tokens = toks ∧ P.pos = toks.length - 1 ∧ P.peek.kind = .Eof ∧
    P.consumed = toks.dropLast ∧ P.consumed = toks.take P.pos := by
  obtain ⟨ts, e, rfl, he, _, hts⟩ := lexAll_inv input toks hlex
  have hstream : TokenStream (ts ++ [e]) := ⟨ts, e, rfl, he, fun t ht => (hts t ht).1⟩
  obtain ⟨h1, h2, h3, h4, _⟩ := parseProgram_sigs _ p P hstream h
  refine ⟨h1, by omega, h4, h3, ?_⟩
  rw [h3]
  have : P.pos = ts.length := by simp at h2; exact h2
  rw [this]
  simp

/-- Witness of C9 on the source text `class A { }`. -/
theorem C9_parser_consumes_all_but_eof_witness :
    ({ tokens := [⟨.KwClass, "class".toList, ⟨⟨1, 1⟩, ⟨1, 6⟩⟩⟩, ⟨.Identifier, ['A'], ⟨⟨1, 7⟩, ⟨1, 8⟩⟩⟩,
        ⟨.LBrace, ['\x7b'], ⟨⟨1, 9⟩, ⟨1, 10⟩⟩⟩, ⟨.RBrace, ['\x7d'], ⟨⟨1, 11⟩, ⟨1, 12⟩⟩⟩,
        ⟨.Eof, [], ⟨⟨1, 12⟩, ⟨1, 12⟩⟩⟩],
       pos := 4,
       consumed := [⟨.KwClass, "class".toList, ⟨⟨1, 1⟩, ⟨1, 6⟩⟩⟩,
        ⟨.Identifier, ['A'], ⟨⟨1, 7⟩, ⟨1, 8⟩⟩⟩, ⟨.LBrace, ['\x7b'], ⟨⟨1, 9⟩, ⟨1, 10⟩⟩⟩,
        ⟨.RBrace, ['\x7d'], ⟨⟨1, 11⟩, ⟨1, 12⟩⟩⟩] } : Parser).pos =
      ([⟨.KwClass, "class".toList, ⟨⟨1, 1⟩, ⟨1, 6⟩⟩⟩, ⟨.Identifier, ['A'], ⟨⟨1, 7⟩, ⟨1, 8⟩⟩⟩,
        ⟨.LBrace, ['\x7b'], ⟨⟨1, 9⟩, ⟨1, 10⟩⟩⟩, ⟨.RBrace, ['\x7d'], ⟨⟨1, 11⟩, ⟨1, 12⟩⟩⟩,
        ⟨.Eof, [], ⟨⟨1, 12⟩, ⟨1, 12⟩⟩⟩] : List Token).length - 1 :=
  (C9_parser_consumes_all_but_eof "class A \x7b \x7d".toList
    [⟨.KwClass, "class".toList, ⟨⟨1, 1⟩, ⟨1, 6⟩⟩⟩, ⟨.Identifier, ['A'], ⟨⟨1, 7⟩, ⟨1, 8⟩⟩⟩,
      ⟨.LBrace, ['\x7b'], ⟨⟨1, 9⟩, ⟨1, 10⟩⟩⟩, ⟨.RBrace, ['\x7d'], ⟨⟨1, 11⟩, ⟨1, 12⟩⟩⟩,
      ⟨.Eof, [], ⟨⟨1, 12⟩, ⟨1, 12⟩⟩⟩]
    { classes := [{ name := ['A'], loc := ⟨⟨1, 1⟩, ⟨1, 12⟩⟩ }] }
    { tokens := [⟨.KwClass, "class".toList, ⟨⟨1, 1⟩, ⟨1, 6⟩⟩⟩, ⟨.Identifier, ['A'], ⟨⟨1, 7⟩, ⟨1, 8⟩⟩⟩,
        ⟨.LBrace, ['\x7b'], ⟨⟨1, 9⟩, ⟨1, 10⟩⟩⟩, ⟨.RBrace, ['\x7d'], ⟨⟨1, 11⟩, ⟨1, 12⟩⟩⟩,
        ⟨.Eof, [], ⟨⟨1, 12⟩, ⟨1, 12⟩⟩⟩],
      pos := 4,
      consumed := [⟨.KwClass, "class".toList, ⟨⟨1, 1⟩, ⟨1, 6⟩⟩⟩,
        ⟨.Identifier, ['A'], ⟨⟨1, 7⟩, ⟨1, 8⟩⟩⟩, ⟨.LBrace, ['\x7b'], ⟨⟨1, 9⟩, ⟨1, 10⟩⟩⟩,
        ⟨.RBrace, ['\x7d'], ⟨⟨1, 11⟩, ⟨1, 12⟩⟩⟩] }
    (by decide) (by decide)).2.1

/-- C10 (counterexample): on the tokens of the source text `x` the parser fails
with the message "Expected 'class' or 'function'", which does not name the kind
of the token found (`identifier`): it is not of the form
"Expected <construct>, found identifier". -/
theorem C10_counterexample :
    parseProgram [⟨.Identifier, ['x'], ⟨⟨1, 1⟩, ⟨1, 2⟩⟩⟩, ⟨.Eof, [], ⟨⟨1, 2⟩, ⟨1, 2⟩⟩⟩] =
      .error (.runtime_error "Expected 'class' or 'function'")
        { tokens := [⟨.Identifier, ['x'], ⟨⟨1, 1⟩, ⟨1, 2⟩⟩⟩, ⟨.Eof, [], ⟨⟨1, 2⟩, ⟨1, 2⟩⟩⟩] } ∧
    ¬ ∃ what : String, "Expected 'class' or 'function'" =
        "Expected " ++ what ++ ", found " ++ to_string TokenKind.Identifier := by
  refine ⟨by decide, ?_⟩
  rintro ⟨what, h⟩
  have h2 := congrArg (fun s : String => s.data.getLast?) h
  simp only [String.data_append, to_string] at h2
  rw [List.getLast?_append_of_ne_nil _ (by decide)] at h2
  revert h2
  decide

/-- C10 (amended): every exception of `parseProgram` is thrown with the token
vector unchanged and is one of: the `std::runtime_error` of `expect`, whose
message is "Expected <construct>, found <kind>" with the kind of the token at the
cursor; a `std::runtime_error` with one of the three fixed messages of the
declaration, statement and expression dispatch, which name no found kind; or
one of the two exceptions of `std::stoi`. -/
theorem C10_error_messages (tokens : List Token) (e : Exn) (P : Parser)
    (h : parseProgram tokens = .error e P) :
    P.tokens = tokens ∧
    ((∃ what, e = .runtime_error ("Expected " ++ what ++ ", found " ++ to_string P.peek.kind)) ∨
      e = .runtime_error "Expected 'class' or 'function'" ∨
      e = .runtime_error "Unexpected token in statement" ∨
      e = .runtime_error "Unexpected token in expression" ∨
      e = .invalid_argument "stoi" ∨ e = .out_of_range "stoi") :=
  (Parser.parseDecls_fails _ _).2 _ e P h

/-- Witness of C10: a `class` keyword followed by the end of the input. -/
theorem C10_error_messages_witness :
    ((∃ what, Exn.runtime_error "Expected class name, found <eof>" =
        .runtime_error ("Expected " ++ what ++ ", found " ++
          to_string ({ tokens := [⟨.KwClass, "class".toList, {}⟩, ⟨.Eof, [], {}⟩], pos := 1,
                       consumed := [⟨.KwClass, "class".toList, {}⟩] } : Parser).peek.kind)) ∨
      Exn.runtime_error "Expected class name, found <eof>" =
        .runtime_error "Expected 'class' or 'function'" ∨
      Exn.runtime_error "Expected class name, found <eof>" =
        .runtime_error "Unexpected token in statement" ∨
      Exn.runtime_error "Expected class name, found <eof>" =
        .runtime_error "Unexpected token in expression" ∨
      Exn.runtime_error "Expected class name, found <eof>" = .invalid_argument "stoi" ∨
      Exn.runtime_error "Expected class name, found <eof>" = .out_of_range "stoi") :=
  (C10_error_messages [⟨.KwClass, "class".toList, {}⟩, ⟨.Eof, [], {}⟩]
    (.runtime_error "Expected class name, found <eof>")
    { tokens := [⟨.KwClass, "class".toList, {}⟩, ⟨.Eof, [], {}⟩], pos := 1,
      consumed := [⟨.KwClass, "class".toList, {}⟩] }
    (by decide)).2

/-! ## Claims about class layouts, vtables and lowering -/

section
open CodeGen

/-- C13: when `computeClassLayouts` succeeds, a class without base class (`c` is
the declaration the class table keeps for its name) has a layout whose `methods`
are exactly the names of its `Virtual` methods in declaration order, whatever
plain methods it declares; when these names are pairwise distinct, `slotOf` maps
the `i`-th of them to `i`; and a class with a single virtual method `m` has
exactly one slot, named `m`, at index 0. -/
theorem C13_layout_of_class_without_base (cg cg1 : CodeGen) (p : Program) (c : ClassDecl)
    (h0 : cg.classes_ = []) (h : cg.computeClassLayouts p = .ok cg1) (hc : p.firstDecl c)
    (hbase : c.baseName = none) :
    ∃ info, Table.find cg1.classes_ c.name = some info ∧
      info.layout.methods = virtualNames c.methods ∧
      ((virtualNames c.methods).Nodup → ∀ i n, (virtualNames c.methods)[i]? = some n →
        Table.find info.layout.slotOf n = some i) ∧
      (∀ m, virtualNames c.methods = [m] →
        info.layout.methods = [m] ∧ Table.find info.layout.slotOf m = some 0) := by
  obtain ⟨L, start, hf, hm, hst⟩ := computeClassLayouts_spec h0 h c hc
  rw [hbase] at hst
  subst hst
  have hmethods : L.methods = virtualNames c.methods := by
    rw [layoutMethods_methods _ _ _ hm]
    rfl
  have hcons := layoutMethods_consistent _ _ _ hm consistent_empty
  have hslot : (virtualNames c.methods).Nodup → ∀ i n, (virtualNames c.methods)[i]? = some n →
      Table.find L.slotOf n = some i := by
    intro hnd i n hi
    rw [← hmethods] at hi hnd
    obtain ⟨s, hs⟩ := hcons.2 n (List.getElem?_mem hi)
    have hs2 := hcons.1 n s hs
    rw [hs]
    congr 1
    have hi1 := List.getElem?_eq_some.1 hi
    have hs1 := List.getElem?_eq_some.1 hs2
    obtain ⟨hi1, hi2⟩ := hi1
    obtain ⟨hs1, hs3⟩ := hs1
    exact (List.Nodup.getElem_inj_iff hnd).1 (hs3.trans hi2.symm)
  refine ⟨_, hf, hmethods, hslot, ?_⟩
  intro m hm1
  refine ⟨hmethods.trans hm1, ?_⟩
  apply hslot
  · rw [hm1]
    exact List.nodup_singleton m
  · rw [hm1]
    rfl

/-- Witness of C13: the class `A` of `class A { virtual m(): String { return "x"; } }
function main(): Int { return 0; }` gets exactly one slot, `m`, at index 0. -/
theorem C13_layout_of_class_without_base_witness :
    ∃ cg1 info, computeClassLayouts {} exSingleVirtual = .ok cg1 ∧
      Table.find cg1.classes_ "A".toList = some info ∧
      info.layout.methods = ["m".toList] ∧ Table.find info.layout.slotOf "m".toList = some 0 :=
  have h : computeClassLayouts {} exSingleVirtual =
      .ok { classes_ := [("A".toList,
              { ast := { name := "A".toList,
                         methods := [methodOf .Virtual "m" "String" (.StringExpr "x".toList {})] },
                name := "A".toList,
                layout := { methods := ["m".toList], slotOf := [("m".toList, 0)] } })] } := rfl
  have hw := C13_layout_of_class_without_base {} _ exSingleVirtual
    { name := "A".toList, methods := [methodOf .Virtual "m" "String" (.StringExpr "x".toList {})] }
    rfl h (by unfold Program.firstDecl; decide) rfl
  let ⟨info, h1, _, _, h4⟩ := hw
  ⟨_, info, h, h1, h4 "m".toList rfl⟩

/-- C14 (counterexample): in `class A { virtual n() ... } class B extends A {
virtual x() ... virtual n() ... override n() ... }` the layouts are computed, `B`
overrides `n`, and the slot of `n` is 2 in `B` but 0 in its base `A`: the
`Virtual` method `n` of `B` has appended a new slot for the name. -/
theorem C14_counterexample :
    ∃ cg1 a b, computeClassLayouts {} exRedeclared = .ok cg1 ∧
      Table.find cg1.classes_ "A".toList = some a ∧ Table.find cg1.classes_ "B".toList = some b ∧
      b.base = some "A".toList ∧
      (∃ m ∈ b.ast.methods, m.attr = MethodAttr.Override ∧ m.name = "n".toList) ∧
      Table.find b.layout.slotOf "n".toList = some 2 ∧
      Table.find a.layout.slotOf "n".toList = some 0 :=
  ⟨_, _, _, rfl, rfl, rfl, rfl, ⟨methodOf .Override "n" "Int" (.IntExpr 2 {}), by decide, rfl, rfl⟩,
    rfl, rfl⟩

/-- C14 (amended): when `computeClassLayouts` succeeds, for every class `d`
with base class `b` and every `Override` method `m` of `d` such that `d` declares
no `Virtual` method of the same name, the base has a final layout and the slot
index of `m.name` in the final layout of `d` equals its slot index in the final
layout of `b`. -/
theorem C14_override_keeps_base_slot (cg cg1 : CodeGen) (p : Program) (d : ClassDecl)
    (b : List Char) (m : MethodDecl) (h0 : cg.classes_ = [])
    (h : cg.computeClassLayouts p = .ok cg1) (hd : p.firstDecl d) (hb : d.baseName = some b)
    (hm : m ∈ d.methods) (ha : m.attr = MethodAttr.Override)
    (hv : ∀ m2 ∈ d.methods, m2.attr = MethodAttr.Virtual → m2.name ≠ m.name) :
    ∃ dinfo binfo s, Table.find cg1.classes_ d.name = some dinfo ∧
      Table.find cg1.classes_ b = some binfo ∧
      Table.find dinfo.layout.slotOf m.name = some s ∧
      Table.find binfo.layout.slotOf m.name = some s := by
  obtain ⟨L, start, hf, hlm, hst⟩ := computeClassLayouts_spec h0 h d hd
  rw [hb] at hst
  obtain ⟨_, _, _, hst⟩ := hst
  have hsome := layoutMethods_override _ _ _ m hlm hm ha
  have hframe := layoutMethods_slot_frame _ _ _ m.name hlm hv
  by_cases hlt : strLt b d.name = true
  · rw [if_pos hlt] at hst
    obtain ⟨bi, hbi, rfl⟩ := hst
    cases hs : Table.find L.slotOf m.name with
    | none =>
      rw [hs] at hsome
      cases hsome
    | some s =>
      exact ⟨_, bi, s, hf, hbi, hs, by rw [← hframe, hs]⟩
  · rw [if_neg hlt] at hst
    subst hst
    rw [hframe] at hsome
    cases hsome

/-- Witness of C14: `class A { virtual speak() ... } class B extends A {
override speak() ... }`. -/
theorem C14_override_keeps_base_slot_witness :
    ∃ cg1 dinfo binfo s, computeClassLayouts {} exOverride = .ok cg1 ∧
      Table.find cg1.classes_ "B".toList = some dinfo ∧
      Table.find cg1.classes_ "A".toList = some binfo ∧
      Table.find dinfo.layout.slotOf "speak".toList = some s ∧
      Table.find binfo.layout.slotOf "speak".toList = some s :=
  have h : computeClassLayouts {} exOverride =
      .ok { classes_ :=
        [("A".toList,
          { ast := { name := "A".toList,
                     methods := [methodOf .Virtual "speak" "String" (.StringExpr "A".toList {})] },
            name := "A".toList,
            layout := { methods := ["speak".toList], slotOf := [("speak".toList, 0)] } }),
         ("B".toList,
          { ast := { name := "B".toList, baseName := some "A".toList,
                     methods := [methodOf .Override "speak" "String" (.StringExpr "B".toList {})] },
            name := "B".toList, base := some "A".toList,
            layout := { methods := ["speak".toList], slotOf := [("speak".toList, 0)] } })] } := rfl
  let ⟨dinfo, binfo, s, h1, h2, h3, h4⟩ := C14_override_keeps_base_slot {} _ exOverride
    { name := "B".toList, baseName := some "A".toList,
      methods := [methodOf .Override "speak" "String" (.StringExpr "B".toList {})] }
    "A".toList (methodOf .Override "speak" "String" (.StringExpr "B".toList {}))
    rfl h (by unfold Program.firstDecl; decide) rfl (by decide) rfl (by decide)
  ⟨_, dinfo, binfo, s, h, h1, h2, h3, h4⟩

/-- C15: in `class B { virtual m() ... } class A extends B { }` the base `B` is
declared before the class `A` that extends it and `computeClassLayouts` succeeds,
but the loop runs over the class table in the order of the names, reaches `A`
first and copies the layout of `B` while it is still empty: the final layout of
`B` is `[m]`, that of `A` is empty, and the first is not a prefix of the
second. -/
theorem C15_base_layout_not_prefix :
    ∃ cg1 a b, computeClassLayouts {} exBaseAfter = .ok cg1 ∧
      Table.find cg1.classes_ "A".toList = some a ∧ Table.find cg1.classes_ "B".toList = some b ∧
      a.base = some "B".toList ∧ b.layout.methods = ["m".toList] ∧ a.layout.methods = [] ∧
      ¬ (b.layout.methods <+: a.layout.methods) :=
  ⟨_, _, _, rfl, rfl, rfl, rfl, rfl, rfl, by decide⟩

/-- C17 (counterexample): in `class A { virtual m() ... virtual m() ... }` the
layout of `A` has two slots although its `Virtual` methods have one distinct
name; and in `class B { virtual m() ... } class A extends B { }` the layout of
`A` has no slot although a `Virtual` method is declared on its base chain. -/
theorem C17_counterexample :
    (∃ cg1 a, computeClassLayouts {} exTwice = .ok cg1 ∧
      Table.find cg1.classes_ "A".toList = some a ∧ a.layout.methods.length = 2 ∧
      (virtualNames a.ast.methods).eraseDups.length = 1) ∧
    (∃ cg1 a b, computeClassLayouts {} exBaseAfter = .ok cg1 ∧
      Table.find cg1.classes_ "A".toList = some a ∧ Table.find cg1.classes_ "B".toList = some b ∧
      a.base = some "B".toList ∧ a.layout.methods.length = 0 ∧
      (virtualNames (a.ast.methods ++ b.ast.methods)).eraseDups.length = 1) :=
  ⟨⟨_, _, rfl, rfl, rfl, by decide⟩, ⟨_, _, _, rfl, rfl, rfl, rfl, rfl, by decide⟩⟩

/-- C17 (amended): when `computeClassLayouts` succeeds, for every class whose
base chain (`chain`: the class, its base, the base of its base, ... up to a class
without base) descends in the byte-wise order of the names, the number of slots
of its layout is the number of `Virtual` methods declared by the classes of the
chain, each declaration counted; `Override` and plain methods add no slot. -/
theorem C17_slot_count (cg cg1 : CodeGen) (p : Program) (fuel : Nat) (k : List Char)
    (chain : List ClassInfo) (h0 : cg.classes_ = []) (h : cg.computeClassLayouts p = .ok cg1)
    (hchain : baseChain cg1.classes_ fuel k = some chain)
    (hdesc : chain.Chain' (fun x y => strLt y.name x.name = true)) :
    ∃ info, Table.find cg1.classes_ k = some info ∧
      info.layout.methods.length =
        (chain.map (fun i => (i.ast.methods.filter
          (fun m => decide (m.attr = MethodAttr.Virtual))).length)).sum := by
  obtain ⟨info, h1, h2⟩ := slots_of_chain h0 h fuel k chain hchain hdesc
  refine ⟨info, h1, ?_⟩
  rw [h2]
  simp [virtualNames]

/-- Witness of C17: `class A { virtual speak() ... } class B extends A {
override speak() ... }`, where `B` has one slot. -/
theorem C17_slot_count_witness :
    ∃ cg1 info, computeClassLayouts {} exOverride = .ok cg1 ∧
      Table.find cg1.classes_ "B".toList = some info ∧ info.layout.methods.length = 1 :=
  have h : computeClassLayouts {} exOverride =
      .ok { classes_ :=
        [("A".toList,
          { ast := { name := "A".toList,
                     methods := [methodOf .Virtual "speak" "String" (.StringExpr "A".toList {})] },
            name := "A".toList,
            layout := { methods := ["speak".toList], slotOf := [("speak".toList, 0)] } }),
         ("B".toList,
          { ast := { name := "B".toList, baseName := some "A".toList,
                     methods := [methodOf .Override "speak" "String" (.StringExpr "B".toList {})] },
            name := "B".toList, base := some "A".toList,
            layout := { methods := ["speak".toList], slotOf := [("speak".toList, 0)] } })] } := rfl
  let ⟨info, h1, h2⟩ := C17_slot_count {} _ exOverride 2 "B".toList _ rfl h rfl
    (by simp [List.chain'_cons, strLt])
  ⟨_, info, h, h1, h2⟩

/-- C19 (counterexample): `class A { } class A extends Z { }` contains a class
whose declared base name `Z` is not the name of any declared class, yet
`computeClassLayouts` succeeds, with the one layout of the first `A` and no entry
for `Z`, and `generate` succeeds: `emplace` drops the second declaration of `A`,
and only the base names of the entries of the table are looked up. -/
theorem C19_duplicate_class_counterexample :
    (∃ c ∈ exDuplicateUnknownBase.classes, c.baseName = some "Z".toList ∧
      ∀ d ∈ exDuplicateUnknownBase.classes, d.name ≠ "Z".toList) ∧
    (∃ cg1 info, computeClassLayouts { module_ := { identifier := "m".toList } }
        exDuplicateUnknownBase = .ok cg1 ∧
      cg1.classes_ = [("A".toList, info)] ∧ info.base = none ∧
      Table.find cg1.classes_ "Z".toList = none) ∧
    ∃ cg, generate (fun _ => none) exDuplicateUnknownBase "m".toList = .ok cg :=
  ⟨⟨{ name := "A".toList, baseName := some "Z".toList }, by decide, rfl, by decide⟩,
   ⟨_, _, rfl, rfl, rfl, rfl⟩, ⟨_, rfl⟩⟩

/-- C19 (amended): a program with a class, the first declared of its name (the
declaration the class table keeps), whose declared base name is not the name of
any declared class makes `computeClassLayouts` throw, so it yields no layouts, and
`generate` throws the same exception; conversely, when `computeClassLayouts`
succeeds, the base name of every class that is the first declared of its name is
the name of a class of the table, hence of a declared class. -/
theorem C19_unknown_base_class (p : Program) (moduleName : List Char) :
    (∀ c b, p.firstDecl c → c.baseName = some b → (∀ d ∈ p.classes, d.name ≠ b) →
      ∃ e, computeClassLayouts { module_ := { identifier := moduleName } } p = .thrown e ∧
        lower p moduleName = .thrown e ∧
        ∀ verifyModule, generate verifyModule p moduleName = .thrown e) ∧
    (∀ cg1, computeClassLayouts { module_ := { identifier := moduleName } } p = .ok cg1 →
      ∀ c b, p.firstDecl c → c.baseName = some b →
        (∃ d ∈ p.classes, d.name = b) ∧ ∃ bi, Table.find cg1.classes_ b = some bi) := by
  have hconv : ∀ cg1, computeClassLayouts { module_ := { identifier := moduleName } } p = .ok cg1 →
      ∀ c b, p.firstDecl c → c.baseName = some b →
        (∃ d ∈ p.classes, d.name = b) ∧ ∃ bi, Table.find cg1.classes_ b = some bi := by
    intro cg1 h c b hc hb
    obtain ⟨_, _, _, _, hst⟩ := computeClassLayouts_spec rfl h c hc
    rw [hb] at hst
    obtain ⟨d, hd, hdn, _⟩ := hst
    refine ⟨⟨d, List.mem_of_find?_eq_some hd, hdn⟩, ?_⟩
    obtain ⟨L, _, hfd, _, _⟩ := computeClassLayouts_spec rfl h d hd
    rw [hdn] at hfd
    exact ⟨_, hfd⟩
  refine ⟨?_, hconv⟩
  intro c b hc hb hno
  rcases computeClassLayouts_cases { module_ := { identifier := moduleName } } p with
    ⟨cg1, h⟩ | ⟨e, h⟩
  · obtain ⟨⟨d, hd, hdn⟩, _⟩ := hconv cg1 h c b hc hb
    exact absurd hdn (hno d hd)
  · exact ⟨e, h, lower_of_layout_thrown moduleName h,
      fun v => generate_of_lower_thrown v moduleName (lower_of_layout_thrown moduleName h)⟩

/-- Witness of C19: `class A { } class B extends C { }` fails with the
unknown-base-class error. -/
theorem C19_unknown_base_class_witness :
    ∃ e, computeClassLayouts { module_ := { identifier := "m".toList } } exUnknownBase = .thrown e ∧
      lower exUnknownBase "m".toList = .thrown e ∧
      (∀ verifyModule, generate verifyModule exUnknownBase "m".toList = .thrown e) ∧
      lower exUnknownBase "m".toList = .thrown (.runtime_error "Unknown base class: C") :=
  let ⟨e, h1, h2, h3⟩ := (C19_unknown_base_class exUnknownBase "m".toList).1
    { name := "B".toList, baseName := some "C".toList } "C".toList
    (by unfold Program.firstDecl; decide) rfl (by decide)
  ⟨e, h1, h2, h3, rfl⟩

/-- C20 (counterexample): `class A { virtual m() ... override m() ... }` has no
base class and an `Override` method, and its layouts are computed without error;
and `class A extends C { } class B { override m() ... }` fails with the
unknown-base-class error of `A`, not with the override error of `B`. -/
theorem C20_counterexample :
    (∃ cg1 a, computeClassLayouts {} exOwnVirtual = .ok cg1 ∧
      Table.find cg1.classes_ "A".toList = some a ∧ a.base = none ∧
      ∃ m ∈ a.ast.methods, m.attr = MethodAttr.Override) ∧
    computeClassLayouts {} exUnknownBaseFirst = .thrown (.runtime_error "Unknown base class: C") :=
  ⟨⟨_, _, rfl, rfl, rfl, methodOf .Override "m" "Int" (.IntExpr 1 {}), by decide, rfl⟩, rfl⟩

/-- C20 (amended): let the class declared by `c` have at index `j` an `Override`
method `m` such that no `Virtual` method of the same name is declared before it in
the class and the name is not a slot of the layout the class starts from (the
layout its base has when the loop reaches the class; empty without base class).
Then `computeClassLayouts` throws; the exception is the
override-without-base-method error of `m` whenever the loop gets as far as `m`,
that is, unless a class before `c` in the order of the table, an unknown base of
`c` or an earlier method of `c` throws first. -/
theorem C20_override_without_slot (cg : CodeGen) (p : Program) (c : ClassDecl) (j : Nat)
    (m : MethodDecl) (h0 : cg.classes_ = []) (hc : p.firstDecl c)
    (hj : c.methods[j]? = some m) (ha : m.attr = MethodAttr.Override)
    (hv : ∀ m2 ∈ c.methods.take j, m2.attr = MethodAttr.Virtual → m2.name ≠ m.name)
    (hinh : ∀ inh, startLayout p c = .ok inh → Table.find inh.slotOf m.name = none) :
    ∃ e, cg.computeClassLayouts p = .thrown e ∧
      ((∃ l, layoutBefore p c j = .ok l) →
        e = errorOf ["Method '".toList, m.name, "' marked override but no base method".toList]) := by
  have hsplit : c.methods = c.methods.take j ++ m :: c.methods.drop (j + 1) := by
    obtain ⟨hlt, hm⟩ := List.getElem?_eq_some.1 hj
    rw [← hm, List.getElem_cons_drop _ _ hlt, List.take_append_drop]
  rcases computeClassLayouts_at h0 hc with ⟨e, hb, he⟩ | ⟨M, s2, hb, hfind, he⟩
  · refine ⟨e, he, ?_⟩
    rintro ⟨l, hl⟩
    simp [layoutBefore, startLayout, hb] at hl
  · rcases inheritedLayout_cases M (ClassInfo.ofDecl c) with ⟨inh, hi⟩ | ⟨e, hi⟩
    swap
    · refine ⟨e, ?_, ?_⟩
      · rw [he]
        simp [layoutClass, hfind, hi]
      · rintro ⟨l, hl⟩
        simp [layoutBefore, startLayout, hb, hi] at hl
    have hstart : startLayout p c = .ok inh := by simp [startLayout, hb, hi]
    have hnone := hinh inh hstart
    rcases layoutMethods_cases (c.methods.take j) inh with ⟨l1, h1⟩ | ⟨e, h1⟩
    swap
    · refine ⟨e, ?_, ?_⟩
      · rw [he]
        have : layoutMethods (ClassInfo.ofDecl c).ast.methods inh = .thrown e := by
          show layoutMethods c.methods inh = .thrown e
          rw [hsplit, layoutMethods_append, h1]
        simp [layoutClass, hfind, hi, this]
      · rintro ⟨l, hl⟩
        simp [layoutBefore, hstart, h1] at hl
    have hl1 : Table.find l1.slotOf m.name = none := by
      rw [layoutMethods_slot_frame _ _ _ m.name h1 hv, hnone]
    have hthrow : layoutMethods (ClassInfo.ofDecl c).ast.methods inh =
        .thrown (errorOf ["Method '".toList, m.name,
          "' marked override but no base method".toList]) := by
      show layoutMethods c.methods inh = _
      rw [hsplit, layoutMethods_append, h1]
      simp [layoutMethods, layoutMethod, ha, hl1]
    refine ⟨_, ?_, fun _ => rfl⟩
    rw [he]
    simp [layoutClass, hfind, hi, hthrow]

/-- Witness of C20: `class A { override m(): String { return "x"; } }`. -/
theorem C20_override_without_slot_witness :
    ∃ e, computeClassLayouts {} exOverrideOnly = .thrown e ∧
      ((∃ l, layoutBefore exOverrideOnly
          { name := "A".toList,
            methods := [methodOf .Override "m" "String" (.StringExpr "x".toList {})] } 0 = .ok l) →
        e = errorOf ["Method '".toList, "m".toList,
              "' marked override but no base method".toList]) :=
  C20_override_without_slot {} exOverrideOnly
    { name := "A".toList, methods := [methodOf .Override "m" "String" (.StringExpr "x".toList {})] }
    0 (methodOf .Override "m" "String" (.StringExpr "x".toList {})) rfl
    (by unfold Program.firstDecl; decide) rfl rfl (by simp)
    (by
      intro inh h
      have : inh = {} := by
        have h2 : startLayout exOverrideOnly
            { name := "A".toList,
              methods := [methodOf .Override "m" "String" (.StringExpr "x".toList {})] } =
            .ok {} := rfl
        rw [h2] at h
        cases h
        rfl
      rw [this]
      rfl)

/-- C16: for `class B { virtual m() ... } class A extends B { } function main(): Int {
var x: B = new A(); print(x.m()); return 0; }` the five passes of `generate`
succeed; `A` is on its own base chain with `B`, the layout of `B` has the slot `m`
at index 0 and `implementationFor(A, m)` is `B.m`, but the vtable of `A` has no
slot at all, so its slot 0 does not hold `B.m`; `main` calls through slot 0 of
the vtable of an `A` object. -/
theorem C16_vtable_misses_base_slot :
    ∃ cg, lower exDispatchBaseAfter = .ok cg ∧
      slotOf cg "B".toList "m".toList = .ok 0 ∧
      implementationFor cg "A".toList "m".toList = .ok "B.m".toList ∧
      cg.module_.vtableSlots "vtable.A".toList = some [] ∧
      cg.module_.vtableSlots "vtable.B".toList =
        some [.constCast (.function "B.m".toList) tyI8Ptr] :=
  ⟨_, rfl, rfl, rfl, rfl, rfl⟩

/-- C21: for `class A { virtual m() ... } class B extends A { m() ... }
function main(): Int { return 0; }` the five passes of `generate` succeed and slot
0 of the vtable of `B` holds the function `B.m`, which is generated from the
method `m` of `B`, declared with attribute `None`. -/
theorem C21_plain_method_in_vtable :
    ∃ cg b, lower exPlainInDerived = .ok cg ∧
      Table.find cg.classes_ "B".toList = some b ∧
      (b.ast.methods.map (fun m => (m.name, m.attr)) = [("m".toList, MethodAttr.None)]) ∧
      Table.find b.methods "m".toList = some "B.m".toList ∧
      cg.module_.vtableSlots "vtable.B".toList =
        some [.constCast (.function "B.m".toList) tyI8Ptr] :=
  ⟨_, _, rfl, rfl, rfl, rfl, rfl⟩

/-- C18: when `generate` succeeds, for every class `k` of the class table and
every slot index `i` of its layout, with slot name `n`: the vtable global
variable of the class is in the module with a struct initializer whose element
`i` is the function `fn` cast to a byte pointer, where `fn` is the function
recorded for `n` in the table of methods of `K`, the first class, walking from the
class up its base chain, whose declaration has a method called `n`; when the
class itself declares a method called `n` (an override, say), `K` is the class
itself, so the slot holds its own function and not that of the base. -/
theorem C18_vtable_slot_holds_nearest_implementation (verifyModule : Module → Option String)
    (p : Program) (moduleName : List Char) (cg : CodeGen) (k : List Char) (info : ClassInfo)
    (i : Nat) (n : List Char) (h : generate verifyModule p moduleName = .ok cg)
    (hfind : Table.find cg.classes_ k = some info) (hn : info.layout.methods[i]? = some n) :
    ∃ g vt elems K fn, info.vtableGlobal = some g.name ∧ g ∈ cg.module_.globals ∧
      g.isConstant = true ∧ g.initializer = .struct vt elems ∧
      elems[i]? = some (.constCast (.function fn) tyI8Ptr) ∧
      firstDeclaring cg.classes_ (cg.classes_.length + 1) info n = some K ∧
      Table.find K.methods n = some fn ∧
      (info.ast.methods.any (fun m => decide (m.name = n)) = true → K = info) := by
  obtain ⟨cg1, _, _, _, hall, _, _⟩ := lower_spec (generate_ok h)
  obtain ⟨hrec, elems, vt, g, e1, e2, e3, e4, e5, e6, e7⟩ := hall k info hfind
  obtain ⟨hlen, hslots⟩ := vtableElems_ok e1
  obtain ⟨fn, hfn, hslot⟩ := hslots i n hn
  have hne : elems.isEmpty = false := by
    cases elems with
    | nil => simp at hslot
    | cons a l => rfl
  unfold implementationFor at hfn
  rw [hfind] at hfn
  obtain ⟨K, hK, hKfn⟩ := implementationLoop_first (fun k i hi => (hall k i hi).1) k n _ info fn
    hrec hfn
  refine ⟨g, vt, elems, K, fn, e3, e4, e6, ?_, hslot, hK, hKfn, ?_⟩
  · rw [e7]
    unfold vtableInit
    rw [hne]
    rfl
  · intro hdecl
    unfold firstDeclaring at hK
    rw [if_pos hdecl] at hK
    cases hK
    rfl

/-- Witness of C18: in `class A { virtual speak() ... } class B extends A {
override speak() ... } function main(): Int { return 0; }` the class `B` has one
slot, `speak`, and slot 0 of its vtable holds `B.speak`. -/
theorem C18_vtable_slot_holds_nearest_implementation_witness :
    ∃ cg info, generate (fun _ => none) exOverride "m".toList = .ok cg ∧
      Table.find cg.classes_ "B".toList = some info ∧
      info.layout.methods = ["speak".toList] ∧
      cg.module_.vtableSlots "vtable.B".toList =
        some [.constCast (.function "B.speak".toList) tyI8Ptr] ∧
      ∃ g vt elems K fn, info.vtableGlobal = some g.name ∧ g ∈ cg.module_.globals ∧
        g.isConstant = true ∧ g.initializer = .struct vt elems ∧
        elems[0]? = some (.constCast (.function fn) tyI8Ptr) ∧
        firstDeclaring cg.classes_ (cg.classes_.length + 1) info "speak".toList = some K ∧
        Table.find K.methods "speak".toList = some fn ∧
        (info.ast.methods.any (fun m => decide (m.name = "speak".toList)) = true → K = info) :=
  ⟨_, _, rfl, rfl, rfl, rfl,
    C18_vtable_slot_holds_nearest_implementation (fun _ => none) exOverride "m".toList _
      "B".toList _ 0 "speak".toList rfl rfl rfl⟩

/-- C23: when the body of a method or of a free function is lowered with success
(`defineBody`, which both passes use), the function has the single block `entry`,
whose instructions are `instrs ++ [ret v]` with no `ret` in `instrs`: exactly one
return instruction, the last one.  The statements after a `return` statement are
not lowered: the outcome is that of the body cut after it.  When the body has no
`return` statement, `v` is the default value: the constant 0 of type `i32` when
the declared return type name is `Int`, an undefined byte pointer otherwise. -/
theorem C23_single_block_single_return (cg cg1 : CodeGen) (fn : List Char) (body : List Stmt)
    (retTypeName : List Char) (h : defineBody cg fn body retTypeName = .ok cg1) :
    ∃ instrs v, NoRet instrs ∧
      (∀ f ∈ cg1.module_.functions, f.name = fn →
        f.blocks = [{ name := "entry".toList, instrs := instrs ++ [.ret v] }]) ∧
      ((∀ s ∈ body, s.isReturn = false) →
        v = if retTypeName = "Int".toList then .constInt tyI32 0 else .undef tyI8Ptr) ∧
      (∀ pre r post, body = pre ++ r :: post → r.isReturn = true →
        defineBody cg fn (pre ++ [r]) retTypeName = .ok cg1) := by
  obtain ⟨cg2, instrs, v, hb, _, hn, hm, _, _, hdef⟩ := defineBody_ok h
  refine ⟨instrs, v, hn, ?_, hdef, ?_⟩
  · intro f hf hname
    rw [hm] at hf
    exact setEntry_blocks _ _ _ f hf hname
  · intro pre r post hbody hr
    rw [hbody] at h
    unfold defineBody at h ⊢
    rw [codegenBody_after_return pre r post _ _ _ hr] at h
    exact h

/-- Witness of C23: the function `main` of `function main(): String { print("x"); }`
ends in the default return of an undefined byte pointer. -/
theorem C23_single_block_single_return_witness :
    ∃ cg1 instrs v, defineBody (CodeGen.declareFunction (CodeGen.getOrDeclarePuts {}).2
        { name := "main".toList, returnType := { name := "String".toList },
          body := [.PrintStmt (some (.StringExpr "x".toList {})) {}] }).2 "main".toList
        [.PrintStmt (some (.StringExpr "x".toList {})) {}] "String".toList = .ok cg1 ∧
      NoRet instrs ∧
      (∀ f ∈ cg1.module_.functions, f.name = "main".toList →
        f.blocks = [{ name := "entry".toList, instrs := instrs ++ [.ret v] }]) ∧
      v = .undef tyI8Ptr :=
  let ⟨instrs, v, h1, h2, h3, _⟩ := C23_single_block_single_return
    (CodeGen.declareFunction (CodeGen.getOrDeclarePuts {}).2
      { name := "main".toList, returnType := { name := "String".toList },
        body := [.PrintStmt (some (.StringExpr "x".toList {})) {}] }).2 _ "main".toList
    [.PrintStmt (some (.StringExpr "x".toList {})) {}] "String".toList rfl
  ⟨_, instrs, v, rfl, h1, h2, h3 (by decide)⟩

/-- C27: when a method call `recv.m()` is lowered with success, `recv` being
bound to the storage `sv.allocaPtr` with static type `sv.typeName`, the static
type is a class of the table with its two struct types, the method has the slot
`slot` in the layout of that class (`slotOf` of the static type and the method
name, nothing else), and exactly seven instructions are appended: the load of
the stored receiver pointer, the address of field 0 of the object struct of the
static type, the load of the vtable pointer, the address of the slot in the
vtable struct of the static type, the load of the slot, the cast to a pointer to
the method function type, which has one parameter, and the call of the cast
value with the loaded receiver pointer as only argument. -/
theorem C27_virtual_call_sequence (cg cg1 : CodeGen) (scope : Table ScopeVar)
    (recv m expectedType : List Char) (rloc loc : SourceRange) (v : Value) (sv : ScopeVar)
    (hs : Table.find scope recv = some sv)
    (h : codegenExpr cg (some (.MethodCallExpr (.VarExpr recv rloc) m loc)) scope expectedType =
      .ok (v, cg1)) :
    ∃ ci classTy vtableTy slot retTy, Table.find cg.classes_ sv.typeName = some ci ∧
      ci.classTy = some classTy ∧ ci.vtableTy = some vtableTy ∧
      slotOf cg sv.typeName m = .ok slot ∧ Table.find ci.layout.slotOf m = some slot ∧
      retTy = retTypeFor (if expectedType = [] then "String".toList else expectedType) ∧
      cg1.block = cg.block ++
        [.load tyI8Ptr sv.allocaPtr (recv ++ ".val".toList),
         .structGEP classTy (.inst cg.block.length) 0 (sv.typeName ++ ".vptr.addr".toList),
         .load (.ptr vtableTy) (.inst (cg.block.length + 1)) (sv.typeName ++ ".vptr".toList),
         .structGEP vtableTy (.inst (cg.block.length + 2)) slot (m ++ ".slot.addr".toList),
         .load tyI8Ptr (.inst (cg.block.length + 3)) (m ++ ".slot".toList),
         .pointerCast (.inst (cg.block.length + 4)) (.ptr (.func retTy [.ptr classTy]))
           (m ++ ".fn".toList),
         .call (.func retTy [.ptr classTy]) (.inst (cg.block.length + 5))
           [.inst cg.block.length] (m ++ ".call".toList)] ∧
      v = .inst (cg.block.length + 6) ∧ cg1.module_ = cg.module_ ∧ cg1.classes_ = cg.classes_ := by
  simp only [codegenExpr, hs] at h
  obtain ⟨ci, classTy, vtableTy, slot, h1, h2, h3, h4, h5, h6⟩ := codegenVirtualCall_ok h
  refine ⟨ci, classTy, vtableTy, slot, _, h1, h2, h3, ?_, h4, rfl, ?_, ?_, ?_, ?_⟩
  · unfold slotOf
    rw [emit_classes] at h1
    simp only [h1, h4]
  · rw [h5]
    simp [emit, methodFnTy, List.append_assoc]
  · rw [h6]
    simp [emit]
  · rw [h5]
    rfl
  · rw [h5]
    rfl

/-- Witness of C27: the call `x.f()`, with `x` bound to the `alloca` at index 0
with static type `A`, where `A` has the slot `f` at index 0. -/
theorem C27_virtual_call_sequence_witness :
    ∃ ci classTy vtableTy slot retTy, Table.find exCallState.classes_ "A".toList = some ci ∧
      ci.classTy = some classTy ∧ ci.vtableTy = some vtableTy ∧
      slotOf exCallState "A".toList "f".toList = .ok slot ∧
      retTy = retTypeFor "String".toList :=
  let ⟨ci, classTy, vtableTy, slot, retTy, h1, h2, h3, h4, _, h6, _⟩ :=
    C27_virtual_call_sequence exCallState _ exCallScope "x".toList "f".toList "String".toList
      {} {} _ { allocaPtr := .inst 0, typeName := "A".toList } rfl rfl
  ⟨ci, classTy, vtableTy, slot, retTy, h1, h2, h3, h4, h6⟩

/-- C22: let a body of the program, that of a free function or of a method of a
class of the table, be `pre ++ s :: post` with no `return` statement in `pre`
(so that `s` is lowered), the operand of `s` being the call `v.m()`, the first
`var` declaration of `v` in `pre` giving it the static type `T`, a class of the
table whose layout has no slot named `m`.  Then `generate` does not succeed,
whatever the verifier; and `s`, lowered in a state in which `v` is bound with
static type `T` and `T` is a class with its two struct types and without slot
`m`, throws `No virtual method 'm' in class 'T'`. -/
theorem C22_call_of_method_without_slot (p : Program) (moduleName : List Char) (cg1 : CodeGen)
    (body pre post : List Stmt) (s : Stmt) (v m T : List Char) (l1 l2 : SourceRange)
    (ti : ClassInfo)
    (hL : computeClassLayouts { module_ := { identifier := moduleName } } p = .ok cg1)
    (hbody : IsBody p cg1.classes_ body) (hsplit : body = pre ++ s :: post)
    (hpre : ∀ s0 ∈ pre, s0.isReturn = false)
    (hop : s.operand = some (.MethodCallExpr (.VarExpr v l1) m l2))
    (hty : declaredType pre v = some T) (hT : Table.find cg1.classes_ T = some ti)
    (hslot : Table.find ti.layout.slotOf m = none) :
    (∀ verifyModule cg, generate verifyModule p moduleName ≠ .ok cg) ∧
    (∀ (cg : CodeGen) (scope : Table ScopeVar) (ret : List Char) (sv : ScopeVar) (ci : ClassInfo)
      (classTy vtableTy : Ty), Table.find scope v = some sv → sv.typeName = T →
      Table.find cg.classes_ T = some ci → ci.classTy = some classTy →
      ci.vtableTy = some vtableTy → Table.find ci.layout.slotOf m = none →
      codegenStmt cg s scope ret = .thrown (errorOf ["No virtual method '".toList, m,
        "' in class '".toList, T, "'".toList])) := by
  refine ⟨fun verifyModule cg => generate_unresolved hL hbody hsplit hpre ?_ verifyModule cg, ?_⟩
  · rw [hop]
    simp only [Unresolved, hty, hT]
    exact hslot
  · intro cg scope ret sv ci classTy vtableTy hv hsv hc h1 h2 h3
    subst hsv
    exact codegenStmt_no_slot hop hv hc h1 h2 h3 ret

/-- Witness of C22: `print(v.g())` after `var v: A = new A();`, the class `A`
having the only slot `f`; lowering throws the error of `slotOf`. -/
theorem C22_call_of_method_without_slot_witness :
    (∀ verifyModule cg, generate verifyModule exNoSlot "fakelang-module".toList ≠ .ok cg) ∧
    lower exNoSlot = .thrown (errorOf ["No virtual method '".toList, "g".toList,
      "' in class '".toList, "A".toList, "'".toList]) :=
  ⟨(C22_call_of_method_without_slot exNoSlot "fakelang-module".toList _ _
      [.VarDeclStmt "v".toList { name := "A".toList } (some (.NewExpr "A".toList {})) {}]
      [.ReturnStmt (some (.IntExpr 0 {})) {}]
      (.PrintStmt (some (.MethodCallExpr (.VarExpr "v".toList {}) "g".toList {})) {})
      "v".toList "g".toList "A".toList {} {} _ rfl
      (Or.inl ⟨_, List.mem_singleton.2 rfl, rfl⟩) rfl (by decide) rfl rfl rfl rfl).1, rfl⟩

/-- C24, refuted as stated: the body `return 0; print(x.m());` uses the unbound
variable `x`, and the body `var x: Foo = new A(); return 0;` declares a variable
of the type name `Foo`, which is neither `Int`, `String` nor a class; both
programs are lowered without error, and `generate` succeeds with every verifier
that accepts the module. -/
theorem C24_counterexample :
    (∃ cg, lower exAfterReturn = .ok cg ∧
      ∀ verifyModule : Module → Option String, verifyModule cg.module_ = none →
        generate verifyModule exAfterReturn = .ok cg) ∧
    (∃ cg, lower exUnknownType = .ok cg ∧
      ∀ verifyModule : Module → Option String, verifyModule cg.module_ = none →
        generate verifyModule exUnknownType = .ok cg) :=
  ⟨⟨_, rfl, fun verifyModule hv => generate_of_lower_ok verifyModule _ rfl hv⟩,
   ⟨_, rfl, fun verifyModule hv => generate_of_lower_ok verifyModule _ rfl hv⟩⟩

/-- C24, amended: let a body of the program be `pre ++ s :: post` with no `return`
statement in `pre`, the operand of `s` holding a reference that does not resolve:
a `new` of a class that is not in the table, a variable that no `var` declaration
of `pre` binds, or a method call whose receiver is not bound, is bound with a
static type that is not a class of the table, or is bound with a class whose
layout has no slot of the method name.  Then `generate` does not succeed,
whatever the verifier, and no lowering of `s` in a state with the same classes
and a scope that gives the variables those static types succeeds. -/
theorem C24_unresolved_reference_in_lowered_statement (p : Program) (moduleName : List Char)
    (cg1 : CodeGen) (body pre post : List Stmt) (s : Stmt)
    (hL : computeClassLayouts { module_ := { identifier := moduleName } } p = .ok cg1)
    (hbody : IsBody p cg1.classes_ body) (hsplit : body = pre ++ s :: post)
    (hpre : ∀ s0 ∈ pre, s0.isReturn = false)
    (hun : Unresolved cg1.classes_ (declaredType pre) s.operand) :
    (∀ verifyModule cg, generate verifyModule p moduleName ≠ .ok cg) ∧
    (∀ (cg : CodeGen) (scope : Table ScopeVar) (ret : List Char) (r : Table ScopeVar × CodeGen),
      SameDecls cg1.classes_ cg.classes_ → scopeType scope [] = declaredType pre →
      codegenStmt cg s scope ret ≠ .ok r) := by
  refine ⟨fun verifyModule cg => generate_unresolved hL hbody hsplit hpre hun verifyModule cg, ?_⟩
  intro cg scope ret r hsame hscope
  refine codegenStmt_unresolved ?_ ret r
  rw [hscope]
  exact Unresolved.unresolved_of_same hun hsame

/-- Witness of C24: `var x: A = new A();` in a program without classes; lowering
throws `Unknown class: A`. -/
theorem C24_unresolved_reference_in_lowered_statement_witness :
    (∀ verifyModule cg, generate verifyModule exUnknownClass "fakelang-module".toList ≠ .ok cg) ∧
    lower exUnknownClass = .thrown (errorOf ["Unknown class: ".toList, "A".toList]) :=
  ⟨(C24_unresolved_reference_in_lowered_statement exUnknownClass "fakelang-module".toList _ _ []
      [.ReturnStmt (some (.IntExpr 0 {})) {}]
      (.VarDeclStmt "x".toList { name := "A".toList } (some (.NewExpr "A".toList {})) {})
      rfl (Or.inl ⟨_, List.mem_singleton.2 rfl, rfl⟩) rfl (by decide) rfl).1, rfl⟩

/-- C26, refuted as stated: in `var v: A = new A(); var v: B = new B();
return v.g();` the call is lowered with the static type `A` of the first
declaration, so that lowering throws although `B` has the slot `g`; and in
`var v: A = new A(); var v: A = new A(); return v.f();` the second declaration
stores to its own `alloca`, at index 5, while the receiver of the call is loaded
from the `alloca` of the first declaration, at index 0. -/
theorem C26_counterexample :
    lower exTwoVars = .thrown (errorOf ["No virtual method '".toList, "g".toList,
      "' in class '".toList, "A".toList, "'".toList]) ∧
    ∃ cg f b, lower exTwoVarsSameType = .ok cg ∧ f ∈ cg.module_.functions ∧
      f.name = "main".toList ∧ f.blocks = [b] ∧
      b.instrs[5]? = some (.alloca (.ptr tyI8Ptr) "v.addr".toList) ∧
      b.instrs[9]? = some (.store (.inst 6) (.inst 5)) ∧
      b.instrs[10]? = some (.load tyI8Ptr (.inst 0) "v.val".toList) :=
  ⟨rfl, _, _, _, rfl, List.mem_cons_of_mem _ (List.mem_cons_of_mem _ (List.mem_singleton.2 rfl)),
    rfl, rfl, rfl, rfl, rfl⟩

/-- C26, amended: when a `var` declaration of a name that the scope (a map, so a
table in key order) already binds is lowered, the binding is not changed: the
scope after the statement is the scope before it, and every later use of the
name, as a variable or as the receiver of a method call, uses the storage
location and the static type of the earlier declaration. -/
theorem C26_second_declaration_keeps_binding (cg cg1 : CodeGen) (scope scope1 : Table ScopeVar)
    (name : List Char) (type : TypeRef) (init : Option Expr) (loc : SourceRange) (ret : List Char)
    (sv : ScopeVar) (hs : Table.Sorted scope) (hb : Table.find scope name = some sv)
    (h : codegenStmt cg (.VarDeclStmt name type init loc) scope ret = .ok (scope1, cg1)) :
    Table.find scope1 name = some sv ∧ (∀ x, Table.find scope1 x = Table.find scope x) ∧
    (∀ (cg2 : CodeGen) (l : SourceRange) (t : List Char),
      codegenExpr cg2 (some (.VarExpr name l)) scope1 t =
        .ok (cg2.emit (.load tyI8Ptr sv.allocaPtr (name ++ ".val".toList)))) ∧
    (∀ (cg2 : CodeGen) (m : List Char) (l1 l2 : SourceRange) (t : List Char),
      codegenExpr cg2 (some (.MethodCallExpr (.VarExpr name l1) m l2)) scope1 t =
        codegenVirtualCall (cg2.emit (.load tyI8Ptr sv.allocaPtr (name ++ ".val".toList))).2
          (cg2.emit (.load tyI8Ptr sv.allocaPtr (name ++ ".val".toList))).1 sv.typeName m
          (if t = [] then "String".toList else t)) := by
  obtain ⟨_, _, _, hsc⟩ := codegenStmt_ok h
  simp only at hsc
  have hfind : ∀ x, Table.find scope1 x = Table.find scope x := by
    intro x
    rw [hsc, Table.find_emplace _ _ _ _ hs]
    cases hx : Table.find scope x with
    | some w => rfl
    | none =>
      have hne : ¬ x = name := fun e => by
        rw [e, hb] at hx
        cases hx
      simp [hne]
  have hb1 : Table.find scope1 name = some sv := by rw [hfind, hb]
  refine ⟨hb1, hfind, ?_, ?_⟩
  · intro cg2 l t
    simp only [codegenExpr, hb1]
  · intro cg2 m l1 l2 t
    simp only [codegenExpr, hb1]

/-- Witness of C26: the second `var v` in a state where `v` is bound to the
`alloca` at index 0 with static type `A`. -/
theorem C26_second_declaration_keeps_binding_witness :
    ∃ scope1, Table.find scope1 "x".toList = some { allocaPtr := .inst 0, typeName := "A".toList } ∧
      (∀ x, Table.find scope1 x = Table.find exCallScope x) :=
  ⟨_, (C26_second_declaration_keeps_binding exCallState _ exCallScope _ "x".toList
      { name := "B".toList } (some (.StringExpr "s".toList {})) {} "Int".toList
      { allocaPtr := .inst 0, typeName := "A".toList }
      (by unfold Table.Sorted; decide) rfl rfl).1,
    (C26_second_declaration_keeps_binding exCallState _ exCallScope _ "x".toList
      { name := "B".toList } (some (.StringExpr "s".toList {})) {} "Int".toList
      { allocaPtr := .inst 0, typeName := "A".toList }
      (by unfold Table.Sorted; decide) rfl rfl).2.1⟩

end

/-! ## Claims about the shapes and source ranges of parsed programs -/

/-- C12 (failing input): the text `function f(): T { return "\N"; }`, `N` being a
NUL byte after the backslash, is lexed and parsed to a program whose `return`
statement has the string value of the one character NUL; the rendering of the
program holds that NUL unescaped between the double quotes, and `lexAll` on the
rendering raises "Unterminated string literal". -/
theorem C12_rendering_with_nul_not_lexed :
    ∃ toks P Q, lexAll exNulSource = .ok toks ∧ parseProgram toks = .ok P Q ∧
      P.functions.map (fun f => f.body) =
        [[.ReturnStmt (some (.StringExpr [NUL] ⟨⟨1, 26⟩, ⟨1, 30⟩⟩)) ⟨⟨1, 19⟩, ⟨1, 31⟩⟩]] ∧
      specRender P = "function f(): T \x7b return ".toList ++ [DQUOTE, NUL, DQUOTE] ++
        "; \x7d ".toList ∧
      lexAll (specRender P) = .raised "Unterminated string literal" :=
  ⟨_, _, _, rfl, rfl, by decide, by decide, by decide⟩

/-- C29 (counterexample): the text of the `String` token of the source text
`"a"` is `a`, while its range delimits the three characters of the literal with
its double quotes. -/
theorem C29_counterexample :
    lexAll [DQUOTE, 'a', DQUOTE] = .ok
      [⟨.String, ['a'], ⟨⟨1, 1⟩, ⟨1, 4⟩⟩⟩, ⟨.Eof, [], ⟨⟨1, 4⟩, ⟨1, 4⟩⟩⟩] ∧
    Lexer.posOf ([DQUOTE, 'a', DQUOTE].take 0) = ⟨1, 1⟩ ∧
    Lexer.posOf ([DQUOTE, 'a', DQUOTE].take 3) = ⟨1, 4⟩ ∧
    ([DQUOTE, 'a', DQUOTE].drop 0).take (3 - 0) = [DQUOTE, 'a', DQUOTE] ∧
    ['a'] ≠ [DQUOTE, 'a', DQUOTE] := by
  decide

/-- C29 (amended): the text of every token returned by `lexAll` whose kind is
neither `String` nor `Eof` is its exact spelling, the input between the two
offsets that its range delimits; the range of a `String` token delimits the
literal with its two double quotes, which the text does not hold. -/
theorem C29_text_is_spelling_except_strings (input : List Char) (toks : List Token)
    (h : lexAll input = .ok toks) :
    ∀ t ∈ toks, ∃ i j, i ≤ j ∧ j ≤ input.length ∧
      t.range.start = Lexer.posOf (input.take i) ∧ t.range.end_ = Lexer.posOf (input.take j) ∧
      (t.kind ≠ .Eof → t.kind ≠ .String → t.text = (input.drop i).take (j - i)) ∧
      (t.kind = .String → input[i]? = some DQUOTE ∧ input[j - 1]? = some DQUOTE ∧ i + 2 ≤ j) := by
  obtain ⟨ts, e, rfl, _, he, hts⟩ := lexAll_inv input toks h
  intro t ht
  have hr : RangeOk input t := by
    rcases List.mem_append.mp ht with ht | ht
    · exact (hts t ht).2
    · rw [List.mem_singleton.mp ht]
      exact he
  obtain ⟨i, j, h1, h2, h3, h4, _, _, h7, h8⟩ := hr
  exact ⟨i, j, h1, h2, h3, h4, fun a b => (h8 a b).1, h7⟩

/-- Witness of C29 on the input `a` newline `;`. -/
theorem C29_text_is_spelling_except_strings_witness :
    ∃ i j, i ≤ j ∧ j ≤ ['a', LF, ';'].length ∧
      (⟨⟨2, 1⟩, ⟨2, 2⟩⟩ : SourceRange).start = Lexer.posOf (['a', LF, ';'].take i) ∧
      (⟨⟨2, 1⟩, ⟨2, 2⟩⟩ : SourceRange).end_ = Lexer.posOf (['a', LF, ';'].take j) ∧
      [';'] = (['a', LF, ';'].drop i).take (j - i) :=
  let ⟨i, j, h1, h2, h3, h4, h5, _⟩ := C29_text_is_spelling_except_strings ['a', LF, ';']
    [⟨.Identifier, ['a'], ⟨⟨1, 1⟩, ⟨1, 2⟩⟩⟩, ⟨.Semicolon, [';'], ⟨⟨2, 1⟩, ⟨2, 2⟩⟩⟩,
     ⟨.Eof, [], ⟨⟨2, 2⟩, ⟨2, 2⟩⟩⟩]
    (by decide) ⟨.Semicolon, [';'], ⟨⟨2, 1⟩, ⟨2, 2⟩⟩⟩
    (List.mem_cons_of_mem _ (List.mem_cons_self _ _))
  ⟨i, j, h1, h2, h3, h4, h5 (by decide) (by decide)⟩

/-- C11: every `Program` returned by `parseProgram` is well shaped: the
initializer of every `VarDeclStmt` is a `NewExpr`, the receiver of every
`MethodCallExpr` is a `VarExpr`, and the operand of every `ReturnStmt` and
`PrintStmt` is not null.  And on a token vector that holds an `Eof` token,
`parseProgram` fails with an exception when a `var` keyword before the first `Eof`
is followed by anything other than tokens of the kinds
`Ident : Ident = new Ident ( ) ;`. -/
theorem C11_parsed_shapes (toks : List Token) :
    (∀ P Q, parseProgram toks = .ok P Q → P.wellShaped = true) ∧
    (EofAhead toks → ∀ a t b, toks = a ++ t :: b → (∀ x ∈ a, x.kind ≠ .Eof) →
      t.kind = .KwVar → (b.take 9).map (fun x => x.kind) ≠ varTail →
      ∃ e Q, parseProgram toks = .error e Q) := by
  refine ⟨fun P Q h => parseProgram_wellShaped toks P Q h, ?_⟩
  intro hE a t b e ha ht hb
  cases h : parseProgram toks with
  | ok P Q =>
    exfalso
    obtain ⟨eof, tail, e1, hk, _, hv, _, _⟩ := parseProgram_segments toks P Q hE h
    rw [e] at e1
    obtain ⟨b1, h1, h2⟩ := prefix_before_eof a Q.consumed b tail t eof e1 ha
      (by rw [ht]; decide) hk
    have h3 := hv a t b1 h1 ht
    have hlen : 9 ≤ b1.length := by
      have := congrArg List.length h3
      simp only [List.length_map, List.length_take, varTail, List.length_cons,
        List.length_nil] at this
      omega
    apply hb
    rw [h2, List.take_append_of_le_length hlen]
    exact h3
  | error e Q => exact ⟨e, Q, rfl⟩
  | diverged => exact absurd h (parseProgram_ne_diverged toks hE)

/-- Witness of C11: the program parsed from `class A { virtual m(): T {
var x: A = new A(); return x.m(); } }` is well shaped, and the tokens of
`function f(): T { var x: A = y; }` are not parsed. -/
theorem C11_parsed_shapes_witness :
    (∃ P Q, parseProgram exClassTokens = .ok P Q ∧ P.wellShaped = true) ∧
    ∃ e Q, parseProgram exBadVarTokens = .error e Q :=
  ⟨⟨_, _, rfl, (C11_parsed_shapes exClassTokens).1 _ _ rfl⟩,
   (C11_parsed_shapes exBadVarTokens).2
     ⟨exBadVarTokens.take 15, ⟨.Eof, [], ⟨⟨1, 34⟩, ⟨1, 34⟩⟩⟩, [], by decide, by decide, by decide⟩
     (exBadVarTokens.take 7) ⟨.KwVar, "var".toList, ⟨⟨1, 19⟩, ⟨1, 22⟩⟩⟩ (exBadVarTokens.drop 8)
     (by decide) (by decide) (by decide) (by decide)⟩

section
open CodeGen

/-- C32: when `computeClassLayouts` succeeds, for every class `d` with base `b`
whose name is smaller than the name of `d` in the byte-wise order of the class
table, the `methods` of the final layout of the base are a prefix of the
`methods` of the final layout of `d`. -/
theorem C32_base_layout_prefix_in_name_order (cg cg1 : CodeGen) (p : Program) (d : ClassDecl)
    (b : List Char) (h0 : cg.classes_ = []) (h : cg.computeClassLayouts p = .ok cg1)
    (hd : p.firstDecl d) (hb : d.baseName = some b) (hlt : strLt b d.name = true) :
    ∃ dinfo binfo, Table.find cg1.classes_ d.name = some dinfo ∧
      Table.find cg1.classes_ b = some binfo ∧
      binfo.layout.methods <+: dinfo.layout.methods := by
  obtain ⟨L, start, hf, hlm, hst⟩ := computeClassLayouts_spec h0 h d hd
  rw [hb] at hst
  obtain ⟨_, _, _, hst⟩ := hst
  rw [if_pos hlt] at hst
  obtain ⟨bi, hbi, rfl⟩ := hst
  refine ⟨_, bi, hf, hbi, ?_⟩
  show bi.layout.methods <+: L.methods
  rw [layoutMethods_methods _ _ _ hlm]
  exact List.prefix_append _ _

/-- Witness of C32: `class A { virtual speak() ... } class B extends A {
override speak() ... }`. -/
theorem C32_base_layout_prefix_in_name_order_witness :
    ∃ cg1 dinfo binfo, computeClassLayouts {} exOverride = .ok cg1 ∧
      Table.find cg1.classes_ "B".toList = some dinfo ∧
      Table.find cg1.classes_ "A".toList = some binfo ∧
      binfo.layout.methods <+: dinfo.layout.methods :=
  have h : computeClassLayouts {} exOverride =
      .ok { classes_ :=
        [("A".toList,
          { ast := { name := "A".toList,
                     methods := [methodOf .Virtual "speak" "String" (.StringExpr "A".toList {})] },
            name := "A".toList,
            layout := { methods := ["speak".toList], slotOf := [("speak".toList, 0)] } }),
         ("B".toList,
          { ast := { name := "B".toList, baseName := some "A".toList,
                     methods := [methodOf .Override "speak" "String" (.StringExpr "B".toList {})] },
            name := "B".toList, base := some "A".toList,
            layout := { methods := ["speak".toList], slotOf := [("speak".toList, 0)] } })] } := rfl
  let ⟨dinfo, binfo, h1, h2, h3⟩ := C32_base_layout_prefix_in_name_order {} _ exOverride
    { name := "B".toList, baseName := some "A".toList,
      methods := [methodOf .Override "speak" "String" (.StringExpr "B".toList {})] }
    "A".toList rfl h (by unfold Program.firstDecl; decide) rfl (by decide)
  ⟨_, dinfo, binfo, h, h1, h2, h3⟩

/-- C33: for a program whose class names are pairwise distinct, the outcome of
`computeClassLayouts` on a new generator, the exception as well as the table
with the layout of every class, is the same for every permutation of the list of
class declarations. -/
theorem C33_layouts_invariant_under_permutation (cg : CodeGen) (p : Program)
    (l : List ClassDecl) (h0 : cg.classes_ = [])
    (hnd : (p.classes.map (fun c => c.name)).Nodup) (hp : l.Perm p.classes) :
    computeClassLayouts cg { p with classes := l } = computeClassLayouts cg p :=
  computeClassLayouts_congr h0
    (recordClasses_congr (fun n => (find?_name_perm hp.symm hnd n).symm))

/-- Witness of C33: the two classes of `exOverride` declared in the other
order. -/
theorem C33_layouts_invariant_under_permutation_witness :
    computeClassLayouts {} { exOverride with classes := exOverride.classes.reverse } =
      computeClassLayouts {} exOverride :=
  C33_layouts_invariant_under_permutation {} exOverride exOverride.classes.reverse rfl
    (by decide) (List.reverse_perm _)

/-- C34: when `computeClassLayouts` succeeds, for every class of the table and
every method name `n` that its `slotOf` maps to `s`: `s` is less than the number
of slots `methods.size` and `methods[s]` is `n`; so the slot index that
`slotOf(class, n)` returns, which a virtual call uses as index into the vtable
struct of the static class (a struct of `methods.size` elements), is within
bounds, in the state after `computeClassLayouts` and in every later state, whose
classes have the same layouts. -/
theorem C34_slot_indices_in_range (cg cg1 : CodeGen) (p : Program) (h0 : cg.classes_ = [])
    (h : cg.computeClassLayouts p = .ok cg1) :
    (∀ k info n s, Table.find cg1.classes_ k = some info →
      Table.find info.layout.slotOf n = some s →
      s < info.layout.methods.length ∧ info.layout.methods[s]? = some n) ∧
    (∀ (cg2 : CodeGen) k n s, SameDecls cg1.classes_ cg2.classes_ → slotOf cg2 k n = .ok s →
      ∃ info, Table.find cg2.classes_ k = some info ∧ s < info.layout.methods.length ∧
        info.layout.methods[s]? = some n) := by
  have hcons := computeClassLayouts_consistent h0 h
  have key : ∀ k info n s, Table.find cg1.classes_ k = some info →
      Table.find info.layout.slotOf n = some s →
      s < info.layout.methods.length ∧ info.layout.methods[s]? = some n := by
    intro k info n s hf hs
    have h1 := (hcons k info hf).1 n s hs
    exact ⟨(List.getElem?_eq_some.1 h1).1, h1⟩
  refine ⟨key, ?_⟩
  intro cg2 k n s hsame hslot
  unfold slotOf at hslot
  cases hf2 : Table.find cg2.classes_ k with
  | none => simp [hf2] at hslot
  | some info2 =>
    simp only [hf2] at hslot
    cases hs2 : Table.find info2.layout.slotOf n with
    | none => simp [hs2] at hslot
    | some s2 =>
      simp only [hs2, Outcome.ok.injEq] at hslot
      subst hslot
      obtain ⟨info1, hf1, hdecl⟩ := (Table.AgreeOn.symm_agree hsame).find_some hf2
      have hlay : info1.layout = info2.layout := congrArg (fun x => x.2.2.2) hdecl
      rw [← hlay] at hs2
      refine ⟨info2, rfl, ?_⟩
      rw [← hlay]
      exact key k info1 n s2 hf1 hs2

/-- Witness of C34: the slot `speak` of the class `B` of `exOverride`. -/
theorem C34_slot_indices_in_range_witness :
    ∃ cg1 info, computeClassLayouts {} exOverride = .ok cg1 ∧
      Table.find cg1.classes_ "B".toList = some info ∧
      0 < info.layout.methods.length ∧ info.layout.methods[0]? = some "speak".toList :=
  have h : computeClassLayouts {} exOverride =
      .ok { classes_ :=
        [("A".toList,
          { ast := { name := "A".toList,
                     methods := [methodOf .Virtual "speak" "String" (.StringExpr "A".toList {})] },
            name := "A".toList,
            layout := { methods := ["speak".toList], slotOf := [("speak".toList, 0)] } }),
         ("B".toList,
          { ast := { name := "B".toList, baseName := some "A".toList,
                     methods := [methodOf .Override "speak" "String" (.StringExpr "B".toList {})] },
            name := "B".toList, base := some "A".toList,
            layout := { methods := ["speak".toList], slotOf := [("speak".toList, 0)] } })] } := rfl
  ⟨_, _, h, rfl, (C34_slot_indices_in_range {} _ exOverride rfl h).1 "B".toList _
    "speak".toList 0 rfl rfl⟩

/-- C40: when the list of classes is `pre ++ d :: post` and a class of `pre` has
the name of `d`, the later declaration `d` has no effect: `computeClassLayouts`
on a new generator and `generate` have the outcome they have for the program
without `d`, so no error is raised for the duplicate and the methods of `d` are
neither laid out nor emitted; and every class of the table has the declaration,
the base and the layout of the first declaration of its name. -/
theorem C40_later_duplicate_ignored (p : Program) (pre post : List ClassDecl) (d : ClassDecl)
    (hsplit : p.classes = pre ++ d :: post) (hdup : ∃ c ∈ pre, c.name = d.name) :
    (∀ cg : CodeGen, cg.classes_ = [] →
      computeClassLayouts cg p = computeClassLayouts cg { p with classes := pre ++ post }) ∧
    (∀ (verifyModule : Module → Option String) (moduleName : List Char),
      generate verifyModule p moduleName =
        generate verifyModule { p with classes := pre ++ post } moduleName) ∧
    (∀ cg cg1 : CodeGen, cg.classes_ = [] → computeClassLayouts cg p = .ok cg1 →
      ∀ k info, Table.find cg1.classes_ k = some info →
        p.firstDecl info.ast ∧ info.ast.name = k ∧ info.base = info.ast.baseName ∧
        ∃ start, layoutMethods info.ast.methods start = .ok info.layout) := by
  have hrec : recordClasses p.classes [] =
      recordClasses ({ p with classes := pre ++ post } : Program).classes [] := by
    rw [hsplit]
    exact recordClasses_congr (find?_name_skip pre post d hdup)
  refine ⟨fun cg h0 => computeClassLayouts_congr h0 hrec,
    fun verifyModule moduleName => generate_congr _ _ (lower_congr _ hrec rfl), ?_⟩
  intro cg cg1 h0 h k info hf
  obtain ⟨c, start, hc, hck, hast, _, hbase, hlm, _⟩ := entry_spec h0 h hf
  subst hast
  exact ⟨hc, hck, hbase, start, hlm⟩

/-- Witness of C40: in `class A { virtual m() ... } class A extends Z {
override q() ... }` the second declaration alone fails twice over (unknown base
`Z`, override without slot); the layouts are computed without error and `A` has
the one slot `m` of the first declaration. -/
theorem C40_later_duplicate_ignored_witness :
    computeClassLayouts {} exDuplicate =
      computeClassLayouts {} { exDuplicate with classes := exDuplicate.classes.take 1 } ∧
    ∃ cg1 info, computeClassLayouts {} exDuplicate = .ok cg1 ∧
      Table.find cg1.classes_ "A".toList = some info ∧ info.base = none ∧
      info.layout.methods = ["m".toList] :=
  ⟨(C40_later_duplicate_ignored exDuplicate (exDuplicate.classes.take 1) []
      { name := "A".toList, baseName := some "Z".toList,
        methods := [methodOf .Override "q" "String" (.StringExpr "b".toList {})] }
      rfl ⟨_, List.mem_singleton.2 rfl, rfl⟩).1 {} rfl,
   _, _, rfl, rfl, rfl, rfl⟩

/-- C35: when `computeClassLayouts` succeeds (cyclic and self-referential
`extends` relations included), then in the state in which `implementationFor` is
called, after `declareTypes` and `declareAndDefineMethods`, and in every later
state with the same bases and tables of methods, `implementationFor(C, n)`
returns a function for every class `C` of the table and every slot name `n` of
its layout: the walk up the base chain ends within the budget of as many steps
as there are classes plus one, at a class that declares a method named `n`, and
neither raises 'No implementation' nor loops. -/
theorem C35_implementationFor_total (cg0 cg1 cg2 cg3 : CodeGen) (p : Program)
    (h0 : cg0.classes_ = []) (h1 : computeClassLayouts cg0 p = .ok cg1)
    (h2 : declareTypes cg1 = .ok cg2) (h3 : declareAndDefineMethods cg2 = .ok cg3) :
    ∀ cg : CodeGen, SameImpls cg3 cg →
    ∀ k info n, Table.find cg3.classes_ k = some info → n ∈ info.layout.methods →
      ∃ fn K, implementationFor cg k n = .ok fn ∧
        firstDeclaring cg3.classes_ (cg3.classes_.length + 1) info n = some K ∧
        K.ast.methods.any (fun m => decide (m.name = n)) = true ∧
        Table.find K.methods n = some fn := by
  intro cg himpl k info n hf hn
  obtain ⟨hsame, hall⟩ := methods_recorded_after h0 h1 h2 h3
  obtain ⟨fn, hfn⟩ := implementationFor_total (slotsGrounded_of_layouts h0 h1 hsame hall) k n info
    hf hn
  refine ⟨fn, ?_⟩
  have hfn2 := hfn
  unfold implementationFor at hfn2
  simp only [hf] at hfn2
  obtain ⟨K, hK, hKfn⟩ := implementationLoop_first hall k n _ info fn (hall k info hf) hfn2
  exact ⟨K, by rw [← implementationFor_congr himpl]; exact hfn, hK,
    firstDeclaring_declares _ n _ _ _ hK, hKfn⟩

/-- Witness of C35: in the cyclic program `class A extends B { virtual m() ... }
class B extends A { }` the walk for the slot `m` of `B` ends at `A`. -/
theorem C35_implementationFor_total_witness :
    ∃ cg1 cg2 cg3, computeClassLayouts {} exCyclic = .ok cg1 ∧ declareTypes cg1 = .ok cg2 ∧
      declareAndDefineMethods cg2 = .ok cg3 ∧
      ∃ fn K, implementationFor cg3 "B".toList "m".toList = .ok fn ∧
        firstDeclaring cg3.classes_ (cg3.classes_.length + 1)
          { ast := { name := "B".toList, baseName := some "A".toList }, name := "B".toList,
            base := some "A".toList,
            layout := { methods := ["m".toList], slotOf := [("m".toList, 0)] },
            classTy := some (.struct "class.B".toList),
            vtableTy := some (.struct "vtable.B".toList) } "m".toList = some K ∧
        K.ast.methods.any (fun m => decide (m.name = "m".toList)) = true ∧
        Table.find K.methods "m".toList = some fn := by
  refine ⟨_, _, _, rfl, rfl, rfl, ?_⟩
  exact C35_implementationFor_total {} _ _ _ exCyclic rfl rfl rfl rfl _ ⟨rfl, fun _ => rfl⟩
    "B".toList _ "m".toList rfl (List.mem_singleton.2 rfl)

/-- C38: the function type of the call emitted for `recv.m()` has its return
type from the statement the call is the operand of, and nothing of the called
method enters it: as operand of `print` the call is lowered, in every state and
in a body of every return type `R`, with the function type `i8* (class*)`; as
operand of `return` in a body whose declared return type name is `R`, with the
function type `retTypeFor(R) (class*)`, a 32-bit integer for `R = Int` whatever
the method declares. -/
theorem C38_call_type_from_context (cg cg1 : CodeGen) (scope scope1 : Table ScopeVar)
    (recv m R : List Char) (rloc loc sloc : SourceRange) (sv : ScopeVar)
    (hs : Table.find scope recv = some sv) :
    (codegenStmt cg (.PrintStmt (some (.MethodCallExpr (.VarExpr recv rloc) m loc)) sloc) scope R =
        .ok (scope1, cg1) →
      ∃ ci classTy vtableTy slot puts, Table.find cg.classes_ sv.typeName = some ci ∧
        ci.classTy = some classTy ∧ ci.vtableTy = some vtableTy ∧
        Table.find ci.layout.slotOf m = some slot ∧
        cg1.block = cg.block ++
          callSequence cg.block.length sv recv m classTy vtableTy slot tyI8Ptr ++
          [.call (.func tyI32 [tyI8Ptr]) (.function puts) [.inst (cg.block.length + 6)] []]) ∧
    (codegenStmt cg (.ReturnStmt (some (.MethodCallExpr (.VarExpr recv rloc) m loc)) sloc) scope R =
        .ok (scope1, cg1) →
      ∃ ci classTy vtableTy slot, Table.find cg.classes_ sv.typeName = some ci ∧
        ci.classTy = some classTy ∧ ci.vtableTy = some vtableTy ∧
        Table.find ci.layout.slotOf m = some slot ∧
        cg1.block = cg.block ++
          callSequence cg.block.length sv recv m classTy vtableTy slot (retTypeFor R) ++
          [.ret (.inst (cg.block.length + 6))]) := by
  constructor
  · intro h
    simp only [codegenStmt] at h
    cases he : codegenExpr cg (some (.MethodCallExpr (.VarExpr recv rloc) m loc)) scope
        "String".toList with
    | ok r =>
      obtain ⟨v, cg2⟩ := r
      rw [he] at h
      simp only [Outcome.ok.injEq, Prod.mk.injEq] at h
      obtain ⟨ci, classTy, vtableTy, slot, h1, h2, h3, h4, h5, h6⟩ := codegenExpr_call_ok hs he
      refine ⟨ci, classTy, vtableTy, slot, cg2.getOrDeclarePuts.1, h1, h2, h3, h4, ?_⟩
      rw [← h.2, emit_block, getOrDeclarePuts_block, h5, h6]
      rfl
    | thrown e => rw [he] at h; cases h
    | crashed => rw [he] at h; cases h
    | diverged => rw [he] at h; cases h
  · intro h
    simp only [codegenStmt] at h
    cases he : codegenExpr cg (some (.MethodCallExpr (.VarExpr recv rloc) m loc)) scope R with
    | ok r =>
      obtain ⟨v, cg2⟩ := r
      simp only [he, Outcome.ok.injEq, Prod.mk.injEq] at h
      obtain ⟨ci, classTy, vtableTy, slot, h1, h2, h3, h4, h5, h6⟩ := codegenExpr_call_ok hs he
      refine ⟨ci, classTy, vtableTy, slot, h1, h2, h3, h4, ?_⟩
      rw [← h.2, emit_block, h5, h6]
    | thrown e => rw [he] at h; cases h
    | crashed => rw [he] at h; cases h
    | diverged => rw [he] at h; cases h

/-- Witness of C38: `print(x.f());` and `return x.f();` in a body returning
`Int`, with `x` of static type `A`: the call is typed `i8* (class.A*)` under
`print` and `i32 (class.A*)` under `return`. -/
theorem C38_call_type_from_context_witness :
    (∃ scope1 cg1 ci classTy vtableTy slot puts,
        exCallState.codegenStmt
          (.PrintStmt (some (.MethodCallExpr (.VarExpr "x".toList {}) "f".toList {})) {})
          exCallScope "Int".toList = .ok (scope1, cg1) ∧
        Table.find exCallState.classes_ "A".toList = some ci ∧
        ci.classTy = some classTy ∧ ci.vtableTy = some vtableTy ∧
        Table.find ci.layout.slotOf "f".toList = some slot ∧
        cg1.block = exCallState.block ++
            callSequence 1 { allocaPtr := .inst 0, typeName := "A".toList } "x".toList "f".toList
              classTy vtableTy slot tyI8Ptr ++
            [.call (.func tyI32 [tyI8Ptr]) (.function puts) [.inst 7] []]) ∧
    (∃ scope1 cg1 ci classTy vtableTy slot,
        exCallState.codegenStmt
          (.ReturnStmt (some (.MethodCallExpr (.VarExpr "x".toList {}) "f".toList {})) {})
          exCallScope "Int".toList = .ok (scope1, cg1) ∧
        Table.find exCallState.classes_ "A".toList = some ci ∧
        ci.classTy = some classTy ∧ ci.vtableTy = some vtableTy ∧
        Table.find ci.layout.slotOf "f".toList = some slot ∧
        cg1.block = exCallState.block ++
            callSequence 1 { allocaPtr := .inst 0, typeName := "A".toList } "x".toList "f".toList
              classTy vtableTy slot tyI32 ++ [.ret (.inst 7)]) := by
  constructor
  · obtain ⟨ci, classTy, vtableTy, slot, puts, h⟩ :=
      (C38_call_type_from_context exCallState _ exCallScope _ "x".toList "f".toList "Int".toList
        {} {} {} { allocaPtr := .inst 0, typeName := "A".toList } rfl).1 rfl
    exact ⟨_, _, ci, classTy, vtableTy, slot, puts, rfl, h⟩
  · obtain ⟨ci, classTy, vtableTy, slot, h⟩ :=
      (C38_call_type_from_context exCallState _ exCallScope _ "x".toList "f".toList "Int".toList
        {} {} {} { allocaPtr := .inst 0, typeName := "A".toList } rfl).2 rfl
    exact ⟨_, _, ci, classTy, vtableTy, slot, rfl, h⟩

/-- C39: lowering a program that `parseProgram` has produced never throws
'Unsupported method receiver expression', 'Unhandled expression node' or
'Unhandled statement node', neither from the five passes nor from `generate`:
in such a program the operand of every `print` and `return` and the initializer
of every `var` is an expression, not a null pointer, and the receiver of every
method call is a `VarExpr`.  (A statement of the model is one of the three
variants, so the third error has no branch.) -/
theorem C39_no_unhandled_node_error (tokens : List Token) (p : Program) (P : Parser)
    (h : parseProgram tokens = .ok p P) :
    p.wellShaped = true ∧
    (∀ moduleName e, lower p moduleName = .thrown e →
      e ≠ .runtime_error "Unsupported method receiver expression" ∧
      e ≠ .runtime_error "Unhandled expression node" ∧
      e ≠ .runtime_error "Unhandled statement node") ∧
    (∀ verifyModule moduleName e, generate verifyModule p moduleName = .thrown e →
      e ≠ .runtime_error "Unsupported method receiver expression" ∧
      e ≠ .runtime_error "Unhandled expression node" ∧
      e ≠ .runtime_error "Unhandled statement node") := by
  have hw := parseProgram_wellShaped tokens p P h
  refine ⟨hw, ?_, ?_⟩
  · intro moduleName e he
    have := lower_handled p moduleName hw e he
    exact ⟨fun h1 => this (Or.inl h1), fun h2 => this (Or.inr (Or.inl h2)),
      fun h3 => this (Or.inr (Or.inr h3))⟩
  · intro verifyModule moduleName e he
    have := generate_handled verifyModule p moduleName hw e he
    exact ⟨fun h1 => this (Or.inl h1), fun h2 => this (Or.inr (Or.inl h2)),
      fun h3 => this (Or.inr (Or.inr h3))⟩

/-- Witness of C39: the program parsed from the tokens of
`class A { virtual m(): T { var x: A = new A(); return x.m(); } }`. -/
theorem C39_no_unhandled_node_error_witness :
    ∃ p P, parseProgram exClassTokens = .ok p P ∧ p.wellShaped = true ∧
      ∀ moduleName e, lower p moduleName = .thrown e →
        e ≠ .runtime_error "Unsupported method receiver expression" ∧
        e ≠ .runtime_error "Unhandled expression node" ∧
        e ≠ .runtime_error "Unhandled statement node" := by
  refine ⟨_, _, rfl, ?_⟩
  have h := C39_no_unhandled_node_error exClassTokens _ _ rfl
  exact ⟨h.1, h.2.1⟩

end

/-! ## Claims about parser termination, number literals and source snippets -/

/-- C36: on every non-empty token vector whose last token is `Eof`,
`parseProgram` terminates, with a program or an exception: no loop uses up its
budget.  From a parser with an `Eof` token at or after the cursor (as at the
start, and after every successful call), each successful `parseStmt`,
`parseMethod`, `parseClassDecl` and `parseFunctionDecl`, the bodies of the three
loops, moves the cursor forward by at least one token and leaves an `Eof` token
at or after it; and `peek(i)` past the end of the vector is the last token. -/
theorem C36_parseProgram_terminates (tokens : List Token) (hne : tokens ≠ [])
    (hlast : (tokens.getLast hne).kind = .Eof) :
    ((∃ p P, parseProgram tokens = .ok p P) ∨ (∃ e P, parseProgram tokens = .error e P)) ∧
    Parser.Live { tokens := tokens } ∧
    (∀ P : Parser, P.Live →
      (∀ s P2, Parser.parseStmt P = .ok s P2 → P.pos < P2.pos ∧ P2.tokens = P.tokens ∧ P2.Live) ∧
      (∀ m P2, Parser.parseMethod P = .ok m P2 →
        P.pos < P2.pos ∧ P2.tokens = P.tokens ∧ P2.Live) ∧
      (∀ c P2, Parser.parseClassDecl P = .ok c P2 →
        P.pos < P2.pos ∧ P2.tokens = P.tokens ∧ P2.Live) ∧
      (∀ f P2, Parser.parseFunctionDecl P = .ok f P2 →
        P.pos < P2.pos ∧ P2.tokens = P.tokens ∧ P2.Live)) ∧
    (∀ (P : Parser) (i : Nat), P.tokens = tokens → tokens.length ≤ P.pos + i →
      P.peek i = tokens.getLast hne ∧ (P.peek i).kind = .Eof) := by
  have hE := eofAhead_of_getLast tokens hne hlast
  refine ⟨?_, hE, ?_, ?_⟩
  · have := parseProgram_ne_diverged tokens hE
    cases h : parseProgram tokens with
    | ok p P => exact Or.inl ⟨p, P, rfl⟩
    | error e P => exact Or.inr ⟨e, P, rfl⟩
    | diverged => exact absurd h this
  · intro P hL
    refine ⟨fun s P2 h => Parser.Eats.advances Parser.parseStmt_ne hL h,
      fun m P2 h => Parser.Eats.advances Parser.parseMethod_ne hL h, ?_, ?_⟩
    · intro c P2 h
      exact Parser.Eats.advances
        (Parser.parseClassDecl_shape.mono (fun _ _ _ hS => hS.seg_ne)) hL h
    · intro f P2 h
      exact Parser.Eats.advances
        (Parser.parseFunctionDecl_shape.mono (fun _ _ _ hS => hS.fseg_ne)) hL h
  · intro P i hP hi
    subst hP
    have := Parser.peek_clamped P i hne hi
    exact ⟨this, by rw [this]; exact hlast⟩

/-- Witness of C36: the twelve tokens of `function f(): Int { return
2147483648; }`, on which `parseProgram` ends with an exception. -/
theorem C36_parseProgram_terminates_witness :
    (∃ p P, parseProgram exBigNumberTokens = .ok p P) ∨
      (∃ e P, parseProgram exBigNumberTokens = .error e P) :=
  (C36_parseProgram_terminates exBigNumberTokens (by decide) (by decide)).1

/-- C37: when `parseExpr` is called with the cursor on a `Number` token whose
text is a non-empty run of ASCII digits of decimal value `v`: for
`v <= 2147483647` it returns the `IntExpr` of value `v` and passes the token; for
`v > 2147483647` it throws `std::out_of_range`, which every caller passes on (so
`return` followed by such a number makes `parseStmt` throw it), and no `IntExpr`
is made. -/
theorem C37_number_literal_range (P : Parser) (hk : P.peek.kind = .Number)
    (hne : P.peek.text ≠ []) (hd : ∀ c ∈ P.peek.text, isdigit c = true) :
    (specDecimalValue P.peek.text ≤ 2147483647 →
      Parser.parseExpr P = .ok (.IntExpr (specDecimalValue P.peek.text) P.peek.range) P.bump) ∧
    (2147483647 < specDecimalValue P.peek.text →
      Parser.parseExpr P = .error (.out_of_range "stoi") P ∧
      (∀ (β : Type) (f : Expr → PM β),
        (Parser.parseExpr >>= f) P = .error (.out_of_range "stoi") P) ∧
      (∀ P0 : Parser, P0.peek.kind = .KwReturn → P0.bump = P →
        Parser.parseStmt P0 = .error (.out_of_range "stoi") P)) := by
  have hprim : Parser.parseExpr P = Parser.parseNumber P := by
    have h1 : decide (P.peek.kind = .String) = false := by rw [hk]; rfl
    have h2 : decide (P.peek.kind = .Number) = true := by rw [hk]; rfl
    unfold Parser.parseExpr Parser.parsePrimary
    rw [Parser.is_bind, h1]
    simp only [Bool.false_eq_true, if_false]
    rw [Parser.is_bind, h2]
    simp only [if_true]
  have hstoi := Parser.stoi_digits P.peek.text hne hd
  constructor
  · intro hle
    rw [hprim]
    unfold Parser.parseNumber
    rw [hstoi, if_pos hle]
  · intro hgt
    have herr : Parser.parseExpr P = .error (.out_of_range "stoi") P := by
      rw [hprim]
      unfold Parser.parseNumber
      rw [hstoi, if_neg (by omega)]
    refine ⟨herr, ?_, ?_⟩
    · intro β f
      show PM.bind Parser.parseExpr f P = _
      unfold PM.bind
      rw [herr]
    · intro P0 hk0 hP0
      have h1 : decide (P0.peek.kind = .KwVar) = false := by rw [hk0]; rfl
      have h2 : decide (P0.peek.kind = .KwPrint) = false := by rw [hk0]; rfl
      have h3 : decide (P0.peek.kind = .KwReturn) = true := by rw [hk0]; rfl
      unfold Parser.parseStmt
      rw [Parser.is_bind, h1]
      simp only [Bool.false_eq_true, if_false]
      rw [Parser.is_bind, h2]
      simp only [Bool.false_eq_true, if_false]
      rw [Parser.is_bind, h3]
      simp only [if_true]
      unfold Parser.parseReturn
      show PM.bind (Parser.expect .KwReturn "'return'") _ P0 = _
      unfold PM.bind Parser.expect
      simp only [hk0, ne_eq, not_true_eq_false, if_false, hP0]
      show PM.bind Parser.parseExpr _ P = _
      unfold PM.bind
      rw [herr]

/-- Witness of C37: the number `0042` is parsed to the `IntExpr` of value 42;
and `parseProgram` throws `std::out_of_range` on the tokens of
`function f(): Int { return 2147483648; }`, at the number, the parser
`{ tokens := exBigNumberTokens, pos := 8 }` being on it. -/
theorem C37_number_literal_range_witness :
    specDecimalValue "0042".toList = 42 ∧
    Parser.parseExpr exNumberParser =
      .ok (.IntExpr (specDecimalValue "0042".toList) ⟨⟨1, 8⟩, ⟨1, 12⟩⟩) exNumberParser.bump ∧
    Parser.parseExpr { tokens := exBigNumberTokens, pos := 8 } =
      .error (.out_of_range "stoi") { tokens := exBigNumberTokens, pos := 8 } ∧
    ∃ P, P.pos = 8 ∧ parseProgram exBigNumberTokens = .error (.out_of_range "stoi") P :=
  ⟨by decide, (C37_number_literal_range exNumberParser (by decide) (by decide) (by decide)).1
    (by decide),
   ((C37_number_literal_range { tokens := exBigNumberTokens, pos := 8 } (by decide) (by decide)
    (by decide)).2 (by decide)).1,
   _, rfl, rfl⟩

/-- Counterexample to C31 as stated: for the source text `abc` and a range that
starts at line 1, column 10, past the end of the line, `srcSnippet` returns the
whole line `abc`, not the empty part of the line from column 10 on. -/
theorem C31_column_past_end_counterexample :
    srcSnippet (setSource "abc".toList "a.fl".toList) ⟨⟨1, 10⟩, ⟨1, 11⟩⟩ = "abc".toList ∧
    specSnippet (setSource "abc".toList "a.fl".toList).sourceLines_ ⟨⟨1, 10⟩, ⟨1, 11⟩⟩ = [] := by
  decide

/-- C31 (amended): for every source text given to `setSource` and every source
range whose start line is outside the source, or whose start column lies within
its start line, or whose start line is empty, `srcSnippet` returns a string of at
most 80 characters: empty when the start line is outside the source, otherwise
the part of that line starting at the start column, truncated to 80 characters
with tabs replaced by spaces.  The lines of the source are the runs between
newlines, a carriage return at the end of a run dropped. -/
theorem C31_snippet_of_range_within_line (sourceText filename : List Char) (rng : SourceRange)
    (h : rng.start.line = 0 ∨
      (setSource sourceText filename).sourceLines_.length < rng.start.line ∨
      rng.start.column - 1 <
        ((setSource sourceText filename).sourceLines_.getD (rng.start.line - 1) []).length ∨
      (setSource sourceText filename).sourceLines_.getD (rng.start.line - 1) [] = []) :
    srcSnippet (setSource sourceText filename) rng =
      specSnippet (setSource sourceText filename).sourceLines_ rng ∧
    (srcSnippet (setSource sourceText filename) rng).length ≤ 80 ∧
    ∃ raw, (setSource sourceText filename).sourceLines_ = raw.map dropCarriageReturn ∧
      (∀ l ∈ raw, '\n' ∉ l) ∧
      (sourceText = specJoinLines raw ∨
        (sourceText ++ ['\n'] = specJoinLines raw ∧ ∃ l, raw.getLast? = some l ∧ l ≠ [])) := by
  have e := srcSnippet_eq_spec (setSource sourceText filename) rng h
  refine ⟨e, by rw [e]; exact specSnippet_length _ _, getlines sourceText [], rfl, ?_⟩
  have := getlines_spec sourceText [] (by simp)
  simpa using this

/-- Witness of C31 (amended): the second line of a two-line text, from column 3
on, with a tab. -/
theorem C31_snippet_of_range_within_line_witness :
    srcSnippet (setSource "ab\r\ncd\te".toList "a.fl".toList) ⟨⟨2, 3⟩, ⟨2, 4⟩⟩ = " e".toList ∧
    srcSnippet (setSource "ab\r\ncd\te".toList "a.fl".toList) ⟨⟨2, 3⟩, ⟨2, 4⟩⟩ =
      specSnippet (setSource "ab\r\ncd\te".toList "a.fl".toList).sourceLines_ ⟨⟨2, 3⟩, ⟨2, 4⟩⟩ :=
  ⟨by decide, (C31_snippet_of_range_within_line "ab\r\ncd\te".toList "a.fl".toList
    ⟨⟨2, 3⟩, ⟨2, 4⟩⟩ (by decide)).1⟩

/-! ## Claims about the symbols of the module -/

section
open CodeGen

/-- Counterexample to C25 as stated.  For `function puts(): Int { return 0; }`
generation succeeds, the function named `puts` is the declaration with one
parameter and the free function is `puts.1`.  For `class X { } class vtable {
X(): Int { return 0; } }` generation succeeds and no global is named `vtable.X`:
the method function has that name and the vtable of `X` is `vtable.X.1`.  For a
free function named `A.m` beside the method `m` of the class `A` the function
named `A.m` is the method, with one parameter. -/
theorem C25_symbol_names_counterexample :
    (∃ cg, generate (fun _ => none) exPutsFunction = .ok cg ∧
      cg.module_.functions.map (fun f => (f.name, f.type)) =
        [("puts".toList, .func tyI32 [tyI8Ptr]), ("puts.1".toList, .func tyI32 [])]) ∧
    (∃ cg, generate (fun _ => none) exVtableClass = .ok cg ∧
      cg.module_.globals.map (fun g => g.name) = ["vtable.X.1".toList, "vtable.vtable".toList] ∧
      cg.module_.functions.map (fun f => f.name) = ["vtable.X".toList, "puts".toList]) ∧
    (∃ cg, generate (fun _ => none) exDottedFunction = .ok cg ∧
      cg.module_.functions.map (fun f => (f.name, f.type)) =
        [("A.m".toList, .func tyI32 [.ptr (.struct "class.A".toList)]),
         ("puts".toList, .func tyI32 [tyI8Ptr]), ("A.m.1".toList, .func tyI32 [])]) :=
  ⟨⟨_, rfl, rfl⟩, ⟨_, rfl, rfl, rfl⟩, ⟨_, rfl, rfl⟩⟩

/-- C25 (amended): for every program on which `generate` succeeds, the module
holds, for each class `C` of the class table (the first declaration of each
declared class name), a struct type named `class.C`, a struct type named
`vtable.C`, a constant global named `vtable.C` unless a function of the module
has that name, and for each method `m` declared in `C` a function named `C.m`
taking one pointer parameter; for each free function whose name holds no `.` and
is not `puts` a function of that name without parameters; and exactly one
function named `puts`, a declaration without body of type `i32 (i8*)`, whether or
not the program uses `print`. -/
theorem C25_module_symbols (verifyModule : Module → Option String) (p : Program)
    (moduleName : List Char) (cg : CodeGen)
    (h : generate verifyModule p moduleName = .ok cg) :
    (∀ c ∈ p.classes, ∃ c0, p.firstDecl c0 ∧ c0.name = c.name) ∧
    (∀ c, p.firstDecl c →
      (∃ s ∈ cg.module_.structs, s.name = "class.".toList ++ c.name) ∧
      (∃ s ∈ cg.module_.structs, s.name = "vtable.".toList ++ c.name) ∧
      ((∃ g ∈ cg.module_.globals, g.name = "vtable.".toList ++ c.name ∧ g.isConstant = true) ∨
        (∃ f ∈ cg.module_.functions, f.name = "vtable.".toList ++ c.name)) ∧
      ∀ m ∈ c.methods, ∃ f ∈ cg.module_.functions, f.name = c.name ++ '.' :: m.name ∧
        f.type.onePointerParam = true) ∧
    (∀ f ∈ p.functions, '.' ∉ f.name → f.name ≠ "puts".toList →
      ∃ g ∈ cg.module_.functions, g.name = f.name ∧ g.type.noParams = true) ∧
    cg.module_.functions.countP (fun f => decide (f.name = "puts".toList)) = 1 ∧
    ∀ f ∈ cg.module_.functions, f.name = "puts".toList →
      f.type = .func tyI32 [tyI8Ptr] ∧ f.blocks = [] :=
  ⟨fun _ hc => firstDecl_of_mem hc, lower_symbols (generate_ok h)⟩

/-- Witness of C25 (amended): the program `exOverride`, which has the classes
`A` and `B`, the function `main` and no `print`. -/
theorem C25_module_symbols_witness :
    ∃ cg, generate (fun _ => none) exOverride = .ok cg ∧
      (∃ g ∈ cg.module_.functions, g.name = "main".toList ∧ g.type.noParams = true) ∧
      cg.module_.functions.countP (fun f => decide (f.name = "puts".toList)) = 1 := by
  refine ⟨_, rfl, ?_⟩
  have h := C25_module_symbols (fun _ => none) exOverride "fakelang-module".toList _ rfl
  exact ⟨h.2.2.1 _ (List.mem_singleton.2 rfl) (by decide) (by decide), h.2.2.2.1⟩

end

/-! ## Claims about comments and white space -/

/-- C28 (counterexample): in the text `a //x`, newline, `b` the newline is a run
of white space that lies between the tokens `a` and `b`; with the newline replaced
by a space the comment runs on to the end of the input and swallows `b`, so the
kinds and texts change from `a`, `b`, `Eof` to `a`, `Eof`. -/
theorem C28_newline_after_comment_counterexample :
    lexAll ("a //x".toList ++ [LF] ++ "b".toList) = .ok
      [⟨.Identifier, ['a'], ⟨⟨1, 1⟩, ⟨1, 2⟩⟩⟩, ⟨.Identifier, ['b'], ⟨⟨2, 1⟩, ⟨2, 2⟩⟩⟩,
       ⟨.Eof, [], ⟨⟨2, 2⟩, ⟨2, 2⟩⟩⟩] ∧
    lexAll ("a //x".toList ++ [' '] ++ "b".toList) = .ok
      [⟨.Identifier, ['a'], ⟨⟨1, 1⟩, ⟨1, 2⟩⟩⟩, ⟨.Eof, [], ⟨⟨1, 8⟩, ⟨1, 8⟩⟩⟩] ∧
    isspace LF = true ∧ Lexer.isBlank ' ' = true := by
  decide

/-- C28 (amended): for every input `s` on which `lexAll` succeeds and every comment
body `c` that holds no newline and no NUL character, `lexAll (s ++ " //" ++ c)`
succeeds and returns the same sequence of token kinds and texts as `lexAll s`;
likewise, when the text `a` lexes and ends with a token (a token of `a` other than
`Eof` has its end at the end of `a`), replacing a non-empty run `w` of white space
that follows `a` by a non-empty run `w1` of spaces, tabs, carriage returns and
newlines leaves the sequence of kinds and texts unchanged. -/
theorem C28_comment_and_space_invariance :
    (∀ (s c : List Char) (toks : List Token), lexAll s = .ok toks → LF ∉ c → NUL ∉ c →
      ∃ toks1, lexAll (s ++ " //".toList ++ c) = .ok toks1 ∧
        toks1.map Token.kindText = toks.map Token.kindText) ∧
    (∀ (a w w1 b : List Char) (ta toks : List Token) (t : Token),
      lexAll a = .ok ta → t ∈ ta → t.kind ≠ .Eof → t.range.end_ = Lexer.posOf a →
      w ≠ [] → (∀ x ∈ w, isspace x = true) →
      w1 ≠ [] → (∀ x ∈ w1, Lexer.isBlank x = true) →
      lexAll (a ++ w ++ b) = .ok toks →
      ∃ toks1, lexAll (a ++ w1 ++ b) = .ok toks1 ∧
        toks1.map Token.kindText = toks.map Token.kindText) := by
  constructor
  · intro s c toks h hlf hnul
    have hc : ∀ x ∈ c, Lexer.inLine x = true := by
      intro x hx
      simp only [Lexer.inLine, decide_eq_true_eq]
      exact ⟨fun e => hlf (e ▸ hx), fun e => hnul (e ▸ hx)⟩
    have h1 := ((Lexer.lexAll_lex s).1 toks h).comment_lexAll c hc
    have e : s ++ " //".toList ++ c = s ++ ' ' :: '/' :: '/' :: c := by
      rw [List.append_assoc]
      rfl
    rw [e]
    exact Lexer.lexAll_of_LexAll _ _ h1
  · intro a w w1 b ta toks t ha ht hk hend hw hws hw1 hws1 h
    exact Lexer.lexAll_replace_space a w w1 b ta toks t ha ht hk hend hw hws hw1
      (fun x hx => Lexer.isBlank_isspace (hws1 x hx)) h

/-- Witness of C28: the comment ` //x y` appended to `a;`, and the space between
`a` and the comment of `a //c`, newline, `b` replaced by a newline and a tab. -/
theorem C28_comment_and_space_invariance_witness :
    (lexAll "a;".toList = .ok
      [⟨.Identifier, ['a'], ⟨⟨1, 1⟩, ⟨1, 2⟩⟩⟩, ⟨.Semicolon, [';'], ⟨⟨1, 2⟩, ⟨1, 3⟩⟩⟩,
       ⟨.Eof, [], ⟨⟨1, 3⟩, ⟨1, 3⟩⟩⟩] ∧
     ∃ toks1, lexAll ("a;".toList ++ " //".toList ++ "x y".toList) = .ok toks1 ∧
      toks1.map Token.kindText = [(.Identifier, ['a']), (.Semicolon, [';']), (.Eof, [])]) ∧
    (lexAll ("a".toList ++ [' '] ++ ("//c".toList ++ [LF] ++ "b".toList)) = .ok
      [⟨.Identifier, ['a'], ⟨⟨1, 1⟩, ⟨1, 2⟩⟩⟩, ⟨.Identifier, ['b'], ⟨⟨2, 1⟩, ⟨2, 2⟩⟩⟩,
       ⟨.Eof, [], ⟨⟨2, 2⟩, ⟨2, 2⟩⟩⟩] ∧
     ∃ toks1, lexAll ("a".toList ++ [LF, TAB] ++ ("//c".toList ++ [LF] ++ "b".toList)) =
        .ok toks1 ∧
      toks1.map Token.kindText = [(.Identifier, ['a']), (.Identifier, ['b']), (.Eof, [])]) :=
  ⟨⟨by decide, C28_comment_and_space_invariance.1 "a;".toList "x y".toList
      [⟨.Identifier, ['a'], ⟨⟨1, 1⟩, ⟨1, 2⟩⟩⟩, ⟨.Semicolon, [';'], ⟨⟨1, 2⟩, ⟨1, 3⟩⟩⟩,
       ⟨.Eof, [], ⟨⟨1, 3⟩, ⟨1, 3⟩⟩⟩] (by decide) (by decide) (by decide)⟩,
   ⟨by decide, C28_comment_and_space_invariance.2 "a".toList [' '] [LF, TAB]
      ("//c".toList ++ [LF] ++ "b".toList)
      [⟨.Identifier, ['a'], ⟨⟨1, 1⟩, ⟨1, 2⟩⟩⟩, ⟨.Eof, [], ⟨⟨1, 2⟩, ⟨1, 2⟩⟩⟩]
      [⟨.Identifier, ['a'], ⟨⟨1, 1⟩, ⟨1, 2⟩⟩⟩, ⟨.Identifier, ['b'], ⟨⟨2, 1⟩, ⟨2, 2⟩⟩⟩,
       ⟨.Eof, [], ⟨⟨2, 2⟩, ⟨2, 2⟩⟩⟩]
      ⟨.Identifier, ['a'], ⟨⟨1, 1⟩, ⟨1, 2⟩⟩⟩
      (by decide) (by decide) (by decide) (by decide) (by decide) (by decide) (by decide)
      (by decide) (by decide)⟩⟩

end fakelang
